import Mathlib

/-!
# Hash-Lang front end: lexer, parser and semantic analyzer

A shallow embedding of `src/lexer.cpp`, `src/parser.cpp` and `src/semantic.cpp`
together with theorems about them.

Conventions of the embedding

* The source buffer is a `List Char`; every `Char` stands for one byte of the
  `std::string`.  The lexer keeps the unread suffix `source[pos..]` instead of
  the index `pos`.
* `int` counters (`line`, `column`, `spaces`) are unbounded integers.
* `std::vector::push_back` is `xs ++ [x]`.
* A loop of the source that is not structurally recursive takes a fuel
  argument and answers `none` (or `outOfFuel`) when the fuel is used up.
-/

namespace Hash

/-! ## Tokens (`lexer.h`) -/

inductive TokenType
  | INTEGER | FLOAT | STRING | IDENTIFIER
  | FN | PURE | LET | MUT | IF | ELSE | WHILE | FOR | RETURN | IMPORT
  | STRUCT | ENUM | MATCH | TRUE | FALSE
  | TYPE_I8 | TYPE_I16 | TYPE_I32 | TYPE_I64
  | TYPE_U8 | TYPE_U16 | TYPE_U32 | TYPE_U64
  | TYPE_F32 | TYPE_F64 | TYPE_BOOL | TYPE_VOID | TYPE_STR
  | PURE_LOCAL | SIDE_EFFECT
  | PLUS | MINUS | MULTIPLY | DIVIDE | MODULO
  | ASSIGN | EQUAL | NOT_EQUAL
  | LESS | LESS_EQUAL | GREATER | GREATER_EQUAL
  | AND | OR | NOT
  | BITWISE_AND | BITWISE_OR | BITWISE_XOR | BITWISE_NOT
  | SHIFT_LEFT | SHIFT_RIGHT
  | LPAREN | RPAREN | LBRACE | RBRACE | LBRACKET | RBRACKET
  | COMMA | SEMICOLON | COLON | ARROW | DOT
  | NEWLINE | INDENT | DEDENT | END_OF_FILE | INVALID
  deriving DecidableEq, Repr

structure Token where
  type : TokenType
  value : String
  line : Int
  column : Int
  deriving DecidableEq, Repr

/-! ## Lexer (`lexer.cpp`) -/

/-- The statement `m[key] = value` on an `unordered_map` kept as an association
list: the entry of `key` is replaced, or added when there is none. -/
def mapInsert {β : Type} (key : String) (value : β) : List (String × β) → List (String × β)
  | [] => [(key, value)]
  | (k, v) :: rest => if k = key then (k, value) :: rest else (k, v) :: mapInsert key value rest

/-- The call `m.find(key)` on such a map. -/
def mapFind {β : Type} (key : String) : List (String × β) → Option β
  | [] => none
  | (k, v) :: rest => if k = key then some v else mapFind key rest

/-- The static table `Lexer::keywords`. -/
def keywords : List (String × TokenType) :=
  [
    ("fn", .FN),
    ("pure", .PURE),
    ("let", .LET),
    ("mut", .MUT),
    ("if", .IF),
    ("else", .ELSE),
    ("while", .WHILE),
    ("for", .FOR),
    ("return", .RETURN),
    ("import", .IMPORT),
    ("struct", .STRUCT),
    ("enum", .ENUM),
    ("match", .MATCH),
    ("true", .TRUE),
    ("false", .FALSE),
    ("i8", .TYPE_I8),
    ("i16", .TYPE_I16),
    ("i32", .TYPE_I32),
    ("i64", .TYPE_I64),
    ("u8", .TYPE_U8),
    ("u16", .TYPE_U16),
    ("u32", .TYPE_U32),
    ("u64", .TYPE_U64),
    ("f32", .TYPE_F32),
    ("f64", .TYPE_F64),
    ("bool", .TYPE_BOOL),
    ("void", .TYPE_VOID),
    ("str", .TYPE_STR),
    ("pure_local", .PURE_LOCAL),
    ("side_effect", .SIDE_EFFECT) ]

/-- The character `'\0'` that `peek` answers past the end of the source. -/
def nul : Char := Char.ofNat 0
/-- Line feed. -/
def lf : Char := Char.ofNat 10
/-- Carriage return. -/
def cr : Char := Char.ofNat 13
/-- Horizontal tab. -/
def tab : Char := Char.ofNat 9
/-- The double quote. -/
def dquote : Char := Char.ofNat 34
/-- The single quote. -/
def squote : Char := Char.ofNat 39
/-- The backslash. -/
def backslash : Char := Char.ofNat 92

/-- The mutable members of `Lexer`.  `source` is the unread suffix of the
buffer; `indentStack` has `indentStack.back()` at its head. -/
structure Lexer where
  source : List Char
  line : Int
  column : Int
  indentStack : List Nat
  deriving DecidableEq, Repr

/-- The constructor `Lexer::Lexer`. -/
def Lexer.new (source : List Char) : Lexer :=
  { source := source, line := 1, column := 1, indentStack := [0] }

def Lexer.isAtEnd (l : Lexer) : Bool := l.source.isEmpty

def Lexer.peek (l : Lexer) : Char := l.source.headD nul

/-- The call `peek(1)`. -/
def Lexer.peek1 (l : Lexer) : Char := l.source.tail.headD nul

/-- The method `Lexer::advance`.  Past the end of the buffer `source[pos]` is the
terminating `'\0'` and only the column moves. -/
def Lexer.advance (l : Lexer) : Char × Lexer :=
  match l.source with
  | [] => (nul, { l with column := l.column + 1 })
  | c :: rest =>
    if c = lf then (c, { l with source := rest, line := l.line + 1, column := 1 })
    else (c, { l with source := rest, column := l.column + 1 })

/-- The state after `advance()` when the character is not needed. -/
def Lexer.next (l : Lexer) : Lexer := l.advance.2

/-- A loop `while (p(peek())) advance();` for a test `p` that rejects `'\0'`:
consumes the longest run of characters satisfying `p`. -/
def Lexer.advanceWhile (p : Char → Bool) : List Char → Lexer → Lexer
  | [], l => l
  | c :: rest, l => if p c then Lexer.advanceWhile p rest l.next else l

def isDigit (c : Char) : Bool := decide ('0' ≤ c) && decide (c ≤ '9')

def isAlpha (c : Char) : Bool :=
  (decide ('a' ≤ c) && decide (c ≤ 'z')) || (decide ('A' ≤ c) && decide (c ≤ 'Z')) || c == '_'

def isAlphaNumeric (c : Char) : Bool := isAlpha c || isDigit c

def isNewline (c : Char) : Bool := c == lf || c == cr

def Lexer.skipWhitespace (l : Lexer) : Lexer :=
  Lexer.advanceWhile (fun c => c == ' ' || c == tab) l.source l

/-- The method `Lexer::skipComment`: skips to the end of the line only when the
next character is `#`. -/
def Lexer.skipComment (l : Lexer) : Lexer :=
  if l.peek = '#' then Lexer.advanceWhile (fun c => !isNewline c) l.source l else l

def Lexer.makeToken (l : Lexer) (type : TokenType) (value : String) : Token :=
  { type := type, value := value, line := l.line, column := l.column - value.length }

def Lexer.readNumber (l : Lexer) : Token × Lexer :=
  let num := l.source.takeWhile isDigit
  let l1 := Lexer.advanceWhile isDigit l.source l
  if l1.peek = '.' && isDigit l1.peek1 then
    let l2 := l1.next
    let frac := l2.source.takeWhile isDigit
    let l3 := Lexer.advanceWhile isDigit l2.source l2
    (l3.makeToken .FLOAT (String.mk (num ++ ['.'] ++ frac)), l3)
  else
    (l1.makeToken .INTEGER (String.mk num), l1)

/-- The `switch (escaped)` of `readString`. -/
def decodeEscape (escaped : Char) : Char :=
  if escaped = 'n' then lf
  else if escaped = 't' then tab
  else if escaped = 'r' then cr
  else escaped

/-- The `while (peek() != quote && !isAtEnd())` loop of `readString`; the
accumulated `str` is threaded through. -/
def readStringLoop (quote : Char) : List Char → Lexer → List Char → List Char × Lexer
  | [], l, str => (str, l)
  | c :: rest, l, str =>
    if c = quote then (str, l)
    else if c = backslash then
      match rest with
      | [] => (str ++ [decodeEscape nul], l.next.next)
      | e :: rest2 => readStringLoop quote rest2 l.next.next (str ++ [decodeEscape e])
    else readStringLoop quote rest l.next (str ++ [c])

def Lexer.readString (l : Lexer) : Token × Lexer :=
  let quote := l.peek
  let l1 := l.next
  let (str, l2) := readStringLoop quote l1.source l1 []
  if l2.isAtEnd then (l2.makeToken .INVALID (String.mk str), l2)
  else
    let l3 := l2.next
    (l3.makeToken .STRING (String.mk str), l3)

def Lexer.readIdentifier (l : Lexer) : Token × Lexer :=
  let p := fun c => isAlphaNumeric c || c == '_'
  let id := String.mk (l.source.takeWhile p)
  let l1 := Lexer.advanceWhile p l.source l
  (l1.makeToken ((mapFind id keywords).getD .IDENTIFIER) id, l1)

/-- The pop loop of `handleIndentation`: the stack left and the number of
levels popped. -/
def popIndents (spaces : Nat) : List Nat → List Nat × Nat
  | [] => ([], 0)
  | top :: rest =>
    if spaces < top then ((popIndents spaces rest).1, (popIndents spaces rest).2 + 1)
    else (top :: rest, 0)

/-- The method `Lexer::handleIndentation`. -/
def Lexer.handleIndentation (l : Lexer) (spaces : Nat) : List Token × Lexer :=
  match l.indentStack with
  | [] => ([], l)
  | top :: _ =>
    if spaces > top then
      ([l.makeToken .INDENT ""], { l with indentStack := spaces :: l.indentStack })
    else if spaces < top then
      let popped := popIndents spaces l.indentStack
      let dedents := List.replicate popped.2 (l.makeToken .DEDENT "")
      let bad : Bool := match popped.1 with
        | [] => true
        | t :: _ => spaces != t
      (dedents ++ (if bad then [l.makeToken .INVALID ""] else []),
        { l with indentStack := popped.1 })
    else ([], l)

/-- The local state of the `while (!isAtEnd())` loop of `tokenize`. -/
structure LexLoop where
  lexer : Lexer
  atLineStart : Bool
  tokens : List Token
  deriving DecidableEq, Repr

/-- How one pass through the body of the loop ends: `continue` (or falling out
of the `switch`) or the `break` after `skipWhitespace`. -/
inductive LexIter
  | again (s : LexLoop)
  | stop (s : LexLoop)

/-- A one-character operator case `tokens.push_back(makeToken(T, string(1, advance())))`. -/
def single (s : LexLoop) (l : Lexer) (type : TokenType) : LexIter :=
  .again { s with lexer := l.next, tokens := s.tokens ++ [l.next.makeToken type (String.mk [l.peek])] }

/-- A case that looks at the character after the first one, as in
`case '-': advance(); if (peek() == '>') ...`. -/
def double (s : LexLoop) (l : Lexer) (second : Char) (two : TokenType) (twoText : String)
    (one : TokenType) (oneText : String) : LexIter :=
  let l1 := l.next
  if l1.peek = second then
    .again { s with lexer := l1.next, tokens := s.tokens ++ [l1.next.makeToken two twoText] }
  else
    .again { s with lexer := l1, tokens := s.tokens ++ [l1.makeToken one oneText] }

/-- The part of the loop body after the line-start block. -/
def lexToken (s : LexLoop) : LexIter :=
  let l := s.lexer.skipWhitespace
  if l.isAtEnd then .stop { s with lexer := l }
  else
    let c := l.peek
    if c = '#' then .again { s with lexer := l.skipComment }
    else if isNewline c then .again { s with lexer := l.next, atLineStart := true }
    else if isDigit c then
      .again { s with lexer := l.readNumber.2, tokens := s.tokens ++ [l.readNumber.1] }
    else if c = dquote || c = squote then
      .again { s with lexer := l.readString.2, tokens := s.tokens ++ [l.readString.1] }
    else if isAlpha c || c == '_' then
      .again { s with lexer := l.readIdentifier.2, tokens := s.tokens ++ [l.readIdentifier.1] }
    else if c = '+' then single s l .PLUS
    else if c = '*' then single s l .MULTIPLY
    else if c = '%' then single s l .MODULO
    else if c = '(' then single s l .LPAREN
    else if c = ')' then single s l .RPAREN
    else if c = Char.ofNat 123 then single s l .LBRACE
    else if c = Char.ofNat 125 then single s l .RBRACE
    else if c = '[' then single s l .LBRACKET
    else if c = ']' then single s l .RBRACKET
    else if c = ',' then single s l .COMMA
    else if c = ';' then single s l .SEMICOLON
    else if c = ':' then single s l .COLON
    else if c = '.' then single s l .DOT
    else if c = '~' then single s l .BITWISE_NOT
    else if c = '-' then double s l '>' .ARROW "->" .MINUS "-"
    else if c = '=' then double s l '=' .EQUAL "==" .ASSIGN "="
    else if c = '!' then double s l '=' .NOT_EQUAL "!=" .NOT "!"
    else if c = '<' then
      let l1 := l.next
      if l1.peek = '=' then
        .again { s with lexer := l1.next, tokens := s.tokens ++ [l1.next.makeToken .LESS_EQUAL "<="] }
      else if l1.peek = '<' then
        .again { s with lexer := l1.next, tokens := s.tokens ++ [l1.next.makeToken .SHIFT_LEFT "<<"] }
      else .again { s with lexer := l1, tokens := s.tokens ++ [l1.makeToken .LESS "<"] }
    else if c = '>' then
      let l1 := l.next
      if l1.peek = '=' then
        .again { s with lexer := l1.next, tokens := s.tokens ++ [l1.next.makeToken .GREATER_EQUAL ">="] }
      else if l1.peek = '>' then
        .again { s with lexer := l1.next, tokens := s.tokens ++ [l1.next.makeToken .SHIFT_RIGHT ">>"] }
      else .again { s with lexer := l1, tokens := s.tokens ++ [l1.makeToken .GREATER ">"] }
    else if c = '&' then double s l '&' .AND "&&" .BITWISE_AND "&"
    else if c = '|' then double s l '|' .OR "||" .BITWISE_OR "|"
    else if c = '^' then single s l .BITWISE_XOR
    else if c = '/' then
      let l1 := l.next
      if l1.peek = '/' then .again { s with lexer := l1.skipComment }
      else .again { s with lexer := l1, tokens := s.tokens ++ [l1.makeToken .DIVIDE "/"] }
    else single s l .INVALID

/-- One pass through the body of the `while (!isAtEnd())` loop of `tokenize`. -/
def lexIteration (s : LexLoop) : LexIter :=
  if s.atLineStart && !isNewline s.lexer.peek then
    let spaces := (s.lexer.source.takeWhile (fun c => c == ' ')).length
    let l := Lexer.advanceWhile (fun c => c == ' ') s.lexer.source s.lexer
    if isNewline l.peek || l.peek == '#' then
      let l1 := l.skipComment
      if isNewline l1.peek then .again { s with lexer := l1.next }
      else lexToken { s with lexer := l1 }
    else
      lexToken { lexer := (l.handleIndentation spaces).2, atLineStart := false,
                 tokens := s.tokens ++ (l.handleIndentation spaces).1 }
  else lexToken s

/-- The `while (!isAtEnd())` loop of `tokenize`. -/
def tokenizeLoop : Nat → LexLoop → Option LexLoop
  | 0, _ => none
  | fuel + 1, s =>
    if s.lexer.isAtEnd then some s
    else match lexIteration s with
      | .again s1 => tokenizeLoop fuel s1
      | .stop s1 => some s1

/-- The tail of `tokenize`: one `DEDENT` for each level above the first, then
`END_OF_FILE`. -/
def closeTokens (l : Lexer) : List Token :=
  List.replicate (l.indentStack.length - 1) (l.makeToken .DEDENT "") ++ [l.makeToken .END_OF_FILE ""]

/-- The method `Lexer::tokenize` run with the given fuel. -/
def tokenizeFuel (fuel : Nat) (source : List Char) : Option (List Token) :=
  match tokenizeLoop fuel { lexer := Lexer.new source, atLineStart := true, tokens := [] } with
  | none => none
  | some s => some (s.tokens ++ closeTokens s.lexer)

/-- The method `Lexer::tokenize`: every pass of the loop consumes a character, so
one unit of fuel per character (and one for the final test) is enough. -/
def tokenize (source : List Char) : Option (List Token) :=
  tokenizeFuel (source.length + 1) source

/-! ## Abstract syntax (`ast.h`) -/

/-- The enum `Type::Kind`.  A `Type` built by `Type(Kind k)` carries nothing
but its kind, and a possibly null `shared_ptr<Type>` is an `Option TypeKind`. -/
inductive TypeKind
  | I8 | I16 | I32 | I64 | U8 | U16 | U32 | U64 | F32 | F64
  | BOOL | VOID | STR | POINTER | ARRAY | STRUCT | FUNCTION
  deriving DecidableEq, Repr

/-- The enum `BinaryOp::Op`. -/
inductive BinOp
  | ADD | SUB | MUL | DIV | MOD | EQ | NE | LT | LE | GT | GE
  | AND | OR | BIT_AND | BIT_OR | BIT_XOR | SHL | SHR
  deriving DecidableEq, Repr

/-- The enum `UnaryOp::Op`. -/
inductive UnOp
  | NEG | NOT | BIT_NOT
  deriving DecidableEq, Repr

/-- The members every `Expression` has: `line` and `column` of `ASTNode` (both
initialised to 0) and the `type` pointer (initially null). -/
structure ExprInfo where
  line : Int
  column : Int
  type : Option TypeKind
  deriving DecidableEq, Repr

/-- A freshly constructed expression node. -/
def ExprInfo.fresh : ExprInfo := { line := 0, column := 0, type := none }

/-- The expression classes.  The `double` of a `FloatLiteral` is kept as the text
it is read from. -/
inductive Expression
  | IntegerLiteral (info : ExprInfo) (value : Int)
  | FloatLiteral (info : ExprInfo) (value : String)
  | StringLiteral (info : ExprInfo) (value : String)
  | BoolLiteral (info : ExprInfo) (value : Bool)
  | Identifier (info : ExprInfo) (name : String)
  | BinaryOp (info : ExprInfo) (op : BinOp) (left right : Expression)
  | UnaryOp (info : ExprInfo) (op : UnOp) (operand : Expression)
  | CallExpr (info : ExprInfo) (functionName : String) (arguments : List Expression)
  deriving Repr

def Expression.info : Expression → ExprInfo
  | .IntegerLiteral i _ => i
  | .FloatLiteral i _ => i
  | .StringLiteral i _ => i
  | .BoolLiteral i _ => i
  | .Identifier i _ => i
  | .BinaryOp i _ _ _ => i
  | .UnaryOp i _ _ => i
  | .CallExpr i _ _ => i

/-- The member `Expression::type`. -/
def Expression.type (e : Expression) : Option TypeKind := e.info.type

structure VariableDecl where
  line : Int
  column : Int
  name : String
  varType : TypeKind
  initializer : Option Expression
  isMutable : Bool
  isPureLocal : Bool
  deriving Repr

/-- The statement classes. -/
inductive Statement
  | VariableDecl (decl : VariableDecl)
  | Assignment (line column : Int) (name : String) (value : Expression)
  | ReturnStmt (line column : Int) (value : Option Expression)
  | IfStmt (line column : Int) (condition : Expression) (thenBody elseBody : List Statement)
  | WhileStmt (line column : Int) (condition : Expression) (body : List Statement)
  | ExprStmt (line column : Int) (expression : Expression)
  deriving Repr

structure Parameter where
  name : String
  type : TypeKind
  deriving DecidableEq, Repr

structure FunctionDecl where
  line : Int
  column : Int
  name : String
  parameters : List Parameter
  returnType : TypeKind
  body : List Statement
  isPure : Bool
  deriving Repr

structure Program where
  functions : List FunctionDecl
  globals : List VariableDecl
  deriving Repr

/-! ### Decidable equality of syntax trees

`Expression` and `Statement` refer to themselves through `List`, so their
equality tests are written out: equal constructors compare their fields, two
different constructors are never equal. -/

mutual
/-- Equality of two expressions is decidable. -/
def Expression.decEq : (a b : Expression) → Decidable (a = b)
  | .IntegerLiteral i v, .IntegerLiteral j w =>
    decidable_of_iff (i = j ∧ v = w)
      ⟨fun h => by rw [h.1, h.2], fun h => by cases h; exact ⟨rfl, rfl⟩⟩
  | .FloatLiteral i v, .FloatLiteral j w =>
    decidable_of_iff (i = j ∧ v = w)
      ⟨fun h => by rw [h.1, h.2], fun h => by cases h; exact ⟨rfl, rfl⟩⟩
  | .StringLiteral i v, .StringLiteral j w =>
    decidable_of_iff (i = j ∧ v = w)
      ⟨fun h => by rw [h.1, h.2], fun h => by cases h; exact ⟨rfl, rfl⟩⟩
  | .BoolLiteral i v, .BoolLiteral j w =>
    decidable_of_iff (i = j ∧ v = w)
      ⟨fun h => by rw [h.1, h.2], fun h => by cases h; exact ⟨rfl, rfl⟩⟩
  | .Identifier i v, .Identifier j w =>
    decidable_of_iff (i = j ∧ v = w)
      ⟨fun h => by rw [h.1, h.2], fun h => by cases h; exact ⟨rfl, rfl⟩⟩
  | .BinaryOp i op l r, .BinaryOp j op2 l2 r2 =>
    match Expression.decEq l l2, Expression.decEq r r2 with
    | isTrue hl, isTrue hr =>
      decidable_of_iff (i = j ∧ op = op2)
        ⟨fun h => by rw [h.1, h.2, hl, hr], fun h => by cases h; exact ⟨rfl, rfl⟩⟩
    | isFalse hl, _ => isFalse (fun h => hl (by cases h; rfl))
    | _, isFalse hr => isFalse (fun h => hr (by cases h; rfl))
  | .UnaryOp i op e, .UnaryOp j op2 e2 =>
    match Expression.decEq e e2 with
    | isTrue he =>
      decidable_of_iff (i = j ∧ op = op2)
        ⟨fun h => by rw [h.1, h.2, he], fun h => by cases h; exact ⟨rfl, rfl⟩⟩
    | isFalse he => isFalse (fun h => he (by cases h; rfl))
  | .CallExpr i f xs, .CallExpr j g ys =>
    match Expression.decEqList xs ys with
    | isTrue hx =>
      decidable_of_iff (i = j ∧ f = g)
        ⟨fun h => by rw [h.1, h.2, hx], fun h => by cases h; exact ⟨rfl, rfl⟩⟩
    | isFalse hx => isFalse (fun h => hx (by cases h; rfl))
  | .IntegerLiteral .., .FloatLiteral .. => isFalse (fun h => by cases h)
  | .IntegerLiteral .., .StringLiteral .. => isFalse (fun h => by cases h)
  | .IntegerLiteral .., .BoolLiteral .. => isFalse (fun h => by cases h)
  | .IntegerLiteral .., .Identifier .. => isFalse (fun h => by cases h)
  | .IntegerLiteral .., .BinaryOp .. => isFalse (fun h => by cases h)
  | .IntegerLiteral .., .UnaryOp .. => isFalse (fun h => by cases h)
  | .IntegerLiteral .., .CallExpr .. => isFalse (fun h => by cases h)
  | .FloatLiteral .., .IntegerLiteral .. => isFalse (fun h => by cases h)
  | .FloatLiteral .., .StringLiteral .. => isFalse (fun h => by cases h)
  | .FloatLiteral .., .BoolLiteral .. => isFalse (fun h => by cases h)
  | .FloatLiteral .., .Identifier .. => isFalse (fun h => by cases h)
  | .FloatLiteral .., .BinaryOp .. => isFalse (fun h => by cases h)
  | .FloatLiteral .., .UnaryOp .. => isFalse (fun h => by cases h)
  | .FloatLiteral .., .CallExpr .. => isFalse (fun h => by cases h)
  | .StringLiteral .., .IntegerLiteral .. => isFalse (fun h => by cases h)
  | .StringLiteral .., .FloatLiteral .. => isFalse (fun h => by cases h)
  | .StringLiteral .., .BoolLiteral .. => isFalse (fun h => by cases h)
  | .StringLiteral .., .Identifier .. => isFalse (fun h => by cases h)
  | .StringLiteral .., .BinaryOp .. => isFalse (fun h => by cases h)
  | .StringLiteral .., .UnaryOp .. => isFalse (fun h => by cases h)
  | .StringLiteral .., .CallExpr .. => isFalse (fun h => by cases h)
  | .BoolLiteral .., .IntegerLiteral .. => isFalse (fun h => by cases h)
  | .BoolLiteral .., .FloatLiteral .. => isFalse (fun h => by cases h)
  | .BoolLiteral .., .StringLiteral .. => isFalse (fun h => by cases h)
  | .BoolLiteral .., .Identifier .. => isFalse (fun h => by cases h)
  | .BoolLiteral .., .BinaryOp .. => isFalse (fun h => by cases h)
  | .BoolLiteral .., .UnaryOp .. => isFalse (fun h => by cases h)
  | .BoolLiteral .., .CallExpr .. => isFalse (fun h => by cases h)
  | .Identifier .., .IntegerLiteral .. => isFalse (fun h => by cases h)
  | .Identifier .., .FloatLiteral .. => isFalse (fun h => by cases h)
  | .Identifier .., .StringLiteral .. => isFalse (fun h => by cases h)
  | .Identifier .., .BoolLiteral .. => isFalse (fun h => by cases h)
  | .Identifier .., .BinaryOp .. => isFalse (fun h => by cases h)
  | .Identifier .., .UnaryOp .. => isFalse (fun h => by cases h)
  | .Identifier .., .CallExpr .. => isFalse (fun h => by cases h)
  | .BinaryOp .., .IntegerLiteral .. => isFalse (fun h => by cases h)
  | .BinaryOp .., .FloatLiteral .. => isFalse (fun h => by cases h)
  | .BinaryOp .., .StringLiteral .. => isFalse (fun h => by cases h)
  | .BinaryOp .., .BoolLiteral .. => isFalse (fun h => by cases h)
  | .BinaryOp .., .Identifier .. => isFalse (fun h => by cases h)
  | .BinaryOp .., .UnaryOp .. => isFalse (fun h => by cases h)
  | .BinaryOp .., .CallExpr .. => isFalse (fun h => by cases h)
  | .UnaryOp .., .IntegerLiteral .. => isFalse (fun h => by cases h)
  | .UnaryOp .., .FloatLiteral .. => isFalse (fun h => by cases h)
  | .UnaryOp .., .StringLiteral .. => isFalse (fun h => by cases h)
  | .UnaryOp .., .BoolLiteral .. => isFalse (fun h => by cases h)
  | .UnaryOp .., .Identifier .. => isFalse (fun h => by cases h)
  | .UnaryOp .., .BinaryOp .. => isFalse (fun h => by cases h)
  | .UnaryOp .., .CallExpr .. => isFalse (fun h => by cases h)
  | .CallExpr .., .IntegerLiteral .. => isFalse (fun h => by cases h)
  | .CallExpr .., .FloatLiteral .. => isFalse (fun h => by cases h)
  | .CallExpr .., .StringLiteral .. => isFalse (fun h => by cases h)
  | .CallExpr .., .BoolLiteral .. => isFalse (fun h => by cases h)
  | .CallExpr .., .Identifier .. => isFalse (fun h => by cases h)
  | .CallExpr .., .BinaryOp .. => isFalse (fun h => by cases h)
  | .CallExpr .., .UnaryOp .. => isFalse (fun h => by cases h)
/-- Equality of two argument lists is decidable. -/
def Expression.decEqList : (a b : List Expression) → Decidable (a = b)
  | [], [] => isTrue rfl
  | [], _ :: _ => isFalse (fun h => by cases h)
  | _ :: _, [] => isFalse (fun h => by cases h)
  | x :: xs, y :: ys =>
    match Expression.decEq x y, Expression.decEqList xs ys with
    | isTrue hx, isTrue hs => isTrue (by rw [hx, hs])
    | isFalse hx, _ => isFalse (fun h => hx (by cases h; rfl))
    | _, isFalse hs => isFalse (fun h => hs (by cases h; rfl))
end

instance : DecidableEq Expression := Expression.decEq

deriving instance DecidableEq for VariableDecl

mutual
/-- Equality of two statements is decidable. -/
def Statement.decEq : (a b : Statement) → Decidable (a = b)
  | .VariableDecl d, .VariableDecl d2 =>
    decidable_of_iff (d = d2) ⟨fun h => by rw [h], fun h => by cases h; rfl⟩
  | .Assignment l c n v, .Assignment l2 c2 n2 v2 =>
    decidable_of_iff (l = l2 ∧ c = c2 ∧ n = n2 ∧ v = v2)
      ⟨fun h => by rw [h.1, h.2.1, h.2.2.1, h.2.2.2], fun h => by cases h; exact ⟨rfl, rfl, rfl, rfl⟩⟩
  | .ReturnStmt l c v, .ReturnStmt l2 c2 v2 =>
    decidable_of_iff (l = l2 ∧ c = c2 ∧ v = v2)
      ⟨fun h => by rw [h.1, h.2.1, h.2.2], fun h => by cases h; exact ⟨rfl, rfl, rfl⟩⟩
  | .IfStmt l c e t f, .IfStmt l2 c2 e2 t2 f2 =>
    match Statement.decEqList t t2, Statement.decEqList f f2 with
    | isTrue ht, isTrue hf =>
      decidable_of_iff (l = l2 ∧ c = c2 ∧ e = e2)
        ⟨fun h => by rw [h.1, h.2.1, h.2.2, ht, hf], fun h => by cases h; exact ⟨rfl, rfl, rfl⟩⟩
    | isFalse ht, _ => isFalse (fun h => ht (by cases h; rfl))
    | _, isFalse hf => isFalse (fun h => hf (by cases h; rfl))
  | .WhileStmt l c e b, .WhileStmt l2 c2 e2 b2 =>
    match Statement.decEqList b b2 with
    | isTrue hb =>
      decidable_of_iff (l = l2 ∧ c = c2 ∧ e = e2)
        ⟨fun h => by rw [h.1, h.2.1, h.2.2, hb], fun h => by cases h; exact ⟨rfl, rfl, rfl⟩⟩
    | isFalse hb => isFalse (fun h => hb (by cases h; rfl))
  | .ExprStmt l c e, .ExprStmt l2 c2 e2 =>
    decidable_of_iff (l = l2 ∧ c = c2 ∧ e = e2)
      ⟨fun h => by rw [h.1, h.2.1, h.2.2], fun h => by cases h; exact ⟨rfl, rfl, rfl⟩⟩
  | .VariableDecl .., .Assignment .. => isFalse (fun h => by cases h)
  | .VariableDecl .., .ReturnStmt .. => isFalse (fun h => by cases h)
  | .VariableDecl .., .IfStmt .. => isFalse (fun h => by cases h)
  | .VariableDecl .., .WhileStmt .. => isFalse (fun h => by cases h)
  | .VariableDecl .., .ExprStmt .. => isFalse (fun h => by cases h)
  | .Assignment .., .VariableDecl .. => isFalse (fun h => by cases h)
  | .Assignment .., .ReturnStmt .. => isFalse (fun h => by cases h)
  | .Assignment .., .IfStmt .. => isFalse (fun h => by cases h)
  | .Assignment .., .WhileStmt .. => isFalse (fun h => by cases h)
  | .Assignment .., .ExprStmt .. => isFalse (fun h => by cases h)
  | .ReturnStmt .., .VariableDecl .. => isFalse (fun h => by cases h)
  | .ReturnStmt .., .Assignment .. => isFalse (fun h => by cases h)
  | .ReturnStmt .., .IfStmt .. => isFalse (fun h => by cases h)
  | .ReturnStmt .., .WhileStmt .. => isFalse (fun h => by cases h)
  | .ReturnStmt .., .ExprStmt .. => isFalse (fun h => by cases h)
  | .IfStmt .., .VariableDecl .. => isFalse (fun h => by cases h)
  | .IfStmt .., .Assignment .. => isFalse (fun h => by cases h)
  | .IfStmt .., .ReturnStmt .. => isFalse (fun h => by cases h)
  | .IfStmt .., .WhileStmt .. => isFalse (fun h => by cases h)
  | .IfStmt .., .ExprStmt .. => isFalse (fun h => by cases h)
  | .WhileStmt .., .VariableDecl .. => isFalse (fun h => by cases h)
  | .WhileStmt .., .Assignment .. => isFalse (fun h => by cases h)
  | .WhileStmt .., .ReturnStmt .. => isFalse (fun h => by cases h)
  | .WhileStmt .., .IfStmt .. => isFalse (fun h => by cases h)
  | .WhileStmt .., .ExprStmt .. => isFalse (fun h => by cases h)
  | .ExprStmt .., .VariableDecl .. => isFalse (fun h => by cases h)
  | .ExprStmt .., .Assignment .. => isFalse (fun h => by cases h)
  | .ExprStmt .., .ReturnStmt .. => isFalse (fun h => by cases h)
  | .ExprStmt .., .IfStmt .. => isFalse (fun h => by cases h)
  | .ExprStmt .., .WhileStmt .. => isFalse (fun h => by cases h)
/-- Equality of two statement lists is decidable. -/
def Statement.decEqList : (a b : List Statement) → Decidable (a = b)
  | [], [] => isTrue rfl
  | [], _ :: _ => isFalse (fun h => by cases h)
  | _ :: _, [] => isFalse (fun h => by cases h)
  | x :: xs, y :: ys =>
    match Statement.decEq x y, Statement.decEqList xs ys with
    | isTrue hx, isTrue hs => isTrue (by rw [hx, hs])
    | isFalse hx, _ => isFalse (fun h => hx (by cases h; rfl))
    | _, isFalse hs => isFalse (fun h => hs (by cases h; rfl))
end

instance : DecidableEq Statement := Statement.decEq

deriving instance DecidableEq for FunctionDecl

deriving instance DecidableEq for Program


/-! ## Parser (`parser.cpp`) -/

/-- The members of `Parser`.  Two look-behind reads of the source
(`tokens[current - 2]` in `parse`, `tokens[current - 1]` in `synchronize`) can
fall outside the vector.  Such a read sets `outOfBounds`; the value read there
is used in one place only, the comparison with `NEWLINE` in `synchronize`, and
`junkIsNewline` is the result of that comparison. -/
structure Parser where
  tokens : List Token
  current : Nat
  errors : List String
  junkIsNewline : Bool
  outOfBounds : Bool
  stodThrows : List String
  deriving DecidableEq, Repr

/-- The constructor `Parser::Parser`.  The model of the parser has two
parameters that the source text does not fix: `junkIsNewline`, what the
comparison of an out-of-bounds token with `NEWLINE` answers, and `stodThrows`,
the texts on which the library call `std::stod` throws. -/
def Parser.new (tokens : List Token) (junkIsNewline : Bool) (stodThrows : List String) :
    Parser :=
  { tokens := tokens, current := 0, errors := [], junkIsNewline := junkIsNewline,
    outOfBounds := false, stodThrows := stodThrows }

/-- Outcome of a parsing method: a normal return, a thrown `std::exception`
with its `what()`, or exhaustion of the fuel of the model. -/
inductive Res (α : Type)
  | ok (value : α) (p : Parser)
  | thrown (what : String) (p : Parser)
  | outOfFuel
  deriving Repr

/-- A method of `Parser` returning an `α`. -/
def PM (α : Type) : Type := Parser → Res α

def PM.pure {α : Type} (a : α) : PM α := fun p => .ok a p

def PM.bind {α β : Type} (m : PM α) (f : α → PM β) : PM β := fun p =>
  match m p with
  | .ok a p1 => f a p1
  | .thrown w p1 => .thrown w p1
  | .outOfFuel => .outOfFuel

instance : Monad PM where
  pure := PM.pure
  bind := PM.bind

/-- The statement `throw std::runtime_error(what)` (or a throwing library call). -/
def raise {α : Type} (what : String) : PM α := fun p => .thrown what p

def outOfFuel {α : Type} : PM α := fun _ => .outOfFuel

/-- The token the model answers where the source reads one that does not
exist: `tokens.back()` of an empty vector, or an out-of-bounds `tokens[i]` whose
value is not used or which no run reaches. -/
def noToken : Token := { type := .INVALID, value := "", line := 0, column := 0 }

/-- The unchecked read `tokens[i]`; `i` is the mathematical value of the
`size_t` index expression, so `current - 1` at `current = 0` is out of bounds.
An out-of-bounds read answers `none` and sets `outOfBounds`. -/
def tokenAt (i : Int) : PM (Option Token) := fun p =>
  if 0 ≤ i ∧ i < p.tokens.length then .ok (p.tokens.get? i.toNat) p
  else .ok none { p with outOfBounds := true }

/-- The method `Parser::peek(offset)`. -/
def Parser.peek (p : Parser) (offset : Nat) : Token :=
  if p.current + offset ≥ p.tokens.length then p.tokens.getLastD noToken
  else p.tokens.getD (p.current + offset) noToken

def Parser.isAtEnd (p : Parser) : Bool := (p.peek 0).type = .END_OF_FILE

def Parser.check (p : Parser) (type : TokenType) : Bool :=
  if p.isAtEnd then false else (p.peek 0).type = type

def getCurrent : PM Nat := fun p => .ok p.current p

/-- The result of comparing an out-of-bounds token type with `NEWLINE`. -/
def junkIsNewline : PM Bool := fun p => .ok p.junkIsNewline p

def peek (offset : Nat) : PM Token := fun p => .ok (p.peek offset) p

def isAtEnd : PM Bool := fun p => .ok p.isAtEnd p

def check (type : TokenType) : PM Bool := fun p => .ok (p.check type) p

/-- The method `Parser::advance`. -/
def advance : PM Token := fun p =>
  let p1 := if p.isAtEnd then p else { p with current := p.current + 1 }
  match tokenAt ((p1.current : Int) - 1) p1 with
  | .ok t p2 => .ok (t.getD noToken) p2
  | .thrown w p2 => .thrown w p2
  | .outOfFuel => .outOfFuel

/-- The method `Parser::match(TokenType)`; the name `match` is taken. -/
def matchToken (type : TokenType) : PM Bool := do
  if (← check type) then
    let _ ← advance
    pure true
  else pure false

/-- The operator `a || b` on two calls with effects: `b` runs only when `a`
answers false. -/
def orElse (a b : PM Bool) : PM Bool := do
  if (← a) then pure true else b

/-- The method `Parser::error`. -/
def error (message : String) : PM Unit := fun p =>
  let token := p.peek 0
  .ok () { p with errors := p.errors ++
    ["Error at line " ++ toString token.line ++ ", column " ++ toString token.column ++
      ": " ++ message] }

/-- The method `Parser::consume`. -/
def consume (type : TokenType) (message : String) : PM Token := do
  if (← check type) then advance
  else
    error message
    raise message

def isSyncPoint (t : TokenType) : Bool :=
  t = .FN || t = .LET || t = .IF || t = .WHILE || t = .RETURN

/-- The method `Parser::synchronize`. -/
def synchronize : Nat → PM Unit
  | 0 => outOfFuel
  | fuel + 1 => do
    if (← isAtEnd) then pure ()
    else
      let cur ← getCurrent
      let prev ← tokenAt ((cur : Int) - 1)
      let prevIsNewline ← match prev with
        | some t => pure (decide (t.type = .NEWLINE))
        | none => junkIsNewline
      if prevIsNewline then pure ()
      else if isSyncPoint (← peek 0).type then pure ()
      else
        let _ ← advance
        synchronize fuel

/-- The method `Parser::parseType`. -/
def parseType : PM TypeKind := do
  if (← matchToken .TYPE_I8) then pure .I8
  else if (← matchToken .TYPE_I16) then pure .I16
  else if (← matchToken .TYPE_I32) then pure .I32
  else if (← matchToken .TYPE_I64) then pure .I64
  else if (← matchToken .TYPE_U8) then pure .U8
  else if (← matchToken .TYPE_U16) then pure .U16
  else if (← matchToken .TYPE_U32) then pure .U32
  else if (← matchToken .TYPE_U64) then pure .U64
  else if (← matchToken .TYPE_F32) then pure .F32
  else if (← matchToken .TYPE_F64) then pure .F64
  else if (← matchToken .TYPE_BOOL) then pure .BOOL
  else if (← matchToken .TYPE_VOID) then pure .VOID
  else if (← matchToken .TYPE_STR) then pure .STR
  else
    error "Expected type"
    raise "Expected type"

/-- The C library predicate `isspace` in the "C" locale. -/
def isSpace (c : Char) : Bool :=
  c == ' ' || (decide (9 ≤ c.toNat) && decide (c.toNat ≤ 13))

/-- The call `std::stoll(s)`: leading white space, an optional sign, then the
longest run of decimal digits; throws `std::invalid_argument` without a digit
and `std::out_of_range` outside the range of `long long`.  Both have the
`what()` text `stoll` (libstdc++). -/
def stoll (s : String) : Except String Int :=
  let cs := s.toList.dropWhile isSpace
  let neg := cs.head? = some '-'
  let body := if cs.head? = some '-' ∨ cs.head? = some '+' then cs.tail else cs
  let digits := body.takeWhile isDigit
  if digits.isEmpty then .error "stoll"
  else
    let n : Nat := digits.foldl (fun acc d => 10 * acc + (d.toNat - 48)) 0
    let v : Int := if neg then -(n : Int) else n
    if v < -(2 ^ 63) ∨ v > 2 ^ 63 - 1 then .error "stoll" else .ok v

/-- The call `std::stod(s)`: it throws `std::invalid_argument` when the text
starts no number and `std::out_of_range` when `strtod` reports a range error
(a value beyond the largest `double`, and, as far as the C library reports it, a
value that underflows); both have the `what()` text `stod` (libstdc++).  The
texts on which the call throws are a parameter of the model, `stodThrows`; on
every other text the call returns the double, which is kept as its text. -/
def stod (s : String) : PM String := fun p =>
  if s ∈ p.stodThrows then .thrown "stod" p else .ok s p

/-- The loops `while (true) \x7b if (match(A)) ... else if (match(B)) ... else break; \x7d`
of the binary operator levels: the first operator token of `ops` that matches. -/
def matchOp : List (TokenType × BinOp) → PM (Option BinOp)
  | [] => pure none
  | (t, op) :: rest => do
    if (← matchToken t) then pure (some op) else matchOp rest

/-- The loop of one binary operator level: while an operator of `ops` follows,
parse the right operand and nest the tree to the left. -/
def binaryLoop (ops : List (TokenType × BinOp)) (operand : PM Expression) :
    Nat → Expression → PM Expression
  | 0, _ => outOfFuel
  | fuel + 1, expr => do
    match (← matchOp ops) with
    | some op =>
      let right ← operand
      binaryLoop ops operand fuel (.BinaryOp ExprInfo.fresh op expr right)
    | none => pure expr

/-- The loop `while (match(TokenType::NEWLINE)) \x7b\x7d`. -/
def skipNewlines : Nat → PM Unit
  | 0 => outOfFuel
  | fuel + 1 => do
    if (← matchToken .NEWLINE) then skipNewlines fuel else pure ()

/-- The token `tokens[current - 1]` read after a successful `match`. -/
def previous : PM Token := do
  let cur ← getCurrent
  pure ((← tokenAt ((cur : Int) - 1)).getD noToken)

/-- A literal node with the type the parser assigns to it. -/
def literalInfo (k : TypeKind) : ExprInfo := { line := 0, column := 0, type := some k }

mutual
/-- The method `Parser::parseExpression`. -/
def parseExpression : Nat → PM Expression
  | 0 => outOfFuel
  | fuel + 1 => parseLogicalOr fuel
/-- The method `Parser::parseLogicalOr`. -/
def parseLogicalOr : Nat → PM Expression
  | 0 => outOfFuel
  | fuel + 1 => do
    let expr ← parseLogicalAnd fuel
    binaryLoop [(.OR, .OR)] (parseLogicalAnd fuel) fuel expr
/-- The method `Parser::parseLogicalAnd`. -/
def parseLogicalAnd : Nat → PM Expression
  | 0 => outOfFuel
  | fuel + 1 => do
    let expr ← parseBitwiseOr fuel
    binaryLoop [(.AND, .AND)] (parseBitwiseOr fuel) fuel expr
/-- The method `Parser::parseBitwiseOr`. -/
def parseBitwiseOr : Nat → PM Expression
  | 0 => outOfFuel
  | fuel + 1 => do
    let expr ← parseBitwiseXor fuel
    binaryLoop [(.BITWISE_OR, .BIT_OR)] (parseBitwiseXor fuel) fuel expr
/-- The method `Parser::parseBitwiseXor`. -/
def parseBitwiseXor : Nat → PM Expression
  | 0 => outOfFuel
  | fuel + 1 => do
    let expr ← parseBitwiseAnd fuel
    binaryLoop [(.BITWISE_XOR, .BIT_XOR)] (parseBitwiseAnd fuel) fuel expr
/-- The method `Parser::parseBitwiseAnd`. -/
def parseBitwiseAnd : Nat → PM Expression
  | 0 => outOfFuel
  | fuel + 1 => do
    let expr ← parseEquality fuel
    binaryLoop [(.BITWISE_AND, .BIT_AND)] (parseEquality fuel) fuel expr
/-- The method `Parser::parseEquality`. -/
def parseEquality : Nat → PM Expression
  | 0 => outOfFuel
  | fuel + 1 => do
    let expr ← parseComparison fuel
    binaryLoop [(.EQUAL, .EQ), (.NOT_EQUAL, .NE)] (parseComparison fuel) fuel expr
/-- The method `Parser::parseComparison`. -/
def parseComparison : Nat → PM Expression
  | 0 => outOfFuel
  | fuel + 1 => do
    let expr ← parseShift fuel
    binaryLoop [(.LESS, .LT), (.LESS_EQUAL, .LE), (.GREATER, .GT), (.GREATER_EQUAL, .GE)]
      (parseShift fuel) fuel expr
/-- The method `Parser::parseShift`. -/
def parseShift : Nat → PM Expression
  | 0 => outOfFuel
  | fuel + 1 => do
    let expr ← parseTerm fuel
    binaryLoop [(.SHIFT_LEFT, .SHL), (.SHIFT_RIGHT, .SHR)] (parseTerm fuel) fuel expr
/-- The method `Parser::parseTerm`. -/
def parseTerm : Nat → PM Expression
  | 0 => outOfFuel
  | fuel + 1 => do
    let expr ← parseFactor fuel
    binaryLoop [(.PLUS, .ADD), (.MINUS, .SUB)] (parseFactor fuel) fuel expr
/-- The method `Parser::parseFactor`. -/
def parseFactor : Nat → PM Expression
  | 0 => outOfFuel
  | fuel + 1 => do
    let expr ← parseUnary fuel
    binaryLoop [(.MULTIPLY, .MUL), (.DIVIDE, .DIV), (.MODULO, .MOD)] (parseUnary fuel) fuel expr
/-- The method `Parser::parseUnary`. -/
def parseUnary : Nat → PM Expression
  | 0 => outOfFuel
  | fuel + 1 => do
    if (← matchToken .MINUS) then
      let operand ← parseUnary fuel
      pure (.UnaryOp ExprInfo.fresh .NEG operand)
    else if (← matchToken .NOT) then
      let operand ← parseUnary fuel
      pure (.UnaryOp ExprInfo.fresh .NOT operand)
    else if (← matchToken .BITWISE_NOT) then
      let operand ← parseUnary fuel
      pure (.UnaryOp ExprInfo.fresh .BIT_NOT operand)
    else parsePrimary fuel
/-- The method `Parser::parsePrimary`. -/
def parsePrimary : Nat → PM Expression
  | 0 => outOfFuel
  | fuel + 1 => do
    if (← matchToken .INTEGER) then
      match stoll (← previous).value with
      | .error what => raise what
      | .ok v => pure (.IntegerLiteral (literalInfo .I32) v)
    else if (← matchToken .FLOAT) then
      pure (.FloatLiteral (literalInfo .F64) (← stod (← previous).value))
    else if (← matchToken .STRING) then
      pure (.StringLiteral (literalInfo .STR) (← previous).value)
    else if (← matchToken .TRUE) then
      pure (.BoolLiteral (literalInfo .BOOL) true)
    else if (← matchToken .FALSE) then
      pure (.BoolLiteral (literalInfo .BOOL) false)
    else if (← matchToken .IDENTIFIER) then
      let name := (← previous).value
      if (← matchToken .LPAREN) then
        let arguments ← if (← check .RPAREN) then pure [] else parseArguments fuel []
        let _ ← consume .RPAREN "Expected ')' after arguments"
        pure (.CallExpr ExprInfo.fresh name arguments)
      else pure (.Identifier ExprInfo.fresh name)
    else if (← matchToken .LPAREN) then
      let expr ← parseExpression fuel
      let _ ← consume .RPAREN "Expected ')' after expression"
      pure expr
    else
      error "Expected expression"
      raise "Expected expression"
/-- The loop `do \x7b arguments.push_back(parseExpression()); \x7d while (match(COMMA))`
of `parsePrimary`. -/
def parseArguments : Nat → List Expression → PM (List Expression)
  | 0, _ => outOfFuel
  | fuel + 1, arguments => do
    let e ← parseExpression fuel
    if (← matchToken .COMMA) then parseArguments fuel (arguments ++ [e])
    else pure (arguments ++ [e])
end

/-- The method `Parser::parseVariableDecl`. -/
def parseVariableDecl (fuel : Nat) : PM VariableDecl := do
  let isMutable ← matchToken .MUT
  let isPureLocal ← if isMutable then pure false else matchToken .PURE_LOCAL
  let name ← consume .IDENTIFIER "Expected variable name"
  let _ ← consume .COLON "Expected ':' after variable name"
  let type ← parseType
  let initializer ← if (← matchToken .ASSIGN) then (do pure (some (← parseExpression fuel)))
    else pure none
  pure { line := name.line, column := name.column, name := name.value, varType := type,
         initializer := initializer, isMutable := isMutable, isPureLocal := isPureLocal }

/-- The method `Parser::parseGlobalVariable`, the same text as `parseVariableDecl`. -/
def parseGlobalVariable (fuel : Nat) : PM VariableDecl := do
  let isMutable ← matchToken .MUT
  let isPureLocal ← if isMutable then pure false else matchToken .PURE_LOCAL
  let name ← consume .IDENTIFIER "Expected variable name"
  let _ ← consume .COLON "Expected ':' after variable name"
  let type ← parseType
  let initializer ← if (← matchToken .ASSIGN) then (do pure (some (← parseExpression fuel)))
    else pure none
  pure { line := name.line, column := name.column, name := name.value, varType := type,
         initializer := initializer, isMutable := isMutable, isPureLocal := isPureLocal }

/-- The method `Parser::parseReturnStatement`. -/
def parseReturnStatement (fuel : Nat) (line column : Int) : PM Statement := do
  if (← check .NEWLINE) || (← check .DEDENT) then
    pure (.ReturnStmt line column none)
  else
    let value ← parseExpression fuel
    pure (.ReturnStmt line column (some value))

mutual
/-- The method `Parser::parseStatement`. -/
def parseStatement : Nat → PM Statement
  | 0 => outOfFuel
  | fuel + 1 => do
    skipNewlines fuel
    if (← matchToken .LET) then
      pure (.VariableDecl (← parseVariableDecl fuel))
    else if (← matchToken .IF) then parseIfStatement fuel
    else if (← matchToken .WHILE) then parseWhileStatement fuel
    else if (← matchToken .RETURN) then
      let returnLine := (← previous).line
      let returnCol := (← previous).column
      parseReturnStatement fuel returnLine returnCol
    else if (← check .IDENTIFIER) && (← peek 1).type = .ASSIGN then
      let name ← advance
      let _ ← advance
      let value ← parseExpression fuel
      pure (.Assignment name.line name.column name.value value)
    else
      let expr ← parseExpression fuel
      pure (.ExprStmt 0 0 expr)
/-- The method `Parser::parseIfStatement`. -/
def parseIfStatement : Nat → PM Statement
  | 0 => outOfFuel
  | fuel + 1 => do
    let condition ← parseExpression fuel
    let _ ← consume .COLON "Expected ':' after if condition"
    let thenBody ← parseBlock fuel
    if (← matchToken .ELSE) then
      let _ ← consume .COLON "Expected ':' after else"
      let elseBody ← parseBlock fuel
      pure (.IfStmt 0 0 condition thenBody elseBody)
    else pure (.IfStmt 0 0 condition thenBody [])
/-- The method `Parser::parseWhileStatement`. -/
def parseWhileStatement : Nat → PM Statement
  | 0 => outOfFuel
  | fuel + 1 => do
    let condition ← parseExpression fuel
    let _ ← consume .COLON "Expected ':' after while condition"
    let body ← parseBlock fuel
    pure (.WhileStmt 0 0 condition body)
/-- The method `Parser::parseBlock`. -/
def parseBlock : Nat → PM (List Statement)
  | 0 => outOfFuel
  | fuel + 1 => do
    if (← orElse (matchToken .INDENT) (matchToken .NEWLINE)) then
      skipNewlines fuel
      let statements ← parseBlockLoop fuel []
      let _ ← consume .DEDENT "Expected dedent after block"
      pure statements
    else
      pure [← parseStatement fuel]
/-- The loop `while (!check(DEDENT) && !isAtEnd())` of `parseBlock`. -/
def parseBlockLoop : Nat → List Statement → PM (List Statement)
  | 0, _ => outOfFuel
  | fuel + 1, statements => do
    if !(← check .DEDENT) && !(← isAtEnd) then
      if (← matchToken .NEWLINE) then parseBlockLoop fuel statements
      else
        let st ← parseStatement fuel
        parseBlockLoop fuel (statements ++ [st])
    else pure statements
end

/-- The loop `do \x7b ... \x7d while (match(COMMA))` over the parameters in
`parseFunction`. -/
def parseParameters : Nat → List Parameter → PM (List Parameter)
  | 0, _ => outOfFuel
  | fuel + 1, parameters => do
    let paramName ← consume .IDENTIFIER "Expected parameter name"
    let _ ← consume .COLON "Expected ':' after parameter name"
    let paramType ← parseType
    let parameters := parameters ++ [{ name := paramName.value, type := paramType }]
    if (← matchToken .COMMA) then parseParameters fuel parameters else pure parameters

/-- The test at the head of `parseFunction` that decides `isPure`; it consumes
`fn` when `pure` was the token just matched.  Both look-behind reads are
guarded by `current > 0`. -/
def parseFunctionPurity : PM Bool := do
  let cur ← getCurrent
  if cur = 0 then pure false
  else
    let prev ← previous
    if prev.type = .PURE then
      let _ ← consume .FN "Expected 'fn' after 'pure'"
      pure true
    else if prev.type = .FN then
      if cur > 1 then pure (((← tokenAt ((cur : Int) - 2)).getD noToken).type = .PURE)
      else pure false
    else pure false

/-- The method `Parser::parseFunction`. -/
def parseFunction (fuel : Nat) : PM FunctionDecl := do
  let isPure ← parseFunctionPurity
  let name ← consume .IDENTIFIER "Expected function name"
  let _ ← consume .LPAREN "Expected '(' after function name"
  let parameters ← if (← check .RPAREN) then pure [] else parseParameters fuel []
  let _ ← consume .RPAREN "Expected ')' after parameters"
  let returnType ← if (← matchToken .ARROW) then parseType else pure .VOID
  let _ ← consume .COLON "Expected ':' before function body"
  let body ← parseBlock fuel
  pure { line := name.line, column := name.column, name := name.value,
         parameters := parameters, returnType := returnType, body := body, isPure := isPure }

/-- The body of the `try` block in `Parser::parse`. -/
def parseTopLevel (fuel : Nat) (program : Program) : PM Program := do
  if (← orElse (matchToken .FN) (matchToken .PURE)) then
    -- tokens[current - 1].type == PURE || (current > 0 && tokens[current - 2].type == PURE)
    let cur ← getCurrent
    if (← previous).type = .PURE then pure ()
    else if cur > 0 then
      let _ ← tokenAt ((cur : Int) - 2)
      pure ()
    else pure ()
    let f ← parseFunction fuel
    pure { program with functions := program.functions ++ [f] }
  else if (← matchToken .LET) then
    let g ← parseGlobalVariable fuel
    pure { program with globals := program.globals ++ [g] }
  else if (← orElse (matchToken .NEWLINE) (orElse (matchToken .INDENT) (matchToken .DEDENT))) then
    pure program
  else
    error "Expected function or global variable declaration"
    synchronize fuel
    pure program

/-- The handler `catch (const std::exception& e)` of `Parser::parse`. -/
def parseCatch (fuel : Nat) (what : String) : PM Unit := do
  error what
  synchronize fuel

/-- The loop `while (!isAtEnd())` of `Parser::parse`. -/
def parseLoop : Nat → Program → PM Program
  | 0, _ => outOfFuel
  | fuel + 1, program => fun p =>
    if p.isAtEnd then .ok program p
    else
      match parseTopLevel fuel program p with
      | .ok program1 p1 => parseLoop fuel program1 p1
      | .thrown what p1 =>
        match parseCatch fuel what p1 with
        | .ok _ p2 => parseLoop fuel program p2
        | .thrown w p2 => .thrown w p2
        | .outOfFuel => .outOfFuel
      | .outOfFuel => .outOfFuel

/-- The method `Parser::parse` run with the given fuel on a fresh parser: the
program and the final parser (whose `errors` are `getErrors()`), or `none` when
the fuel does not suffice. -/
def parse (fuel : Nat) (tokens : List Token) (junkIsNewline : Bool)
    (stodThrows : List String) : Option (Program × Parser) :=
  match parseLoop fuel { functions := [], globals := [] }
      (Parser.new tokens junkIsNewline stodThrows) with
  | .ok program p => some (program, p)
  | _ => none

/-! ## Semantic analyzer (`semantic.h`, `semantic.cpp`) -/

structure Symbol where
  name : String
  type : TypeKind
  isMutable : Bool
  isPureLocal : Bool
  isParameter : Bool
  deriving DecidableEq, Repr

structure FunctionInfo where
  name : String
  returnType : Option TypeKind
  paramTypes : List TypeKind
  isPure : Bool
  hasSideEffects : Bool
  deriving DecidableEq, Repr

/-- The record `SemanticAnalyzer::ErrorInfo`. -/
structure ErrorInfo where
  message : String
  line : Int
  column : Int
  length : Int
  suggestion : String
  deriving DecidableEq, Repr

/-- The constructor `ErrorInfo(msg, l, c)` with `len = 1` and no suggestion. -/
def ErrorInfo.mk3 (msg : String) (l c : Int) : ErrorInfo :=
  { message := msg, line := l, column := c, length := 1, suggestion := "" }

/-- The members of `SemanticAnalyzer`.  `scopes` has `scopes.back()` at its
head; `currentFunction` is the key of the entry of `functions` the pointer
points to. -/
structure SemanticAnalyzer where
  scopes : List (List (String × Symbol))
  functions : List (String × FunctionInfo)
  errors : List String
  warnings : List String
  structuredErrors : List ErrorInfo
  structuredWarnings : List ErrorInfo
  currentFunction : Option String
  currentFunctionHasSideEffects : Bool
  modifiedVariables : List String
  deriving DecidableEq, Repr

/-- The constructor `SemanticAnalyzer::SemanticAnalyzer`. -/
def SemanticAnalyzer.new : SemanticAnalyzer :=
  { scopes := [], functions := [], errors := [], warnings := [], structuredErrors := [],
    structuredWarnings := [], currentFunction := none, currentFunctionHasSideEffects := false,
    modifiedVariables := [] }

/-- The legacy string `oss.str()` that `error` and `warning` build; `level` is
`Error` or `Warning`. -/
def legacyText (level message : String) (line column : Int) : String :=
  (if line ≥ 0 then
      level ++ " at line " ++ toString line ++ ", column " ++ toString column ++ ": "
    else level ++ ": ") ++ message

namespace SemanticAnalyzer

def pushScope (a : SemanticAnalyzer) : SemanticAnalyzer := { a with scopes := [] :: a.scopes }

def popScope (a : SemanticAnalyzer) : SemanticAnalyzer := { a with scopes := a.scopes.tail }

def declareVariable (a : SemanticAnalyzer) (name : String) (symbol : Symbol) : SemanticAnalyzer :=
  match a.scopes with
  | [] => { a with scopes := [[(name, symbol)]] }
  | top :: rest => { a with scopes := mapInsert name symbol top :: rest }

/-- The search of `lookupVariable` from the innermost scope outwards. -/
def lookupIn (name : String) : List (List (String × Symbol)) → Option Symbol
  | [] => none
  | scope :: rest =>
    match mapFind name scope with
    | some symbol => some symbol
    | none => lookupIn name rest

def lookupVariable (a : SemanticAnalyzer) (name : String) : Option Symbol :=
  lookupIn name a.scopes

def lookupFunction (a : SemanticAnalyzer) (name : String) : Option FunctionInfo :=
  mapFind name a.functions

/-- The entry `*currentFunction`, when the pointer is not null. -/
def current (a : SemanticAnalyzer) : Option FunctionInfo :=
  match a.currentFunction with
  | none => none
  | some key => mapFind key a.functions

/-- The method `SemanticAnalyzer::error`. -/
def error (a : SemanticAnalyzer) (message : String) (line column : Int) : SemanticAnalyzer :=
  { a with errors := a.errors ++ [legacyText "Error" message line column],
           structuredErrors := a.structuredErrors ++ [ErrorInfo.mk3 message line column] }

/-- The method `SemanticAnalyzer::warning`. -/
def warning (a : SemanticAnalyzer) (message : String) (line column : Int) : SemanticAnalyzer :=
  { a with warnings := a.warnings ++ [legacyText "Warning" message line column],
           structuredWarnings := a.structuredWarnings ++ [ErrorInfo.mk3 message line column] }

/-- The statement `structuredErrors.push_back(err)`. -/
def pushError (a : SemanticAnalyzer) (err : ErrorInfo) : SemanticAnalyzer :=
  { a with structuredErrors := a.structuredErrors ++ [err] }

/-- Sets the suggestion of the last element of a list of records. -/
def setLast (suggestion : String) : List ErrorInfo → List ErrorInfo
  | [] => []
  | [e] => [{ e with suggestion := suggestion }]
  | e :: rest => e :: setLast suggestion rest

/-- The statement `structuredErrors.back().suggestion = suggestion`. -/
def suggest (a : SemanticAnalyzer) (suggestion : String) : SemanticAnalyzer :=
  { a with structuredErrors := setLast suggestion a.structuredErrors }

def markSideEffect (a : SemanticAnalyzer) : SemanticAnalyzer :=
  { a with currentFunctionHasSideEffects := true }

end SemanticAnalyzer

def typesMatch (t1 t2 : Option TypeKind) : Bool :=
  match t1, t2 with
  | some k1, some k2 => k1 = k2
  | _, _ => false

def typeToString (type : Option TypeKind) : String :=
  match type with
  | none => "unknown"
  | some .I8 => "i8"
  | some .I16 => "i16"
  | some .I32 => "i32"
  | some .I64 => "i64"
  | some .U8 => "u8"
  | some .U16 => "u16"
  | some .U32 => "u32"
  | some .U64 => "u64"
  | some .F32 => "f32"
  | some .F64 => "f64"
  | some .BOOL => "bool"
  | some .VOID => "void"
  | some .STR => "str"
  | some _ => "unknown"

def getCommonType (t1 t2 : Option TypeKind) : Option TypeKind :=
  match t1, t2 with
  | some k1, some k2 =>
    if typesMatch t1 t2 then t1
    else if k1 = .F64 ∨ k2 = .F64 then some .F64
    else if k1 = .F32 ∨ k2 = .F32 then some .F32
    else some .I64
  | _, _ => some .I32

/-- The built-in functions in the order `visit(Program&)` registers them: the
key of `functions[key] = info` and the `FunctionInfo(name, ret, pure)` with its
`paramTypes`.  The constructor leaves `hasSideEffects` false. -/
def builtins : List (String × FunctionInfo) :=
  let mk (name : String) (ret : TypeKind) (isPure : Bool) (params : List TypeKind) :
      String × FunctionInfo :=
    (name, { name := name, returnType := some ret, paramTypes := params, isPure := isPure,
             hasSideEffects := false })
  [ mk "print_i32" .VOID false [.I32],
    mk "print_i64" .VOID false [.I64],
    mk "print_f64" .VOID false [.F64],
    mk "print_bool" .VOID false [.BOOL],
    mk "print_str" .VOID false [.STR],
    mk "println" .VOID false [],
    mk "i32_to_i64" .I64 true [.I32],
    mk "i64_to_i32" .I32 true [.I64],
    mk "i32_to_f64" .F64 true [.I32],
    mk "f64_to_i32" .I32 true [.F64],
    mk "i64_to_f64" .F64 true [.I64],
    mk "f64_to_i64" .I64 true [.F64],
    mk "abs_i32" .I32 true [.I32],
    mk "min_i32" .I32 true [.I32, .I32],
    mk "max_i32" .I32 true [.I32, .I32],
    mk "sqrt_f64" .F64 true [.F64],
    ("print", (mk "print_i32" .VOID false [.I32]).2),
    mk "int" .I32 true [.F64],
    mk "float" .F64 true [.I32],
    mk "abs" .I32 true [.I32],
    mk "min" .I32 true [.I32, .I32],
    mk "max" .I32 true [.I32, .I32],
    mk "sqrt" .F64 true [.F64],
    mk "read_i32" .I32 false [],
    mk "read_f64" .F64 false [],
    mk "pow" .F64 true [.F64, .F64],
    mk "floor" .F64 true [.F64],
    mk "ceil" .F64 true [.F64],
    mk "round" .F64 true [.F64],
    mk "sin" .F64 true [.F64],
    mk "cos" .F64 true [.F64],
    mk "tan" .F64 true [.F64],
    mk "asin" .F64 true [.F64],
    mk "acos" .F64 true [.F64],
    mk "atan" .F64 true [.F64],
    mk "exp" .F64 true [.F64],
    mk "log" .F64 true [.F64],
    mk "log2" .F64 true [.F64],
    mk "log10" .F64 true [.F64],
    mk "exit" .VOID false [.I32],
    mk "hash_time" .I64 false [],
    mk "hash_clock" .F64 false [],
    mk "random" .F64 false [],
    mk "seed_random" .VOID false [.I32],
    mk "random_range" .I32 false [.I32, .I32],
    mk "len" .I32 true [.STR],
    mk "str_concat" .STR true [.STR, .STR],
    mk "str_eq" .BOOL true [.STR, .STR],
    mk "upper" .STR true [.STR],
    mk "lower" .STR true [.STR],
    mk "file_read" .STR false [.STR],
    mk "file_write" .BOOL false [.STR, .STR],
    mk "file_exists" .BOOL false [.STR],
    mk "file_delete" .BOOL false [.STR] ]

/-- The assignment `node.type = t` on an expression node. -/
def ExprInfo.withType (i : ExprInfo) (t : Option TypeKind) : ExprInfo := { i with type := t }

/-- The test `currentFunction && !currentFunction->isPure`. -/
def SemanticAnalyzer.inNonPure (a : SemanticAnalyzer) : Bool :=
  match a.current with
  | some f => !f.isPure
  | none => false

/-- The test `currentFunction && currentFunction->isPure`. -/
def SemanticAnalyzer.inPure (a : SemanticAnalyzer) : Bool :=
  match a.current with
  | some f => f.isPure
  | none => false

/-- The member `currentFunction->name` used in messages. -/
def SemanticAnalyzer.currentName (a : SemanticAnalyzer) : String :=
  match a.current with
  | some f => f.name
  | none => ""

def undefinedVariableError (name : String) (i : ExprInfo) : ErrorInfo :=
  { ErrorInfo.mk3 ("Undefined variable '" ++ name ++ "'") i.line i.column with
    suggestion := "Make sure '" ++ name ++
      "' is declared before use, or check for typos in the variable name." }

def pureLocalAccessError (name functionName : String) (i : ExprInfo) : ErrorInfo :=
  { ErrorInfo.mk3 ("Cannot access pure_local variable '" ++ name ++ "' in non-pure function")
      i.line i.column with
    suggestion := "Pure_local variables can only be accessed by pure functions. Either make function '" ++
      functionName ++ "' pure by adding the 'pure' keyword, or remove 'pure_local' from variable '" ++
      name ++ "'." }

def logicalOperandError (i : ExprInfo) : ErrorInfo :=
  { ErrorInfo.mk3 "Logical operators require boolean operands" i.line i.column with
    suggestion := "Use comparison operators (==, !=, <, >, <=, >=) to create boolean expressions, or use bitwise operators (&, |, ^) for integer operations." }

def logicalNotError (i : ExprInfo) : ErrorInfo :=
  { ErrorInfo.mk3 "Logical NOT requires boolean operand" i.line i.column with
    suggestion := "Use a comparison operator to create a boolean expression, or use bitwise NOT (~) for integer values." }

def undefinedFunctionError (functionName : String) (i : ExprInfo) : ErrorInfo :=
  { ErrorInfo.mk3 ("Undefined function '" ++ functionName ++ "'") i.line i.column with
    suggestion := "Make sure the function '" ++ functionName ++
      "' is declared before calling it, or check for typos in the function name." }

def argumentCountError (functionName : String) (expected got : Nat) (i : ExprInfo) : ErrorInfo :=
  { ErrorInfo.mk3 ("Function '" ++ functionName ++ "' expects " ++ toString expected ++
      " arguments, got " ++ toString got) i.line i.column with
    suggestion := "Provide exactly " ++ toString expected ++ " argument" ++
      (if expected = 1 then "" else "s") ++ " when calling '" ++ functionName ++ "'." }

/-- The names tested in the first branch of the suggestion for a wrong argument
type. -/
def isMathName (functionName : String) : Bool :=
  functionName = "pow" || functionName = "floor" || functionName = "ceil" ||
  functionName = "round" || functionName = "sqrt" || functionName = "sin" ||
  functionName = "cos" || functionName = "tan" || functionName = "asin" ||
  functionName = "acos" || functionName = "atan" || functionName = "exp" ||
  functionName = "log" || functionName = "log2" || functionName = "log10"

def argumentTypeError (functionName : String) (i : Nat) (expectedType actualType : String)
    (arg : ExprInfo) : ErrorInfo :=
  { ErrorInfo.mk3 ("Argument " ++ toString (i + 1) ++ " type mismatch in call to '" ++
      functionName ++ "'" ++ ": expected " ++ expectedType ++ ", got " ++ actualType)
      arg.line arg.column with
    suggestion :=
      if isMathName functionName then
        if actualType = "i32" ∧ expectedType = "f64" then
          "Use " ++ expectedType ++ " literal (e.g., 2.0 instead of 2) or convert with float()."
        else
          "Function '" ++ functionName ++ "' expects " ++ expectedType ++ " but got " ++
            actualType ++ "."
      else if functionName = "int" ∨ functionName = "float" then
        "Type conversion function '" ++ functionName ++ "()' expects " ++ expectedType ++
          " but got " ++ actualType ++ "."
      else
        "Ensure argument " ++ toString (i + 1) ++
          " matches the expected parameter type, or add an explicit type conversion." }

def pureCallError (currentName functionName : String) (i : ExprInfo) : ErrorInfo :=
  { ErrorInfo.mk3 ("Pure function '" ++ currentName ++ "' cannot call function '" ++
      functionName ++ "' which has side effects") i.line i.column with
    suggestion := "Either remove the 'pure' keyword from function '" ++ currentName ++
      "', or only call pure functions from within it." }

/-- The `switch (node.op)` of `visit(BinaryOp&)` once both operands have a type. -/
def binaryResult (op : BinOp) (i : ExprInfo) (lt rt : Option TypeKind) (a : SemanticAnalyzer) :
    ExprInfo × SemanticAnalyzer :=
  match op with
  | .ADD | .SUB | .MUL | .DIV | .MOD => (i.withType (getCommonType lt rt), a)
  | .EQ | .NE | .LT | .LE | .GT | .GE => (i.withType (some .BOOL), a)
  | .AND | .OR =>
    (i.withType (some .BOOL),
      if lt ≠ some .BOOL ∨ rt ≠ some .BOOL then a.pushError (logicalOperandError i) else a)
  | .BIT_AND | .BIT_OR | .BIT_XOR | .SHL | .SHR => (i.withType (getCommonType lt rt), a)

/-- The `switch (node.op)` of `visit(UnaryOp&)` once the operand has a type. -/
def unaryResult (op : UnOp) (i : ExprInfo) (t : Option TypeKind) (a : SemanticAnalyzer) :
    ExprInfo × SemanticAnalyzer :=
  match op with
  | .NEG => (i.withType t, a)
  | .NOT => (i.withType (some .BOOL), if t ≠ some .BOOL then a.pushError (logicalNotError i) else a)
  | .BIT_NOT => (i.withType t, a)

mutual
/-- The `visit` methods of the expression classes: the node with its `type`
assigned and the analyzer after the visit. -/
def visitExpression : Expression → SemanticAnalyzer → Expression × SemanticAnalyzer
  | .IntegerLiteral i v, a => (.IntegerLiteral i v, a)
  | .FloatLiteral i v, a => (.FloatLiteral i v, a)
  | .StringLiteral i v, a => (.StringLiteral i v, a)
  | .BoolLiteral i v, a => (.BoolLiteral i v, a)
  | .Identifier i name, a =>
    match a.lookupVariable name with
    | none => (.Identifier (i.withType (some .I32)) name, a.pushError (undefinedVariableError name i))
    | some symbol =>
      (.Identifier (i.withType (some symbol.type)) name,
        if symbol.isPureLocal && a.inNonPure then
          a.pushError (pureLocalAccessError name a.currentName i)
        else a)
  | .BinaryOp i op left right, a =>
    match visitExpression left a with
    | (left1, a1) =>
      match visitExpression right a1 with
      | (right1, a2) =>
        if left1.type.isNone || right1.type.isNone then (.BinaryOp i op left1 right1, a2)
        else
          match binaryResult op i left1.type right1.type a2 with
          | (i1, a3) => (.BinaryOp i1 op left1 right1, a3)
  | .UnaryOp i op operand, a =>
    match visitExpression operand a with
    | (operand1, a1) =>
      if operand1.type.isNone then (.UnaryOp i op operand1, a1)
      else
        match unaryResult op i operand1.type a1 with
        | (i1, a2) => (.UnaryOp i1 op operand1, a2)
  | .CallExpr i functionName arguments, a =>
    match a.lookupFunction functionName with
    | none =>
      (.CallExpr (i.withType (some .VOID)) functionName arguments,
        a.pushError (undefinedFunctionError functionName i))
    | some funcInfo =>
      if arguments.length ≠ funcInfo.paramTypes.length then
        (.CallExpr (i.withType funcInfo.returnType) functionName arguments,
          a.pushError (argumentCountError functionName funcInfo.paramTypes.length
            arguments.length i))
      else
        match visitArguments functionName funcInfo.paramTypes 0 arguments a with
        | (arguments1, a1) =>
          let a2 := if a1.inPure && funcInfo.hasSideEffects then
              a1.pushError (pureCallError a1.currentName functionName i)
            else a1
          let a3 := if funcInfo.hasSideEffects then a2.markSideEffect else a2
          (.CallExpr (i.withType funcInfo.returnType) functionName arguments1, a3)
/-- The loop over `node.arguments` in `visit(CallExpr&)`, from index `i` on. -/
def visitArguments (functionName : String) (paramTypes : List TypeKind) :
    Nat → List Expression → SemanticAnalyzer → List Expression × SemanticAnalyzer
  | _, [], a => ([], a)
  | i, arg :: rest, a =>
    match visitExpression arg a with
    | (arg1, a1) =>
      let a2 := if arg1.type.isSome && !typesMatch (paramTypes.get? i) arg1.type then
          a1.pushError (argumentTypeError functionName i (typeToString (paramTypes.get? i))
            (typeToString arg1.type) arg1.info)
        else a1
      match visitArguments functionName paramTypes (i + 1) rest a2 with
      | (rest1, a3) => (arg1 :: rest1, a3)
end

/-- The suggestion attached to a type mismatch in a variable initialization. -/
def initializerSuggestion (initType expectedType : String) : String :=
  if initType = "i32" ∧ expectedType = "i64" then
    "Change the variable type to 'i32', or cast the value to i64"
  else if initType = "i64" ∧ expectedType = "i32" then
    "Change the variable type to 'i64', or ensure the value fits in i32 range"
  else
    "Change the variable type to '" ++ initType ++ "' or provide a value of type '" ++
      expectedType ++ "'"

/-- The test `!scopes.empty() && scopes.back().find(name) != scopes.back().end()`. -/
def SemanticAnalyzer.declaredInCurrentScope (a : SemanticAnalyzer) (name : String) : Bool :=
  match a.scopes with
  | [] => false
  | top :: _ => (mapFind name top).isSome

/-- The method `visit(VariableDecl&)`. -/
def visitVariableDecl (node : VariableDecl) (a : SemanticAnalyzer) :
    VariableDecl × SemanticAnalyzer :=
  if a.declaredInCurrentScope node.name then
    (node, a.error ("Variable '" ++ node.name ++ "' already declared in this scope")
      node.line node.column)
  else
    let symbol : Symbol := { name := node.name, type := node.varType,
                             isMutable := node.isMutable, isPureLocal := node.isPureLocal,
                             isParameter := false }
    match node.initializer with
    | none => (node, a.declareVariable node.name symbol)
    | some initializer =>
      match visitExpression initializer a with
      | (init1, a1) =>
        let a2 := if init1.type.isSome && !typesMatch (some node.varType) init1.type then
            (a1.error ("Type mismatch in variable initialization: expected " ++
              typeToString (some node.varType) ++ ", got " ++ typeToString init1.type)
              node.line node.column).suggest
              (initializerSuggestion (typeToString init1.type) (typeToString (some node.varType)))
          else a1
        ({ node with initializer := some init1 }, a2.declareVariable node.name symbol)

/-- The statement `modifiedVariables.insert(name)`. -/
def setInsert (name : String) (set : List String) : List String :=
  if name ∈ set then set else set ++ [name]

/-- The method `visit(Assignment&)` after the lookup of the target succeeded. -/
def assignmentChecks (a : SemanticAnalyzer) (symbol : Symbol) (name : String)
    (line column : Int) : SemanticAnalyzer :=
  let a1 := if !symbol.isMutable && !symbol.isParameter then
      (a.error ("Cannot assign to immutable variable '" ++ name ++ "'") line column).suggest
        ("Declare the variable as mutable with 'let mut " ++ name ++
          ": <type>' instead of 'let " ++ name ++ ": <type>'")
    else a
  if symbol.isPureLocal && a1.inNonPure then
    (a1.error ("Cannot modify pure_local variable '" ++ name ++ "' in non-pure function")
      line column).suggest
      "Pure_local variables can only be modified by pure functions. Mark this function as 'pure fn' or use a regular variable"
  else a1

mutual
/-- The `visit` methods of the statement classes. -/
def visitStatement : Statement → SemanticAnalyzer → Statement × SemanticAnalyzer
  | .VariableDecl decl, a =>
    match visitVariableDecl decl a with
    | (decl1, a1) => (.VariableDecl decl1, a1)
  | .Assignment line column name value, a =>
    match a.lookupVariable name with
    | none =>
      (.Assignment line column name value,
        (a.error ("Undefined variable '" ++ name ++ "'") line column).suggest
          ("Make sure '" ++ name ++ "' is declared before use, or check for typos"))
    | some symbol =>
      match visitExpression value (assignmentChecks a symbol name line column) with
      | (value1, a1) =>
        let a2 := if value1.type.isSome && !typesMatch (some symbol.type) value1.type then
            (a1.error ("Type mismatch in assignment to '" ++ name ++ "': expected " ++
              typeToString (some symbol.type) ++ ", got " ++ typeToString value1.type)
              line column).suggest
              ("Ensure the assigned value matches the variable's type '" ++
                typeToString (some symbol.type) ++ "'")
          else a1
        (.Assignment line column name value1,
          { a2.markSideEffect with modifiedVariables := setInsert name a2.modifiedVariables })
  | .ReturnStmt line column value, a =>
    match a.current with
    | none =>
      (.ReturnStmt line column value,
        (a.error "Return statement outside of function" line column).suggest
          "Return statements can only be used inside functions")
    | some currentFunction =>
      match value with
      | some value =>
        match visitExpression value a with
        | (value1, a1) =>
          (.ReturnStmt line column (some value1),
            if value1.type.isSome && !typesMatch currentFunction.returnType value1.type then
              (a1.error ("Return type mismatch: expected " ++
                typeToString currentFunction.returnType ++ ", got " ++ typeToString value1.type)
                line column).suggest
                ("Change the return value to type '" ++ typeToString currentFunction.returnType ++
                  "', or change the function's return type to '" ++ typeToString value1.type ++ "'")
            else a1)
      | none =>
        (.ReturnStmt line column none,
          if currentFunction.returnType ≠ some .VOID then
            (a.error ("Function expects return value of type " ++
              typeToString currentFunction.returnType) line column).suggest
              "Add a return value: 'return <value>', or change function return type to 'void'"
          else a)
  | .IfStmt line column condition thenBody elseBody, a =>
    match visitExpression condition a with
    | (condition1, a1) =>
      let a2 := if condition1.type.isSome && condition1.type ≠ some .BOOL then
          a1.warning "If condition should be of type bool" (-1) (-1)
        else a1
      match visitStatements thenBody a2 with
      | (thenBody1, a3) =>
        match visitStatements elseBody a3 with
        | (elseBody1, a4) => (.IfStmt line column condition1 thenBody1 elseBody1, a4)
  | .WhileStmt line column condition body, a =>
    match visitExpression condition a with
    | (condition1, a1) =>
      let a2 := if condition1.type.isSome && condition1.type ≠ some .BOOL then
          a1.warning "While condition should be of type bool" (-1) (-1)
        else a1
      match visitStatements body a2 with
      | (body1, a3) => (.WhileStmt line column condition1 body1, a3)
  | .ExprStmt line column expression, a =>
    match visitExpression expression a with
    | (expression1, a1) => (.ExprStmt line column expression1, a1)
/-- The loops `for (auto& stmt : body) stmt->accept(*this)`. -/
def visitStatements : List Statement → SemanticAnalyzer → List Statement × SemanticAnalyzer
  | [], a => ([], a)
  | stmt :: rest, a =>
    match visitStatement stmt a with
    | (stmt1, a1) =>
      match visitStatements rest a1 with
      | (rest1, a2) => (stmt1 :: rest1, a2)
end

/-- The default constructor `FunctionInfo()`, used by `functions[name]` when the
name has no entry yet. -/
def FunctionInfo.default : FunctionInfo :=
  { name := "", returnType := none, paramTypes := [], isPure := false, hasSideEffects := false }

/-- The expression `functions[name]` as an lvalue: makes sure the entry exists. -/
def touchFunction (name : String) (functions : List (String × FunctionInfo)) :
    List (String × FunctionInfo) :=
  match mapFind name functions with
  | some _ => functions
  | none => mapInsert name FunctionInfo.default functions

/-- The statement `currentFunction->hasSideEffects = value`. -/
def setHasSideEffects (key : String) (value : Bool) :
    List (String × FunctionInfo) → List (String × FunctionInfo)
  | [] => []
  | (k, f) :: rest =>
    if k = key then (k, { f with hasSideEffects := value }) :: rest
    else (k, f) :: setHasSideEffects key value rest

/-- The loop that declares the parameters in `visit(FunctionDecl&)`. -/
def declareParameters : List Parameter → SemanticAnalyzer → SemanticAnalyzer
  | [], a => a
  | param :: rest, a =>
    declareParameters rest (a.declareVariable param.name
      { name := param.name, type := param.type, isMutable := false, isPureLocal := false,
        isParameter := true })

/-- The first half of `visit(FunctionDecl&)`: the analyzer on entry to the body. -/
def enterFunction (node : FunctionDecl) (a : SemanticAnalyzer) : SemanticAnalyzer :=
  declareParameters node.parameters
    (SemanticAnalyzer.pushScope
      { a with functions := touchFunction node.name a.functions,
               currentFunction := some node.name,
               currentFunctionHasSideEffects := false,
               modifiedVariables := [] })

/-- The second half of `visit(FunctionDecl&)`, after the walk over the body. -/
def leaveFunction (node : FunctionDecl) (a : SemanticAnalyzer) : SemanticAnalyzer :=
  let a1 := if node.isPure && a.currentFunctionHasSideEffects then
      a.error ("Pure function '" ++ node.name ++ "' has side effects") node.line node.column
    else a
  let a2 := { a1 with
    functions := setHasSideEffects node.name a1.currentFunctionHasSideEffects a1.functions }
  { a2.popScope with currentFunction := none }

/-- The method `visit(FunctionDecl&)`. -/
def visitFunctionDecl (node : FunctionDecl) (a : SemanticAnalyzer) :
    FunctionDecl × SemanticAnalyzer :=
  match visitStatements node.body (enterFunction node a) with
  | (body1, a1) => ({ node with body := body1 }, leaveFunction node a1)

/-- The statements `functions[key] = info` that register the built-ins. -/
def registerBuiltins (functions : List (String × FunctionInfo)) : List (String × FunctionInfo) :=
  builtins.foldl (fun fs entry => mapInsert entry.1 entry.2 fs) functions

/-- One turn of the first pass of `visit(Program&)`. -/
def collectSignature (func : FunctionDecl) (a : SemanticAnalyzer) : SemanticAnalyzer :=
  let info : FunctionInfo :=
    { name := func.name, returnType := some func.returnType,
      paramTypes := func.parameters.map (fun param => param.type), isPure := func.isPure,
      hasSideEffects := false }
  match mapFind func.name a.functions with
  | some _ => a.error ("Function '" ++ func.name ++ "' already declared") func.line func.column
  | none => { a with functions := mapInsert func.name info a.functions }

/-- The first pass of `visit(Program&)`. -/
def collectSignatures : List FunctionDecl → SemanticAnalyzer → SemanticAnalyzer
  | [], a => a
  | func :: rest, a => collectSignatures rest (collectSignature func a)

/-- The loop over `node.globals` in `visit(Program&)`. -/
def visitGlobals : List VariableDecl → SemanticAnalyzer → List VariableDecl × SemanticAnalyzer
  | [], a => ([], a)
  | g :: rest, a =>
    match visitVariableDecl g a with
    | (g1, a1) =>
      match visitGlobals rest a1 with
      | (rest1, a2) => (g1 :: rest1, a2)

/-- The second pass of `visit(Program&)`. -/
def visitFunctions : List FunctionDecl → SemanticAnalyzer → List FunctionDecl × SemanticAnalyzer
  | [], a => ([], a)
  | f :: rest, a =>
    match visitFunctionDecl f a with
    | (f1, a1) =>
      match visitFunctions rest a1 with
      | (rest1, a2) => (f1 :: rest1, a2)

/-- The method `visit(Program&)`. -/
def visitProgram (node : Program) (a : SemanticAnalyzer) : Program × SemanticAnalyzer :=
  let a1 := a.pushScope
  let a2 := { a1 with functions := registerBuiltins a1.functions }
  let a3 := collectSignatures node.functions a2
  match visitGlobals node.globals a3 with
  | (globals1, a4) =>
    match visitFunctions node.functions a4 with
    | (functions1, a5) => ({ functions := functions1, globals := globals1 }, a5.popScope)

/-- The method `SemanticAnalyzer::analyze`: its result, the program with the
types the visit assigned, and the analyzer afterwards. -/
def SemanticAnalyzer.analyze (a : SemanticAnalyzer) (program : Program) :
    Bool × Program × SemanticAnalyzer :=
  match visitProgram program { a with errors := [], warnings := [] } with
  | (program1, a1) => (a1.errors.isEmpty, program1, a1)

/-- The call `analyze(program)` on a freshly constructed analyzer. -/
def analyze (program : Program) : Bool × Program × SemanticAnalyzer :=
  SemanticAnalyzer.new.analyze program

/-- What `main` gets from the front end: the errors of the parser and, when
there are none, the result of `analyze` with the four diagnostic lists. -/
structure Outcome where
  parseErrors : List String
  success : Bool
  errors : List String
  structuredErrors : List ErrorInfo
  warnings : List String
  structuredWarnings : List ErrorInfo
  deriving DecidableEq, Repr

/-- The front end as `main` chains it: `tokenize`, `parse` and, when the parser
reports no error, `analyze` on a fresh analyzer (`success` is false when the
analyzer is not reached).  Answers `none` when the parser does not return within
the fuel.  The FLOAT tokens of the source are taken to be texts that `std::stod`
converts (`stodThrows` is empty); `parse_converting` shows that `parse` then
gives the same program and the same errors whatever the other texts are on
which `std::stod` throws. -/
def compile (fuel : Nat) (junkIsNewline : Bool) (source : String) : Option Outcome :=
  match tokenize source.toList with
  | none => none
  | some tokens =>
    match parse fuel tokens junkIsNewline [] with
    | none => none
    | some (program, parser) =>
      if parser.errors.isEmpty then
        match analyze program with
        | (success, _, a) =>
          some { parseErrors := [], success := success, errors := a.errors,
                 structuredErrors := a.structuredErrors, warnings := a.warnings,
                 structuredWarnings := a.structuredWarnings }
      else
        some { parseErrors := parser.errors, success := false, errors := [],
               structuredErrors := [], warnings := [], structuredWarnings := [] }

/-! ## Vocabulary of the statements -/

/-- The number of tokens of type `t` in a token list. -/
def countType (t : TokenType) (tokens : List Token) : Nat :=
  tokens.countP (fun tok => tok.type = t)

/-- A token type other than the three the lexer emits for structure only. -/
def TokenType.plain (t : TokenType) : Prop :=
  t ≠ .INDENT ∧ t ≠ .DEDENT ∧ t ≠ .END_OF_FILE

instance (t : TokenType) : Decidable t.plain := by
  unfold TokenType.plain
  infer_instance

/-- The loop state `s1` extends `s` by plain tokens and keeps the indentation stack. -/
def LexLoop.Extends (s s1 : LexLoop) : Prop :=
  s1.lexer.indentStack = s.lexer.indentStack ∧
  ∃ new, s1.tokens = s.tokens ++ new ∧ ∀ t ∈ new, t.type.plain

/-- The invariant of the loop of `tokenize`: the stack sits on its initial 0, every
`INDENT` not yet closed by a `DEDENT` is a level of the stack, and no
`END_OF_FILE` has been emitted. -/
def LexLoop.Inv (s : LexLoop) : Prop :=
  (∃ rest, s.lexer.indentStack = rest ++ [0]) ∧
  countType .INDENT s.tokens + 1 = countType .DEDENT s.tokens + s.lexer.indentStack.length ∧
  ∀ t ∈ s.tokens, t.type ≠ .END_OF_FILE

/-- What one pass of the loop body guarantees: plain tokens only, the stack
untouched, and at least one character consumed when the loop goes on. -/
def LexIter.OK (s : LexLoop) : LexIter → Prop
  | .again s1 => s.Extends s1 ∧ s1.lexer.source.length < s.lexer.source.length
  | .stop s1 => s.Extends s1

/-- What one pass of the loop body does to the invariant: it is kept, and the
unread source shrinks when the loop goes on. -/
def LexIter.Keeps (s : LexLoop) : LexIter → Prop
  | .again s1 => s1.Inv ∧ s1.lexer.source.length < s.lexer.source.length
  | .stop s1 => s1.Inv


/-- The tokens of the one-word source `if`. -/
def ifTokens : List Token :=
  [{ type := .IF, value := "if", line := 1, column := 1 },
   { type := .END_OF_FILE, value := "", line := 1, column := 3 }]

/-- The analyzer `r` differs from `a` at most in the structured errors and the
side-effect flag: what the visit of an expression may touch. -/
def SemanticAnalyzer.Frame (a r : SemanticAnalyzer) : Prop :=
  r.scopes = a.scopes ∧ r.functions = a.functions ∧ r.currentFunction = a.currentFunction ∧
  r.errors = a.errors ∧ r.warnings = a.warnings ∧
  r.structuredWarnings = a.structuredWarnings ∧ r.modifiedVariables = a.modifiedVariables

mutual
/-- Every call in the expression whose callee is in the table `fs` names a function
whose `hasSideEffects` is not set. -/
def Expression.callsClean (fs : List (String × FunctionInfo)) : Expression → Bool
  | .IntegerLiteral _ _ => true
  | .FloatLiteral _ _ => true
  | .StringLiteral _ _ => true
  | .BoolLiteral _ _ => true
  | .Identifier _ _ => true
  | .BinaryOp _ _ left right => left.callsClean fs && right.callsClean fs
  | .UnaryOp _ _ operand => operand.callsClean fs
  | .CallExpr _ functionName arguments =>
    (match mapFind functionName fs with
      | some info => !info.hasSideEffects
      | none => true) && callsCleanList fs arguments
/-- The same for a list of expressions. -/
def callsCleanList (fs : List (String × FunctionInfo)) : List Expression → Bool
  | [] => true
  | e :: rest => e.callsClean fs && callsCleanList fs rest
end

mutual
/-- The statement contains no assignment, and every call in it whose callee is in
the table `fs` names a function whose `hasSideEffects` is not set. -/
def Statement.sideEffectFree (fs : List (String × FunctionInfo)) : Statement → Bool
  | .VariableDecl decl =>
    match decl.initializer with
    | none => true
    | some e => e.callsClean fs
  | .Assignment _ _ _ _ => false
  | .ReturnStmt _ _ none => true
  | .ReturnStmt _ _ (some e) => e.callsClean fs
  | .IfStmt _ _ condition thenBody elseBody =>
    condition.callsClean fs && sideEffectFreeList fs thenBody && sideEffectFreeList fs elseBody
  | .WhileStmt _ _ condition body => condition.callsClean fs && sideEffectFreeList fs body
  | .ExprStmt _ _ e => e.callsClean fs
/-- The same for a list of statements. -/
def sideEffectFreeList (fs : List (String × FunctionInfo)) : List Statement → Bool
  | [] => true
  | st :: rest => st.sideEffectFree fs && sideEffectFreeList fs rest
end

/-- What the visit of a statement keeps: the function table, the current
function, and a side-effect flag that is already set. -/
def SemanticAnalyzer.Keeps (a r : SemanticAnalyzer) : Prop :=
  r.functions = a.functions ∧ r.currentFunction = a.currentFunction ∧
  (a.currentFunctionHasSideEffects = true → r.currentFunctionHasSideEffects = true)

mutual
/-- The number of identifier nodes named `name` in the expression: its reads
of the variable. -/
def Expression.reads (name : String) : Expression → Nat
  | .IntegerLiteral _ _ => 0
  | .FloatLiteral _ _ => 0
  | .StringLiteral _ _ => 0
  | .BoolLiteral _ _ => 0
  | .Identifier _ n => if n = name then 1 else 0
  | .BinaryOp _ _ left right => left.reads name + right.reads name
  | .UnaryOp _ _ operand => operand.reads name
  | .CallExpr _ _ arguments => readsList name arguments
/-- The same for a list of expressions. -/
def readsList (name : String) : List Expression → Nat
  | [] => 0
  | e :: rest => e.reads name + readsList name rest
end

mutual
/-- Every call in the expression names a function of the table `fs` and passes as
many arguments as that function has parameters, so that the analyzer visits
the arguments. -/
def Expression.callsResolve (fs : List (String × FunctionInfo)) : Expression → Bool
  | .IntegerLiteral _ _ => true
  | .FloatLiteral _ _ => true
  | .StringLiteral _ _ => true
  | .BoolLiteral _ _ => true
  | .Identifier _ _ => true
  | .BinaryOp _ _ left right => left.callsResolve fs && right.callsResolve fs
  | .UnaryOp _ _ operand => operand.callsResolve fs
  | .CallExpr _ functionName arguments =>
    (match mapFind functionName fs with
      | some info => decide (arguments.length = info.paramTypes.length)
      | none => false) && callsResolveList fs arguments
/-- The same for a list of expressions. -/
def callsResolveList (fs : List (String × FunctionInfo)) : List Expression → Bool
  | [] => true
  | e :: rest => e.callsResolve fs && callsResolveList fs rest
end

/-- The message of the error `visit(Identifier&)` records for a read of a
`pure_local` variable in a function that is not pure. -/
def accessMessage (name : String) : String :=
  "Cannot access pure_local variable '" ++ name ++ "' in non-pure function"

/-- The number of structured errors that report a read of the `pure_local`
variable `name`. -/
def countAccess (name : String) (errs : List ErrorInfo) : Nat :=
  errs.countP (fun e => e.message = accessMessage name)

/-- The message of the error `visit(Assignment&)` records for a write to a
`pure_local` variable in a function that is not pure. -/
def modifyMessage (name : String) : String :=
  "Cannot modify pure_local variable '" ++ name ++ "' in non-pure function"

/-- The front end answers `outcome` on `source` whatever an out-of-bounds read of
the parser yields. -/
def compilesTo (fuel : Nat) (source : String) (outcome : Outcome) : Prop :=
  ∀ junkIsNewline : Bool, compile fuel junkIsNewline source = some outcome

instance (fuel : Nat) (source : String) (outcome : Outcome) :
    Decidable (compilesTo fuel source outcome) := by
  unfold compilesTo
  infer_instance

/-- The analyzer after the built-ins are registered in the global scope, before
any declaration of a program is visited. -/
def withBuiltins : SemanticAnalyzer :=
  { SemanticAnalyzer.new.pushScope with functions := registerBuiltins [] }

/-- The global `let pure_local counter: i32 = 0`. -/
def counterDecl : VariableDecl :=
  { line := 1, column := 16, name := "counter", varType := .I32,
    initializer := some (.IntegerLiteral (literalInfo .I32) 0), isMutable := false,
    isPureLocal := true }

/-- The function `fn bump() -> void:` with the body `counter = counter + 1`. -/
def bumpDecl : FunctionDecl :=
  { line := 2, column := 4, name := "bump", parameters := [], returnType := .VOID,
    body := [.Assignment 3 5 "counter"
      (.BinaryOp ExprInfo.fresh .ADD (.Identifier ExprInfo.fresh "counter")
        (.IntegerLiteral (literalInfo .I32) 1))],
    isPure := false }

/-- The analyzer on entry to the body of `bump`, after the first pass and the
visit of the global `counter`. -/
def inBump : SemanticAnalyzer :=
  enterFunction bumpDecl
    (visitVariableDecl counterDecl (collectSignatures [bumpDecl] withBuiltins)).2

/-- The symbol of the global `counter`. -/
def counterSymbol : Symbol :=
  { name := "counter", type := .I32, isMutable := false, isPureLocal := true,
    isParameter := false }

/-- The function `pure fn f() -> i32:` with the body `return 0`. -/
def pureLeaf : FunctionDecl :=
  { line := 1, column := 9, name := "f", parameters := [], returnType := .I32,
    body := [.ReturnStmt 2 5 (some (.IntegerLiteral (literalInfo .I32) 0))], isPure := true }

/-- The source of the hello-world scenario, its three lines ended by line feeds. -/
def helloSource : String :=
  "fn main() -> i32:\n    print_str(\"hi\")\n    return 0\n"

/-- The tree the parser builds for `helloSource`. -/
def helloProgram : Program :=
  { functions :=
      [{ line := 1, column := 4, name := "main", parameters := [], returnType := .I32,
         body := [.ExprStmt 0 0 (.CallExpr ExprInfo.fresh "print_str"
                                   [.StringLiteral (literalInfo .STR) "hi"]),
                  .ReturnStmt 3 5 (some (.IntegerLiteral (literalInfo .I32) 0))],
         isPure := false }],
    globals := [] }

/-- The operators of two characters with the token type of each. -/
def twoCharOperators : List (String × TokenType) :=
  [("->", .ARROW), ("==", .EQUAL), ("!=", .NOT_EQUAL), ("<=", .LESS_EQUAL),
   (">=", .GREATER_EQUAL), ("<<", .SHIFT_LEFT), (">>", .SHIFT_RIGHT), ("&&", .AND),
   ("||", .OR)]

/-- A lexer before the text `x` of a line, with the indentation stack
`[4, 2, 0]` (top first). -/
def indentedLexer : Lexer :=
  { source := ['x'], line := 3, column := 2, indentStack := [4, 2, 0] }

/-- One element of the text between the quotes of a string literal: a character
that stands for itself, or a backslash followed by a character. -/
inductive StringItem
  | plain (c : Char)
  | escape (c : Char)
  deriving DecidableEq, Repr

/-- The source text of an element. -/
def StringItem.text : StringItem → List Char
  | .plain c => [c]
  | .escape c => [backslash, c]

/-- The character an element stands for, in the words of the specification:
`\n`, `\t`, `\r`, `\\`, `\"` and `\'` are newline, tab, carriage return,
backslash, double quote and single quote, and any other `\x` is `x`. -/
def StringItem.decoded : StringItem → Char
  | .plain c => c
  | .escape c =>
    if c = 'n' then lf
    else if c = 't' then tab
    else if c = 'r' then cr
    else if c = backslash then backslash
    else if c = dquote then dquote
    else if c = squote then squote
    else c

/-- An element may stand inside a literal delimited by `quote`: a plain
character is neither the delimiter nor a backslash. -/
def StringItem.fits (quote : Char) : StringItem → Bool
  | .plain c => c != quote && c != backslash
  | .escape _ => true

/-- The source text of a sequence of elements. -/
def stringText (items : List StringItem) : List Char :=
  (items.map StringItem.text).flatten

/-- The value a sequence of elements stands for. -/
def stringValue (items : List StringItem) : String :=
  String.mk (items.map StringItem.decoded)

deriving instance DecidableEq for Res

/-- A level of binary operators in the expression grammar: the method of the
parser for it, the operator tokens it accepts with the tree operator of each,
and the method that parses its operands. -/
structure Level where
  method : Nat → PM Expression
  ops : List (TokenType × BinOp)
  operand : Nat → PM Expression

/-- The ten levels of binary operators, from `parseLogicalOr` to `parseFactor`. -/
def levels : List Level :=
  [⟨parseLogicalOr, [(.OR, .OR)], parseLogicalAnd⟩,
   ⟨parseLogicalAnd, [(.AND, .AND)], parseBitwiseOr⟩,
   ⟨parseBitwiseOr, [(.BITWISE_OR, .BIT_OR)], parseBitwiseXor⟩,
   ⟨parseBitwiseXor, [(.BITWISE_XOR, .BIT_XOR)], parseBitwiseAnd⟩,
   ⟨parseBitwiseAnd, [(.BITWISE_AND, .BIT_AND)], parseEquality⟩,
   ⟨parseEquality, [(.EQUAL, .EQ), (.NOT_EQUAL, .NE)], parseComparison⟩,
   ⟨parseComparison,
     [(.LESS, .LT), (.LESS_EQUAL, .LE), (.GREATER, .GT), (.GREATER_EQUAL, .GE)], parseShift⟩,
   ⟨parseShift, [(.SHIFT_LEFT, .SHL), (.SHIFT_RIGHT, .SHR)], parseTerm⟩,
   ⟨parseTerm, [(.PLUS, .ADD), (.MINUS, .SUB)], parseFactor⟩,
   ⟨parseFactor, [(.MULTIPLY, .MUL), (.DIVIDE, .DIV), (.MODULO, .MOD)], parseUnary⟩]

/-- The parser reads a chain `op₁ e₁ op₂ e₂ … opₙ eₙ` from the state `p` on: an
operator of `ops` is matched and `operand` answers `eᵢ`, `n` times over, and
then no operator of `ops` matches; `q` is the state reached. -/
inductive Chain (ops : List (TokenType × BinOp)) (operand : PM Expression) :
    Parser → List (BinOp × Expression) → Parser → Prop
  | done {p q : Parser} : matchOp ops p = .ok none q → Chain ops operand p [] q
  | step {p p1 p2 q : Parser} {op : BinOp} {e : Expression} {rest : List (BinOp × Expression)} :
    matchOp ops p = .ok (some op) p1 → operand p1 = .ok e p2 → Chain ops operand p2 rest q →
    Chain ops operand p ((op, e) :: rest) q

/-- The left-nested tree `((e₀ op₁ e₁) op₂ e₂) … opₙ eₙ`. -/
def leftNested (e0 : Expression) (chain : List (BinOp × Expression)) : Expression :=
  chain.foldl (fun acc x => .BinaryOp ExprInfo.fresh x.1 acc x.2) e0

/-- The three tests at the head of `parseUnary`: the prefix operator whose token
is matched, if any. -/
def prefixOp : PM (Option UnOp) := do
  if (← matchToken .MINUS) then pure (some .NEG)
  else if (← matchToken .NOT) then pure (some .NOT)
  else if (← matchToken .BITWISE_NOT) then pure (some .BIT_NOT)
  else pure none

/-- The parser reads the prefix operators `ops` from the state `p` on and then
finds no further prefix operator; `q` is the state reached. -/
inductive PrefixRun : Parser → List UnOp → Parser → Prop
  | done {p q : Parser} : prefixOp p = .ok none q → PrefixRun p [] q
  | step {p p1 q : Parser} {op : UnOp} {rest : List UnOp} :
    prefixOp p = .ok (some op) p1 → PrefixRun p1 rest q → PrefixRun p (op :: rest) q

/-- The right-nested tree `op₁ (op₂ (… (opₙ e)))`. -/
def rightNested (ops : List UnOp) (e : Expression) : Expression :=
  ops.foldr (fun op acc => .UnaryOp ExprInfo.fresh op acc) e

/-- The tree `parseExpression` builds for a source text, when it reads the whole
text without recording an error and without an out-of-bounds read.  The FLOAT
tokens of the source are taken to be texts that `std::stod` converts. -/
def parseSource (fuel : Nat) (junkIsNewline : Bool) (source : String) : Option Expression :=
  match tokenize source.toList with
  | none => none
  | some tokens =>
    match parseExpression fuel (Parser.new tokens junkIsNewline []) with
    | .ok e p => if p.isAtEnd ∧ p.errors = [] ∧ p.outOfBounds = false then some e else none
    | _ => none

/-- The node of an identifier as the parser builds it. -/
def ident (name : String) : Expression := .Identifier ExprInfo.fresh name

/-- The node of a binary operation as the parser builds it. -/
def binary (op : BinOp) (left right : Expression) : Expression :=
  .BinaryOp ExprInfo.fresh op left right

/-- The node of a unary operation as the parser builds it. -/
def unary (op : UnOp) (operand : Expression) : Expression :=
  .UnaryOp ExprInfo.fresh op operand

/-- The tokens of `a - b - c`. -/
def minusTokens : List Token :=
  [⟨.IDENTIFIER, "a", 1, 1⟩, ⟨.MINUS, "-", 1, 3⟩, ⟨.IDENTIFIER, "b", 1, 5⟩, ⟨.MINUS, "-", 1, 7⟩,
   ⟨.IDENTIFIER, "c", 1, 9⟩, ⟨.END_OF_FILE, "", 1, 10⟩]

/-- The parser on `minusTokens` at position `current`, without an error. -/
def minusAt (current : Nat) : Parser :=
  { tokens := minusTokens, current := current, errors := [], junkIsNewline := false,
    outOfBounds := false, stodThrows := [] }

/-- The operator tables of the ten binary levels, lowest level first: `||`,
`&&`, `|`, `^`, `&`, equality, comparison, shift, additive, multiplicative. -/
def levelOps : List (List (TokenType × BinOp)) := levels.map Level.ops

/-- The methods of the levels `tables` chained as the parser chains them: each
level parses its operands with the next one, the last with `parseUnary`. -/
def climb : List (List (TokenType × BinOp)) → Nat → PM Expression
  | [], fuel => parseUnary fuel
  | _ :: _, 0 => outOfFuel
  | ops :: rest, fuel + 1 => do
    let expr ← climb rest fuel
    binaryLoop ops (climb rest fuel) fuel expr

/-- The parser `p` moved to the position `current`. -/
def Parser.moveTo (p : Parser) (current : Nat) : Parser := { p with current := current }

/-- A parser at position `current` of six tokens: three operands separated by
two operators and followed by the end of the input. -/
def threeOperands (a op1 b op2 c last : Token) (junkIsNewline : Bool) (current : Nat) : Parser :=
  (Parser.new [a, op1, b, op2, c, last] junkIsNewline []).moveTo current

/-- The prefix operators: the token of each and its tree operator. -/
def prefixOps : List (TokenType × UnOp) :=
  [(.MINUS, .NEG), (.NOT, .NOT), (.BITWISE_NOT, .BIT_NOT)]

/-- A parser at position `current` of five tokens: a prefix operator, an
operand, a binary operator, an operand and the end of the input. -/
def prefixedOperand (u a op b last : Token) (junkIsNewline : Bool) (current : Nat) : Parser :=
  (Parser.new [u, a, op, b, last] junkIsNewline []).moveTo current

/-- The parser has not moved past an `INVALID` token without recording an
error: an error is recorded, or no token before the position is `INVALID`. -/
def Parser.Sound (p : Parser) : Prop :=
  p.errors ≠ [] ∨
    ∀ (i : Nat) (t : Token), i < p.current → p.tokens.get? i = some t → t.type ≠ .INVALID

/-- What every run of parser methods from `p` to `q` keeps: the tokens are the
same, a recorded error stays recorded, and `Sound` is kept. -/
def Parser.Step (p q : Parser) : Prop :=
  q.tokens = p.tokens ∧ (p.errors ≠ [] → q.errors ≠ []) ∧ (p.Sound → q.Sound)

/-- A method keeps `Parser.Step` whether it returns or throws. -/
def PM.Keeps {α : Type} (m : PM α) : Prop :=
  ∀ p : Parser,
    match m p with
    | .ok _ q => p.Step q
    | .thrown _ q => p.Step q
    | .outOfFuel => True

/-- A FLOAT text beyond the largest `double` (about 1.8e308): the digit 1, then
309 zeros, then `.0`.  `strtod` reports a range error on it and `std::stod`
throws `std::out_of_range`. -/
def hugeFloat : String := "1" ++ String.mk (List.replicate 309 '0') ++ ".0"

/-- The tokens of the source `if $`. -/
def ifStrayTokens : List Token :=
  [⟨.IF, "if", 1, 1⟩, ⟨.INVALID, "$", 1, 4⟩, ⟨.END_OF_FILE, "", 1, 5⟩]

/-- A method keeps `Parser.Step` when it starts with an error recorded. -/
def PM.KeepsAfterError {α : Type} (m : PM α) : Prop :=
  ∀ p : Parser, p.errors ≠ [] →
    match m p with
    | .ok _ q => p.Step q
    | .thrown _ q => p.Step q
    | .outOfFuel => True

/-- The tokens of `let x: i32 = 1 $`. -/
def strayTokens : List Token :=
  [⟨.LET, "let", 1, 1⟩, ⟨.IDENTIFIER, "x", 1, 5⟩, ⟨.COLON, ":", 1, 6⟩, ⟨.TYPE_I32, "i32", 1, 8⟩,
   ⟨.ASSIGN, "=", 1, 12⟩, ⟨.INTEGER, "1", 1, 14⟩, ⟨.INVALID, "$", 1, 16⟩,
   ⟨.END_OF_FILE, "", 1, 17⟩]

/-- The program the parser builds from `strayTokens`. -/
def strayProgram : Program :=
  { functions := [],
    globals := [{ line := 1, column := 5, name := "x", varType := .I32,
                  initializer := some (.IntegerLiteral (literalInfo .I32) 1),
                  isMutable := false, isPureLocal := false }] }

/-- The parser after `parse` on `strayTokens`. -/
def strayParser : Parser :=
  { tokens := strayTokens, current := 7,
    errors := ["Error at line 1, column 16: Expected function or global variable declaration"],
    junkIsNewline := false, outOfBounds := false, stodThrows := [] }

/-- The `FunctionInfo info(func->name, func->returnType, func->isPure)` with its
`paramTypes` that the first pass builds for a function. -/
def signatureOf (func : FunctionDecl) : FunctionInfo :=
  { name := func.name, returnType := some func.returnType,
    paramTypes := func.parameters.map (fun param => param.type), isPure := func.isPure,
    hasSideEffects := false }

/-- The text of the error of the first pass for a function whose name is taken. -/
def duplicateMessage (func : FunctionDecl) : String :=
  legacyText "Error" ("Function '" ++ func.name ++ "' already declared") func.line func.column

/-- The visits of the expressions of a list in order: the loop over the arguments
of a call without its comparison of each argument with a parameter type. -/
def visitEach : List Expression → SemanticAnalyzer → List Expression × SemanticAnalyzer
  | [], a => ([], a)
  | e :: rest, a =>
    match visitExpression e a with
    | (e1, a1) =>
      match visitEach rest a1 with
      | (rest1, a2) => (e1 :: rest1, a2)

/-- The entry of the built-in `sqrt`. -/
def sqrtInfo : FunctionInfo :=
  { name := "sqrt", returnType := some .F64, paramTypes := [.F64], isPure := true,
    hasSideEffects := false }

/-- The parser on a source text: the program and the error list that `parse`
leaves on the tokens of the source; `none` when `parse` does not return within
the fuel.  The FLOAT tokens of the source are taken to be texts that `std::stod`
converts (see `parse_converting`). -/
def parseText (fuel : Nat) (junkIsNewline : Bool) (source : String) :
    Option (Program × List String) :=
  ((tokenize source.toList).bind (fun tokens => parse fuel tokens junkIsNewline [])).map
    (fun r => (r.1, r.2.errors))

/-- The analyzer on a source text that parses without error: the result of
`analyze` and the program as the visit leaves it. -/
def analyzeText (fuel : Nat) (junkIsNewline : Bool) (source : String) :
    Option (Bool × Program) :=
  (parseText fuel junkIsNewline source).bind (fun r =>
    if r.2 = [] then some ((analyze r.1).1, (analyze r.1).2.1) else none)

/-- Whether `parse` has read the token vector out of bounds on the tokens of a
source text; `none` when `parse` does not return within the fuel. -/
def readsOutOfBounds (fuel : Nat) (junkIsNewline : Bool) (source : String) : Option Bool :=
  ((tokenize source.toList).bind (fun tokens => parse fuel tokens junkIsNewline [])).map
    (fun r => r.2.outOfBounds)

mutual
/-- Every node of the expression has a non-null `type`. -/
def Expression.typed : Expression → Bool
  | .IntegerLiteral i _ => i.type.isSome
  | .FloatLiteral i _ => i.type.isSome
  | .StringLiteral i _ => i.type.isSome
  | .BoolLiteral i _ => i.type.isSome
  | .Identifier i _ => i.type.isSome
  | .BinaryOp i _ left right => i.type.isSome && left.typed && right.typed
  | .UnaryOp i _ operand => i.type.isSome && operand.typed
  | .CallExpr i _ arguments => i.type.isSome && typedList arguments
/-- The same for a list of expressions. -/
def typedList : List Expression → Bool
  | [] => true
  | e :: rest => e.typed && typedList rest
end

mutual
/-- Every expression node of the statement has a non-null `type`. -/
def Statement.typed : Statement → Bool
  | .VariableDecl decl =>
    match decl.initializer with
    | none => true
    | some e => e.typed
  | .Assignment _ _ _ value => value.typed
  | .ReturnStmt _ _ none => true
  | .ReturnStmt _ _ (some e) => e.typed
  | .IfStmt _ _ condition thenBody elseBody =>
    condition.typed && typedStatements thenBody && typedStatements elseBody
  | .WhileStmt _ _ condition body => condition.typed && typedStatements body
  | .ExprStmt _ _ e => e.typed
/-- The same for a list of statements. -/
def typedStatements : List Statement → Bool
  | [] => true
  | st :: rest => st.typed && typedStatements rest
end

/-- Every expression node of the program has a non-null `type`. -/
def Program.typed (program : Program) : Bool :=
  program.globals.all (fun g => (Statement.VariableDecl g).typed) &&
  program.functions.all (fun f => typedStatements f.body)

/-- The loop state with which one pass of the loop body ends. -/
def LexIter.state : LexIter → LexLoop
  | .again s => s
  | .stop s => s

/-- No token of the list is a `NEWLINE`. -/
def noNewline (tokens : List Token) : Prop := ∀ t ∈ tokens, t.type ≠ .NEWLINE

instance (tokens : List Token) : Decidable (noNewline tokens) := by
  unfold noNewline
  infer_instance

/-- The string `Parser::error` appends for `message` when the parser is in the
state `p`: the position is that of the current token. -/
def errorLine (p : Parser) (message : String) : String :=
  "Error at line " ++ toString (p.peek 0).line ++ ", column " ++
    toString (p.peek 0).column ++ ": " ++ message

/-- A method relates the state it starts in to the state it returns in by `R`,
and to the state it throws in, with the text thrown, by `T`. -/
def PM.Spec {α : Type} (R : Parser → Parser → Prop) (T : Parser → String → Parser → Prop)
    (m : PM α) : Prop :=
  ∀ p : Parser,
    match m p with
    | .ok _ q => R p q
    | .thrown what q => T p what q
    | .outOfFuel => True

/-- A pair of relations for returns and throws that the steps of the parser
respect: moving, flagging an out-of-bounds read that leaves a set flag set, the
`error(message)` followed by `throw`, and the exceptions of `std::stoll` and
`std::stod`. -/
structure Law where
  R : Parser → Parser → Prop
  T : Parser → String → Parser → Prop
  refl : ∀ p, R p p
  trans : ∀ p q r, R p q → R q r → R p r
  comp : ∀ p q what r, R p q → T q what r → T p what r
  flag : ∀ (p : Parser) (b : Bool), (p.outOfBounds = true → b = true) →
    R p { p with outOfBounds := b }
  move : ∀ (p : Parser) (current : Nat), R p { p with current := current }
  raised : ∀ (p : Parser) (message : String),
    T p message { p with errors := p.errors ++ [errorLine p message] }
  library : ∀ (p : Parser) (what : String), what = "stoll" ∨ what = "stod" → T p what p

/-- A method respects the law `L`. -/
def PM.Obeys {α : Type} (L : Law) (m : PM α) : Prop := PM.Spec L.R L.T m

/-- The law of the error list: a method that returns leaves the list as it
was; a method that throws `what` has appended the one string of `error(what)` at
the position where it throws, or it throws the exception of `std::stoll` or of
`std::stod` and has appended nothing. -/
def errorsLaw : Law where
  R := fun p q => q.errors = p.errors
  T := fun p what q =>
    q.errors = p.errors ++ [errorLine q what] ∨
      ((what = "stoll" ∨ what = "stod") ∧ q.errors = p.errors)
  refl := fun _ => rfl
  trans := fun _ _ _ h1 h2 => h2.trans h1
  comp := fun p q what r h1 h2 => by
    rcases h2 with h2 | ⟨hw, h2⟩
    · exact Or.inl (by rw [h2, h1])
    · exact Or.inr ⟨hw, by rw [h2, h1]⟩
  flag := fun _ _ _ => rfl
  move := fun _ _ => rfl
  raised := fun _ _ => Or.inl rfl
  library := fun _ _ hw => Or.inr ⟨hw, rfl⟩

/-- The law of the out-of-bounds flag: once set it stays set. -/
def stickyLaw : Law where
  R := fun p q => p.outOfBounds = true → q.outOfBounds = true
  T := fun p _ q => p.outOfBounds = true → q.outOfBounds = true
  refl := fun _ h => h
  trans := fun _ _ _ h1 h2 h => h2 (h1 h)
  comp := fun _ _ _ _ h1 h2 h => h2 (h1 h)
  flag := fun _ _ hb h => hb h
  move := fun _ _ h => h
  raised := fun _ _ h => h
  library := fun _ _ _ h => h

/-- The text of the error of `parse` for a token that starts no declaration. -/
def topLevelMessage : String := "Expected function or global variable declaration"

/-- The shape of an error list of the parser: it is built from pairs of equal
strings, single strings for a token that starts no declaration, and single
strings for the exceptions of `std::stoll` and `std::stod`. -/
inductive ErrorShape : List String → Prop
  | start : ErrorShape []
  | pair (errors : List String) (s : String) : ErrorShape errors → ErrorShape (errors ++ [s, s])
  | top (errors : List String) (x : Parser) :
    ErrorShape errors → ErrorShape (errors ++ [errorLine x topLevelMessage])
  | library (errors : List String) (x : Parser) :
    ErrorShape errors → ErrorShape (errors ++ [errorLine x "stoll"])
  | conversion (errors : List String) (x : Parser) :
    ErrorShape errors → ErrorShape (errors ++ [errorLine x "stod"])

/-- A method that does not throw. -/
def PM.Returns {α : Type} (m : PM α) : Prop :=
  PM.Spec (fun _ _ => True) (fun _ _ _ => False) m

/-- The parser with other texts on which `std::stod` throws. -/
def Parser.rejecting (p : Parser) (rejected : List String) : Parser :=
  { p with stodThrows := rejected }

/-- The outcome with other texts on which `std::stod` throws in its parser. -/
def Res.rejecting {α : Type} (r : Res α) (rejected : List String) : Res α :=
  match r with
  | .ok a q => .ok a (q.rejecting rejected)
  | .thrown what q => .thrown what (q.rejecting rejected)
  | .outOfFuel => .outOfFuel

/-- The parser takes `std::stod` to convert every text, none of the texts of
its FLOAT tokens is among `rejected`, and its last token is not a FLOAT
token. -/
def Parser.Converts (rejected : List String) (p : Parser) : Prop :=
  p.stodThrows = [] ∧ (p.tokens.getLastD noToken).type ≠ .FLOAT ∧
  ∀ t ∈ p.tokens, t.type = .FLOAT → t.value ∉ rejected

/-- A method does the same when `std::stod` throws on the texts `rejected`,
none of which is the text of a FLOAT token, as when it throws on none. -/
def PM.Blind {α : Type} (rejected : List String) (m : PM α) : Prop :=
  ∀ p : Parser, p.Converts rejected →
    m (p.rejecting rejected) = (m p).rejecting rejected ∧
    match m p with
    | .ok _ q => q.Converts rejected
    | .thrown _ q => q.Converts rejected
    | .outOfFuel => True

/-- The position members of the node are those of a fresh `ASTNode`: `line = 0`
and `column = 0`. -/
def ExprInfo.unplaced (i : ExprInfo) : Bool := i.line = 0 && i.column = 0

mutual
/-- Every node of the expression has `line = 0` and `column = 0`. -/
def Expression.unplaced : Expression → Bool
  | .IntegerLiteral i _ => i.unplaced
  | .FloatLiteral i _ => i.unplaced
  | .StringLiteral i _ => i.unplaced
  | .BoolLiteral i _ => i.unplaced
  | .Identifier i _ => i.unplaced
  | .BinaryOp i _ left right => i.unplaced && left.unplaced && right.unplaced
  | .UnaryOp i _ operand => i.unplaced && operand.unplaced
  | .CallExpr i _ arguments => i.unplaced && unplacedList arguments
/-- The same for a list of expressions. -/
def unplacedList : List Expression → Bool
  | [] => true
  | e :: rest => e.unplaced && unplacedList rest
end

/-- The same for an expression that may be absent. -/
def unplacedOption : Option Expression → Bool
  | none => true
  | some e => e.unplaced

mutual
/-- Every expression node of the statement has `line = 0` and `column = 0`. -/
def Statement.unplaced : Statement → Bool
  | .VariableDecl decl => unplacedOption decl.initializer
  | .Assignment _ _ _ value => value.unplaced
  | .ReturnStmt _ _ value => unplacedOption value
  | .IfStmt _ _ condition thenBody elseBody =>
    condition.unplaced && unplacedStatements thenBody && unplacedStatements elseBody
  | .WhileStmt _ _ condition body => condition.unplaced && unplacedStatements body
  | .ExprStmt _ _ e => e.unplaced
/-- The same for a list of statements. -/
def unplacedStatements : List Statement → Bool
  | [] => true
  | st :: rest => st.unplaced && unplacedStatements rest
end

/-- Every expression node of the program has `line = 0` and `column = 0`. -/
def Program.unplaced (program : Program) : Bool :=
  program.globals.all (fun g => unplacedOption g.initializer) &&
  program.functions.all (fun f => unplacedStatements f.body)

/-- Whatever the method returns has the property `P`. -/
def PM.Yields {α : Type} (P : α → Prop) (m : PM α) : Prop :=
  ∀ (p : Parser) (a : α) (q : Parser), m p = .ok a q → P a

/-- The structured errors of `b` are those of `a` followed by records that all
carry line 0 and column 0. -/
def addsAtOrigin (a b : SemanticAnalyzer) : Prop :=
  ∃ added : List ErrorInfo, b.structuredErrors = a.structuredErrors ++ added ∧
    ∀ err ∈ added, err.line = 0 ∧ err.column = 0

/-- The message, line and column of each structured error the analyzer leaves
on a source text; `none` when `parse` does not return within the fuel. -/
def structuredPositions (fuel : Nat) (junkIsNewline : Bool) (source : String) :
    Option (List (String × Int × Int)) :=
  (compile fuel junkIsNewline source).map
    (fun o => o.structuredErrors.map (fun e => (e.message, e.line, e.column)))

/-- A relation between the analyzer before and after a step that every step
of the visit of a statement respects: the visit of an expression (which
touches the structured errors and the side-effect flag only), `error`,
`warning`, the update of `modifiedVariables` and `declareVariable`. -/
structure Walk where
  R : SemanticAnalyzer → SemanticAnalyzer → Prop
  refl : ∀ a, R a a
  trans : ∀ a b c, R a b → R b c → R a c
  frame : ∀ a b : SemanticAnalyzer, a.Frame b → R a b
  touched : ∀ (a : SemanticAnalyzer) (flag : Bool) (records : List ErrorInfo),
    R a { a with currentFunctionHasSideEffects := flag, structuredErrors := records }
  error : ∀ (a : SemanticAnalyzer) (message : String) (line column : Int),
    R a (a.error message line column)
  warning : ∀ (a : SemanticAnalyzer) (message : String) (line column : Int),
    R a (a.warning message line column)
  modified : ∀ (a : SemanticAnalyzer) (names : List String),
    R a { a with modifiedVariables := names }
  declare : ∀ (a : SemanticAnalyzer) (name : String) (symbol : Symbol),
    R a (a.declareVariable name symbol)

/-- No scope was pushed or popped between `a` and `b`, and every name declared
in the innermost scope of `a` is declared in the innermost scope of `b`. -/
def Grows (a b : SemanticAnalyzer) : Prop :=
  b.scopes.tail = a.scopes.tail ∧ (a.scopes ≠ [] → b.scopes ≠ []) ∧
  ∀ name : String, a.declaredInCurrentScope name = true → b.declaredInCurrentScope name = true

/-- The steps of the visit of a statement push and pop no scope and keep what
is declared. -/
def growsWalk : Walk where
  R := Grows
  refl := fun _ => ⟨rfl, fun h => h, fun _ h => h⟩
  trans := fun _ _ _ h1 h2 =>
    ⟨h2.1.trans h1.1, fun h => h2.2.1 (h1.2.1 h), fun n h => h2.2.2 n (h1.2.2 n h)⟩
  frame := fun a b h => by
    have hs : b.scopes = a.scopes := h.1
    refine ⟨by rw [hs], fun hne => by rw [hs]; exact hne, fun n hn => ?_⟩
    unfold SemanticAnalyzer.declaredInCurrentScope at hn ⊢
    rw [hs]
    exact hn
  touched := fun _ _ _ => ⟨rfl, fun h => h, fun _ h => h⟩
  error := fun _ _ _ _ => ⟨rfl, fun h => h, fun _ h => h⟩
  warning := fun _ _ _ _ => ⟨rfl, fun h => h, fun _ h => h⟩
  modified := fun _ _ => ⟨rfl, fun h => h, fun _ h => h⟩
  declare := fun a name symbol => by
    have key : ∀ (top : List (String × Symbol)) (n : String),
        (mapFind n top).isSome = true → (mapFind n (mapInsert name symbol top)).isSome = true := by
      intro top n
      induction top with
      | nil => intro h; cases h
      | cons x rest ih =>
        rcases x with ⟨k, v⟩
        intro h
        simp only [mapInsert]
        by_cases hk : k = name
        · rw [if_pos hk]
          simp only [mapFind] at h ⊢
          by_cases hn : k = n
          · rw [if_pos hn]; rfl
          · rw [if_neg hn] at h ⊢; exact h
        · rw [if_neg hk]
          simp only [mapFind] at h ⊢
          by_cases hn : k = n
          · rw [if_pos hn]; rfl
          · rw [if_neg hn] at h ⊢; exact ih h
    unfold SemanticAnalyzer.declareVariable
    cases hs : a.scopes with
    | nil =>
      refine ⟨by simp [hs], fun _ => by simp, fun n hn => ?_⟩
      simp [SemanticAnalyzer.declaredInCurrentScope, hs] at hn
    | cons top rest =>
      refine ⟨by simp [hs], fun _ => by simp, fun n hn => ?_⟩
      simp only [SemanticAnalyzer.declaredInCurrentScope, hs] at hn
      simp only [SemanticAnalyzer.declaredInCurrentScope]
      exact key top n hn

/-- The steps of the visit of a statement only append to the legacy error
strings. -/
def errorsWalk : Walk where
  R := fun a b => a.errors <+: b.errors
  refl := fun _ => List.prefix_rfl
  trans := fun _ _ _ h1 h2 => h1.trans h2
  frame := fun a b h => by
    have he : b.errors = a.errors := h.2.2.2.1
    show a.errors <+: b.errors
    rw [he]
  touched := fun _ _ _ => List.prefix_rfl
  error := fun _ _ _ _ => List.prefix_append _ _
  warning := fun _ _ _ _ => List.prefix_rfl
  modified := fun _ _ => List.prefix_rfl
  declare := fun a name symbol => by
    unfold SemanticAnalyzer.declareVariable
    split <;> exact List.prefix_rfl

mutual
/-- The statement is a `let` of `name`, or it has one in a body of an `if` or
a `while` at any depth. -/
def Statement.declares (name : String) : Statement → Bool
  | .VariableDecl decl => decl.name = name
  | .Assignment _ _ _ _ => false
  | .ReturnStmt _ _ _ => false
  | .IfStmt _ _ _ thenBody elseBody => declaresAny name thenBody || declaresAny name elseBody
  | .WhileStmt _ _ _ body => declaresAny name body
  | .ExprStmt _ _ _ => false
/-- The same for a list of statements. -/
def declaresAny (name : String) : List Statement → Bool
  | [] => false
  | st :: rest => st.declares name || declaresAny name rest
end

/-- The legacy string of the error for a `let` of a name that the current scope
has. -/
def redeclarationText (name : String) (line column : Int) : String :=
  legacyText "Error" ("Variable '" ++ name ++ "' already declared in this scope") line column

mutual
/-- The expression contains a call of `name` that the visit reaches: the call
and every call around it name a function with an entry in the table and have
as many arguments as the entry has parameters (`arity` gives the number of
parameters of the entries). -/
def Expression.invokes (arity : String → Option Nat) (name : String) : Expression → Bool
  | .IntegerLiteral _ _ => false
  | .FloatLiteral _ _ => false
  | .StringLiteral _ _ => false
  | .BoolLiteral _ _ => false
  | .Identifier _ _ => false
  | .BinaryOp _ _ left right => left.invokes arity name || right.invokes arity name
  | .UnaryOp _ _ operand => operand.invokes arity name
  | .CallExpr _ functionName arguments =>
    match arity functionName with
    | none => false
    | some n =>
      decide (arguments.length = n) &&
        (decide (functionName = name) || invokesList arity name arguments)
/-- The same for a list of expressions. -/
def invokesList (arity : String → Option Nat) (name : String) : List Expression → Bool
  | [] => false
  | e :: rest => e.invokes arity name || invokesList arity name rest
end

mutual
/-- The statement has such a call in the value of a `return`, in the condition
of an `if` or a `while`, in an expression statement, or in a statement of a
body of an `if` or a `while`. -/
def Statement.invokes (arity : String → Option Nat) (name : String) : Statement → Bool
  | .VariableDecl _ => false
  | .Assignment _ _ _ _ => false
  | .ReturnStmt _ _ none => false
  | .ReturnStmt _ _ (some e) => e.invokes arity name
  | .IfStmt _ _ condition thenBody elseBody =>
    condition.invokes arity name || invokesAny arity name thenBody ||
      invokesAny arity name elseBody
  | .WhileStmt _ _ condition body => condition.invokes arity name || invokesAny arity name body
  | .ExprStmt _ _ e => e.invokes arity name
/-- The same for a list of statements. -/
def invokesAny (arity : String → Option Nat) (name : String) : List Statement → Bool
  | [] => false
  | st :: rest => st.invokes arity name || invokesAny arity name rest
end

/-- The number of parameters of each entry of a function table. -/
def arityOf (fs : List (String × FunctionInfo)) (name : String) : Option Nat :=
  (mapFind name fs).map (fun info => info.paramTypes.length)

/-- No entry of the function table has `hasSideEffects` set. -/
def cleanTable (fs : List (String × FunctionInfo)) : Prop :=
  ∀ (name : String) (info : FunctionInfo), mapFind name fs = some info →
    info.hasSideEffects = false

/-- The LLVM types `getLLVMType` returns. -/
inductive LType
  | i1 | i8 | i16 | i32 | i64 | float | double | void | ptr
  deriving DecidableEq, Repr

/-- The method `CodeGenerator::getLLVMType`. -/
def getLLVMType : TypeKind → LType
  | .I8 => .i8
  | .I16 => .i16
  | .I32 => .i32
  | .I64 => .i64
  | .U8 => .i8
  | .U16 => .i16
  | .U32 => .i32
  | .U64 => .i64
  | .F32 => .float
  | .F64 => .double
  | .BOOL => .i1
  | .VOID => .void
  | .STR => .ptr
  | _ => .i32

/-- The call `Type::isFloatingPointTy`. -/
def LType.isFloatingPointTy : LType → Bool
  | .float => true
  | .double => true
  | _ => false

/-- The number of bits of an integer type. -/
def LType.bits : LType → Nat
  | .i1 => 1
  | .i8 => 8
  | .i16 => 16
  | .i32 => 32
  | .i64 => 64
  | _ => 0

/-- A `llvm::Value*` that is not null.  `folded` is the constant the folder of
the builder returns for an operation on constants; its value is left open.
`global` and `string` are the addresses of a global variable and of the global
that `CreateGlobalStringPtr` makes; `register` is the value of the instruction
with that number. -/
inductive Value
  | constInt (type : LType) (value : Int)
  | constFP (value : String)
  | null (type : LType)
  | allOnes (type : LType)
  | folded (type : LType)
  | global (index : Nat)
  | string (index : Nat)
  | argument (function : Nat) (index : Nat) (type : LType)
  | register (id : Nat) (type : LType)
  deriving DecidableEq, Repr

/-- The call `Value::getType`. -/
def Value.type : Value → LType
  | .constInt t _ => t
  | .constFP _ => .double
  | .null t => t
  | .allOnes t => t
  | .folded t => t
  | .global _ => .ptr
  | .string _ => .ptr
  | .argument _ _ t => t
  | .register _ t => t

/-- The test `isa<llvm::Constant>`. -/
def Value.isConstant : Value → Bool
  | .argument _ _ _ => false
  | .register _ _ => false
  | _ => true

/-- A constant that is a scalar of an integer or floating-point type. -/
def Value.isScalarConstant (v : Value) : Bool :=
  match v with
  | .constInt _ _ => true
  | .constFP _ => true
  | .null t => t ≠ .ptr && t ≠ .void
  | .allOnes t => t ≠ .ptr && t ≠ .void
  | .folded t => t ≠ .ptr && t ≠ .void
  | _ => false

/-- The opcodes and predicates of the binary instructions the generator
creates. -/
inductive Opcode
  | Add | FAdd | Sub | FSub | Mul | FMul | SDiv | FDiv | SRem | FRem
  | ICmpEQ | FCmpOEQ | ICmpNE | FCmpONE | ICmpSLT | FCmpOLT | ICmpSLE | FCmpOLE
  | ICmpSGT | FCmpOGT | ICmpSGE | FCmpOGE
  | And | Or | Xor | Shl | AShr
  deriving DecidableEq, Repr

def Opcode.isCompare : Opcode → Bool
  | .ICmpEQ | .FCmpOEQ | .ICmpNE | .FCmpONE | .ICmpSLT | .FCmpOLT | .ICmpSLE | .FCmpOLE
  | .ICmpSGT | .FCmpOGT | .ICmpSGE | .FCmpOGE => true
  | _ => false

/-- The instructions the generator creates.  Those with a value carry their
number; a block is named by its number.  The `name` of an instruction is the
name the builder call asks for; when a value of the function already has that
name, LLVM appends a number to it. -/
inductive Instruction
  | alloca (id : Nat) (type : LType) (name : String)
  | load (id : Nat) (type : LType) (pointer : Value) (name : String)
  | store (value pointer : Value)
  | binary (id : Nat) (opcode : Opcode) (left right : Value) (name : String)
  | fneg (id : Nat) (operand : Value) (name : String)
  | call (id : Nat) (callee : Nat) (arguments : List Value) (name : String)
  | ret (value : Option Value)
  | br (target : Nat)
  | condBr (condition : Value) (ifTrue ifFalse : Nat)
  | unreachable
  deriving DecidableEq, Repr

/-- The call `Instruction::isTerminator`. -/
def Instruction.isTerminator : Instruction → Bool
  | .ret _ => true
  | .br _ => true
  | .condBr _ _ _ => true
  | .unreachable => true
  | _ => false

/-- The blocks an instruction branches to. -/
def Instruction.targets : Instruction → List Nat
  | .br target => [target]
  | .condBr _ ifTrue ifFalse => [ifTrue, ifFalse]
  | _ => []

/-- The name an instruction is created with; empty when it has none. -/
def Instruction.name : Instruction → String
  | .alloca _ _ name => name
  | .load _ _ _ name => name
  | .binary _ _ _ _ name => name
  | .fneg _ _ name => name
  | .call _ _ _ name => name
  | _ => ""

/-- An `llvm::BasicBlock`: the name it was created with, whether LLVM gave it
another name when it was inserted into its function (a value of the function had
the name already, and the block got the name followed by a number), the function
it is inserted into (none while it is detached) and its instructions. -/
structure Block where
  label : String
  renamed : Bool
  parent : Option Nat
  instructions : List Instruction
  deriving DecidableEq, Repr

/-- An `llvm::Function` of the module: the name it has in the symbol table
(none when the name asked for was taken and LLVM gave another), its type and the
blocks inserted into it, in order. -/
structure Function where
  symbol : Option String
  returnType : LType
  parameters : List (String × LType)
  blocks : List Nat
  deriving DecidableEq, Repr

/-- An `llvm::GlobalVariable` of the module. -/
structure GlobalVariable where
  symbol : Option String
  valueType : LType
  initializer : Option Value
  deriving DecidableEq, Repr

/-- An `llvm::AllocaInst*` of `namedValues`: the number of the instruction and
the allocated type. -/
structure Slot where
  id : Nat
  type : LType
  deriving DecidableEq, Repr

/-- The pointer an `alloca` gives. -/
def Slot.pointer (slot : Slot) : Value := .register slot.id .ptr

/-- The members of `CodeGenerator` with the module, the blocks and the insert
point of the builder.  Functions, globals and blocks are named by their place
in the lists. -/
structure CodeGenerator where
  moduleFunctions : List Function
  moduleGlobals : List GlobalVariable
  moduleStrings : List String
  blocks : List Block
  nextValue : Nat
  insertBlock : Option Nat
  namedValues : List (String × Slot)
  functions : List (String × Nat)
  currentValue : Option Value
  currentFunction : Option Nat
  deriving DecidableEq, Repr

/-- Applies `f` to the element at place `i` of a list. -/
def updateAt {α : Type} (f : α → α) : Nat → List α → List α
  | _, [] => []
  | 0, x :: rest => f x :: rest
  | i + 1, x :: rest => x :: updateAt f i rest

/-- The place of the first element whose symbol is `name`, counted from `i`. -/
def findSymbol {α : Type} (symbol : α → Option String) (name : String) :
    List α → Nat → Option Nat
  | [], _ => none
  | x :: rest, i => if symbol x = some name then some i else findSymbol symbol name rest (i + 1)

namespace CodeGenerator

/-- The generator after `generate` has made the module, without the built-in
functions that `visit(Program&)` adds first. -/
def new : CodeGenerator :=
  { moduleFunctions := [], moduleGlobals := [], moduleStrings := [], blocks := [],
    nextValue := 0, insertBlock := none, namedValues := [], functions := [],
    currentValue := none, currentFunction := none }

/-- The call `module->getFunction(name)`. -/
def getFunction (s : CodeGenerator) (name : String) : Option Nat :=
  findSymbol Function.symbol name s.moduleFunctions 0

/-- The call `module->getNamedGlobal(name)`. -/
def getNamedGlobal (s : CodeGenerator) (name : String) : Option Nat :=
  findSymbol GlobalVariable.symbol name s.moduleGlobals 0

/-- The symbol table of the module has the name. -/
def symbolTaken (s : CodeGenerator) (name : String) : Bool :=
  (s.getFunction name).isSome || (s.getNamedGlobal name).isSome

/-- The builder inserts an instruction: at the end of the insert block, or
nowhere when no insert point is set. -/
def emit (inst : Instruction) (s : CodeGenerator) : CodeGenerator :=
  match s.insertBlock with
  | none => s
  | some j =>
    { s with blocks :=
        updateAt (fun b => { b with instructions := b.instructions ++ [inst] }) j s.blocks }

/-- The test `builder->GetInsertBlock()->getTerminator() != nullptr`. -/
def terminated (s : CodeGenerator) : Option Bool :=
  match s.insertBlock with
  | none => none
  | some j =>
    match s.blocks.get? j with
    | none => none
    | some b =>
      match b.instructions.getLast? with
      | none => some false
      | some inst => some inst.isTerminator

/-- The names that the values of a function were created with so far: its
parameters, the blocks inserted into it and the instructions of these blocks.
A name without a digit at its end is the name of a value of the function
exactly when it is among these: the first value created with it has it, and the
names LLVM makes up end in a number. -/
def namesAsked (s : CodeGenerator) (function : Nat) : List String :=
  (match s.moduleFunctions.get? function with
    | none => []
    | some f => f.parameters.map (fun parameter => parameter.1)) ++
  ((s.blocks.filter (fun b => b.parent = some function)).map
    (fun b => b.label :: b.instructions.map Instruction.name)).flatten

/-- A block as `insertInto` leaves it.  The block enters the symbol table of
the function: it keeps its name when no value of the function has it, and is
renamed otherwise (the labels of the generator do not end in a digit, for which
`namesAsked` decides it). -/
def place (s : CodeGenerator) (function : Nat) (b : Block) : Block :=
  { b with parent := some function,
           renamed := decide (b.label ≠ "" ∧ b.label ∈ s.namesAsked function) }

/-- The call `block->insertInto(function)`. -/
def insertInto (block function : Nat) (s : CodeGenerator) : CodeGenerator :=
  { s with
    blocks := updateAt (s.place function) block s.blocks,
    moduleFunctions :=
      updateAt (fun f => { f with blocks := f.blocks ++ [block] }) function s.moduleFunctions }

/-- The call `llvm::BasicBlock::Create(*context, label, parent)`: the number
of the new block and the generator with it.  A block created without a parent
has the name asked for; with a parent it is inserted into it at once. -/
def createBlock (label : String) (parent : Option Nat) (s : CodeGenerator) :
    Nat × CodeGenerator :=
  let s1 := { s with blocks := s.blocks ++ [{ label := label, renamed := false, parent := none,
                                               instructions := [] }] }
  (s.blocks.length,
    match parent with
    | none => s1
    | some function => s1.insertInto s.blocks.length function)

/-- The call `function->getEntryBlock()`. -/
def entryBlock (s : CodeGenerator) (function : Nat) : Option Nat :=
  match s.moduleFunctions.get? function with
  | none => none
  | some f => f.blocks.head?

/-- The method `CodeGenerator::createEntryBlockAlloca`: the `alloca` goes to
the front of the entry block. -/
def createEntryBlockAlloca (function : Nat) (varName : String) (type : LType)
    (s : CodeGenerator) : Option (Slot × CodeGenerator) :=
  match s.entryBlock function with
  | none => none
  | some entry =>
    let alloca := Instruction.alloca s.nextValue type varName
    some ({ id := s.nextValue, type := type },
      { s with
        blocks := updateAt (fun b => { b with instructions := alloca :: b.instructions })
          entry s.blocks,
        nextValue := s.nextValue + 1 })

/-- The call `builder->CreateLoad(type, pointer, name)`. -/
def createLoad (type : LType) (pointer : Value) (name : String) (s : CodeGenerator) :
    CodeGenerator :=
  { s.emit (.load s.nextValue type pointer name) with
    nextValue := s.nextValue + 1, currentValue := some (.register s.nextValue type) }

/-- The call `builder->CreateStore(value, pointer)`; a null value is
dereferenced. -/
def createStore (value : Option Value) (pointer : Value) (s : CodeGenerator) :
    Option CodeGenerator :=
  match value with
  | none => none
  | some v => some (s.emit (.store v pointer))

/-- The calls of the builder that create a binary operator or a comparison:
two constants are folded and nothing is inserted; otherwise the instruction is
inserted, with the type of its left operand, or `i1` for a comparison. -/
def createBinary (opcode : Opcode) (left right : Value) (name : String) (s : CodeGenerator) :
    Option CodeGenerator :=
  let type := if opcode.isCompare then LType.i1 else left.type
  if left.isConstant && right.isConstant then
    if left.isScalarConstant && right.isScalarConstant && left.type = right.type then
      some { s with currentValue := some (.folded type) }
    else none
  else
    some { s.emit (.binary s.nextValue opcode left right name) with
           nextValue := s.nextValue + 1, currentValue := some (.register s.nextValue type) }

/-- The call `builder->CreateFNeg(operand, name)`. -/
def createFNeg (operand : Value) (name : String) (s : CodeGenerator) : Option CodeGenerator :=
  if operand.isConstant then
    if operand.isScalarConstant then some { s with currentValue := some (.folded operand.type) }
    else none
  else
    some { s.emit (.fneg s.nextValue operand name) with
           nextValue := s.nextValue + 1,
           currentValue := some (.register s.nextValue operand.type) }

/-- The call `builder->CreateCall(callee, arguments, name)`: the value of the
call, and the generator with the instruction. -/
def createCall (callee : Nat) (arguments : List Value) (name : String) (s : CodeGenerator) :
    Option (Value × CodeGenerator) :=
  match s.moduleFunctions.get? callee with
  | none => none
  | some f =>
    some (.register s.nextValue f.returnType,
      { s.emit (.call s.nextValue callee arguments name) with nextValue := s.nextValue + 1 })

/-- The calls `module->getOrInsertFunction` behind `Intrinsic::getDeclaration`
and `llvm::Function::Create` for a declaration: the function of that name, made
when the module has none; the model stops when a global variable has the name. -/
def declareFunction (name : String) (returnType : LType) (parameters : List LType)
    (s : CodeGenerator) : Option (Nat × CodeGenerator) :=
  match s.getFunction name with
  | some f => some (f, s)
  | none =>
    if (s.getNamedGlobal name).isSome then none
    else
      some (s.moduleFunctions.length,
        { s with moduleFunctions := s.moduleFunctions ++
            [{ symbol := some name, returnType := returnType,
               parameters := parameters.map (fun t => ("", t)), blocks := [] }] })

/-- The pair of operator and name that `visit(BinaryOp&)` passes to the
builder. -/
def binaryInstruction (op : BinOp) (isFloat : Bool) : Opcode × String :=
  match op with
  | .ADD => (if isFloat then .FAdd else .Add, "addtmp")
  | .SUB => (if isFloat then .FSub else .Sub, "subtmp")
  | .MUL => (if isFloat then .FMul else .Mul, "multmp")
  | .DIV => (if isFloat then .FDiv else .SDiv, "divtmp")
  | .MOD => (if isFloat then .FRem else .SRem, "modtmp")
  | .EQ => (if isFloat then .FCmpOEQ else .ICmpEQ, "eqtmp")
  | .NE => (if isFloat then .FCmpONE else .ICmpNE, "netmp")
  | .LT => (if isFloat then .FCmpOLT else .ICmpSLT, "lttmp")
  | .LE => (if isFloat then .FCmpOLE else .ICmpSLE, "letmp")
  | .GT => (if isFloat then .FCmpOGT else .ICmpSGT, "gttmp")
  | .GE => (if isFloat then .FCmpOGE else .ICmpSGE, "getmp")
  | .AND => (.And, "andtmp")
  | .OR => (.Or, "ortmp")
  | .BIT_AND => (.And, "bitandtmp")
  | .BIT_OR => (.Or, "bitortmp")
  | .BIT_XOR => (.Xor, "bitxortmp")
  | .SHL => (.Shl, "shltmp")
  | .SHR => (.AShr, "shrtmp")

/-- The `switch (node.op)` of `visit(UnaryOp&)` on an operand that is not
null: `CreateNeg` subtracts from the null value, `CreateNot` is an exclusive or
with the value of all ones. -/
def unaryInstruction (op : UnOp) (operand : Value) (s : CodeGenerator) : Option CodeGenerator :=
  match op with
  | .NEG =>
    if operand.type.isFloatingPointTy then createFNeg operand "negtmp" s
    else createBinary .Sub (.null operand.type) operand "negtmp" s
  | .NOT => createBinary .Xor operand (.allOnes operand.type) "nottmp" s
  | .BIT_NOT => createBinary .Xor operand (.allOnes operand.type) "bitnottmp" s

/-- The width `visit(IntegerLiteral&)` takes from the type of the node. -/
def literalType (type : Option TypeKind) : LType :=
  match type with
  | some .I8 => .i8
  | some .U8 => .i8
  | some .I16 => .i16
  | some .U16 => .i16
  | some .I32 => .i32
  | some .U32 => .i32
  | some .I64 => .i64
  | some .U64 => .i64
  | _ => .i32

/-- The names of the first branch of `visit(CallExpr&)`. -/
def isIntrinsicName (functionName : String) : Bool :=
  functionName = "pow" || functionName = "floor" || functionName = "ceil" ||
  functionName = "round" || functionName = "sin" || functionName = "cos" ||
  functionName = "tan" || functionName = "sqrt" || functionName = "asin" ||
  functionName = "acos" || functionName = "atan" || functionName = "exp" ||
  functionName = "log" || functionName = "log2" || functionName = "log10"

/-- The first branch of `visit(CallExpr&)` once the arguments are evaluated. -/
def callIntrinsic (functionName : String) (arguments : List Value) (s : CodeGenerator) :
    Option CodeGenerator :=
  if functionName = "tan" then
    match declareFunction "llvm.sin.f64" .double [.double] s with
    | none => none
    | some (sinFunc, s1) =>
      match declareFunction "llvm.cos.f64" .double [.double] s1 with
      | none => none
      | some (cosFunc, s2) =>
        match createCall sinFunc arguments "" s2 with
        | none => none
        | some (sinVal, s3) =>
          match createCall cosFunc arguments "" s3 with
          | none => none
          | some (cosVal, s4) => createBinary .FDiv sinVal cosVal "tanval" s4
  else if functionName = "pow" ∨ functionName = "floor" ∨ functionName = "ceil" ∨
      functionName = "round" ∨ functionName = "sqrt" ∨ functionName = "sin" ∨
      functionName = "cos" ∨ functionName = "exp" ∨ functionName = "log" ∨
      functionName = "log2" ∨ functionName = "log10" then
    match declareFunction ("llvm." ++ functionName ++ ".f64") .double
        (if functionName = "pow" then [.double, .double] else [.double]) s with
    | none => none
    | some (intrinsic, s1) =>
      match createCall intrinsic arguments "mathcall" s1 with
      | none => none
      | some (value, s2) => some { s2 with currentValue := some value }
  else
    match declareFunction functionName .double [.double] s with
    | none => none
    | some (mathFunc, s1) =>
      match createCall mathFunc arguments "mathcall" s1 with
      | none => none
      | some (value, s2) => some { s2 with currentValue := some value }

mutual
/-- The `visit` methods of the expression classes: the generator afterwards,
with the value in `currentValue`. -/
def visitExpression : Expression → CodeGenerator → Option CodeGenerator
  | .IntegerLiteral i value, s =>
    let type := literalType i.type
    some { s with currentValue := some (.constInt type (value % (2 : Int) ^ type.bits)) }
  | .FloatLiteral _ value, s => some { s with currentValue := some (.constFP value) }
  | .StringLiteral _ value, s =>
    match s.insertBlock with
    | none => none
    | some _ =>
      some { s with moduleStrings := s.moduleStrings ++ [value],
                    currentValue := some (.string s.moduleStrings.length) }
  | .BoolLiteral _ value, s =>
    some { s with currentValue := some (.constInt .i1 (if value then 1 else 0)) }
  | .Identifier _ name, s =>
    match mapFind name s.namedValues with
    | none =>
      match s.getNamedGlobal name with
      | some gVar =>
        match s.moduleGlobals.get? gVar with
        | none => none
        | some g => some (s.createLoad g.valueType (.global gVar) name)
      | none => some { s with currentValue := none }
    | some slot => some (s.createLoad slot.type slot.pointer name)
  | .BinaryOp _ op left right, s =>
    match visitExpression left s with
    | none => none
    | some s1 =>
      match visitExpression right s1 with
      | none => none
      | some s2 =>
        match s1.currentValue, s2.currentValue with
        | some l, some r =>
          createBinary
            (binaryInstruction op (l.type.isFloatingPointTy || r.type.isFloatingPointTy)).1 l r
            (binaryInstruction op (l.type.isFloatingPointTy || r.type.isFloatingPointTy)).2 s2
        | _, _ => some { s2 with currentValue := none }
  | .UnaryOp _ op operand, s =>
    match visitExpression operand s with
    | none => none
    | some s1 =>
      match s1.currentValue with
      | none => some { s1 with currentValue := none }
      | some v => unaryInstruction op v s1
  | .CallExpr _ functionName arguments, s =>
    if isIntrinsicName functionName then
      match visitArguments arguments [] s with
      | none => none
      | some (none, s1) => some { s1 with currentValue := none }
      | some (some args, s1) => callIntrinsic functionName args s1
    else
      match s.getFunction functionName with
      | none => some { s with currentValue := none }
      | some callee =>
        match visitArguments arguments [] s with
        | none => none
        | some (none, s1) => some { s1 with currentValue := none }
        | some (some args, s1) =>
          match s1.moduleFunctions.get? callee with
          | none => none
          | some f =>
            if f.returnType = .void then
              match createCall callee args "" s1 with
              | none => none
              | some (_, s2) => some { s2 with currentValue := none }
            else
              match createCall callee args "calltmp" s1 with
              | none => none
              | some (value, s2) => some { s2 with currentValue := some value }
/-- The loops over `node.arguments` in `visit(CallExpr&)`: the values pushed
to `args`, or none when an argument gave a null value and the visit returns. -/
def visitArguments : List Expression → List Value → CodeGenerator →
    Option (Option (List Value) × CodeGenerator)
  | [], args, s => some (some args, s)
  | arg :: rest, args, s =>
    match visitExpression arg s with
    | none => none
    | some s1 =>
      match s1.currentValue with
      | none => some (none, s1)
      | some v => visitArguments rest (args ++ [v]) s1
end

/-- The call `llvm::Constant::getNullValue(type)`. -/
def getNullValue (type : LType) : Option Value :=
  if type = .void then none else some (.null type)

/-- The branch of `visit(VariableDecl&)` for a global variable, once the
initializer is chosen: `getOrInsertGlobal`, `getNamedGlobal`, `setInitializer`. -/
def defineGlobal (name : String) (type : LType) (initializer : Value) (s : CodeGenerator) :
    Option CodeGenerator :=
  let fresh : GlobalVariable :=
    { symbol := if s.symbolTaken name then none else some name, valueType := type,
      initializer := none }
  let s1 : CodeGenerator := match s.getNamedGlobal name with
    | some _ => s
    | none => { s with moduleGlobals := s.moduleGlobals ++ [fresh] }
  match s1.getNamedGlobal name with
  | none => none
  | some gVar =>
    let globals := updateAt (fun g => { g with initializer := some initializer }) gVar
      s1.moduleGlobals
    some { s1 with moduleGlobals := globals }

/-- The method `visit(VariableDecl&)`. -/
def visitVariableDecl (node : VariableDecl) (s : CodeGenerator) : Option CodeGenerator :=
  match s.currentFunction with
  | some function =>
    match s.createEntryBlockAlloca function node.name (getLLVMType node.varType) with
    | none => none
    | some (alloca, s1) =>
      let s2 := { s1 with namedValues := mapInsert node.name alloca s1.namedValues }
      match node.initializer with
      | none => some s2
      | some e =>
        match visitExpression e s2 with
        | none => none
        | some s3 => createStore s3.currentValue alloca.pointer s3
  | none =>
    match node.initializer with
    | some e =>
      match visitExpression e s with
      | none => none
      | some s1 =>
        match s1.currentValue with
        | none => none
        | some v =>
          if v.isConstant then defineGlobal node.name (getLLVMType node.varType) v s1
          else
            match getNullValue (getLLVMType node.varType) with
            | none => none
            | some zero => defineGlobal node.name (getLLVMType node.varType) zero s1
    | none =>
      match getNullValue (getLLVMType node.varType) with
      | none => none
      | some zero => defineGlobal node.name (getLLVMType node.varType) zero s

/-- The steps of `visit(IfStmt&)` and `visit(WhileStmt&)` after the walk over
a body: `CreateBr(target)` unless the insert block has a terminator.  Answers
whether it had one. -/
def closeBlock (target : Nat) (s : CodeGenerator) : Option (Bool × CodeGenerator) :=
  match s.terminated with
  | none => none
  | some true => some (true, s)
  | some false => some (false, s.emit (.br target))

mutual
/-- The `visit` methods of the statement classes. -/
def visitStatement : Statement → CodeGenerator → Option CodeGenerator
  | .VariableDecl decl, s => visitVariableDecl decl s
  | .Assignment _ _ name value, s =>
    match mapFind name s.namedValues with
    | none => some s
    | some slot =>
      match visitExpression value s with
      | none => none
      | some s1 => createStore s1.currentValue slot.pointer s1
  | .ReturnStmt _ _ (some value), s =>
    match visitExpression value s with
    | none => none
    | some s1 => some (s1.emit (.ret s1.currentValue))
  | .ReturnStmt _ _ none, s => some (s.emit (.ret none))
  | .IfStmt _ _ condition thenBody elseBody, s =>
    match visitExpression condition s with
    | none => none
    | some s1 =>
      match s1.currentValue, s1.insertBlock.bind (fun j => s1.blocks.get? j) with
      | some condValue, some current =>
        match current.parent with
        | none => none
        | some function =>
          match s1.createBlock "then" (some function) with
          | (thenBlock, s2) =>
            match s2.createBlock "else" none with
            | (elseBlock, s3) =>
              match s3.createBlock "merge" none with
              | (mergeBlock, s4) =>
                let s5 := if elseBody.isEmpty then s4.emit (.condBr condValue thenBlock mergeBlock)
                  else s4.emit (.condBr condValue thenBlock elseBlock)
                match visitStatements thenBody { s5 with insertBlock := some thenBlock } with
                | none => none
                | some s6 =>
                  match closeBlock mergeBlock s6 with
                  | none => none
                  | some (thenTerminated, s7) =>
                    if elseBody.isEmpty then
                      some { s7.insertInto mergeBlock function with
                             insertBlock := some mergeBlock }
                    else
                      match visitStatements elseBody
                          { s7.insertInto elseBlock function with
                            insertBlock := some elseBlock } with
                      | none => none
                      | some s8 =>
                        match closeBlock mergeBlock s8 with
                        | none => none
                        | some (elseTerminated, s9) =>
                          let s10 := { s9.insertInto mergeBlock function with
                                       insertBlock := some mergeBlock }
                          some (if thenTerminated && elseTerminated then
                            s10.emit .unreachable else s10)
      | _, _ => none
  | .WhileStmt _ _ condition body, s =>
    match s.insertBlock.bind (fun j => s.blocks.get? j) with
    | none => none
    | some current =>
      match current.parent with
      | none => none
      | some function =>
        match s.createBlock "while.cond" (some function) with
        | (condBlock, s1) =>
          match s1.createBlock "while.body" none with
          | (bodyBlock, s2) =>
            match s2.createBlock "while.after" none with
            | (afterBlock, s3) =>
              match visitExpression condition
                  { s3.emit (.br condBlock) with insertBlock := some condBlock } with
              | none => none
              | some s4 =>
                match s4.currentValue with
                | none => none
                | some condValue =>
                  match visitStatements body
                      { (s4.emit (.condBr condValue bodyBlock afterBlock)).insertInto
                          bodyBlock function with insertBlock := some bodyBlock } with
                  | none => none
                  | some s5 =>
                    match closeBlock condBlock s5 with
                    | none => none
                    | some (_, s6) =>
                      some { s6.insertInto afterBlock function with
                             insertBlock := some afterBlock }
  | .ExprStmt _ _ expression, s => visitExpression expression s
/-- The loops `for (auto& stmt : body) stmt->accept(*this)`. -/
def visitStatements : List Statement → CodeGenerator → Option CodeGenerator
  | [], s => some s
  | stmt :: rest, s =>
    match visitStatement stmt s with
    | none => none
    | some s1 => visitStatements rest s1
end

/-- The loop of `visit(FunctionDecl&)` over the arguments: an `alloca` at the
front of the entry block, a store of the argument, the entry of `namedValues`. -/
def storeArguments (function : Nat) : Nat → List (String × LType) → CodeGenerator →
    Option CodeGenerator
  | _, [], s => some s
  | idx, (name, type) :: rest, s =>
    match s.createEntryBlockAlloca function name type with
    | none => none
    | some (alloca, s1) =>
      match createStore (some (.argument function idx type)) alloca.pointer s1 with
      | none => none
      | some s2 =>
        storeArguments function (idx + 1) rest
          { s2 with namedValues := mapInsert name alloca s2.namedValues }

/-- The method `visit(FunctionDecl&)`. -/
def visitFunctionDecl (node : FunctionDecl) (s : CodeGenerator) : Option CodeGenerator :=
  if ¬ (node.parameters.map (fun param => param.name)).Nodup then none
  else
    let function : Function :=
      { symbol := if s.symbolTaken node.name then none else some node.name,
        returnType := getLLVMType node.returnType,
        parameters := node.parameters.map (fun param => (param.name, getLLVMType param.type)),
        blocks := [] }
    let s1 := { s with moduleFunctions := s.moduleFunctions ++ [function],
                       functions := mapInsert node.name s.moduleFunctions.length s.functions,
                       currentFunction := some s.moduleFunctions.length }
    match s1.createBlock "entry" (some s.moduleFunctions.length) with
    | (entryBlock, s2) =>
      match storeArguments s.moduleFunctions.length 0 function.parameters
          { s2 with insertBlock := some entryBlock, namedValues := [] } with
      | none => none
      | some s3 =>
        match visitStatements node.body s3 with
        | none => none
        | some s4 =>
          if node.returnType = .VOID then
            match s4.terminated with
            | none => none
            | some true => some { s4 with currentFunction := none }
            | some false => some { s4.emit (.ret none) with currentFunction := none }
          else some { s4 with currentFunction := none }

/-- The loop `for (auto& global : node.globals)` of `visit(Program&)`. -/
def visitGlobals : List VariableDecl → CodeGenerator → Option CodeGenerator
  | [], s => some s
  | g :: rest, s =>
    match visitVariableDecl g s with
    | none => none
    | some s1 => visitGlobals rest s1

/-- The loop `for (auto& func : node.functions)` of `visit(Program&)`. -/
def visitFunctions : List FunctionDecl → CodeGenerator → Option CodeGenerator
  | [], s => some s
  | f :: rest, s =>
    match visitFunctionDecl f s with
    | none => none
    | some s1 => visitFunctions rest s1

/-- The two loops that end `visit(Program&)`, after the built-in functions. -/
def visitUserProgram (node : Program) (s : CodeGenerator) : Option CodeGenerator :=
  match visitGlobals node.globals s with
  | none => none
  | some s1 => visitFunctions node.functions s1

end CodeGenerator

/-- The blocks of a function of the module, each with the name it was created
with and its instructions, in the order of the function. -/
def CodeGenerator.listing (s : CodeGenerator) (function : Nat) :
    List (String × List Instruction) :=
  match s.moduleFunctions.get? function with
  | none => []
  | some f => f.blocks.filterMap (fun j => (s.blocks.get? j).map
      (fun b => (b.label, b.instructions)))

/-- The front end and the two loops of the generator on a source text that
the analyzer accepts: the generator afterwards.  Answers none when the parser
does not return within the fuel, when the parser or the analyzer reports an
error, and when the generator stops. -/
def generateText (fuel : Nat) (junkIsNewline : Bool) (source : String) : Option CodeGenerator :=
  (analyzeText fuel junkIsNewline source).bind (fun r =>
    if r.1 then CodeGenerator.visitUserProgram r.2 CodeGenerator.new else none)

/-- The entry block of the current function, where `visit(VariableDecl&)`
puts the `alloca` of a local. -/
def CodeGenerator.entry (s : CodeGenerator) : Option Nat :=
  s.currentFunction.bind s.entryBlock

/-- Every branch among the instructions goes to a block numbered `n` or
higher. -/
def targetsFrom (n : Nat) (instructions : List Instruction) : Prop :=
  ∀ inst ∈ instructions, ∀ t ∈ inst.targets, n ≤ t

/-- No instruction of the generator branches to the block `m`. -/
def NoTarget (m : Nat) (s : CodeGenerator) : Prop :=
  ∀ (i : Nat) (b : Block), s.blocks.get? i = some b → ∀ inst ∈ b.instructions,
    m ∉ inst.targets

/-- What the visit of an expression may do to the generator: it appends
instructions that are not terminators to the insert block, it may add functions
to the module, and it leaves the insert point, `namedValues` and
`currentFunction` as they are. -/
def Appends (s r : CodeGenerator) : Prop :=
  r.insertBlock = s.insertBlock ∧ r.namedValues = s.namedValues ∧
  r.currentFunction = s.currentFunction ∧ s.moduleFunctions <+: r.moduleFunctions ∧
  ∃ added : List Instruction, (∀ inst ∈ added, inst.isTerminator = false) ∧
    r.blocks =
      match s.insertBlock with
      | none => s.blocks
      | some j => updateAt (fun b => { b with instructions := b.instructions ++ added }) j
          s.blocks

/-- What the visit of a statement may do to the blocks numbered below `n`: a
block keeps its name, its parent and its instructions; `alloca` instructions
may come in front of them when the block is the entry block of the current
function, and instructions may come behind them when the block is the insert
block, with branches to blocks numbered `n` or higher only.  From `n` on the
blocks keep branching to blocks from `n` on only; the insert point stays or
moves to a block from `n` on; the entry block of the current function stays. -/
structure Ext (n : Nat) (s r : CodeGenerator) : Prop where
  length : s.blocks.length ≤ r.blocks.length
  old : ∀ (i : Nat) (b : Block), i < n → s.blocks.get? i = some b →
    ∃ front back : List Instruction,
      r.blocks.get? i = some { b with instructions := front ++ b.instructions ++ back } ∧
      (∀ inst ∈ front, inst.targets = []) ∧ targetsFrom n back ∧
      (back = [] ∨ s.insertBlock = some i) ∧
      (front = [] ∨ s.entry = some i ∨ s.entry = none)
  own : (∀ (i : Nat) (b : Block), n ≤ i → s.blocks.get? i = some b →
      targetsFrom n b.instructions) →
    ∀ (i : Nat) (b : Block), n ≤ i → r.blocks.get? i = some b → targetsFrom n b.instructions
  insert : r.insertBlock = s.insertBlock ∨ ∃ j : Nat, n ≤ j ∧ r.insertBlock = some j
  entry : ∀ e : Nat, s.entry = some e → r.entry = some e

/-- The generator is in the body of a function: the current function has an
entry block among the blocks, and every branch goes to a block that exists. -/
def CodeGenerator.inBody (s : CodeGenerator) : Prop :=
  (∃ e : Nat, s.entry = some e ∧ e < s.blocks.length) ∧
  ∀ (i : Nat) (b : Block), s.blocks.get? i = some b → ∀ inst ∈ b.instructions,
    ∀ t ∈ inst.targets, t < s.blocks.length

/-- No statement of the list is an `if` or a `while`. -/
def straightLine : List Statement → Bool
  | [] => true
  | .IfStmt _ _ _ _ _ :: _ => false
  | .WhileStmt _ _ _ _ :: _ => false
  | _ :: rest => straightLine rest

/-- The last instruction of a block of the generator. -/
def CodeGenerator.lastInstruction (s : CodeGenerator) (block : Nat) : Option Instruction :=
  (s.blocks.get? block).bind (fun b => b.instructions.getLast?)

/-- The generator with which `visit(IfStmt&)` enters the then-body of an `if`
with an else-body: the blocks `then`, `else` and `merge` are created, the
conditional branch is in the insert block, and the insert point is the block
`then`. -/
def CodeGenerator.enterThen (s : CodeGenerator) (condValue : Value) (function : Nat) :
    CodeGenerator :=
  { (((s.createBlock "then" (some function)).2.createBlock "else" none).2.createBlock
      "merge" none).2.emit (.condBr condValue s.blocks.length (s.blocks.length + 1)) with
    insertBlock := some s.blocks.length }

/-- The `if` statement of the function `fn max(a: i32, b: i32) -> i32` with the
body `if a > b:`, `return a`, `else:`, `return b`, as the parser builds it. -/
def maxIf : Statement :=
  .IfStmt 0 0
    (.BinaryOp ExprInfo.fresh .GT (.Identifier ExprInfo.fresh "a")
      (.Identifier ExprInfo.fresh "b"))
    [.ReturnStmt 3 9 (some (.Identifier ExprInfo.fresh "a"))]
    [.ReturnStmt 5 9 (some (.Identifier ExprInfo.fresh "b"))]

/-- The generator of `visit(FunctionDecl&)` in front of the body of that
function `max`, in a module that holds nothing else: the block `entry` holds
the stack slots of `a` and `b` and the stores of the two arguments. -/
def inMax : CodeGenerator :=
  { moduleFunctions := [Function.mk (some "max") .i32 [("a", .i32), ("b", .i32)] [0]],
    moduleGlobals := [],
    moduleStrings := [],
    blocks := [Block.mk "entry" false (some 0)
      [.alloca 1 .i32 "b", .alloca 0 .i32 "a",
       .store (.argument 0 0 .i32) (.register 0 .ptr),
       .store (.argument 0 1 .i32) (.register 1 .ptr)]],
    nextValue := 2,
    insertBlock := some 0,
    namedValues := [("a", Slot.mk 0 .i32), ("b", Slot.mk 1 .i32)],
    functions := [("max", 0)],
    currentValue := none,
    currentFunction := some 0 }

/-- The generator after the visit of that `if` statement. -/
def maxLowered : CodeGenerator :=
  { moduleFunctions := [Function.mk (some "max") .i32 [("a", .i32), ("b", .i32)] [0, 1, 2, 3]],
    moduleGlobals := [],
    moduleStrings := [],
    blocks := [
      Block.mk "entry" false (some 0)
        [.alloca 1 .i32 "b", .alloca 0 .i32 "a",
         .store (.argument 0 0 .i32) (.register 0 .ptr),
         .store (.argument 0 1 .i32) (.register 1 .ptr),
         .load 2 .i32 (.register 0 .ptr) "a",
         .load 3 .i32 (.register 1 .ptr) "b",
         .binary 4 .ICmpSGT (.register 2 .i32) (.register 3 .i32) "gttmp",
         .condBr (.register 4 .i1) 1 2],
      Block.mk "then" false (some 0)
        [.load 5 .i32 (.register 0 .ptr) "a", .ret (some (.register 5 .i32))],
      Block.mk "else" false (some 0)
        [.load 6 .i32 (.register 1 .ptr) "b", .ret (some (.register 6 .i32))],
      Block.mk "merge" false (some 0) [.unreachable]],
    nextValue := 7,
    insertBlock := some 3,
    namedValues := [("a", Slot.mk 0 .i32), ("b", Slot.mk 1 .i32)],
    functions := [("max", 0)],
    currentValue := some (.register 6 .i32),
    currentFunction := some 0 }

end Hash

/-! ## Theorems about the lexer -/

set_option maxRecDepth 100000

namespace Hash

theorem Lexer.next_indentStack (l : Lexer) : l.next.indentStack = l.indentStack := by
  unfold Lexer.next Lexer.advance
  split
  · rfl
  · split <;> rfl

theorem Lexer.next_source (l : Lexer) : l.next.source = l.source.tail := by
  unfold Lexer.next Lexer.advance
  split
  · next h => simp [h]
  · next c rest h => split <;> simp [h]

theorem Lexer.next_length_le (l : Lexer) : l.next.source.length ≤ l.source.length := by
  rw [Lexer.next_source]; simp

theorem Lexer.next_length_lt (l : Lexer) (h : l.source ≠ []) :
    l.next.source.length < l.source.length := by
  rw [Lexer.next_source]
  cases hs : l.source with
  | nil => exact absurd hs h
  | cons c rest => simp

theorem Lexer.advanceWhile_spec (p : Char → Bool) :
    ∀ (src : List Char) (l : Lexer), l.source = src →
      (Lexer.advanceWhile p src l).source = src.dropWhile p ∧
      (Lexer.advanceWhile p src l).indentStack = l.indentStack := by
  intro src
  induction src with
  | nil => intro l h; simp [Lexer.advanceWhile, h]
  | cons c rest ih =>
    intro l h
    unfold Lexer.advanceWhile
    by_cases hp : p c = true
    · have hn : l.next.source = rest := by rw [Lexer.next_source, h]; rfl
      have := ih l.next hn
      simp [hp, this.1, this.2, Lexer.next_indentStack]
    · simp [hp, h]

theorem Lexer.advanceWhile_length_le (p : Char → Bool) (l : Lexer) :
    (Lexer.advanceWhile p l.source l).source.length ≤ l.source.length := by
  rw [(Lexer.advanceWhile_spec p l.source l rfl).1]
  exact (List.dropWhile_sublist p).length_le

theorem Lexer.advanceWhile_length_lt (p : Char → Bool) (l : Lexer) (c : Char) (rest : List Char)
    (h : l.source = c :: rest) (hp : p c = true) :
    (Lexer.advanceWhile p l.source l).source.length < l.source.length := by
  rw [(Lexer.advanceWhile_spec p l.source l rfl).1, h]
  have : (List.dropWhile p (c :: rest)) = List.dropWhile p rest := by simp [List.dropWhile, hp]
  rw [this]
  have := (List.dropWhile_sublist p (l := rest)).length_le
  simp; omega

end Hash

namespace Hash

theorem readStringLoop_spec (quote : Char) :
    ∀ (n : Nat) (src : List Char) (l : Lexer) (str : List Char), src.length ≤ n →
      l.source = src →
      (readStringLoop quote src l str).2.indentStack = l.indentStack ∧
      (readStringLoop quote src l str).2.source.length ≤ src.length := by
  intro n
  induction n with
  | zero =>
    intro src l str hn hs
    have : src = [] := List.eq_nil_of_length_eq_zero (by omega)
    subst this
    simp [readStringLoop, hs]
  | succ n ih =>
    intro src l str hn hs
    cases src with
    | nil => simp [readStringLoop, hs]
    | cons c rest =>
      have hn1 : l.next.source = rest := by rw [Lexer.next_source, hs]; rfl
      unfold readStringLoop
      by_cases hq : c = quote
      · simp [hq, hs]
      · rw [if_neg hq]
        by_cases hb : c = backslash
        · rw [if_pos hb]
          cases rest with
          | nil =>
            dsimp only
            refine ⟨by simp [Lexer.next_indentStack], ?_⟩
            have := Lexer.next_length_le l.next
            rw [hn1] at this
            simp at this
            simp [this]
          | cons e rest2 =>
            dsimp only
            have hn2 : l.next.next.source = rest2 := by rw [Lexer.next_source, hn1]; rfl
            have := ih rest2 l.next.next (str ++ [decodeEscape e])
              (by simp at hn; omega) hn2
            refine ⟨by rw [this.1]; simp [Lexer.next_indentStack], ?_⟩
            have h2 := this.2
            simp only [List.length_cons]; omega
        · rw [if_neg hb]
          have := ih rest l.next (str ++ [c]) (by simp at hn; omega) hn1
          refine ⟨by rw [this.1]; simp [Lexer.next_indentStack], ?_⟩
          have h2 := this.2
          simp only [List.length_cons]; omega

theorem Lexer.readString_spec (l : Lexer) (h : l.source ≠ []) :
    l.readString.2.indentStack = l.indentStack ∧
    l.readString.2.source.length < l.source.length ∧
    l.readString.1.type.plain := by
  have h1 := Lexer.next_length_lt l h
  have h2 := readStringLoop_spec l.peek l.next.source.length l.next.source l.next []
    (le_refl _) rfl
  unfold Lexer.readString
  simp only []
  rcases hr : readStringLoop l.peek l.next.source l.next [] with ⟨str, l2⟩
  rw [hr] at h2
  simp only [] at h2 ⊢
  split
  · dsimp only
    refine ⟨by rw [h2.1, Lexer.next_indentStack], by have := h2.2; omega, ?_⟩
    simp [Lexer.makeToken, TokenType.plain]
  · dsimp only
    refine ⟨by simp [Lexer.next_indentStack, h2.1], ?_, ?_⟩
    · have := Lexer.next_length_le l2
      have := h2.2
      omega
    · simp [Lexer.makeToken, TokenType.plain]

theorem Lexer.readNumber_spec (l : Lexer) (c : Char) (rest : List Char)
    (h : l.source = c :: rest) (hc : isDigit c = true) :
    l.readNumber.2.indentStack = l.indentStack ∧
    l.readNumber.2.source.length < l.source.length ∧
    l.readNumber.1.type.plain := by
  have h1 := Lexer.advanceWhile_length_lt isDigit l c rest h hc
  have h1s := (Lexer.advanceWhile_spec isDigit l.source l rfl).2
  unfold Lexer.readNumber
  simp only []
  split
  · set l1 := Lexer.advanceWhile isDigit l.source l with hl1
    have h2 := Lexer.next_length_le l1
    have h3 := Lexer.advanceWhile_length_le isDigit l1.next
    have h3s := (Lexer.advanceWhile_spec isDigit l1.next.source l1.next rfl).2
    refine ⟨by simp only []; rw [h3s, Lexer.next_indentStack, h1s], by simp only []; omega, ?_⟩
    simp [Lexer.makeToken, TokenType.plain]
  · exact ⟨h1s, h1, by simp [Lexer.makeToken, TokenType.plain]⟩

theorem mapFind_mem {β : Type} (key : String) :
    ∀ (m : List (String × β)) (v : β), mapFind key m = some v → ∃ k, (k, v) ∈ m := by
  intro m
  induction m with
  | nil => intro v h; simp [mapFind] at h
  | cons e rest ih =>
    intro v h
    obtain ⟨k, w⟩ := e
    unfold mapFind at h
    by_cases hk : k = key
    · rw [if_pos hk] at h
      exact ⟨k, by simp at h; simp [h]⟩
    · rw [if_neg hk] at h
      obtain ⟨k2, hk2⟩ := ih v h
      exact ⟨k2, List.mem_cons_of_mem _ hk2⟩

theorem keywords_plain (id : String) : ((mapFind id keywords).getD .IDENTIFIER).plain := by
  cases h : mapFind id keywords with
  | none => simp [TokenType.plain]
  | some t =>
    obtain ⟨k, hk⟩ := mapFind_mem id keywords t h
    have hall : ∀ e ∈ keywords, e.2.plain := by decide
    exact hall _ hk

theorem Lexer.readIdentifier_spec (l : Lexer) (c : Char) (rest : List Char)
    (h : l.source = c :: rest) (hc : (isAlpha c || c == '_') = true) :
    l.readIdentifier.2.indentStack = l.indentStack ∧
    l.readIdentifier.2.source.length < l.source.length ∧
    l.readIdentifier.1.type.plain := by
  have hp : (fun c => isAlphaNumeric c || c == '_') c = true := by
    simp only [isAlphaNumeric]
    simp only [Bool.or_eq_true] at hc ⊢
    rcases hc with hc | hc
    · exact Or.inl (Or.inl hc)
    · exact Or.inr hc
  have h1 := Lexer.advanceWhile_length_lt (fun c => isAlphaNumeric c || c == '_') l c rest h hp
  have h1s := (Lexer.advanceWhile_spec (fun c => isAlphaNumeric c || c == '_') l.source l rfl).2
  unfold Lexer.readIdentifier
  dsimp only
  exact ⟨h1s, h1, by simpa [Lexer.makeToken] using keywords_plain _⟩

end Hash

namespace Hash

theorem Lexer.peek_of_cons (l : Lexer) (c : Char) (rest : List Char) (h : l.source = c :: rest) :
    l.peek = c := by
  simp [Lexer.peek, h]

theorem Lexer.source_ne_nil_of_peek (l : Lexer) (h : l.peek ≠ nul) : l.source ≠ [] := by
  intro hs
  apply h
  simp [Lexer.peek, hs]

theorem Lexer.skipWhitespace_spec (l : Lexer) :
    l.skipWhitespace.indentStack = l.indentStack ∧
    l.skipWhitespace.source.length ≤ l.source.length :=
  ⟨(Lexer.advanceWhile_spec _ l.source l rfl).2, Lexer.advanceWhile_length_le _ l⟩

theorem Lexer.skipComment_spec (l : Lexer) :
    l.skipComment.indentStack = l.indentStack ∧
    l.skipComment.source.length ≤ l.source.length := by
  unfold Lexer.skipComment
  split
  · exact ⟨(Lexer.advanceWhile_spec _ l.source l rfl).2, Lexer.advanceWhile_length_le _ l⟩
  · exact ⟨rfl, le_refl _⟩

theorem Lexer.skipComment_lt (l : Lexer) (h : l.peek = '#') :
    l.skipComment.source.length < l.source.length := by
  have hne : l.source ≠ [] := Lexer.source_ne_nil_of_peek l (by rw [h]; decide)
  obtain ⟨c, rest, hs⟩ := List.exists_cons_of_ne_nil hne
  have hc : c = '#' := by rw [← Lexer.peek_of_cons l c rest hs, h]
  unfold Lexer.skipComment
  rw [if_pos h]
  exact Lexer.advanceWhile_length_lt _ l c rest hs (by rw [hc]; decide)

theorem LexLoop.Extends.refl_of (s s1 : LexLoop) (h1 : s1.lexer.indentStack = s.lexer.indentStack)
    (h2 : s1.tokens = s.tokens) : s.Extends s1 :=
  ⟨h1, [], by simp [h2], by simp⟩

theorem LexLoop.Extends.push (s s1 : LexLoop) (tok : Token)
    (h1 : s1.lexer.indentStack = s.lexer.indentStack)
    (h2 : s1.tokens = s.tokens ++ [tok]) (h3 : tok.type.plain) : s.Extends s1 :=
  ⟨h1, [tok], h2, by simpa using h3⟩

theorem single_ok (s : LexLoop) (l : Lexer) (type : TokenType)
    (hst : l.indentStack = s.lexer.indentStack)
    (hlen : l.source.length ≤ s.lexer.source.length) (hne : l.source ≠ [])
    (ht : type.plain) : (single s l type).OK s := by
  unfold single LexIter.OK
  refine ⟨LexLoop.Extends.push s _ _ ?_ rfl ?_, ?_⟩
  · simp [Lexer.next_indentStack, hst]
  · simpa [Lexer.makeToken] using ht
  · have := Lexer.next_length_lt l hne
    dsimp only
    omega

end Hash

namespace Hash

theorem LexIter.ok_push (s : LexLoop) (l l1 : Lexer) (als : Bool) (tok : Token)
    (hst : l.indentStack = s.lexer.indentStack) (hlen : l.source.length ≤ s.lexer.source.length)
    (h1 : l1.indentStack = l.indentStack) (h2 : l1.source.length < l.source.length)
    (h3 : tok.type.plain) :
    (LexIter.again { lexer := l1, atLineStart := als, tokens := s.tokens ++ [tok] }).OK s :=
  ⟨LexLoop.Extends.push s _ _ (h1.trans hst) rfl h3, by dsimp only; omega⟩

theorem LexIter.ok_skip (s : LexLoop) (l l1 : Lexer) (als : Bool)
    (hst : l.indentStack = s.lexer.indentStack) (hlen : l.source.length ≤ s.lexer.source.length)
    (h1 : l1.indentStack = l.indentStack) (h2 : l1.source.length < l.source.length) :
    (LexIter.again { lexer := l1, atLineStart := als, tokens := s.tokens }).OK s :=
  ⟨LexLoop.Extends.refl_of s _ (h1.trans hst) rfl, by dsimp only; omega⟩

theorem Lexer.next_next_spec (l : Lexer) (hne : l.source ≠ []) :
    l.next.next.indentStack = l.indentStack ∧ l.next.next.source.length < l.source.length := by
  have := Lexer.next_length_lt l hne
  have := Lexer.next_length_le l.next
  exact ⟨by simp [Lexer.next_indentStack], by omega⟩

theorem makeToken_plain (l : Lexer) (type : TokenType) (value : String) (h : type.plain) :
    (l.makeToken type value).type.plain := by
  simpa [Lexer.makeToken] using h

theorem LexIter.ok_ite (s : LexLoop) (c : Prop) [Decidable c] (a b : LexIter)
    (ha : c → a.OK s) (hb : ¬c → b.OK s) : (if c then a else b).OK s := by
  split
  · exact ha (by assumption)
  · exact hb (by assumption)

theorem lexToken_ok (s : LexLoop) : (lexToken s).OK s := by
  obtain ⟨hst, hlen⟩ := Lexer.skipWhitespace_spec s.lexer
  unfold lexToken
  dsimp only
  by_cases hend : s.lexer.skipWhitespace.isAtEnd = true
  · rw [if_pos hend]
    exact LexLoop.Extends.refl_of s _ hst rfl
  · rw [if_neg hend]
    have hne : s.lexer.skipWhitespace.source ≠ [] := by
      intro h
      apply hend
      simp [Lexer.isAtEnd, h]
    obtain ⟨c, rest, hs⟩ := List.exists_cons_of_ne_nil hne
    have hpk := Lexer.peek_of_cons _ c rest hs
    have hlt := Lexer.next_length_lt _ hne
    have hnst := Lexer.next_indentStack s.lexer.skipWhitespace
    obtain ⟨hnn1, hnn2⟩ := Lexer.next_next_spec _ hne
    repeat' (refine LexIter.ok_ite s _ _ _ (fun _ => ?_) (fun _ => ?_))
    all_goals first
      | exact single_ok s _ _ hst hlen hne (by decide)
      | exact LexIter.ok_push s _ _ _ _ hst hlen hnst hlt (makeToken_plain _ _ _ (by decide))
      | exact LexIter.ok_push s _ _ _ _ hst hlen hnn1 hnn2 (makeToken_plain _ _ _ (by decide))
      | exact LexIter.ok_skip s _ _ _ hst hlen hnst hlt
      | exact LexIter.ok_skip s _ _ _ hst hlen (Lexer.skipComment_spec _).1
          (Lexer.skipComment_lt _ (by assumption))
      | exact LexIter.ok_skip s _ _ _ hst hlen ((Lexer.skipComment_spec _).1.trans hnst)
          (lt_of_le_of_lt (Lexer.skipComment_spec _).2 hlt)
      | exact LexIter.ok_push s _ _ _ _ hst hlen
          (Lexer.readNumber_spec _ c rest hs (by rw [← hpk]; assumption)).1
          (Lexer.readNumber_spec _ c rest hs (by rw [← hpk]; assumption)).2.1
          (Lexer.readNumber_spec _ c rest hs (by rw [← hpk]; assumption)).2.2
      | exact LexIter.ok_push s _ _ _ _ hst hlen
          (Lexer.readString_spec _ hne).1 (Lexer.readString_spec _ hne).2.1
          (Lexer.readString_spec _ hne).2.2
      | exact LexIter.ok_push s _ _ _ _ hst hlen
          (Lexer.readIdentifier_spec _ c rest hs (by rw [← hpk]; assumption)).1
          (Lexer.readIdentifier_spec _ c rest hs (by rw [← hpk]; assumption)).2.1
          (Lexer.readIdentifier_spec _ c rest hs (by rw [← hpk]; assumption)).2.2

end Hash

namespace Hash

theorem countType_append (t : TokenType) (xs ys : List Token) :
    countType t (xs ++ ys) = countType t xs + countType t ys := by
  simp [countType, List.countP_append]

theorem countType_replicate_self (t : TokenType) (n : Nat) (tok : Token) (h : tok.type = t) :
    countType t (List.replicate n tok) = n := by
  simp [countType, List.countP_replicate, h]

theorem countType_replicate_ne (t : TokenType) (n : Nat) (tok : Token) (h : tok.type ≠ t) :
    countType t (List.replicate n tok) = 0 := by
  simp [countType, List.countP_replicate, h]

theorem countType_plain (t : TokenType) (new : List Token) (ht : ¬ t.plain)
    (h : ∀ tok ∈ new, tok.type.plain) : countType t new = 0 := by
  unfold countType
  rw [List.countP_eq_zero]
  intro tok htok
  have := h tok htok
  simp only [decide_eq_true_eq]
  intro heq
  exact ht (heq ▸ this)

theorem LexLoop.Inv.of_extends (s s1 : LexLoop) (h : s.Inv) (he : s.Extends s1) : s1.Inv := by
  obtain ⟨hb, hc, hn⟩ := h
  obtain ⟨hst, new, htok, hplain⟩ := he
  refine ⟨by rw [hst]; exact hb, ?_, ?_⟩
  · rw [htok, countType_append, countType_append, hst,
      countType_plain .INDENT new (by simp [TokenType.plain]) hplain,
      countType_plain .DEDENT new (by simp [TokenType.plain]) hplain]
    omega
  · intro t ht
    rw [htok] at ht
    rcases List.mem_append.mp ht with h1 | h1
    · exact hn t h1
    · exact (hplain t h1).2.2

theorem popIndents_spec (spaces : Nat) :
    ∀ (rest : List Nat), ∃ rest1,
      (popIndents spaces (rest ++ [0])).1 = rest1 ++ [0] ∧
      rest1.length + (popIndents spaces (rest ++ [0])).2 = rest.length := by
  intro rest
  induction rest with
  | nil => exact ⟨[], by simp [popIndents]⟩
  | cons top rest ih =>
    obtain ⟨rest1, h1, h2⟩ := ih
    by_cases hlt : spaces < top
    · refine ⟨rest1, ?_, ?_⟩
      · rw [List.cons_append]; unfold popIndents; rw [if_pos hlt]; exact h1
      · rw [List.cons_append]; unfold popIndents; rw [if_pos hlt]
        simp only [List.length_cons]; omega
    · exact ⟨top :: rest, by simp [popIndents, hlt], by simp [popIndents, hlt]⟩

theorem Lexer.handleIndentation_spec (l : Lexer) (spaces : Nat)
    (hb : ∃ rest, l.indentStack = rest ++ [0]) :
    (l.handleIndentation spaces).2.source = l.source ∧
    (∃ rest, (l.handleIndentation spaces).2.indentStack = rest ++ [0]) ∧
    countType .INDENT (l.handleIndentation spaces).1 + l.indentStack.length =
      countType .DEDENT (l.handleIndentation spaces).1 +
        (l.handleIndentation spaces).2.indentStack.length ∧
    ∀ t ∈ (l.handleIndentation spaces).1, t.type ≠ .END_OF_FILE := by
  obtain ⟨rest, hrest⟩ := hb
  unfold Lexer.handleIndentation
  cases hst : l.indentStack with
  | nil => rw [hrest] at hst; simp at hst
  | cons top tl =>
    have hcons : top :: tl = rest ++ [0] := hst.symm.trans hrest
    dsimp only
    by_cases hgt : spaces > top
    · rw [if_pos hgt]
      refine ⟨rfl, ⟨spaces :: rest, by simp [hst, hcons]⟩, ?_, ?_⟩
      · simp [countType, Lexer.makeToken, List.countP_cons, hst]; omega
      · simp [Lexer.makeToken]
    · rw [if_neg hgt]
      by_cases hlt : spaces < top
      · rw [if_pos hlt]
        obtain ⟨rest1, hp1, hp2⟩ := popIndents_spec spaces rest
        rw [← hrest, hst] at hp1 hp2
        refine ⟨rfl, ⟨rest1, hp1⟩, ?_, ?_⟩
        · rw [countType_append, countType_append,
            countType_replicate_ne .INDENT _ _ (by simp [Lexer.makeToken]),
            countType_replicate_self .DEDENT _ _ (by simp [Lexer.makeToken]), hp1]
          have hlen : (top :: tl).length = rest.length + 1 := by
            rw [← hst, hrest]; simp
          have h3 : ∀ b : Bool, countType .INDENT (if b = true then
              [l.makeToken .INVALID ""] else []) = 0 ∧ countType .DEDENT (if b = true then
              [l.makeToken .INVALID ""] else []) = 0 := by
            intro b; cases b <;> simp [countType, Lexer.makeToken, List.countP_cons]
          rw [(h3 _).1, (h3 _).2]
          simp only [List.length_append, List.length_singleton] at hlen ⊢
          omega
        · intro t ht
          rcases List.mem_append.mp ht with h1 | h1
          · rw [List.eq_of_mem_replicate h1]; simp [Lexer.makeToken]
          · split at h1
            · simp at h1; rw [h1]; simp [Lexer.makeToken]
            · simp at h1
      · rw [if_neg hlt]
        refine ⟨rfl, ⟨rest, by rw [← hrest, hst]⟩, by simp [countType, hst], by simp⟩

theorem LexIter.keeps_ite (s : LexLoop) (c : Prop) [Decidable c] (a b : LexIter)
    (ha : c → a.Keeps s) (hb : ¬c → b.Keeps s) : (if c then a else b).Keeps s := by
  split
  · exact ha (by assumption)
  · exact hb (by assumption)

theorem lexToken_keeps (s s0 : LexLoop) (h0 : s0.Inv)
    (hle : s0.lexer.source.length ≤ s.lexer.source.length) : (lexToken s0).Keeps s := by
  have := lexToken_ok s0
  cases hr : lexToken s0 with
  | again s1 =>
    rw [hr] at this
    exact ⟨LexLoop.Inv.of_extends s0 s1 h0 this.1, lt_of_lt_of_le this.2 hle⟩
  | stop s1 =>
    rw [hr] at this
    exact LexLoop.Inv.of_extends s0 s1 h0 this

theorem lexIteration_keeps (s : LexLoop) (h : s.Inv) : (lexIteration s).Keeps s := by
  unfold lexIteration
  obtain ⟨hsp1, hsp2⟩ := Lexer.advanceWhile_spec (fun c => c == ' ') s.lexer.source s.lexer rfl
  have hsp3 := Lexer.advanceWhile_length_le (fun c => c == ' ') s.lexer
  refine LexIter.keeps_ite s _ _ _ (fun _ => ?_) (fun _ => lexToken_keeps s s h (le_refl _))
  dsimp only
  refine LexIter.keeps_ite s _ _ _ (fun _ => ?_) (fun _ => ?_)
  · obtain ⟨hc1, hc2⟩ := Lexer.skipComment_spec
      (Lexer.advanceWhile (fun c => c == ' ') s.lexer.source s.lexer)
    refine LexIter.keeps_ite s _ _ _ (fun hnl => ?_) (fun _ => ?_)
    · have hne : (Lexer.advanceWhile (fun c => c == ' ') s.lexer.source
          s.lexer).skipComment.source ≠ [] := by
        apply Lexer.source_ne_nil_of_peek
        intro hnul
        rw [hnul] at hnl
        exact absurd hnl (by decide)
      have hlt := Lexer.next_length_lt _ hne
      refine ⟨LexLoop.Inv.of_extends s _ h (LexLoop.Extends.refl_of s _ ?_ rfl), ?_⟩
      · simp [Lexer.next_indentStack, hc1, hsp2]
      · dsimp only; omega
    · apply lexToken_keeps
      · exact LexLoop.Inv.of_extends s _ h
          (LexLoop.Extends.refl_of s _ (by dsimp only; rw [hc1, hsp2]) rfl)
      · dsimp only; omega
  · obtain ⟨hh1, hh2, hh3, hh4⟩ := Lexer.handleIndentation_spec
      (Lexer.advanceWhile (fun c => c == ' ') s.lexer.source s.lexer)
      (List.takeWhile (fun c => c == ' ') s.lexer.source).length (by rw [hsp2]; exact h.1)
    apply lexToken_keeps
    · refine ⟨hh2, ?_, ?_⟩
      · dsimp only
        rw [countType_append, countType_append]
        have := h.2.1
        rw [hsp2] at hh3
        omega
      · intro t ht
        rcases List.mem_append.mp ht with h1 | h1
        · exact h.2.2 t h1
        · exact hh4 t h1
    · dsimp only; rw [hh1]; exact hsp3

theorem tokenizeLoop_total :
    ∀ (fuel : Nat) (s : LexLoop), s.Inv → s.lexer.source.length < fuel →
      ∃ s1, tokenizeLoop fuel s = some s1 ∧ s1.Inv := by
  intro fuel
  induction fuel with
  | zero => intro s _ hlt; omega
  | succ fuel ih =>
    intro s hinv hlt
    unfold tokenizeLoop
    split
    · exact ⟨s, rfl, hinv⟩
    · have := lexIteration_keeps s hinv
      split
      · next s1 hr =>
        rw [hr] at this
        exact ih s1 this.1 (by have := this.2; omega)
      · next s1 hr =>
        rw [hr] at this
        exact ⟨s1, rfl, this⟩

theorem LexLoop.Inv.initial (source : List Char) :
    LexLoop.Inv { lexer := Lexer.new source, atLineStart := true, tokens := [] } :=
  ⟨⟨[], rfl⟩, by simp [countType, Lexer.new], by simp⟩

end Hash

namespace Hash

theorem tokenize_eq (source : List Char) :
    ∃ s : LexLoop,
      tokenizeLoop (source.length + 1)
        { lexer := Lexer.new source, atLineStart := true, tokens := [] } = some s ∧
      s.Inv ∧ tokenize source = some (s.tokens ++ closeTokens s.lexer) := by
  obtain ⟨s, hs, hinv⟩ := tokenizeLoop_total (source.length + 1)
    { lexer := Lexer.new source, atLineStart := true, tokens := [] }
    (LexLoop.Inv.initial source) (by simp [Lexer.new])
  exact ⟨s, hs, hinv, by simp [tokenize, tokenizeFuel, hs]⟩

theorem LexLoop.Inv.open_levels (s : LexLoop) (h : s.Inv) :
    countType .INDENT s.tokens =
      countType .DEDENT s.tokens + (s.lexer.indentStack.length - 1) := by
  obtain ⟨⟨rest, hrest⟩, hc, _⟩ := h
  rw [hrest] at hc ⊢
  simp only [List.length_append, List.length_singleton] at hc ⊢
  omega

/-- C7: for every input string `tokenize` returns a token list, and in it the
number of `INDENT` tokens equals the number of `DEDENT` tokens. -/
theorem C7_indent_dedent_balanced (source : List Char) :
    ∃ tokens, tokenize source = some tokens ∧
      countType .INDENT tokens = countType .DEDENT tokens := by
  obtain ⟨s, _, hinv, htok⟩ := tokenize_eq source
  refine ⟨_, htok, ?_⟩
  have hopen := LexLoop.Inv.open_levels s hinv
  have h1 : countType .INDENT [s.lexer.makeToken .END_OF_FILE ""] = 0 := by
    simp [countType, Lexer.makeToken]
  have h2 : countType .DEDENT [s.lexer.makeToken .END_OF_FILE ""] = 0 := by
    simp [countType, Lexer.makeToken]
  unfold closeTokens
  rw [countType_append, countType_append, countType_append, countType_append,
    countType_replicate_ne .INDENT _ _ (by simp [Lexer.makeToken]),
    countType_replicate_self .DEDENT _ _ (by simp [Lexer.makeToken]), h1, h2]
  omega

/-- C8: for every input string `tokenize` returns (the loop ends within the fuel
of one unit per character, and no step of the model can fail): the result is the
tokens `body` of the main loop, none of them `END_OF_FILE`, then one `DEDENT` for
each level still on the indentation stack, which is one for each `INDENT` of
`body` not closed by a `DEDENT`, then `END_OF_FILE` as the last token and
nowhere else. -/
theorem C8_tokenize_total (source : List Char) :
    ∃ (s : LexLoop) (tokens : List Token),
      tokenizeLoop (source.length + 1)
        { lexer := Lexer.new source, atLineStart := true, tokens := [] } = some s ∧
      tokenize source = some tokens ∧
      tokens = s.tokens ++ List.replicate (s.lexer.indentStack.length - 1)
        (s.lexer.makeToken .DEDENT "") ++ [s.lexer.makeToken .END_OF_FILE ""] ∧
      (∀ t ∈ s.tokens, t.type ≠ .END_OF_FILE) ∧
      countType .INDENT s.tokens =
        countType .DEDENT s.tokens + (s.lexer.indentStack.length - 1) ∧
      tokens ≠ [] ∧
      tokens.getLast?.map (fun t => t.type) = some .END_OF_FILE ∧
      (∀ t ∈ tokens.dropLast, t.type ≠ .END_OF_FILE) := by
  obtain ⟨s, hs, hinv, htok⟩ := tokenize_eq source
  refine ⟨s, _, hs, htok, ?_, hinv.2.2, LexLoop.Inv.open_levels s hinv, ?_, ?_, ?_⟩
  · simp [closeTokens, List.append_assoc]
  · simp [closeTokens]
  · simp [closeTokens, List.getLast?_append, Lexer.makeToken]
  · intro t ht
    have hd : (s.tokens ++ closeTokens s.lexer).dropLast =
        s.tokens ++ List.replicate (s.lexer.indentStack.length - 1)
          (s.lexer.makeToken .DEDENT "") := by
      unfold closeTokens
      rw [← List.append_assoc, List.dropLast_concat]
    rw [hd] at ht
    rcases List.mem_append.mp ht with h1 | h1
    · exact hinv.2.2 t h1
    · rw [List.eq_of_mem_replicate h1]; simp [Lexer.makeToken]

end Hash

/-! ## Theorems about the semantic analyzer -/

namespace Hash

theorem SemanticAnalyzer.Frame.frameRefl (a : SemanticAnalyzer) : a.Frame a :=
  ⟨rfl, rfl, rfl, rfl, rfl, rfl, rfl⟩

theorem SemanticAnalyzer.Frame.frameTrans {a b c : SemanticAnalyzer} (h1 : a.Frame b)
    (h2 : b.Frame c) : a.Frame c := by
  obtain ⟨a1, a2, a3, a4, a5, a6, a7⟩ := h1
  obtain ⟨b1, b2, b3, b4, b5, b6, b7⟩ := h2
  exact ⟨b1.trans a1, b2.trans a2, b3.trans a3, b4.trans a4, b5.trans a5, b6.trans a6,
    b7.trans a7⟩

theorem SemanticAnalyzer.Frame.pushError (a : SemanticAnalyzer) (e : ErrorInfo) :
    a.Frame (a.pushError e) :=
  ⟨rfl, rfl, rfl, rfl, rfl, rfl, rfl⟩

theorem SemanticAnalyzer.Frame.markSideEffect (a : SemanticAnalyzer) :
    a.Frame a.markSideEffect :=
  ⟨rfl, rfl, rfl, rfl, rfl, rfl, rfl⟩

theorem SemanticAnalyzer.Frame.frameIte (a : SemanticAnalyzer) (c : Prop) [Decidable c]
    (x y : SemanticAnalyzer) (hx : a.Frame x) (hy : a.Frame y) :
    a.Frame (if c then x else y) := by
  split
  · exact hx
  · exact hy

theorem binaryResult_frame (op : BinOp) (i : ExprInfo) (lt rt : Option TypeKind)
    (a : SemanticAnalyzer) : a.Frame (binaryResult op i lt rt a).2 := by
  unfold binaryResult
  cases op <;> dsimp only <;>
    first
      | exact SemanticAnalyzer.Frame.frameRefl a
      | exact SemanticAnalyzer.Frame.frameIte a _ _ _ (SemanticAnalyzer.Frame.pushError a _)
          (SemanticAnalyzer.Frame.frameRefl a)

theorem unaryResult_frame (op : UnOp) (i : ExprInfo) (t : Option TypeKind)
    (a : SemanticAnalyzer) : a.Frame (unaryResult op i t a).2 := by
  unfold unaryResult
  cases op <;> dsimp only <;>
    first
      | exact SemanticAnalyzer.Frame.frameRefl a
      | exact SemanticAnalyzer.Frame.frameIte a _ _ _ (SemanticAnalyzer.Frame.pushError a _)
          (SemanticAnalyzer.Frame.frameRefl a)

mutual
theorem visitExpression_frame :
    ∀ (e : Expression) (a : SemanticAnalyzer), a.Frame (visitExpression e a).2
  | .IntegerLiteral _ _, a => by simp [visitExpression, SemanticAnalyzer.Frame.frameRefl]
  | .FloatLiteral _ _, a => by simp [visitExpression, SemanticAnalyzer.Frame.frameRefl]
  | .StringLiteral _ _, a => by simp [visitExpression, SemanticAnalyzer.Frame.frameRefl]
  | .BoolLiteral _ _, a => by simp [visitExpression, SemanticAnalyzer.Frame.frameRefl]
  | .Identifier i name, a => by
    unfold visitExpression
    split
    · exact SemanticAnalyzer.Frame.pushError a _
    · exact SemanticAnalyzer.Frame.frameIte a _ _ _ (SemanticAnalyzer.Frame.pushError a _)
        (SemanticAnalyzer.Frame.frameRefl a)
  | .BinaryOp i op left right, a => by
    have h1 := visitExpression_frame left a
    have h2 := visitExpression_frame right (visitExpression left a).2
    unfold visitExpression
    rcases hl : visitExpression left a with ⟨left1, a1⟩
    rw [hl] at h1 h2
    dsimp only at h1 h2 ⊢
    rcases hr : visitExpression right a1 with ⟨right1, a2⟩
    rw [hr] at h2
    dsimp only at h2 ⊢
    split
    · exact h1.frameTrans h2
    · exact (h1.frameTrans h2).frameTrans (binaryResult_frame _ _ _ _ _)
  | .UnaryOp i op operand, a => by
    have h1 := visitExpression_frame operand a
    unfold visitExpression
    rcases ho : visitExpression operand a with ⟨operand1, a1⟩
    rw [ho] at h1
    dsimp only at h1 ⊢
    split
    · exact h1
    · exact h1.frameTrans (unaryResult_frame _ _ _ _)
  | .CallExpr i functionName arguments, a => by
    unfold visitExpression
    split
    · exact SemanticAnalyzer.Frame.pushError a _
    · next funcInfo _ =>
      split
      · exact SemanticAnalyzer.Frame.pushError a _
      · have h1 := visitArguments_frame functionName funcInfo.paramTypes 0 arguments a
        rcases hv : visitArguments functionName funcInfo.paramTypes 0 arguments a with
          ⟨arguments1, a1⟩
        rw [hv] at h1
        dsimp only at h1 ⊢
        refine h1.frameTrans ?_
        exact SemanticAnalyzer.Frame.frameTrans
          (SemanticAnalyzer.Frame.frameIte a1 _ _ _ (SemanticAnalyzer.Frame.pushError a1 _)
            (SemanticAnalyzer.Frame.frameRefl a1))
          (SemanticAnalyzer.Frame.frameIte _ _ _ _ (SemanticAnalyzer.Frame.markSideEffect _)
            (SemanticAnalyzer.Frame.frameRefl _))
theorem visitArguments_frame (functionName : String) (paramTypes : List TypeKind) :
    ∀ (i : Nat) (arguments : List Expression) (a : SemanticAnalyzer),
      a.Frame (visitArguments functionName paramTypes i arguments a).2
  | _, [], a => by simp [visitArguments, SemanticAnalyzer.Frame.frameRefl]
  | i, arg :: rest, a => by
    have h1 := visitExpression_frame arg a
    unfold visitArguments
    rcases ha : visitExpression arg a with ⟨arg1, a1⟩
    rw [ha] at h1
    dsimp only at h1 ⊢
    have h2 := visitArguments_frame functionName paramTypes (i + 1) rest
      (if arg1.type.isSome && !typesMatch (paramTypes.get? i) arg1.type then
        a1.pushError (argumentTypeError functionName i (typeToString (paramTypes.get? i))
          (typeToString arg1.type) arg1.info)
      else a1)
    rcases hr : visitArguments functionName paramTypes (i + 1) rest
      (if arg1.type.isSome && !typesMatch (paramTypes.get? i) arg1.type then
        a1.pushError (argumentTypeError functionName i (typeToString (paramTypes.get? i))
          (typeToString arg1.type) arg1.info)
      else a1) with ⟨rest1, a3⟩
    rw [hr] at h2
    dsimp only at h2 ⊢
    refine (h1.frameTrans ?_).frameTrans h2
    split
    · exact SemanticAnalyzer.Frame.pushError a1 _
    · exact SemanticAnalyzer.Frame.frameRefl a1
end

end Hash

namespace Hash

theorem binaryResult_flag (op : BinOp) (i : ExprInfo) (lt rt : Option TypeKind)
    (a : SemanticAnalyzer) :
    (binaryResult op i lt rt a).2.currentFunctionHasSideEffects =
      a.currentFunctionHasSideEffects := by
  unfold binaryResult
  cases op <;> dsimp only <;> first | rfl | (split <;> rfl)

theorem unaryResult_flag (op : UnOp) (i : ExprInfo) (t : Option TypeKind)
    (a : SemanticAnalyzer) :
    (unaryResult op i t a).2.currentFunctionHasSideEffects =
      a.currentFunctionHasSideEffects := by
  unfold unaryResult
  cases op <;> first | rfl | (dsimp only; split <;> rfl)

theorem flag_ite_pushError (a : SemanticAnalyzer) (c : Prop) [Decidable c] (e : ErrorInfo) :
    (if c then a.pushError e else a).currentFunctionHasSideEffects =
      a.currentFunctionHasSideEffects := by
  split <;> rfl

theorem functions_ite_pushError (a : SemanticAnalyzer) (c : Prop) [Decidable c] (e : ErrorInfo) :
    (if c then a.pushError e else a).functions = a.functions := by
  split <;> rfl

mutual
/-- An expression whose calls are all clean leaves the side-effect flag as it is. -/
theorem visitExpression_flag :
    ∀ (e : Expression) (a : SemanticAnalyzer), e.callsClean a.functions = true →
      (visitExpression e a).2.currentFunctionHasSideEffects = a.currentFunctionHasSideEffects
  | .IntegerLiteral _ _, a, _ => by simp [visitExpression]
  | .FloatLiteral _ _, a, _ => by simp [visitExpression]
  | .StringLiteral _ _, a, _ => by simp [visitExpression]
  | .BoolLiteral _ _, a, _ => by simp [visitExpression]
  | .Identifier i name, a, _ => by
    unfold visitExpression
    split
    · rfl
    · exact flag_ite_pushError a _ _
  | .BinaryOp i op left right, a, h => by
    simp only [Expression.callsClean, Bool.and_eq_true] at h
    have h1 := visitExpression_flag left a h.1
    have f1 := (visitExpression_frame left a).2.1
    have h2 := visitExpression_flag right (visitExpression left a).2 (by rw [f1]; exact h.2)
    unfold visitExpression
    rcases hl : visitExpression left a with ⟨left1, a1⟩
    rw [hl] at h1 h2
    dsimp only at h1 h2 ⊢
    rcases hr : visitExpression right a1 with ⟨right1, a2⟩
    rw [hr] at h2
    dsimp only at h2 ⊢
    split
    · exact h2.trans h1
    · exact (binaryResult_flag _ _ _ _ _).trans (h2.trans h1)
  | .UnaryOp i op operand, a, h => by
    simp only [Expression.callsClean] at h
    have h1 := visitExpression_flag operand a h
    unfold visitExpression
    rcases ho : visitExpression operand a with ⟨operand1, a1⟩
    rw [ho] at h1
    dsimp only at h1 ⊢
    split
    · exact h1
    · exact (unaryResult_flag _ _ _ _).trans h1
  | .CallExpr i functionName arguments, a, h => by
    simp only [Expression.callsClean, Bool.and_eq_true] at h
    unfold visitExpression
    split
    · rfl
    · next funcInfo hf =>
      have hclean : funcInfo.hasSideEffects = false := by
        have := h.1
        unfold SemanticAnalyzer.lookupFunction at hf
        rw [hf] at this
        simpa using this
      split
      · rfl
      · have h1 := visitArguments_flag functionName funcInfo.paramTypes 0 arguments a h.2
        rcases hv : visitArguments functionName funcInfo.paramTypes 0 arguments a with
          ⟨arguments1, a1⟩
        rw [hv] at h1
        dsimp only at h1 ⊢
        simp [hclean, h1]
theorem visitArguments_flag (functionName : String) (paramTypes : List TypeKind) :
    ∀ (i : Nat) (arguments : List Expression) (a : SemanticAnalyzer),
      callsCleanList a.functions arguments = true →
      (visitArguments functionName paramTypes i arguments a).2.currentFunctionHasSideEffects =
        a.currentFunctionHasSideEffects
  | _, [], a, _ => by simp [visitArguments]
  | i, arg :: rest, a, h => by
    simp only [callsCleanList, Bool.and_eq_true] at h
    have h1 := visitExpression_flag arg a h.1
    have f1 := (visitExpression_frame arg a).2.1
    unfold visitArguments
    rcases ha : visitExpression arg a with ⟨arg1, a1⟩
    rw [ha] at h1 f1
    dsimp only at h1 f1 ⊢
    have h2 := visitArguments_flag functionName paramTypes (i + 1) rest
      (if arg1.type.isSome && !typesMatch (paramTypes.get? i) arg1.type then
        a1.pushError (argumentTypeError functionName i (typeToString (paramTypes.get? i))
          (typeToString arg1.type) arg1.info)
      else a1) (by rw [functions_ite_pushError, f1]; exact h.2)
    rcases hr : visitArguments functionName paramTypes (i + 1) rest
      (if arg1.type.isSome && !typesMatch (paramTypes.get? i) arg1.type then
        a1.pushError (argumentTypeError functionName i (typeToString (paramTypes.get? i))
          (typeToString arg1.type) arg1.info)
      else a1) with ⟨rest1, a3⟩
    rw [hr] at h2
    dsimp only at h2 ⊢
    rw [h2, flag_ite_pushError, h1]
end

end Hash

namespace Hash

namespace SemanticAnalyzer

@[simp] theorem error_functions (a : SemanticAnalyzer) (m : String) (l c : Int) :
    (a.error m l c).functions = a.functions := rfl
@[simp] theorem error_currentFunction (a : SemanticAnalyzer) (m : String) (l c : Int) :
    (a.error m l c).currentFunction = a.currentFunction := rfl
@[simp] theorem error_flag (a : SemanticAnalyzer) (m : String) (l c : Int) :
    (a.error m l c).currentFunctionHasSideEffects = a.currentFunctionHasSideEffects := rfl
@[simp] theorem error_errors (a : SemanticAnalyzer) (m : String) (l c : Int) :
    (a.error m l c).errors = a.errors ++ [legacyText "Error" m l c] := rfl
@[simp] theorem error_scopes (a : SemanticAnalyzer) (m : String) (l c : Int) :
    (a.error m l c).scopes = a.scopes := rfl
@[simp] theorem warning_functions (a : SemanticAnalyzer) (m : String) (l c : Int) :
    (a.warning m l c).functions = a.functions := rfl
@[simp] theorem warning_currentFunction (a : SemanticAnalyzer) (m : String) (l c : Int) :
    (a.warning m l c).currentFunction = a.currentFunction := rfl
@[simp] theorem warning_flag (a : SemanticAnalyzer) (m : String) (l c : Int) :
    (a.warning m l c).currentFunctionHasSideEffects = a.currentFunctionHasSideEffects := rfl
@[simp] theorem warning_errors (a : SemanticAnalyzer) (m : String) (l c : Int) :
    (a.warning m l c).errors = a.errors := rfl
@[simp] theorem warning_scopes (a : SemanticAnalyzer) (m : String) (l c : Int) :
    (a.warning m l c).scopes = a.scopes := rfl
@[simp] theorem suggest_functions (a : SemanticAnalyzer) (s : String) :
    (a.suggest s).functions = a.functions := rfl
@[simp] theorem suggest_currentFunction (a : SemanticAnalyzer) (s : String) :
    (a.suggest s).currentFunction = a.currentFunction := rfl
@[simp] theorem suggest_flag (a : SemanticAnalyzer) (s : String) :
    (a.suggest s).currentFunctionHasSideEffects = a.currentFunctionHasSideEffects := rfl
@[simp] theorem suggest_errors (a : SemanticAnalyzer) (s : String) :
    (a.suggest s).errors = a.errors := rfl
@[simp] theorem suggest_scopes (a : SemanticAnalyzer) (s : String) :
    (a.suggest s).scopes = a.scopes := rfl
@[simp] theorem pushError_functions (a : SemanticAnalyzer) (e : ErrorInfo) :
    (a.pushError e).functions = a.functions := rfl
@[simp] theorem pushError_currentFunction (a : SemanticAnalyzer) (e : ErrorInfo) :
    (a.pushError e).currentFunction = a.currentFunction := rfl
@[simp] theorem pushError_flag (a : SemanticAnalyzer) (e : ErrorInfo) :
    (a.pushError e).currentFunctionHasSideEffects = a.currentFunctionHasSideEffects := rfl
@[simp] theorem pushError_errors (a : SemanticAnalyzer) (e : ErrorInfo) :
    (a.pushError e).errors = a.errors := rfl
@[simp] theorem pushError_scopes (a : SemanticAnalyzer) (e : ErrorInfo) :
    (a.pushError e).scopes = a.scopes := rfl
@[simp] theorem pushError_structuredErrors (a : SemanticAnalyzer) (e : ErrorInfo) :
    (a.pushError e).structuredErrors = a.structuredErrors ++ [e] := rfl
@[simp] theorem markSideEffect_functions (a : SemanticAnalyzer) :
    a.markSideEffect.functions = a.functions := rfl
@[simp] theorem markSideEffect_currentFunction (a : SemanticAnalyzer) :
    a.markSideEffect.currentFunction = a.currentFunction := rfl
@[simp] theorem markSideEffect_flag (a : SemanticAnalyzer) :
    a.markSideEffect.currentFunctionHasSideEffects = true := rfl
@[simp] theorem markSideEffect_errors (a : SemanticAnalyzer) :
    a.markSideEffect.errors = a.errors := rfl
@[simp] theorem markSideEffect_structuredErrors (a : SemanticAnalyzer) :
    a.markSideEffect.structuredErrors = a.structuredErrors := rfl
@[simp] theorem declareVariable_functions (a : SemanticAnalyzer) (n : String) (s : Symbol) :
    (a.declareVariable n s).functions = a.functions := by
  unfold declareVariable; split <;> rfl
@[simp] theorem declareVariable_currentFunction (a : SemanticAnalyzer) (n : String)
    (s : Symbol) : (a.declareVariable n s).currentFunction = a.currentFunction := by
  unfold declareVariable; split <;> rfl
@[simp] theorem declareVariable_flag (a : SemanticAnalyzer) (n : String) (s : Symbol) :
    (a.declareVariable n s).currentFunctionHasSideEffects = a.currentFunctionHasSideEffects := by
  unfold declareVariable; split <;> rfl
@[simp] theorem declareVariable_errors (a : SemanticAnalyzer) (n : String) (s : Symbol) :
    (a.declareVariable n s).errors = a.errors := by
  unfold declareVariable; split <;> rfl

end SemanticAnalyzer

theorem binaryResult_mono (op : BinOp) (i : ExprInfo) (lt rt : Option TypeKind)
    (a : SemanticAnalyzer) (h : a.currentFunctionHasSideEffects = true) :
    (binaryResult op i lt rt a).2.currentFunctionHasSideEffects = true := by
  rw [binaryResult_flag]; exact h

mutual
/-- The visit of an expression never clears the side-effect flag. -/
theorem visitExpression_mono :
    ∀ (e : Expression) (a : SemanticAnalyzer), a.currentFunctionHasSideEffects = true →
      (visitExpression e a).2.currentFunctionHasSideEffects = true
  | .IntegerLiteral _ _, a, h => by simpa [visitExpression] using h
  | .FloatLiteral _ _, a, h => by simpa [visitExpression] using h
  | .StringLiteral _ _, a, h => by simpa [visitExpression] using h
  | .BoolLiteral _ _, a, h => by simpa [visitExpression] using h
  | .Identifier i name, a, h => by
    unfold visitExpression
    split
    · exact h
    · rw [flag_ite_pushError]; exact h
  | .BinaryOp i op left right, a, h => by
    have h1 := visitExpression_mono left a h
    have h2 := visitExpression_mono right (visitExpression left a).2 h1
    unfold visitExpression
    rcases hl : visitExpression left a with ⟨left1, a1⟩
    rw [hl] at h1 h2
    dsimp only at h1 h2 ⊢
    rcases hr : visitExpression right a1 with ⟨right1, a2⟩
    rw [hr] at h2
    dsimp only at h2 ⊢
    split
    · exact h2
    · rw [binaryResult_flag]; exact h2
  | .UnaryOp i op operand, a, h => by
    have h1 := visitExpression_mono operand a h
    unfold visitExpression
    rcases ho : visitExpression operand a with ⟨operand1, a1⟩
    rw [ho] at h1
    dsimp only at h1 ⊢
    split
    · exact h1
    · rw [unaryResult_flag]; exact h1
  | .CallExpr i functionName arguments, a, h => by
    unfold visitExpression
    split
    · exact h
    · next funcInfo hf =>
      split
      · exact h
      · have h1 := visitArguments_mono functionName funcInfo.paramTypes 0 arguments a h
        rcases hv : visitArguments functionName funcInfo.paramTypes 0 arguments a with
          ⟨arguments1, a1⟩
        rw [hv] at h1
        dsimp only at h1 ⊢
        split
        · rfl
        · rw [flag_ite_pushError]; exact h1
theorem visitArguments_mono (functionName : String) (paramTypes : List TypeKind) :
    ∀ (i : Nat) (arguments : List Expression) (a : SemanticAnalyzer),
      a.currentFunctionHasSideEffects = true →
      (visitArguments functionName paramTypes i arguments a).2.currentFunctionHasSideEffects =
        true
  | _, [], a, h => by simpa [visitArguments] using h
  | i, arg :: rest, a, h => by
    have h1 := visitExpression_mono arg a h
    unfold visitArguments
    rcases ha : visitExpression arg a with ⟨arg1, a1⟩
    rw [ha] at h1
    dsimp only at h1 ⊢
    have h2 := visitArguments_mono functionName paramTypes (i + 1) rest
      (if arg1.type.isSome && !typesMatch (paramTypes.get? i) arg1.type then
        a1.pushError (argumentTypeError functionName i (typeToString (paramTypes.get? i))
          (typeToString arg1.type) arg1.info)
      else a1) (by rw [flag_ite_pushError]; exact h1)
    rcases hr : visitArguments functionName paramTypes (i + 1) rest
      (if arg1.type.isSome && !typesMatch (paramTypes.get? i) arg1.type then
        a1.pushError (argumentTypeError functionName i (typeToString (paramTypes.get? i))
          (typeToString arg1.type) arg1.info)
      else a1) with ⟨rest1, a3⟩
    rw [hr] at h2
    dsimp only at h2 ⊢
    exact h2
end

end Hash

namespace Hash

theorem SemanticAnalyzer.Keeps.keepsRefl (a : SemanticAnalyzer) : a.Keeps a :=
  ⟨rfl, rfl, fun h => h⟩

theorem SemanticAnalyzer.Keeps.keepsTrans {a b c : SemanticAnalyzer} (h1 : a.Keeps b)
    (h2 : b.Keeps c) : a.Keeps c :=
  ⟨h2.1.trans h1.1, h2.2.1.trans h1.2.1, fun h => h2.2.2 (h1.2.2 h)⟩

theorem SemanticAnalyzer.Keeps.keepsIte (a : SemanticAnalyzer) (c : Prop) [Decidable c]
    (x y : SemanticAnalyzer) (hx : a.Keeps x) (hy : a.Keeps y) :
    a.Keeps (if c then x else y) := by
  split
  · exact hx
  · exact hy

theorem SemanticAnalyzer.Keeps.failure (a : SemanticAnalyzer) (m s : String) (l c : Int) :
    a.Keeps ((a.error m l c).suggest s) :=
  ⟨rfl, rfl, fun h => h⟩

theorem SemanticAnalyzer.Keeps.error (a : SemanticAnalyzer) (m : String) (l c : Int) :
    a.Keeps (a.error m l c) :=
  ⟨rfl, rfl, fun h => h⟩

theorem SemanticAnalyzer.Keeps.warning (a : SemanticAnalyzer) (m : String) (l c : Int) :
    a.Keeps (a.warning m l c) :=
  ⟨rfl, rfl, fun h => h⟩

theorem SemanticAnalyzer.Keeps.declareVariable (a : SemanticAnalyzer) (n : String)
    (s : Symbol) : a.Keeps (a.declareVariable n s) :=
  ⟨by simp, by simp, fun h => by simpa using h⟩

theorem visitExpression_keeps (e : Expression) (a : SemanticAnalyzer) :
    a.Keeps (visitExpression e a).2 :=
  ⟨(visitExpression_frame e a).2.1, (visitExpression_frame e a).2.2.1,
    visitExpression_mono e a⟩

theorem SemanticAnalyzer.Keeps.step (a x : SemanticAnalyzer) (h : a.Keeps x) (c : Prop)
    [Decidable c] (m s : String) (l col : Int) :
    a.Keeps (if c then (x.error m l col).suggest s else x) :=
  SemanticAnalyzer.Keeps.keepsIte a _ _ _ (h.keepsTrans (SemanticAnalyzer.Keeps.failure x _ _ _ _)) h

theorem assignmentChecks_keeps (a : SemanticAnalyzer) (symbol : Symbol) (name : String)
    (line column : Int) : a.Keeps (assignmentChecks a symbol name line column) := by
  unfold assignmentChecks
  exact SemanticAnalyzer.Keeps.step a _
    (SemanticAnalyzer.Keeps.step a a (SemanticAnalyzer.Keeps.keepsRefl a) _ _ _ _ _) _ _ _ _ _

theorem assignmentChecks_flag (a : SemanticAnalyzer) (symbol : Symbol) (name : String)
    (line column : Int) :
    (assignmentChecks a symbol name line column).currentFunctionHasSideEffects =
      a.currentFunctionHasSideEffects := by
  unfold assignmentChecks
  dsimp only
  split <;> split <;> rfl

theorem visitVariableDecl_keeps (node : VariableDecl) (a : SemanticAnalyzer) :
    a.Keeps (visitVariableDecl node a).2 := by
  unfold visitVariableDecl
  split
  · exact SemanticAnalyzer.Keeps.error a _ _ _
  · split
    · exact SemanticAnalyzer.Keeps.declareVariable a _ _
    · next initializer _ =>
      have h1 := visitExpression_keeps initializer a
      rcases hv : visitExpression initializer a with ⟨init1, a1⟩
      rw [hv] at h1
      dsimp only at h1 ⊢
      refine (h1.keepsTrans ?_).keepsTrans (SemanticAnalyzer.Keeps.declareVariable _ _ _)
      exact SemanticAnalyzer.Keeps.keepsIte a1 _ _ _ (SemanticAnalyzer.Keeps.failure a1 _ _ _ _)
        (SemanticAnalyzer.Keeps.keepsRefl a1)

theorem visitVariableDecl_flag (node : VariableDecl) (a : SemanticAnalyzer)
    (h : (Statement.VariableDecl node).sideEffectFree a.functions = true) :
    (visitVariableDecl node a).2.currentFunctionHasSideEffects =
      a.currentFunctionHasSideEffects := by
  unfold Statement.sideEffectFree at h
  unfold visitVariableDecl
  split
  · rfl
  · split
    · simp
    · next initializer hi =>
      rw [hi] at h
      dsimp only at h
      have h1 := visitExpression_flag initializer a h
      rcases hv : visitExpression initializer a with ⟨init1, a1⟩
      rw [hv] at h1
      dsimp only at h1 ⊢
      rw [SemanticAnalyzer.declareVariable_flag]
      split
      · simpa using h1
      · exact h1

mutual
theorem visitStatement_keeps :
    ∀ (st : Statement) (a : SemanticAnalyzer), a.Keeps (visitStatement st a).2
  | .VariableDecl decl, a => by
    have := visitVariableDecl_keeps decl a
    unfold visitStatement
    rcases hv : visitVariableDecl decl a with ⟨decl1, a1⟩
    rw [hv] at this
    exact this
  | .Assignment line column name value, a => by
    unfold visitStatement
    split
    · exact SemanticAnalyzer.Keeps.failure a _ _ _ _
    · next symbol _ =>
      have h0 := assignmentChecks_keeps a symbol name line column
      have h1 := visitExpression_keeps value (assignmentChecks a symbol name line column)
      rcases hv : visitExpression value (assignmentChecks a symbol name line column) with
        ⟨value1, a1⟩
      rw [hv] at h1
      dsimp only at h1 ⊢
      refine (h0.keepsTrans h1).keepsTrans ?_
      refine ⟨?_, ?_, fun _ => rfl⟩
      · dsimp only [SemanticAnalyzer.markSideEffect]
        split <;> rfl
      · dsimp only [SemanticAnalyzer.markSideEffect]
        split <;> rfl
  | .ReturnStmt line column value, a => by
    unfold visitStatement
    split
    · exact SemanticAnalyzer.Keeps.failure a _ _ _ _
    · next cf _ =>
      split
      · next v =>
        have h1 := visitExpression_keeps v a
        rcases hv : visitExpression v a with ⟨value1, a1⟩
        rw [hv] at h1
        dsimp only at h1 ⊢
        exact SemanticAnalyzer.Keeps.step a a1 h1 _ _ _ _ _
      · exact SemanticAnalyzer.Keeps.step a a (SemanticAnalyzer.Keeps.keepsRefl a) _ _ _ _ _
  | .IfStmt line column condition thenBody elseBody, a => by
    have h1 := visitExpression_keeps condition a
    unfold visitStatement
    rcases hv : visitExpression condition a with ⟨condition1, a1⟩
    rw [hv] at h1
    dsimp only at h1 ⊢
    have hw : a1.Keeps (if condition1.type.isSome && condition1.type ≠ some .BOOL then
        a1.warning "If condition should be of type bool" (-1) (-1) else a1) :=
      SemanticAnalyzer.Keeps.keepsIte a1 _ _ _ (SemanticAnalyzer.Keeps.warning a1 _ _ _)
        (SemanticAnalyzer.Keeps.keepsRefl a1)
    have h2 := visitStatements_keeps thenBody (if condition1.type.isSome &&
      condition1.type ≠ some .BOOL then
        a1.warning "If condition should be of type bool" (-1) (-1) else a1)
    rcases ht : visitStatements thenBody (if condition1.type.isSome &&
      condition1.type ≠ some .BOOL then
        a1.warning "If condition should be of type bool" (-1) (-1) else a1) with ⟨then1, a3⟩
    rw [ht] at h2
    dsimp only at h2 ⊢
    have h3 := visitStatements_keeps elseBody a3
    rcases he : visitStatements elseBody a3 with ⟨else1, a4⟩
    rw [he] at h3
    dsimp only at h3 ⊢
    exact ((h1.keepsTrans hw).keepsTrans h2).keepsTrans h3
  | .WhileStmt line column condition body, a => by
    have h1 := visitExpression_keeps condition a
    unfold visitStatement
    rcases hv : visitExpression condition a with ⟨condition1, a1⟩
    rw [hv] at h1
    dsimp only at h1 ⊢
    have hw : a1.Keeps (if condition1.type.isSome && condition1.type ≠ some .BOOL then
        a1.warning "While condition should be of type bool" (-1) (-1) else a1) :=
      SemanticAnalyzer.Keeps.keepsIte a1 _ _ _ (SemanticAnalyzer.Keeps.warning a1 _ _ _)
        (SemanticAnalyzer.Keeps.keepsRefl a1)
    have h2 := visitStatements_keeps body (if condition1.type.isSome &&
      condition1.type ≠ some .BOOL then
        a1.warning "While condition should be of type bool" (-1) (-1) else a1)
    rcases ht : visitStatements body (if condition1.type.isSome &&
      condition1.type ≠ some .BOOL then
        a1.warning "While condition should be of type bool" (-1) (-1) else a1) with ⟨body1, a3⟩
    rw [ht] at h2
    dsimp only at h2 ⊢
    exact (h1.keepsTrans hw).keepsTrans h2
  | .ExprStmt line column expression, a => by
    have h1 := visitExpression_keeps expression a
    unfold visitStatement
    rcases hv : visitExpression expression a with ⟨expression1, a1⟩
    rw [hv] at h1
    exact h1
theorem visitStatements_keeps :
    ∀ (sts : List Statement) (a : SemanticAnalyzer), a.Keeps (visitStatements sts a).2
  | [], a => by simp [visitStatements, SemanticAnalyzer.Keeps.keepsRefl]
  | st :: rest, a => by
    have h1 := visitStatement_keeps st a
    unfold visitStatements
    rcases hv : visitStatement st a with ⟨st1, a1⟩
    rw [hv] at h1
    dsimp only at h1 ⊢
    have h2 := visitStatements_keeps rest a1
    rcases hr : visitStatements rest a1 with ⟨rest1, a2⟩
    rw [hr] at h2
    exact h1.keepsTrans h2
end

end Hash

namespace Hash

theorem flag_ite_failure (x : SemanticAnalyzer) (c : Prop) [Decidable c] (m s : String)
    (l col : Int) :
    (if c then (x.error m l col).suggest s else x).currentFunctionHasSideEffects =
      x.currentFunctionHasSideEffects := by
  split <;> rfl

theorem flag_ite_warning (x : SemanticAnalyzer) (c : Prop) [Decidable c] (m : String)
    (l col : Int) :
    (if c then x.warning m l col else x).currentFunctionHasSideEffects =
      x.currentFunctionHasSideEffects := by
  split <;> rfl

theorem functions_ite_warning (x : SemanticAnalyzer) (c : Prop) [Decidable c] (m : String)
    (l col : Int) : (if c then x.warning m l col else x).functions = x.functions := by
  split <;> rfl

mutual
/-- A statement without assignment whose calls are all clean leaves the
side-effect flag as it is. -/
theorem visitStatement_flag :
    ∀ (st : Statement) (a : SemanticAnalyzer), st.sideEffectFree a.functions = true →
      (visitStatement st a).2.currentFunctionHasSideEffects = a.currentFunctionHasSideEffects
  | .VariableDecl decl, a, h => by
    have := visitVariableDecl_flag decl a h
    unfold visitStatement
    rcases hv : visitVariableDecl decl a with ⟨decl1, a1⟩
    rw [hv] at this
    exact this
  | .Assignment line column name value, a, h => by
    simp [Statement.sideEffectFree] at h
  | .ReturnStmt line column none, a, _ => by
    unfold visitStatement
    split
    · rfl
    · exact flag_ite_failure a _ _ _ _ _
  | .ReturnStmt line column (some v), a, h => by
    simp only [Statement.sideEffectFree] at h
    unfold visitStatement
    split
    · rfl
    · rw [flag_ite_failure]
      exact visitExpression_flag v a h
  | .IfStmt line column condition thenBody elseBody, a, h => by
    simp only [Statement.sideEffectFree, Bool.and_eq_true] at h
    have h1 := visitExpression_flag condition a h.1.1
    have f1 := (visitExpression_keeps condition a).1
    unfold visitStatement
    rcases hv : visitExpression condition a with ⟨condition1, a1⟩
    rw [hv] at h1 f1
    dsimp only at h1 f1 ⊢
    have h2 := visitStatements_flag thenBody (if condition1.type.isSome &&
      condition1.type ≠ some .BOOL then
        a1.warning "If condition should be of type bool" (-1) (-1) else a1)
      (by rw [functions_ite_warning, f1]; exact h.1.2)
    have f2 := (visitStatements_keeps thenBody (if condition1.type.isSome &&
      condition1.type ≠ some .BOOL then
        a1.warning "If condition should be of type bool" (-1) (-1) else a1)).1
    rcases ht : visitStatements thenBody (if condition1.type.isSome &&
      condition1.type ≠ some .BOOL then
        a1.warning "If condition should be of type bool" (-1) (-1) else a1) with ⟨then1, a3⟩
    rw [ht] at h2 f2
    dsimp only at h2 f2 ⊢
    have h3 := visitStatements_flag elseBody a3
      (by rw [f2, functions_ite_warning, f1]; exact h.2)
    rcases he : visitStatements elseBody a3 with ⟨else1, a4⟩
    rw [he] at h3
    dsimp only at h3 ⊢
    rw [h3, h2, flag_ite_warning, h1]
  | .WhileStmt line column condition body, a, h => by
    simp only [Statement.sideEffectFree, Bool.and_eq_true] at h
    have h1 := visitExpression_flag condition a h.1
    have f1 := (visitExpression_keeps condition a).1
    unfold visitStatement
    rcases hv : visitExpression condition a with ⟨condition1, a1⟩
    rw [hv] at h1 f1
    dsimp only at h1 f1 ⊢
    have h2 := visitStatements_flag body (if condition1.type.isSome &&
      condition1.type ≠ some .BOOL then
        a1.warning "While condition should be of type bool" (-1) (-1) else a1)
      (by rw [functions_ite_warning, f1]; exact h.2)
    rcases ht : visitStatements body (if condition1.type.isSome &&
      condition1.type ≠ some .BOOL then
        a1.warning "While condition should be of type bool" (-1) (-1) else a1) with ⟨body1, a3⟩
    rw [ht] at h2
    dsimp only at h2 ⊢
    rw [h2, flag_ite_warning, h1]
  | .ExprStmt line column expression, a, h => by
    simp only [Statement.sideEffectFree] at h
    have h1 := visitExpression_flag expression a h
    unfold visitStatement
    rcases hv : visitExpression expression a with ⟨expression1, a1⟩
    rw [hv] at h1
    exact h1
theorem visitStatements_flag :
    ∀ (sts : List Statement) (a : SemanticAnalyzer), sideEffectFreeList a.functions sts = true →
      (visitStatements sts a).2.currentFunctionHasSideEffects = a.currentFunctionHasSideEffects
  | [], a, _ => by simp [visitStatements]
  | st :: rest, a, h => by
    simp only [sideEffectFreeList, Bool.and_eq_true] at h
    have h1 := visitStatement_flag st a h.1
    have f1 := (visitStatement_keeps st a).1
    unfold visitStatements
    rcases hv : visitStatement st a with ⟨st1, a1⟩
    rw [hv] at h1 f1
    dsimp only at h1 f1 ⊢
    have h2 := visitStatements_flag rest a1 (by rw [f1]; exact h.2)
    rcases hr : visitStatements rest a1 with ⟨rest1, a2⟩
    rw [hr] at h2
    dsimp only at h2 ⊢
    rw [h2, h1]
end

theorem declareParameters_flag :
    ∀ (ps : List Parameter) (a : SemanticAnalyzer),
      (declareParameters ps a).currentFunctionHasSideEffects = a.currentFunctionHasSideEffects ∧
      (declareParameters ps a).functions = a.functions ∧
      (declareParameters ps a).errors = a.errors := by
  intro ps
  induction ps with
  | nil => intro a; simp [declareParameters]
  | cons p ps ih =>
    intro a
    unfold declareParameters
    have := ih (a.declareVariable p.name
      { name := p.name, type := p.type, isMutable := false, isPureLocal := false,
        isParameter := true })
    simpa using this

theorem enterFunction_spec (node : FunctionDecl) (a : SemanticAnalyzer) :
    (enterFunction node a).currentFunctionHasSideEffects = false ∧
    (enterFunction node a).functions = touchFunction node.name a.functions := by
  unfold enterFunction
  obtain ⟨h1, h2, _⟩ := declareParameters_flag node.parameters
    (SemanticAnalyzer.pushScope
      { a with functions := touchFunction node.name a.functions,
               currentFunction := some node.name,
               currentFunctionHasSideEffects := false,
               modifiedVariables := [] })
  exact ⟨h1, h2⟩

end Hash

namespace Hash

theorem accessMessage_injective (x y : String) (h : accessMessage x = accessMessage y) :
    x = y := by
  unfold accessMessage at h
  have := congrArg String.data h
  simp only [String.data_append] at this
  exact String.ext (List.append_cancel_left (List.append_cancel_right this))

theorem countAccess_push (name : String) (errs : List ErrorInfo) (e : ErrorInfo) :
    countAccess name (errs ++ [e]) =
      countAccess name errs + (if e.message = accessMessage name then 1 else 0) := by
  unfold countAccess
  rw [List.countP_append]
  simp [List.countP_cons]

theorem countAccess_push_other (name : String) (errs : List ErrorInfo) (e : ErrorInfo)
    (h : e.message ≠ accessMessage name) : countAccess name (errs ++ [e]) = countAccess name errs := by
  rw [countAccess_push, if_neg h]; rfl

theorem undefinedVariable_ne (x name : String) (i : ExprInfo) :
    (undefinedVariableError x i).message ≠ accessMessage name := by
  intro h
  have := congrArg (fun s => s.data.head?) h
  simp [undefinedVariableError, ErrorInfo.mk3, accessMessage, String.data_append] at this

theorem logicalOperand_ne (name : String) (i : ExprInfo) :
    (logicalOperandError i).message ≠ accessMessage name := by
  intro h
  have := congrArg (fun s => s.data.head?) h
  simp [logicalOperandError, ErrorInfo.mk3, accessMessage, String.data_append] at this

theorem logicalNot_ne (name : String) (i : ExprInfo) :
    (logicalNotError i).message ≠ accessMessage name := by
  intro h
  have := congrArg (fun s => s.data.head?) h
  simp [logicalNotError, ErrorInfo.mk3, accessMessage, String.data_append] at this

theorem argumentType_ne (name fn : String) (k : Nat) (e g : String) (i : ExprInfo) :
    (argumentTypeError fn k e g i).message ≠ accessMessage name := by
  intro h
  have := congrArg (fun s => s.data.head?) h
  simp [argumentTypeError, ErrorInfo.mk3, accessMessage, String.data_append] at this

theorem pureLocalAccess_message (x fn : String) (i : ExprInfo) :
    (pureLocalAccessError x fn i).message = accessMessage x := rfl

theorem SemanticAnalyzer.Frame.lookupVariable {a r : SemanticAnalyzer} (h : a.Frame r)
    (name : String) : r.lookupVariable name = a.lookupVariable name := by
  unfold SemanticAnalyzer.lookupVariable
  rw [h.1]

theorem SemanticAnalyzer.Frame.current {a r : SemanticAnalyzer} (h : a.Frame r) :
    r.current = a.current := by
  unfold SemanticAnalyzer.current
  rw [h.2.1, h.2.2.1]

theorem SemanticAnalyzer.Frame.inNonPure {a r : SemanticAnalyzer} (h : a.Frame r) :
    r.inNonPure = a.inNonPure := by
  unfold SemanticAnalyzer.inNonPure
  rw [h.current]

theorem SemanticAnalyzer.Frame.inPure {a r : SemanticAnalyzer} (h : a.Frame r) :
    r.inPure = a.inPure := by
  unfold SemanticAnalyzer.inPure
  rw [h.current]

theorem SemanticAnalyzer.inPure_of_inNonPure (a : SemanticAnalyzer) (h : a.inNonPure = true) :
    a.inPure = false := by
  unfold SemanticAnalyzer.inNonPure at h
  unfold SemanticAnalyzer.inPure
  cases hc : a.current with
  | none => rfl
  | some f => rw [hc] at h; simpa using h

theorem binaryResult_count (name : String) (op : BinOp) (i : ExprInfo)
    (lt rt : Option TypeKind) (a : SemanticAnalyzer) :
    countAccess name (binaryResult op i lt rt a).2.structuredErrors =
      countAccess name a.structuredErrors := by
  unfold binaryResult
  cases op <;> dsimp only <;>
    first
      | rfl
      | (split
         · exact countAccess_push_other name _ _ (logicalOperand_ne name i)
         · rfl)

theorem unaryResult_count (name : String) (op : UnOp) (i : ExprInfo)
    (t : Option TypeKind) (a : SemanticAnalyzer) :
    countAccess name (unaryResult op i t a).2.structuredErrors =
      countAccess name a.structuredErrors := by
  unfold unaryResult
  cases op <;>
    first
      | rfl
      | (dsimp only
         split
         · exact countAccess_push_other name _ _ (logicalNot_ne name i)
         · rfl)

end Hash

namespace Hash

theorem count_ite_argumentError (name : String) (a : SemanticAnalyzer) (c : Prop) [Decidable c]
    (fn : String) (k : Nat) (e g : String) (i : ExprInfo) :
    countAccess name (if c then a.pushError (argumentTypeError fn k e g i)
      else a).structuredErrors = countAccess name a.structuredErrors := by
  split
  · exact countAccess_push_other name _ _ (argumentType_ne name fn k e g i)
  · rfl

mutual
/-- In a function that is not pure, the visit of an expression whose calls all
resolve adds one pure_local access error per read of a pure_local variable. -/
theorem visitExpression_count (name : String) (symbol : Symbol)
    (hp : symbol.isPureLocal = true) :
    ∀ (e : Expression) (a : SemanticAnalyzer), e.callsResolve a.functions = true →
      a.lookupVariable name = some symbol → a.inNonPure = true →
      countAccess name (visitExpression e a).2.structuredErrors =
        countAccess name a.structuredErrors + e.reads name
  | .IntegerLiteral _ _, a, _, _, _ => by simp [visitExpression, Expression.reads]
  | .FloatLiteral _ _, a, _, _, _ => by simp [visitExpression, Expression.reads]
  | .StringLiteral _ _, a, _, _, _ => by simp [visitExpression, Expression.reads]
  | .BoolLiteral _ _, a, _, _, _ => by simp [visitExpression, Expression.reads]
  | .Identifier i n, a, _, hl, hn => by
    unfold visitExpression Expression.reads
    by_cases hname : n = name
    · subst hname
      rw [hl, if_pos rfl]
      dsimp only
      rw [hp, hn]
      simp only [Bool.and_self, if_true]
      rw [SemanticAnalyzer.pushError_structuredErrors, countAccess_push,
        if_pos (pureLocalAccess_message _ _ _)]
    · rw [if_neg hname]
      split
      · exact countAccess_push_other name _ _ (undefinedVariable_ne n name i)
      · dsimp only
        split
        · refine countAccess_push_other name _ _ ?_
          rw [pureLocalAccess_message]
          exact fun h => hname (accessMessage_injective _ _ h)
        · rfl
  | .BinaryOp i op left right, a, hc, hl, hn => by
    simp only [Expression.callsResolve, Bool.and_eq_true] at hc
    have f1 := visitExpression_frame left a
    have h1 := visitExpression_count name symbol hp left a hc.1 hl hn
    have h2 := visitExpression_count name symbol hp right (visitExpression left a).2
      (by rw [f1.2.1]; exact hc.2) (by rw [f1.lookupVariable]; exact hl)
      (by rw [f1.inNonPure]; exact hn)
    unfold visitExpression Expression.reads
    rcases hvl : visitExpression left a with ⟨left1, a1⟩
    rw [hvl] at h1 h2
    dsimp only at h1 h2 ⊢
    rcases hvr : visitExpression right a1 with ⟨right1, a2⟩
    rw [hvr] at h2
    dsimp only at h2 ⊢
    split
    · dsimp only; omega
    · dsimp only; rw [binaryResult_count]; omega
  | .UnaryOp i op operand, a, hc, hl, hn => by
    simp only [Expression.callsResolve] at hc
    have h1 := visitExpression_count name symbol hp operand a hc hl hn
    unfold visitExpression Expression.reads
    rcases hvo : visitExpression operand a with ⟨operand1, a1⟩
    rw [hvo] at h1
    dsimp only at h1 ⊢
    split
    · exact h1
    · dsimp only; rw [unaryResult_count]; exact h1
  | .CallExpr i functionName arguments, a, hc, hl, hn => by
    simp only [Expression.callsResolve, Bool.and_eq_true] at hc
    unfold visitExpression Expression.reads
    cases hf : mapFind functionName a.functions with
    | none => rw [hf] at hc; simp at hc
    | some funcInfo =>
      rw [hf] at hc
      have hlen : arguments.length = funcInfo.paramTypes.length := by simpa using hc.1
      have f1 := visitArguments_frame functionName funcInfo.paramTypes 0 arguments a
      have h1 := visitArguments_count name symbol hp functionName funcInfo.paramTypes 0
        arguments a hc.2 hl hn
      unfold SemanticAnalyzer.lookupFunction
      rw [hf]
      dsimp only
      rw [if_neg (by simpa using hlen)]
      rcases hv : visitArguments functionName funcInfo.paramTypes 0 arguments a with
        ⟨arguments1, a1⟩
      rw [hv] at h1 f1
      dsimp only at h1 f1 ⊢
      have hpure : a1.inPure = false :=
        SemanticAnalyzer.inPure_of_inNonPure a1 (by rw [f1.inNonPure]; exact hn)
      rw [hpure]
      simp only [Bool.false_and, Bool.false_eq_true, if_false]
      split
      · exact h1
      · exact h1
theorem visitArguments_count (name : String) (symbol : Symbol)
    (hp : symbol.isPureLocal = true) (functionName : String) (paramTypes : List TypeKind) :
    ∀ (i : Nat) (arguments : List Expression) (a : SemanticAnalyzer),
      callsResolveList a.functions arguments = true →
      a.lookupVariable name = some symbol → a.inNonPure = true →
      countAccess name (visitArguments functionName paramTypes i arguments a).2.structuredErrors =
        countAccess name a.structuredErrors + readsList name arguments
  | _, [], a, _, _, _ => by simp [visitArguments, readsList]
  | i, arg :: rest, a, hc, hl, hn => by
    simp only [callsResolveList, Bool.and_eq_true] at hc
    have f1 := visitExpression_frame arg a
    have h1 := visitExpression_count name symbol hp arg a hc.1 hl hn
    unfold visitArguments readsList
    rcases ha : visitExpression arg a with ⟨arg1, a1⟩
    rw [ha] at h1 f1
    dsimp only at h1 f1 ⊢
    have f2 : a1.Frame (if arg1.type.isSome && !typesMatch (paramTypes.get? i) arg1.type then
        a1.pushError (argumentTypeError functionName i (typeToString (paramTypes.get? i))
          (typeToString arg1.type) arg1.info)
      else a1) :=
      SemanticAnalyzer.Frame.frameIte a1 _ _ _ (SemanticAnalyzer.Frame.pushError a1 _)
        (SemanticAnalyzer.Frame.frameRefl a1)
    have h2 := visitArguments_count name symbol hp functionName paramTypes (i + 1) rest
      (if arg1.type.isSome && !typesMatch (paramTypes.get? i) arg1.type then
        a1.pushError (argumentTypeError functionName i (typeToString (paramTypes.get? i))
          (typeToString arg1.type) arg1.info)
      else a1)
      (by rw [f2.2.1, f1.2.1]; exact hc.2)
      (by rw [f2.lookupVariable, f1.lookupVariable]; exact hl)
      (by rw [f2.inNonPure, f1.inNonPure]; exact hn)
    rcases hr : visitArguments functionName paramTypes (i + 1) rest
      (if arg1.type.isSome && !typesMatch (paramTypes.get? i) arg1.type then
        a1.pushError (argumentTypeError functionName i (typeToString (paramTypes.get? i))
          (typeToString arg1.type) arg1.info)
      else a1) with ⟨rest1, a3⟩
    rw [hr] at h2
    dsimp only at h2 ⊢
    rw [h2, count_ite_argumentError, h1]
    omega
end

end Hash

namespace Hash

theorem inNonPure_ite_failure (x : SemanticAnalyzer) (c : Prop) [Decidable c] (m s : String)
    (l col : Int) : (if c then (x.error m l col).suggest s else x).inNonPure = x.inNonPure := by
  split <;> rfl

theorem errors_ite_failure (x : SemanticAnalyzer) (c : Prop) [Decidable c] (m s : String)
    (l col : Int) (t : String) (h : t ∈ x.errors) :
    t ∈ (if c then (x.error m l col).suggest s else x).errors := by
  split
  · simp [h]
  · exact h

theorem assignmentChecks_records (a : SemanticAnalyzer) (symbol : Symbol) (name : String)
    (line column : Int) (hp : symbol.isPureLocal = true) (hn : a.inNonPure = true) :
    legacyText "Error" (modifyMessage name) line column ∈
      (assignmentChecks a symbol name line column).errors := by
  unfold assignmentChecks
  dsimp only
  rw [hp, inNonPure_ite_failure, hn]
  simp [modifyMessage]

theorem visitAssignment_records (a : SemanticAnalyzer) (symbol : Symbol) (name : String)
    (line column : Int) (value : Expression) (hl : a.lookupVariable name = some symbol)
    (hp : symbol.isPureLocal = true) (hn : a.inNonPure = true) :
    legacyText "Error" (modifyMessage name) line column ∈
      (visitStatement (.Assignment line column name value) a).2.errors := by
  have h0 := assignmentChecks_records a symbol name line column hp hn
  have f1 := (visitExpression_frame value (assignmentChecks a symbol name line column)).2.2.2.1
  unfold visitStatement
  rw [hl]
  dsimp only
  rcases hv : visitExpression value (assignmentChecks a symbol name line column) with
    ⟨value1, a1⟩
  rw [hv] at f1
  dsimp only at f1 ⊢
  rw [← f1] at h0
  have := errors_ite_failure a1 (value1.type.isSome && !typesMatch (some symbol.type) value1.type)
    ("Type mismatch in assignment to '" ++ name ++ "': expected " ++
      typeToString (some symbol.type) ++ ", got " ++ typeToString value1.type)
    ("Ensure the assigned value matches the variable's type '" ++
      typeToString (some symbol.type) ++ "'") line column _ h0
  exact this

/-- C2 (amended): while `name` resolves to a `pure_local` symbol and the entry of
the function under analysis is not pure, the visit of any expression whose
calls all name a known function with the right number of arguments adds exactly
one pure_local access error per read of `name`, and the visit of any assignment
to `name` records the error that a pure_local variable cannot be modified in a
non-pure function. -/
theorem C2_pure_local_access_in_non_pure (name : String) (symbol : Symbol)
    (a : SemanticAnalyzer) (hl : a.lookupVariable name = some symbol)
    (hp : symbol.isPureLocal = true) (hn : a.inNonPure = true) :
    (∀ e : Expression, e.callsResolve a.functions = true →
      countAccess name (visitExpression e a).2.structuredErrors =
        countAccess name a.structuredErrors + e.reads name) ∧
    (∀ (line column : Int) (value : Expression),
      legacyText "Error" (modifyMessage name) line column ∈
        (visitStatement (.Assignment line column name value) a).2.errors) :=
  ⟨fun e he => visitExpression_count name symbol hp e a he hl hn,
    fun line column value => visitAssignment_records a symbol name line column value hl hp hn⟩

/-- C2, witness: in the body of `bump` of the program `let pure_local counter: i32 = 0`,
`fn bump() -> void:`, `counter = counter + 1`, the name `counter` resolves to the
pure_local global and `bump` is not pure. -/
theorem C2_pure_local_access_witness :
    inBump.lookupVariable "counter" = some counterSymbol ∧
    counterSymbol.isPureLocal = true ∧ inBump.inNonPure = true ∧
    ((∀ e : Expression, e.callsResolve inBump.functions = true →
      countAccess "counter" (visitExpression e inBump).2.structuredErrors =
        countAccess "counter" inBump.structuredErrors + e.reads "counter") ∧
    (∀ (line column : Int) (value : Expression),
      legacyText "Error" (modifyMessage "counter") line column ∈
        (visitStatement (.Assignment line column "counter" value) inBump).2.errors)) :=
  ⟨by decide!, by decide!, by decide!,
    C2_pure_local_access_in_non_pure "counter" counterSymbol inBump (by decide!) (by decide!)
      (by decide!)⟩

/-- C2, counterexample: in `fn bump() -> void:` with the body
`print_i32(counter, counter)` the pure_local global `counter` is read twice, and
the only error recorded is the wrong argument count of the call: no error for
either read, no legacy error, and `analyze` returns true. -/
theorem C2_reads_in_skipped_arguments :
    compilesTo 100
      "let pure_local counter: i32 = 0\nfn bump() -> void:\n    print_i32(counter, counter)\n"
      { parseErrors := [], success := true, errors := [],
        structuredErrors := [argumentCountError "print_i32" 1 2 ExprInfo.fresh],
        warnings := [], structuredWarnings := [] } ∧
    countAccess "counter" [argumentCountError "print_i32" 1 2 ExprInfo.fresh] = 0 := by
  decide!

end Hash

namespace Hash

/-- C1 (the code at the witness of the claim): no built-in is registered with
`hasSideEffects` set, and for `pure fn f() -> i32:` with the body `print_i32(1)`,
`return 0` the analyzer records no error at all and `analyze` returns true. -/
theorem C1_pure_function_calls_print :
    (∀ entry ∈ builtins, entry.2.hasSideEffects = false) ∧
    compilesTo 100 "pure fn f() -> i32:\n    print_i32(1)\n    return 0\n"
      { parseErrors := [], success := true, errors := [], structuredErrors := [],
        warnings := [], structuredWarnings := [] } := by
  decide!

/-- C3 (the code at a failing input): for the global `let pure_local v: i32 = 0`
and `pure fn f() -> i32:` with the body `v = 1`, `return v`, the read of `v` records
nothing, but the assignment of an `i32` to `v` records that `v` is immutable, the
function is recorded as having side effects, and `analyze` returns false. -/
theorem C3_write_from_pure_function :
    compilesTo 100
      "let pure_local v: i32 = 0\npure fn f() -> i32:\n    v = 1\n    return v\n"
      { parseErrors := [], success := false,
        errors := ["Error at line 3, column 5: Cannot assign to immutable variable 'v'",
                   "Error at line 2, column 9: Pure function 'f' has side effects"],
        structuredErrors :=
          [{ ErrorInfo.mk3 "Cannot assign to immutable variable 'v'" 3 5 with
             suggestion := "Declare the variable as mutable with 'let mut v: <type>' instead of 'let v: <type>'" },
           ErrorInfo.mk3 "Pure function 'f' has side effects" 2 9],
        warnings := [], structuredWarnings := [] } := by
  decide!

/-- C5 (the code at a failing input): for `fn main() -> i32:` with the body `foo()`,
`return 0` the analyzer detects the undefined function `foo` and stores a
structured error, but the legacy error list stays empty and `analyze` returns
true. -/
theorem C5_undefined_function_passes :
    compilesTo 100 "fn main() -> i32:\n    foo()\n    return 0\n"
      { parseErrors := [], success := true, errors := [],
        structuredErrors := [undefinedFunctionError "foo" ExprInfo.fresh],
        warnings := [], structuredWarnings := [] } := by
  decide!

/-- C6 (the code at a failing input): for `fn main() -> i32:` with the body
`let b: bool = y && 1`, `return 0` the analyzer stores two structured errors (the
undefined variable `y`, the non-boolean operands of `&&`) and no legacy string:
the two lists differ in length. -/
theorem C6_structured_only_errors :
    compilesTo 100 "fn main() -> i32:\n    let b: bool = y && 1\n    return 0\n"
      { parseErrors := [], success := true, errors := [],
        structuredErrors := [undefinedVariableError "y" ExprInfo.fresh,
                             logicalOperandError ExprInfo.fresh],
        warnings := [], structuredWarnings := [] } := by
  decide!

end Hash

/-! ## Theorems about the parser -/

namespace Hash

theorem parseLoop_stuck (junk : Bool) (rejected : List String) :
    ∀ (fuel : Nat) (program : Program) (errs : List String) (b : Bool),
      parseLoop fuel program
        { tokens := ifTokens, current := 0, errors := errs, junkIsNewline := junk,
          outOfBounds := b, stodThrows := rejected } = Res.outOfFuel := by
  intro fuel
  induction fuel with
  | zero => intro program errs b; rfl
  | succ fuel ih =>
    intro program errs b
    cases fuel with
    | zero =>
      simp [parseLoop, parseTopLevel, Parser.isAtEnd, Parser.peek, ifTokens, orElse, matchToken,
        check, Parser.check, bind, PM.bind, pure, PM.pure, error, synchronize, outOfFuel]
    | succ fuel =>
      have h := ih program
        (errs ++ ["Error at line 1, column 1: Expected function or global variable declaration"])
        true
      cases junk <;>
        simp [parseLoop, parseTopLevel, Parser.isAtEnd, Parser.peek, ifTokens, orElse,
          matchToken, check, Parser.check, bind, PM.bind, pure, PM.pure, error, synchronize,
          outOfFuel, isAtEnd, getCurrent, tokenAt, junkIsNewline, peek, isSyncPoint] at h ⊢ <;>
        exact h

/-- C9 (the code at a failing input): the source `if` lexes to `IF`, `END_OF_FILE`, and
on these tokens `parse` does not return, whatever the fuel and whatever the
out-of-bounds look-behind of `synchronize` yields: every pass of the loop of
`parse` records the error and `synchronize` returns at once on `if` without
advancing. -/
theorem C9_parse_loops_on_top_level_if :
    tokenize "if".toList = some ifTokens ∧
    ∀ (fuel : Nat) (junkIsNewline : Bool) (stodThrows : List String),
      parse fuel ifTokens junkIsNewline stodThrows = none := by
  refine ⟨by decide!, fun fuel junk rejected => ?_⟩
  unfold parse Parser.new
  rw [parseLoop_stuck]

/-- C10 (the code at a failing input): the source `fn f() -> void: return`, a
function whose body is the single statement `return` on the line of the colon,
makes `parse` report `Expected expression` (twice) at the end of the input, and
the analyzer is not reached. -/
theorem C10_bare_return_on_one_line :
    compilesTo 100 "fn f() -> void: return"
      { parseErrors := ["Error at line 1, column 23: Expected expression",
                        "Error at line 1, column 23: Expected expression"],
        success := false, errors := [], structuredErrors := [], warnings := [],
        structuredWarnings := [] } := by
  decide!

end Hash

/-! ## Theorems about the front end on concrete sources -/

namespace Hash

/-- C11: the hello-world source lexes and parses without a parse error into
`helloProgram`, a program with no global and the one function `main` of return
type `i32` whose body is the call statement `print_str("hi")` followed by
`return 0`; the analysis of that program answers true and leaves the four
diagnostic lists (legacy and structured errors, legacy and structured
warnings) empty.  This holds whatever an out-of-bounds look-behind of the
parser yields. -/
theorem C11_hello_world (junkIsNewline : Bool) :
    ((tokenize helloSource.toList).bind (fun tokens => parse 100 tokens junkIsNewline [])).map
        (fun r => (r.1, r.2.errors)) = some (helloProgram, []) ∧
    (analyze helloProgram).1 = true ∧
    (analyze helloProgram).2.2.errors = [] ∧
    (analyze helloProgram).2.2.structuredErrors = [] ∧
    (analyze helloProgram).2.2.warnings = [] ∧
    (analyze helloProgram).2.2.structuredWarnings = [] := by
  cases junkIsNewline <;> decide!

/-- C12 (the code at a failing input): `x // y` lexes to four tokens, the
identifier `x`, a `DIVIDE`, the identifier `y` and `END_OF_FILE`, while `x # y`
lexes to the identifier `x` and `END_OF_FILE`.  At the first `/` the lexer calls
`skipComment`, which does nothing because the next character is not `#`; the
second `/` then becomes a `DIVIDE` token and the rest of the line is lexed. -/
theorem C12_double_slash_is_lexed :
    tokenize "x // y".toList =
      some [⟨.IDENTIFIER, "x", 1, 1⟩, ⟨.DIVIDE, "/", 1, 4⟩, ⟨.IDENTIFIER, "y", 1, 6⟩,
            ⟨.END_OF_FILE, "", 1, 7⟩] ∧
    tokenize "x # y".toList = some [⟨.IDENTIFIER, "x", 1, 1⟩, ⟨.END_OF_FILE, "", 1, 6⟩] := by
  decide!

/-- C13 (the code at failing inputs): in the source of the three lines `x`,
`  // c` and `y`, the second line holds only a comment with the sigil `//` after
two spaces, and it opens an indentation level: an `INDENT` is emitted in front
of the tokens of the comment text, and the `DEDENT` that closes the level in
front of `y`.  The same happens when the line is the first of the input, and a
last line of two spaces that no newline ends opens a level too; the same
comment written with `#` emits nothing. -/
theorem C13_comment_line_indents :
    tokenize "x\n  // c\ny".toList =
      some [⟨.IDENTIFIER, "x", 1, 1⟩, ⟨.INDENT, "", 2, 3⟩, ⟨.DIVIDE, "/", 2, 4⟩,
            ⟨.IDENTIFIER, "c", 2, 6⟩, ⟨.DEDENT, "", 3, 1⟩, ⟨.IDENTIFIER, "y", 3, 1⟩,
            ⟨.END_OF_FILE, "", 3, 2⟩] ∧
    tokenize "x\n  # c\ny".toList =
      some [⟨.IDENTIFIER, "x", 1, 1⟩, ⟨.IDENTIFIER, "y", 3, 1⟩, ⟨.END_OF_FILE, "", 3, 2⟩] ∧
    tokenize "  // c\n".toList =
      some [⟨.INDENT, "", 1, 3⟩, ⟨.DIVIDE, "/", 1, 4⟩, ⟨.IDENTIFIER, "c", 1, 6⟩,
            ⟨.DEDENT, "", 2, 1⟩, ⟨.END_OF_FILE, "", 2, 1⟩] ∧
    tokenize "x\n  ".toList =
      some [⟨.IDENTIFIER, "x", 1, 1⟩, ⟨.INDENT, "", 2, 3⟩, ⟨.DEDENT, "", 2, 3⟩,
            ⟨.END_OF_FILE, "", 2, 3⟩] ∧
    tokenize "  # c\n".toList = some [⟨.END_OF_FILE, "", 2, 1⟩] := by
  decide!

/-- C15: an input that consists of one of the nine two-character operators
`->`, `==`, `!=`, `<=`, `>=`, `<<`, `>>`, `&&`, `||` lexes to one token of the
type of that operator, with the operator as its value, followed by
`END_OF_FILE`. -/
theorem C15_maximal_munch :
    ∀ entry ∈ twoCharOperators,
      tokenize entry.1.toList = some [⟨entry.2, entry.1, 1, 1⟩, ⟨.END_OF_FILE, "", 1, 3⟩] := by
  decide!

/-- C15 at the operator `->`: the input `->` lexes to one `ARROW`. -/
theorem C15_maximal_munch_witness :
    ("->", TokenType.ARROW) ∈ twoCharOperators ∧
    tokenize "->".toList = some [⟨.ARROW, "->", 1, 1⟩, ⟨.END_OF_FILE, "", 1, 3⟩] :=
  ⟨by decide, C15_maximal_munch ("->", .ARROW) (by decide)⟩

/-- C17 (the code at a failing input): the string literal `"hi"` at the start of
the first line gets column 3, not 1: `makeToken` subtracts the length of the
decoded value (2) from the column after the closing quote (5), and the value
has neither the quotes nor the backslashes of the source text. -/
theorem C17_string_token_column :
    tokenize [dquote, 'h', 'i', dquote] =
      some [⟨.STRING, "hi", 1, 3⟩, ⟨.END_OF_FILE, "", 1, 5⟩] := by
  decide!

end Hash

/-! ## Theorems about indentation and string literals -/

namespace Hash

/-- The loop that counts the leading spaces of a line consumes them and moves
the column by their number. -/
theorem Lexer.advanceWhile_spaces : ∀ (w : Nat) (l : Lexer) (c : Char) (rest : List Char),
    c ≠ ' ' → l.source = List.replicate w ' ' ++ c :: rest →
    Lexer.advanceWhile (fun x => x == ' ') (List.replicate w ' ' ++ c :: rest) l =
      { l with source := c :: rest, column := l.column + w } := by
  intro w
  induction w with
  | zero =>
    intro l c rest hc hs
    simp only [List.replicate_zero, List.nil_append] at hs ⊢
    unfold Lexer.advanceWhile
    have : (c == ' ') = false := by simpa using hc
    simp only [this, Bool.false_eq_true, if_false]
    cases l with
    | mk source line column indentStack =>
      dsimp only at hs
      subst hs
      simp
  | succ w ih =>
    intro l c rest hc hs
    have hrep : List.replicate (w + 1) ' ' ++ c :: rest =
        ' ' :: (List.replicate w ' ' ++ c :: rest) := by
      simp [List.replicate_succ]
    rw [hrep] at hs ⊢
    unfold Lexer.advanceWhile
    simp only [beq_self_eq_true, if_true]
    have hn : l.next.source = List.replicate w ' ' ++ c :: rest := by
      rw [Lexer.next_source, hs]; rfl
    rw [ih l.next c rest hc hn]
    have hnext : l.next = { l with source := List.replicate w ' ' ++ c :: rest,
                                   column := l.column + 1 } := by
      unfold Lexer.next Lexer.advance
      rw [hs]
      have : ¬ (' ' = lf) := by decide
      simp only [this, if_false]
    rw [hnext]
    simp only [Nat.cast_add, Nat.cast_one, Lexer.mk.injEq, true_and, and_true]
    omega

/-- At the start of a line whose first character after `w` spaces is neither a
space, a newline nor `#`, the loop of `tokenize` calls `handleIndentation(w)`,
appends the tokens it returns and goes on with the text of the line. -/
theorem lexIteration_line_start (s : LexLoop) (w : Nat) (c : Char) (rest : List Char)
    (hstart : s.atLineStart = true) (hs : s.lexer.source = List.replicate w ' ' ++ c :: rest)
    (hc : c ≠ ' ') (hnl : isNewline c = false) (hhash : c ≠ '#') :
    lexIteration s =
      lexToken
        { lexer := (Lexer.handleIndentation
            { s.lexer with source := c :: rest, column := s.lexer.column + w } w).2,
          atLineStart := false,
          tokens := s.tokens ++ (Lexer.handleIndentation
            { s.lexer with source := c :: rest, column := s.lexer.column + w } w).1 } := by
  have hpeek : isNewline s.lexer.peek = false := by
    unfold Lexer.peek
    rw [hs]
    cases w with
    | zero => simpa using hnl
    | succ w => simp [List.replicate_succ, isNewline, lf, cr]
  have htake : (s.lexer.source.takeWhile (fun x => x == ' ')).length = w := by
    rw [hs]
    have : (c == ' ') = false := by simpa using hc
    clear hs hpeek
    induction w with
    | zero => simp [List.takeWhile_cons, this]
    | succ w ih => simpa [List.replicate_succ, List.takeWhile_cons] using ih
  have hadv := Lexer.advanceWhile_spaces w s.lexer c rest hc hs
  unfold lexIteration
  simp only [hstart, hpeek, Bool.not_false, Bool.and_self, if_true, htake]
  rw [hs, hadv]
  have hpk : Lexer.peek { s.lexer with source := c :: rest, column := s.lexer.column + w } = c :=
    rfl
  have hcond : (isNewline c || c == '#') = false := by
    simp [hnl, hhash]
  simp only [hpk, hcond, Bool.false_eq_true, if_false]

theorem popIndents_eq (w : Nat) (stack : List Nat) :
    popIndents w stack =
      (stack.dropWhile (fun t => decide (w < t)),
        (stack.takeWhile (fun t => decide (w < t))).length) := by
  induction stack with
  | nil => rfl
  | cons top rest ih =>
    unfold popIndents
    by_cases h : w < top
    · simp [h, ih]
    · simp [h]

/-- C14: `handleIndentation(w)` on a stack with top `top`; the loop of
`tokenize` calls it with the number of leading spaces of each line that is
neither blank nor a `#` comment (`lexIteration_line_start`).  When `w > top` it
pushes `w` and emits one `INDENT`.  When `w = top` it emits nothing and leaves
the lexer as it is.  When `w < top` it pops the levels above `w`, the longest
run of levels greater than `w` from the top, emits one `DEDENT` for each of them
and then one `INVALID` exactly when the stack left does not have `w` on top. -/
theorem C14_handle_indentation (l : Lexer) (w top : Nat) (rest : List Nat)
    (h : l.indentStack = top :: rest) :
    (top < w → l.handleIndentation w =
      ([l.makeToken .INDENT ""], { l with indentStack := w :: top :: rest })) ∧
    (w = top → l.handleIndentation w = ([], l)) ∧
    (w < top → l.handleIndentation w =
      (List.replicate ((top :: rest).takeWhile (fun t => decide (w < t))).length
          (l.makeToken .DEDENT "") ++
        (if ((top :: rest).dropWhile (fun t => decide (w < t))).head? = some w then []
         else [l.makeToken .INVALID ""]),
       { l with indentStack := (top :: rest).dropWhile (fun t => decide (w < t)) })) := by
  refine ⟨fun hw => ?_, fun hw => ?_, fun hw => ?_⟩
  · unfold Lexer.handleIndentation
    rw [h]
    simp [hw]
  · unfold Lexer.handleIndentation
    rw [h]
    simp [hw]
  · unfold Lexer.handleIndentation
    rw [h]
    have h1 : ¬ w > top := by omega
    simp only [h1, if_false, hw, if_true, popIndents_eq]
    rcases hd : (top :: rest).dropWhile (fun t => decide (w < t)) with _ | ⟨t, left⟩
    · simp
    · by_cases ht : t = w
      · simp [ht]
      · have ht2 : ¬ w = t := fun e => ht e.symm
        simp [ht, ht2]

/-- C14 at a concrete stack: with the levels 4, 2, 0 open, a line of one leading
space closes two levels and is flagged, since level 1 was never opened. -/
theorem C14_handle_indentation_witness :
    indentedLexer.indentStack = 4 :: [2, 0] ∧
    indentedLexer.handleIndentation 1 =
      ([⟨.DEDENT, "", 3, 2⟩, ⟨.DEDENT, "", 3, 2⟩, ⟨.INVALID, "", 3, 2⟩],
       { indentedLexer with indentStack := [0] }) :=
  ⟨rfl, ((C14_handle_indentation indentedLexer 1 4 [2, 0] rfl).2.2 (by decide)).trans
    (by decide)⟩

end Hash

namespace Hash

theorem decodeEscape_eq (c : Char) : decodeEscape c = (StringItem.escape c).decoded := by
  simp only [decodeEscape, StringItem.decoded]
  split_ifs <;> simp_all

/-- The loop of `readString` over the elements of a literal: it appends the
character each element stands for and goes on with `tail`, the text after the
elements. -/
theorem readStringLoop_items (quote : Char) (hq : quote = dquote ∨ quote = squote)
    (tail : List Char) :
    ∀ (items : List StringItem) (l : Lexer) (str : List Char),
      (∀ i ∈ items, i.fits quote = true) → l.source = stringText items ++ tail →
      ∃ l1 : Lexer, l1.source = tail ∧
        readStringLoop quote (stringText items ++ tail) l str =
          readStringLoop quote tail l1 (str ++ items.map StringItem.decoded) := by
  have hbq : backslash ≠ quote := by rcases hq with rfl | rfl <;> decide
  intro items
  induction items with
  | nil =>
    intro l str _ hs
    simp only [stringText, List.map_nil, List.flatten_nil, List.nil_append] at hs ⊢
    exact ⟨l, hs, by simp⟩
  | cons item items ih =>
    intro l str hfit hs
    have hfit1 := hfit item (List.mem_cons_self _ _)
    have hfit2 : ∀ i ∈ items, i.fits quote = true :=
      fun i hi => hfit i (List.mem_cons_of_mem _ hi)
    cases item with
    | plain c =>
      simp only [StringItem.fits, Bool.and_eq_true, bne_iff_ne, ne_eq] at hfit1
      have hs1 : l.source = c :: (stringText items ++ tail) := by
        rw [hs]; simp [stringText, StringItem.text]
      have hn : l.next.source = stringText items ++ tail := by
        rw [Lexer.next_source, hs1]; rfl
      have hrw : stringText (StringItem.plain c :: items) ++ tail =
          c :: (stringText items ++ tail) := by simp [stringText, StringItem.text]
      rw [hrw]
      obtain ⟨l1, h1, h2⟩ := ih l.next (str ++ [c]) hfit2 hn
      refine ⟨l1, h1, ?_⟩
      conv_lhs => unfold readStringLoop
      simp only [if_neg hfit1.1, if_neg hfit1.2, h2]
      simp [StringItem.decoded]
    | escape e =>
      have hs1 : l.source = backslash :: e :: (stringText items ++ tail) := by
        rw [hs]; simp [stringText, StringItem.text]
      have hn : l.next.next.source = stringText items ++ tail := by
        rw [Lexer.next_source, Lexer.next_source, hs1]; rfl
      have hrw : stringText (StringItem.escape e :: items) ++ tail =
          backslash :: e :: (stringText items ++ tail) := by simp [stringText, StringItem.text]
      rw [hrw]
      obtain ⟨l1, h1, h2⟩ := ih l.next.next (str ++ [decodeEscape e]) hfit2 hn
      refine ⟨l1, h1, ?_⟩
      conv_lhs => unfold readStringLoop
      simp only [if_neg hbq, if_true, h2]
      simp [decodeEscape_eq]

/-- C16: `readString` at a literal opened by `quote`, a double or a single
quote, whose text between the quotes is the sequence `items` of plain characters
and backslash pairs.  When the same quote closes the literal, the token is a
`STRING` whose value is the characters the elements stand for (`\n`, `\t`,
`\r`, `\\`, `\"`, `\'` decoded, any other `\x` being `x`), and the lexer is
left after the closing quote.  When the input ends after the elements, or
after a backslash that follows them, the token is `INVALID`. -/
theorem C16_read_string (l : Lexer) (quote : Char) (items : List StringItem)
    (hq : quote = dquote ∨ quote = squote) (hfit : ∀ i ∈ items, i.fits quote = true) :
    (∀ rest : List Char,
      (Lexer.readString { l with source := quote :: (stringText items ++ quote :: rest) }).1.type
          = .STRING ∧
      (Lexer.readString { l with source := quote :: (stringText items ++ quote :: rest) }).1.value
          = stringValue items ∧
      (Lexer.readString { l with source := quote :: (stringText items ++ quote :: rest) }).2.source
          = rest) ∧
    (Lexer.readString { l with source := quote :: stringText items }).1.type = .INVALID ∧
    (Lexer.readString { l with source := quote :: (stringText items ++ [backslash]) }).1.type
        = .INVALID := by
  have hbq : backslash ≠ quote := by rcases hq with rfl | rfl <;> decide
  have key : ∀ tail : List Char,
      ∃ l1 : Lexer, l1.source = tail ∧
        Lexer.readString { l with source := quote :: (stringText items ++ tail) } =
          (if (readStringLoop quote tail l1 (items.map StringItem.decoded)).2.isAtEnd then
            ((readStringLoop quote tail l1 (items.map StringItem.decoded)).2.makeToken .INVALID
                (String.mk (readStringLoop quote tail l1 (items.map StringItem.decoded)).1),
              (readStringLoop quote tail l1 (items.map StringItem.decoded)).2)
          else
            ((readStringLoop quote tail l1 (items.map StringItem.decoded)).2.next.makeToken .STRING
                (String.mk (readStringLoop quote tail l1 (items.map StringItem.decoded)).1),
              (readStringLoop quote tail l1 (items.map StringItem.decoded)).2.next)) := by
    intro tail
    have hn : (Lexer.next { l with source := quote :: (stringText items ++ tail) }).source =
        stringText items ++ tail := by
      rw [Lexer.next_source]; rfl
    obtain ⟨l1, h1, h2⟩ := readStringLoop_items quote hq tail items _ [] hfit hn
    refine ⟨l1, h1, ?_⟩
    unfold Lexer.readString
    simp only [Lexer.peek, List.headD_cons, hn, h2, List.nil_append]
  refine ⟨fun rest => ?_, ?_, ?_⟩
  · obtain ⟨l1, h1, h2⟩ := key (quote :: rest)
    rw [h2]
    have hl : readStringLoop quote (quote :: rest) l1 (items.map StringItem.decoded) =
        (items.map StringItem.decoded, l1) := by
      unfold readStringLoop
      simp only [if_true]
    simp only [hl, Lexer.isAtEnd, h1, List.isEmpty_cons, Bool.false_eq_true, if_false,
      Lexer.next_source, List.tail_cons, Lexer.makeToken, stringValue, and_self]
  · have h0 := key []
    rw [List.append_nil] at h0
    obtain ⟨l1, h1, h2⟩ := h0
    rw [h2]
    have hl : readStringLoop quote [] l1 (items.map StringItem.decoded) =
        (items.map StringItem.decoded, l1) := by
      unfold readStringLoop
      rfl
    simp [hl, Lexer.isAtEnd, h1, Lexer.makeToken]
  · obtain ⟨l1, h1, h2⟩ := key [backslash]
    rw [h2]
    have hl : readStringLoop quote [backslash] l1 (items.map StringItem.decoded) =
        (items.map StringItem.decoded ++ [decodeEscape nul], l1.next.next) := by
      unfold readStringLoop
      simp only [if_neg hbq, if_true]
    have hs : l1.next.next.source = [] := by
      rw [Lexer.next_source, Lexer.next_source, h1]; rfl
    simp [hl, Lexer.isAtEnd, hs, Lexer.makeToken]

/-- C16 at a concrete literal: the text `"a\nb"` followed by ` + 1` is read as a
`STRING` token whose value is the three characters `a`, newline, `b`. -/
theorem C16_read_string_witness :
    (dquote = dquote ∨ dquote = squote) ∧
    (∀ i ∈ [StringItem.plain 'a', .escape 'n', .plain 'b'], i.fits dquote = true) ∧
    (Lexer.readString
      { Lexer.new [] with
        source := dquote :: (stringText [.plain 'a', .escape 'n', .plain 'b'] ++
          dquote :: [' ', '+', ' ', '1']) }).1.type = .STRING ∧
    (Lexer.readString
      { Lexer.new [] with
        source := dquote :: (stringText [.plain 'a', .escape 'n', .plain 'b'] ++
          dquote :: [' ', '+', ' ', '1']) }).1.value = String.mk ['a', lf, 'b'] :=
  ⟨Or.inl rfl, by decide,
    ((C16_read_string (Lexer.new []) dquote [.plain 'a', .escape 'n', .plain 'b'] (Or.inl rfl)
      (by decide)).1 [' ', '+', ' ', '1']).1,
    ((C16_read_string (Lexer.new []) dquote [.plain 'a', .escape 'n', .plain 'b'] (Or.inl rfl)
      (by decide)).1 [' ', '+', ' ', '1']).2.1⟩

end Hash

/-! ## Theorems about the expression grammar -/

namespace Hash

/-- The loop of a binary level nests the operands of a chain to the left. -/
theorem binaryLoop_chain (ops : List (TokenType × BinOp)) (operand : PM Expression)
    {p q : Parser} {chain : List (BinOp × Expression)} (h : Chain ops operand p chain q) :
    ∀ (fuel : Nat) (e0 : Expression), chain.length < fuel →
      binaryLoop ops operand fuel e0 p = .ok (leftNested e0 chain) q := by
  induction h with
  | done hm =>
    intro fuel e0 hf
    cases fuel with
    | zero => simp at hf
    | succ fuel => simp [binaryLoop, bind, PM.bind, hm, leftNested, pure, PM.pure]
  | step hm ho _ ih =>
    intro fuel e0 hf
    cases fuel with
    | zero => simp at hf
    | succ fuel =>
      simp only [List.length_cons, Nat.add_lt_add_iff_right] at hf
      simp only [binaryLoop, bind, PM.bind, hm, ho, ih fuel _ hf, leftNested, List.foldl_cons]

theorem level_unfold : ∀ lv ∈ levels, ∀ fuel : Nat,
    lv.method (fuel + 1) = (do
      let expr ← lv.operand fuel
      binaryLoop lv.ops (lv.operand fuel) fuel expr) := by
  intro lv hlv fuel
  simp only [levels, List.mem_cons, List.mem_singleton, List.not_mem_nil, or_false] at hlv
  rcases hlv with rfl | rfl | rfl | rfl | rfl | rfl | rfl | rfl | rfl | rfl
  · simp only [parseLogicalOr]
  · simp only [parseLogicalAnd]
  · simp only [parseBitwiseOr]
  · simp only [parseBitwiseXor]
  · simp only [parseBitwiseAnd]
  · simp only [parseEquality]
  · simp only [parseComparison]
  · simp only [parseShift]
  · simp only [parseTerm]
  · simp only [parseFactor]

theorem parseUnary_unfold (fuel : Nat) :
    parseUnary (fuel + 1) = (do
      match (← prefixOp) with
      | some op =>
        let operand ← parseUnary fuel
        pure (.UnaryOp ExprInfo.fresh op operand)
      | none => parsePrimary fuel) := by
  funext p
  simp only [parseUnary]
  cases h1 : matchToken .MINUS p with
  | outOfFuel => simp [prefixOp, bind, PM.bind, pure, PM.pure, h1]
  | thrown w p1 => simp [prefixOp, bind, PM.bind, pure, PM.pure, h1]
  | ok b p1 =>
    cases b with
    | true => simp [prefixOp, bind, PM.bind, pure, PM.pure, h1]
    | false =>
      cases h2 : matchToken .NOT p1 with
      | outOfFuel => simp [prefixOp, bind, PM.bind, pure, PM.pure, h1, h2]
      | thrown w p2 => simp [prefixOp, bind, PM.bind, pure, PM.pure, h1, h2]
      | ok b p2 =>
        cases b with
        | true => simp [prefixOp, bind, PM.bind, pure, PM.pure, h1, h2]
        | false =>
          cases h3 : matchToken .BITWISE_NOT p2 with
          | outOfFuel => simp [prefixOp, bind, PM.bind, pure, PM.pure, h1, h2, h3]
          | thrown w p3 => simp [prefixOp, bind, PM.bind, pure, PM.pure, h1, h2, h3]
          | ok b p3 => cases b <;> simp [prefixOp, bind, PM.bind, pure, PM.pure, h1, h2, h3]

/-- The recursion of `parseUnary` nests a run of prefix operators to the right. -/
theorem parseUnary_run {p q : Parser} {ops : List UnOp} (h : PrefixRun p ops q) :
    ∀ (fuel : Nat) (e : Expression) (q1 : Parser), parsePrimary fuel q = .ok e q1 →
      parseUnary (fuel + ops.length + 1) p = .ok (rightNested ops e) q1 := by
  induction h with
  | done hm =>
    intro fuel e q1 hp
    rw [parseUnary_unfold]
    simp [bind, PM.bind, hm, hp, rightNested]
  | step hm _ ih =>
    intro fuel e q1 hp
    rw [parseUnary_unfold]
    have := ih fuel e q1 hp
    simp only [List.length_cons, ← Nat.add_assoc] at this ⊢
    simp [bind, PM.bind, hm, this, rightNested, pure, PM.pure]

end Hash

namespace Hash

/-- C18: every binary level nests a chain to the left and `parseUnary` nests
prefix operators to the right.  For each of the ten binary levels: when the
operand method answers `e₀` and then, `n` times over, an operator of the level
is matched and the operand method answers `eᵢ`, after which no operator of the
level matches, the method of the level (given more fuel than the length of the
chain) answers the left-nested tree `((e₀ op₁ e₁) op₂ e₂) … opₙ eₙ`.  When the
tokens `-`, `!`, `~` of the prefix operators `ops` are matched in turn and
`parsePrimary` then answers `e`, `parseUnary` answers `op₁ (op₂ (… (opₙ e)))`.
In particular the source `a - b - c` parses as `(a - b) - c` and `!!x` as
`!(!x)`. -/
theorem C18_associativity :
    (∀ lv ∈ levels, ∀ (fuel : Nat) (p p1 q : Parser) (e0 : Expression)
        (chain : List (BinOp × Expression)),
      lv.operand fuel p = .ok e0 p1 → Chain lv.ops (lv.operand fuel) p1 chain q →
      chain.length < fuel →
      lv.method (fuel + 1) p = .ok (leftNested e0 chain) q) ∧
    (∀ (fuel : Nat) (p q q1 : Parser) (ops : List UnOp) (e : Expression),
      PrefixRun p ops q → parsePrimary fuel q = .ok e q1 →
      parseUnary (fuel + ops.length + 1) p = .ok (rightNested ops e) q1) ∧
    (∀ junkIsNewline : Bool, parseSource 100 junkIsNewline "a - b - c" =
      some (binary .SUB (binary .SUB (ident "a") (ident "b")) (ident "c"))) ∧
    (∀ junkIsNewline : Bool, parseSource 100 junkIsNewline "!!x" =
      some (unary .NOT (unary .NOT (ident "x")))) := by
  refine ⟨?_, ?_, by decide!, by decide!⟩
  · intro lv hlv fuel p p1 q e0 chain h0 hc hf
    rw [level_unfold lv hlv fuel]
    simp only [bind, PM.bind, h0]
    exact binaryLoop_chain lv.ops (lv.operand fuel) hc fuel e0 hf
  · intro fuel p q q1 ops e hr hp
    exact parseUnary_run hr fuel e q1 hp

/-- C18 on the tokens of `a - b - c`: `parseFactor` answers `a`, the chain
`- b - c` is read at the level of `parseTerm`, and `parseTerm` answers
`(a - b) - c`. -/
theorem C18_associativity_witness :
    parseFactor 20 (minusAt 0) = .ok (ident "a") (minusAt 1) ∧
    Chain [(.PLUS, .ADD), (.MINUS, .SUB)] (parseFactor 20) (minusAt 1)
      [(.SUB, ident "b"), (.SUB, ident "c")] (minusAt 5) ∧
    parseTerm 21 (minusAt 0) =
      .ok (binary .SUB (binary .SUB (ident "a") (ident "b")) (ident "c")) (minusAt 5) :=
  have h0 : parseFactor 20 (minusAt 0) = .ok (ident "a") (minusAt 1) := by decide!
  have m1 : matchOp [(.PLUS, .ADD), (.MINUS, .SUB)] (minusAt 1) = .ok (some .SUB) (minusAt 2) := by
    decide!
  have o1 : parseFactor 20 (minusAt 2) = .ok (ident "b") (minusAt 3) := by decide!
  have m2 : matchOp [(.PLUS, .ADD), (.MINUS, .SUB)] (minusAt 3) = .ok (some .SUB) (minusAt 4) := by
    decide!
  have o2 : parseFactor 20 (minusAt 4) = .ok (ident "c") (minusAt 5) := by decide!
  have m3 : matchOp [(.PLUS, .ADD), (.MINUS, .SUB)] (minusAt 5) = .ok none (minusAt 5) := by
    decide!
  have hc : Chain [(.PLUS, .ADD), (.MINUS, .SUB)] (parseFactor 20) (minusAt 1)
      [(.SUB, ident "b"), (.SUB, ident "c")] (minusAt 5) :=
    Chain.step m1 o1 (Chain.step m2 o2 (Chain.done m3))
  ⟨h0, hc,
    C18_associativity.1 ⟨parseTerm, [(.PLUS, .ADD), (.MINUS, .SUB)], parseFactor⟩
      (by simp [levels]) 20 (minusAt 0) (minusAt 1) (minusAt 5) (ident "a")
      [(.SUB, ident "b"), (.SUB, ident "c")] h0 hc (by decide)⟩

end Hash

namespace Hash

/-! ### The parser at a known token -/

/-! ### The parser at a known token -/

theorem Parser.peek_at {p : Parser} {t : Token} (h : p.tokens.get? p.current = some t) :
    p.peek 0 = t := by
  have hlt : p.current < p.tokens.length := by
    rcases Nat.lt_or_ge p.current p.tokens.length with h1 | h1
    · exact h1
    · rw [List.get?_eq_none.mpr h1] at h; cases h
  unfold Parser.peek
  simp only [Nat.add_zero, ge_iff_le, Nat.not_le.mpr hlt, if_false, List.getD_eq_getElem?_getD]
  rw [← List.get?_eq_getElem?, h]
  rfl

theorem matchToken_at {p : Parser} {t : Token} (h : p.tokens.get? p.current = some t)
    (ty : TokenType) :
    matchToken ty p =
      if t.type = ty ∧ t.type ≠ .END_OF_FILE then .ok true (p.moveTo (p.current + 1))
      else .ok false p := by
  have hpk := Parser.peek_at h
  have hlt : p.current < p.tokens.length := by
    rcases Nat.lt_or_ge p.current p.tokens.length with h1 | h1
    · exact h1
    · rw [List.get?_eq_none.mpr h1] at h; cases h
  have hm : matchToken ty p =
      if p.check ty then advance.bind (fun _ => PM.pure true) p else .ok false p := by
    unfold matchToken
    simp only [bind, PM.bind, check, pure, PM.pure]
    split <;> rfl
  rw [hm]
  have hc : p.check ty = decide (t.type = ty ∧ t.type ≠ .END_OF_FILE) := by
    unfold Parser.check Parser.isAtEnd
    rw [hpk]
    by_cases he : t.type = .END_OF_FILE
    · simp [he]
    · simp [he]
  rw [hc]
  simp only [decide_eq_true_eq]
  by_cases hc2 : t.type = ty ∧ t.type ≠ .END_OF_FILE
  · rw [if_pos hc2, if_pos hc2]
    have he : p.isAtEnd = false := by
      unfold Parser.isAtEnd
      rw [hpk]
      simpa using hc2.2
    have h1 : (0 : Int) ≤ (p.current : Int) + 1 - 1 ∧
          (p.current : Int) + 1 - 1 < (p.tokens.length : Int) := by omega
    simp only [PM.bind, advance, he, Bool.false_eq_true, if_false, tokenAt, Nat.cast_add,
      Nat.cast_one, h1, and_self, if_true, PM.pure, Parser.moveTo]
  · rw [if_neg hc2, if_neg hc2]

end Hash

namespace Hash

theorem Parser.moveTo_get (p : Parser) (i : Nat) :
    (p.moveTo i).tokens.get? (p.moveTo i).current = p.tokens.get? i := rfl

theorem matchOp_miss (p : Parser) (t : Token) (h : p.tokens.get? p.current = some t) :
    ∀ ops : List (TokenType × BinOp),
      (t.type = .END_OF_FILE ∨ ∀ x ∈ ops, x.1 ≠ t.type) → matchOp ops p = .ok none p := by
  intro ops
  induction ops with
  | nil => intro _; rfl
  | cons x rest ih =>
    intro hm
    rcases x with ⟨ty, op⟩
    have hne : ¬ (t.type = ty ∧ t.type ≠ .END_OF_FILE) := by
      rcases hm with he | hm
      · exact fun hc => hc.2 he
      · exact fun hc => hm (ty, op) (List.mem_cons_self _ _) hc.1.symm
    have hrest : t.type = .END_OF_FILE ∨ ∀ x ∈ rest, x.1 ≠ t.type := by
      rcases hm with he | hm
      · exact Or.inl he
      · exact Or.inr (fun x hx => hm x (List.mem_cons_of_mem _ hx))
    simp only [matchOp, bind, PM.bind, matchToken_at h, if_neg hne, Bool.false_eq_true, if_false]
    exact ih hrest

theorem matchOp_hit (p : Parser) (t : Token) (h : p.tokens.get? p.current = some t)
    (hne : t.type ≠ .END_OF_FILE) (op : BinOp) :
    ∀ ops : List (TokenType × BinOp), (ops.map Prod.fst).Nodup → (t.type, op) ∈ ops →
      matchOp ops p = .ok (some op) (p.moveTo (p.current + 1)) := by
  intro ops
  induction ops with
  | nil => intro _ hm; cases hm
  | cons x rest ih =>
    intro hnd hm
    rcases x with ⟨ty, op1⟩
    simp only [List.map_cons, List.nodup_cons] at hnd
    by_cases hty : t.type = ty
    · have hop : op = op1 := by
        rcases List.mem_cons.mp hm with heq | hmem
        · exact (Prod.mk.inj heq).2
        · exact absurd (List.mem_map_of_mem Prod.fst hmem) (by rw [← hty] at hnd; exact hnd.1)
      subst hop
      have hc : t.type = ty ∧ t.type ≠ .END_OF_FILE := ⟨hty, hne⟩
      simp only [matchOp, bind, PM.bind, matchToken_at h, if_pos hc, if_true, pure, PM.pure]
    · have hc : ¬ (t.type = ty ∧ t.type ≠ .END_OF_FILE) := fun hc => hty hc.1
      have hmem : (t.type, op) ∈ rest := by
        rcases List.mem_cons.mp hm with heq | hmem
        · exact absurd (Prod.mk.inj heq).1 hty
        · exact hmem
      simp only [matchOp, bind, PM.bind, matchToken_at h, if_neg hc, Bool.false_eq_true, if_false]
      exact ih hnd.2 hmem

/-- An identifier that no `(` follows is parsed by `parsePrimary` as an
`Identifier` node. -/
theorem parsePrimary_identifier (p : Parser) (t next : Token)
    (h : p.tokens.get? p.current = some t) (hn : p.tokens.get? (p.current + 1) = some next)
    (ht : t.type = .IDENTIFIER) (hnext : next.type ≠ .LPAREN) (fuel : Nat) :
    parsePrimary (fuel + 1) p = .ok (ident t.value) (p.moveTo (p.current + 1)) := by
  have hn1 : (p.moveTo (p.current + 1)).tokens.get? (p.moveTo (p.current + 1)).current =
      some next := hn
  have hlt : p.current < p.tokens.length := by
    rcases Nat.lt_or_ge p.current p.tokens.length with h1 | h1
    · exact h1
    · rw [List.get?_eq_none.mpr h1] at h; cases h
  have hprev : previous (p.moveTo (p.current + 1)) = .ok t (p.moveTo (p.current + 1)) := by
    have h1 : (0 : Int) ≤ (p.current : Int) + 1 - 1 ∧
          (p.current : Int) + 1 - 1 < (p.tokens.length : Int) := by omega
    have h2 : ((p.current : Int) + 1 - 1).toNat = p.current := by omega
    simp only [previous, bind, PM.bind, getCurrent, Parser.moveTo, tokenAt, Nat.cast_add,
      Nat.cast_one, h1, and_self, if_true, h2, h, pure, PM.pure, Option.getD_some]
  simp [parsePrimary, bind, PM.bind, matchToken_at h, ht, matchToken_at hn1, hprev, pure,
    PM.pure, ident, hnext]

theorem parseUnary_identifier (p : Parser) (t next : Token)
    (h : p.tokens.get? p.current = some t) (hn : p.tokens.get? (p.current + 1) = some next)
    (ht : t.type = .IDENTIFIER) (hnext : next.type ≠ .LPAREN) (fuel : Nat) :
    parseUnary (fuel + 2) p = .ok (ident t.value) (p.moveTo (p.current + 1)) := by
  rw [parseUnary_unfold]
  simp [prefixOp, bind, PM.bind, matchToken_at h, ht, pure, PM.pure,
    parsePrimary_identifier p t next h hn ht hnext fuel]

end Hash

namespace Hash

/-! ### Precedence climbing -/

theorem climb_cons (ops : List (TokenType × BinOp)) (rest : List (List (TokenType × BinOp)))
    (method next : Nat → PM Expression) (h0 : method 0 = outOfFuel)
    (hs : ∀ fuel, method (fuel + 1) = (do
      let expr ← next fuel
      binaryLoop ops (next fuel) fuel expr))
    (hn : ∀ fuel, next fuel = climb rest fuel) :
    ∀ fuel, method fuel = climb (ops :: rest) fuel := by
  intro fuel
  cases fuel with
  | zero => rw [h0]; rfl
  | succ fuel => rw [hs, hn]; rfl

/-- The methods of the parser are the chain `climb`: `parseExpression` climbs
through all ten levels. -/
theorem parseExpression_climb (fuel : Nat) :
    parseExpression (fuel + 1) = climb levelOps fuel := by
  have h10 := climb_cons [(.MULTIPLY, .MUL), (.DIVIDE, .DIV), (.MODULO, .MOD)] [] parseFactor
    parseUnary (by simp only [parseFactor]) (fun f => by simp only [parseFactor])
    (fun f => by simp only [climb])
  have h9 := climb_cons [(.PLUS, .ADD), (.MINUS, .SUB)] _ parseTerm parseFactor
    (by simp only [parseTerm]) (fun f => by simp only [parseTerm]) h10
  have h8 := climb_cons [(.SHIFT_LEFT, .SHL), (.SHIFT_RIGHT, .SHR)] _ parseShift parseTerm
    (by simp only [parseShift]) (fun f => by simp only [parseShift]) h9
  have h7 := climb_cons
    [(.LESS, .LT), (.LESS_EQUAL, .LE), (.GREATER, .GT), (.GREATER_EQUAL, .GE)] _ parseComparison
    parseShift (by simp only [parseComparison]) (fun f => by simp only [parseComparison]) h8
  have h6 := climb_cons [(.EQUAL, .EQ), (.NOT_EQUAL, .NE)] _ parseEquality parseComparison
    (by simp only [parseEquality]) (fun f => by simp only [parseEquality]) h7
  have h5 := climb_cons [(.BITWISE_AND, .BIT_AND)] _ parseBitwiseAnd parseEquality
    (by simp only [parseBitwiseAnd]) (fun f => by simp only [parseBitwiseAnd]) h6
  have h4 := climb_cons [(.BITWISE_XOR, .BIT_XOR)] _ parseBitwiseXor parseBitwiseAnd
    (by simp only [parseBitwiseXor]) (fun f => by simp only [parseBitwiseXor]) h5
  have h3 := climb_cons [(.BITWISE_OR, .BIT_OR)] _ parseBitwiseOr parseBitwiseXor
    (by simp only [parseBitwiseOr]) (fun f => by simp only [parseBitwiseOr]) h4
  have h2 := climb_cons [(.AND, .AND)] _ parseLogicalAnd parseBitwiseOr
    (by simp only [parseLogicalAnd]) (fun f => by simp only [parseLogicalAnd]) h3
  have h1 := climb_cons [(.OR, .OR)] _ parseLogicalOr parseLogicalAnd
    (by simp only [parseLogicalOr]) (fun f => by simp only [parseLogicalOr]) h2
  simp only [parseExpression]
  exact h1 fuel

/-- A result of the levels `rest` passes unchanged through the lower levels
`front` when the token that follows is no operator of theirs. -/
theorem climb_stop {rest : List (List (TokenType × BinOp))} {p : Parser} {e : Expression}
    (q : Parser) (t : Token) (hq : q.tokens.get? q.current = some t) :
    ∀ (front : List (List (TokenType × BinOp))) (fuel : Nat), 1 ≤ fuel →
      climb rest fuel p = .ok e q →
      (t.type = .END_OF_FILE ∨ ∀ ops ∈ front, ∀ x ∈ ops, x.1 ≠ t.type) →
      climb (front ++ rest) (fuel + front.length) p = .ok e q := by
  intro front
  induction front with
  | nil => intro fuel _ h _; exact h
  | cons ops front ih =>
    intro fuel hf h hm
    have hm1 : t.type = .END_OF_FILE ∨ ∀ x ∈ ops, x.1 ≠ t.type := by
      rcases hm with he | hm
      · exact Or.inl he
      · exact Or.inr (hm ops (List.mem_cons_self _ _))
    have hm2 : t.type = .END_OF_FILE ∨ ∀ o ∈ front, ∀ x ∈ o, x.1 ≠ t.type := by
      rcases hm with he | hm
      · exact Or.inl he
      · exact Or.inr (fun o ho => hm o (List.mem_cons_of_mem _ ho))
    have h1 := ih fuel hf h hm2
    have hfuel : fuel + (ops :: front).length = (fuel + front.length) + 1 := by
      simp [Nat.add_assoc]
    rw [hfuel, List.cons_append]
    simp only [climb, bind, PM.bind, h1]
    exact binaryLoop_chain ops _ (Chain.done (matchOp_miss q t hq ops hm1)) _ e (by simp; omega)

end Hash

namespace Hash

theorem climb_level {ops : List (TokenType × BinOp)} {rest : List (List (TokenType × BinOp))}
    {fuel : Nat} {p p1 q : Parser} {e0 : Expression} {chain : List (BinOp × Expression)}
    (h0 : climb rest fuel p = .ok e0 p1) (hc : Chain ops (climb rest fuel) p1 chain q)
    (hf : chain.length < fuel) :
    climb (ops :: rest) (fuel + 1) p = .ok (leftNested e0 chain) q := by
  simp only [climb, bind, PM.bind, h0]
  exact binaryLoop_chain ops _ hc fuel e0 hf

/-- An identifier that neither `(` nor an operator of the levels `front` follows
is parsed by these levels as an `Identifier` node. -/
theorem climb_identifier (front : List (List (TokenType × BinOp))) (p : Parser) (t next : Token)
    (h : p.tokens.get? p.current = some t) (hn : p.tokens.get? (p.current + 1) = some next)
    (ht : t.type = .IDENTIFIER) (hnext : next.type ≠ .LPAREN)
    (hm : next.type = .END_OF_FILE ∨ ∀ ops ∈ front, ∀ x ∈ ops, x.1 ≠ next.type) (fuel : Nat) :
    climb front (fuel + 2 + front.length) p = .ok (ident t.value) (p.moveTo (p.current + 1)) := by
  have h1 : climb [] (fuel + 2) p = .ok (ident t.value) (p.moveTo (p.current + 1)) := by
    simp only [climb]
    exact parseUnary_identifier p t next h hn ht hnext fuel
  have h2 := climb_stop (p.moveTo (p.current + 1)) next hn front (fuel + 2) (by omega) h1 hm
  rwa [List.append_nil] at h2

/-- The keys of one table among `tables` are distinct and occur in no later
table, when all keys of `tables` are distinct. -/
theorem keys_split {tables front back : List (List (TokenType × BinOp))}
    {ops : List (TokenType × BinOp)} (hnd : ((tables.flatten).map Prod.fst).Nodup)
    (hl : tables = front ++ ops :: back) :
    (ops.map Prod.fst).Nodup ∧ ∀ k ∈ ops, ∀ o ∈ back, ∀ y ∈ o, y.1 ≠ k.1 := by
  subst hl
  simp only [List.flatten_append, List.flatten_cons, List.map_append, List.nodup_append] at hnd
  obtain ⟨_, ⟨h1, _, h3⟩, _⟩ := hnd
  refine ⟨h1, fun k hk o ho y hy heq => ?_⟩
  have hy1 : y.1 ∈ (back.flatten).map Prod.fst :=
    List.mem_map_of_mem Prod.fst (List.mem_flatten.mpr ⟨o, ho, hy⟩)
  rw [heq] at hy1
  exact h3 (List.mem_map_of_mem Prod.fst hk) hy1

theorem levelOps_nodup : ((levelOps.flatten).map Prod.fst).Nodup := by decide

theorem levelOps_keys :
    ∀ ops ∈ levelOps, ∀ x ∈ ops, x.1 ≠ .END_OF_FILE ∧ x.1 ≠ .LPAREN := by decide

theorem levelOps_length : levelOps.length = 10 := rfl

end Hash

namespace Hash

/-- The two shapes of the precedence rule on identifiers: with the table
`opsLo` before the table `opsHi` in `levelOps`, `a lo b hi c` is parsed as
`lo(a, hi(b, c))` and `a hi b lo c` as `lo(hi(a, b), c)`. -/
theorem climb_precedence {low mid high : List (List (TokenType × BinOp))}
    {opsLo opsHi : List (TokenType × BinOp)}
    (hl : levelOps = low ++ opsLo :: (mid ++ opsHi :: high))
    {lo hi : TokenType × BinOp} (hlo : lo ∈ opsLo) (hhi : hi ∈ opsHi)
    (ta tb tc tl th te : Token) (ha : ta.type = .IDENTIFIER) (hb : tb.type = .IDENTIFIER)
    (hc : tc.type = .IDENTIFIER) (htl : tl.type = lo.1) (hth : th.type = hi.1)
    (hte : te.type = .END_OF_FILE) (junk : Bool) (fuel : Nat) :
    parseExpression (fuel + 13) (threeOperands ta tl tb th tc te junk 0) =
      .ok (binary lo.2 (ident ta.value) (binary hi.2 (ident tb.value) (ident tc.value)))
        (threeOperands ta tl tb th tc te junk 5) ∧
    parseExpression (fuel + 13) (threeOperands ta th tb tl tc te junk 0) =
      .ok (binary lo.2 (binary hi.2 (ident ta.value) (ident tb.value)) (ident tc.value))
        (threeOperands ta th tb tl tc te junk 5) := by
  -- facts about the tables
  have hlen := congrArg List.length hl
  simp only [levelOps_length, List.length_append, List.length_cons] at hlen
  have hsLo := keys_split levelOps_nodup hl
  have hl2 : levelOps = (low ++ opsLo :: mid) ++ opsHi :: high := by
    rw [hl]; simp
  have hsHi := keys_split levelOps_nodup hl2
  have hmemLo : opsLo ∈ levelOps := by rw [hl]; simp
  have hmemHi : opsHi ∈ levelOps := by rw [hl]; simp
  have hkLo := levelOps_keys opsLo hmemLo lo hlo
  have hkHi := levelOps_keys opsHi hmemHi hi hhi
  have hlo1 : (tl.type, lo.2) ∈ opsLo := by rw [htl]; exact hlo
  have hhi1 : (th.type, hi.2) ∈ opsHi := by rw [hth]; exact hhi
  have hloR : ∀ o ∈ mid ++ opsHi :: high, ∀ y ∈ o, y.1 ≠ tl.type := by
    rw [htl]; exact hsLo.2 lo hlo
  have hloHigh : ∀ o ∈ high, ∀ y ∈ o, y.1 ≠ tl.type :=
    fun o ho => hloR o (by simp [ho])
  have hloMid : ∀ o ∈ mid, ∀ y ∈ o, y.1 ≠ tl.type :=
    fun o ho => hloR o (by simp [ho])
  have hloHi : ∀ y ∈ opsHi, y.1 ≠ tl.type := hloR opsHi (by simp)
  have hhiHigh : ∀ o ∈ high, ∀ y ∈ o, y.1 ≠ th.type := by
    rw [hth]; exact hsHi.2 hi hhi
  have htlE : tl.type ≠ .END_OF_FILE := by rw [htl]; exact hkLo.1
  have htlP : tl.type ≠ .LPAREN := by rw [htl]; exact hkLo.2
  have hthE : th.type ≠ .END_OF_FILE := by rw [hth]; exact hkHi.1
  have hthP : th.type ≠ .LPAREN := by rw [hth]; exact hkHi.2
  have hteP : te.type ≠ .LPAREN := by rw [hte]; decide
  have hG : fuel + 2 + high.length + 1 + mid.length =
      fuel + 2 + (mid ++ opsHi :: high).length := by
    simp only [List.length_append, List.length_cons]; omega
  have hF : fuel + 2 + (mid ++ opsHi :: high).length + 1 + low.length = fuel + 12 := by
    simp only [List.length_append, List.length_cons]; omega
  have hexpr : parseExpression (fuel + 13) = climb levelOps (fuel + 12) :=
    parseExpression_climb (fuel + 12)
  rw [hexpr, hl]
  constructor
  · -- a lo b hi c
    have cb : climb high (fuel + 2 + high.length)
        (threeOperands ta tl tb th tc te junk 2) =
        .ok (ident tb.value) (threeOperands ta tl tb th tc te junk 3) :=
      climb_identifier high (threeOperands ta tl tb th tc te junk 2) tb th rfl rfl hb hthP
        (Or.inr hhiHigh) fuel
    have cc : climb high (fuel + 2 + high.length)
        (threeOperands ta tl tb th tc te junk 4) =
        .ok (ident tc.value) (threeOperands ta tl tb th tc te junk 5) :=
      climb_identifier high (threeOperands ta tl tb th tc te junk 4) tc te rfl rfl hc hteP
        (Or.inl hte) fuel
    have mh : matchOp opsHi (threeOperands ta tl tb th tc te junk 3) =
        .ok (some hi.2) (threeOperands ta tl tb th tc te junk 4) :=
      matchOp_hit (threeOperands ta tl tb th tc te junk 3) th rfl hthE hi.2 opsHi hsHi.1 hhi1
    have me : ∀ ops, matchOp ops (threeOperands ta tl tb th tc te junk 5) =
        .ok none (threeOperands ta tl tb th tc te junk 5) :=
      fun ops => matchOp_miss (threeOperands ta tl tb th tc te junk 5) te rfl ops (Or.inl hte)
    have lh := climb_level cb (Chain.step mh cc (Chain.done (me opsHi)))
      (by simp only [List.length_cons, List.length_nil]; omega)
    have pm := climb_stop (threeOperands ta tl tb th tc te junk 5) te rfl mid _ (by omega) lh
      (Or.inl hte)
    rw [hG] at pm
    have ca : climb (mid ++ opsHi :: high) (fuel + 2 + (mid ++ opsHi :: high).length)
        (threeOperands ta tl tb th tc te junk 0) =
        .ok (ident ta.value) (threeOperands ta tl tb th tc te junk 1) :=
      climb_identifier _ (threeOperands ta tl tb th tc te junk 0) ta tl rfl rfl ha htlP (Or.inr
        hloR) fuel
    have ml : matchOp opsLo (threeOperands ta tl tb th tc te junk 1) =
        .ok (some lo.2) (threeOperands ta tl tb th tc te junk 2) :=
      matchOp_hit (threeOperands ta tl tb th tc te junk 1) tl rfl htlE lo.2 opsLo hsLo.1 hlo1
    have ll := climb_level ca (Chain.step ml pm (Chain.done (me opsLo)))
      (by simp only [List.length_cons, List.length_nil]; omega)
    have pl := climb_stop (threeOperands ta tl tb th tc te junk 5) te rfl low _ (by omega) ll
      (Or.inl hte)
    rw [hF] at pl
    exact pl
  · -- a hi b lo c
    have ca : climb high (fuel + 2 + high.length) (threeOperands ta th tb tl tc te junk 0) =
        .ok (ident ta.value) (threeOperands ta th tb tl tc te junk 1) :=
      climb_identifier high (threeOperands ta th tb tl tc te junk 0) ta th rfl rfl ha hthP
        (Or.inr hhiHigh) fuel
    have cb : climb high (fuel + 2 + high.length)
        (threeOperands ta th tb tl tc te junk 2) =
        .ok (ident tb.value) (threeOperands ta th tb tl tc te junk 3) :=
      climb_identifier high (threeOperands ta th tb tl tc te junk 2) tb tl rfl rfl hb htlP
        (Or.inr hloHigh) fuel
    have mh : matchOp opsHi (threeOperands ta th tb tl tc te junk 1) =
        .ok (some hi.2) (threeOperands ta th tb tl tc te junk 2) :=
      matchOp_hit (threeOperands ta th tb tl tc te junk 1) th rfl hthE hi.2 opsHi hsHi.1 hhi1
    have ms : matchOp opsHi (threeOperands ta th tb tl tc te junk 3) =
        .ok none (threeOperands ta th tb tl tc te junk 3) :=
      matchOp_miss (threeOperands ta th tb tl tc te junk 3) tl rfl opsHi (Or.inr hloHi)
    have me : ∀ ops, matchOp ops (threeOperands ta th tb tl tc te junk 5) =
        .ok none (threeOperands ta th tb tl tc te junk 5) :=
      fun ops => matchOp_miss (threeOperands ta th tb tl tc te junk 5) te rfl ops (Or.inl hte)
    have lh := climb_level ca (Chain.step mh cb (Chain.done ms))
      (by simp only [List.length_cons, List.length_nil]; omega)
    have pm := climb_stop (threeOperands ta th tb tl tc te junk 3) tl rfl mid _ (by omega) lh
      (Or.inr hloMid)
    rw [hG] at pm
    have cc : climb (mid ++ opsHi :: high) (fuel + 2 + (mid ++ opsHi :: high).length)
        (threeOperands ta th tb tl tc te junk 4) =
        .ok (ident tc.value) (threeOperands ta th tb tl tc te junk 5) :=
      climb_identifier _ (threeOperands ta th tb tl tc te junk 4) tc te rfl rfl hc hteP (Or.inl
        hte) fuel
    have ml : matchOp opsLo (threeOperands ta th tb tl tc te junk 3) =
        .ok (some lo.2) (threeOperands ta th tb tl tc te junk 4) :=
      matchOp_hit (threeOperands ta th tb tl tc te junk 3) tl rfl htlE lo.2 opsLo hsLo.1 hlo1
    have ll := climb_level pm (Chain.step ml cc (Chain.done (me opsLo)))
      (by simp only [List.length_cons, List.length_nil]; omega)
    have pl := climb_stop (threeOperands ta th tb tl tc te junk 5) te rfl low _ (by omega) ll
      (Or.inl hte)
    rw [hF] at pl
    exact pl

end Hash

namespace Hash

theorem prefixOp_hit (p : Parser) (t : Token) (h : p.tokens.get? p.current = some t) :
    ∀ u ∈ prefixOps, t.type = u.1 → prefixOp p = .ok (some u.2) (p.moveTo (p.current + 1)) := by
  intro u hu ht
  simp only [prefixOps, List.mem_cons, List.mem_singleton, List.not_mem_nil, or_false] at hu
  rcases hu with rfl | rfl | rfl <;>
    simp [prefixOp, bind, PM.bind, pure, PM.pure, matchToken_at h, ht]

theorem prefixOp_miss (p : Parser) (t : Token) (h : p.tokens.get? p.current = some t)
    (ht : t.type = .IDENTIFIER) : prefixOp p = .ok none p := by
  simp [prefixOp, bind, PM.bind, pure, PM.pure, matchToken_at h, ht]

theorem split_of_get {α : Type} : ∀ (l : List α) (i : Nat) (x : α), l.get? i = some x →
    l = l.take i ++ x :: l.drop (i + 1) := by
  intro l
  induction l with
  | nil => intro i x h; simp at h
  | cons a l ih =>
    intro i x h
    cases i with
    | zero =>
      simp only [List.get?_cons_zero, Option.some.injEq] at h
      simp [h]
    | succ i =>
      simp only [List.get?_cons_succ] at h
      simp only [List.take_succ_cons, List.drop_succ_cons, List.cons_append]
      rw [← ih i x h]

theorem split_of_get_two {α : Type} (l : List α) (i j : Nat) (x y : α) (hij : i < j)
    (hi : l.get? i = some x) (hj : l.get? j = some y) :
    ∃ low mid high, l = low ++ x :: (mid ++ y :: high) := by
  have h1 := split_of_get l i x hi
  have h2 : (l.drop (i + 1)).get? (j - (i + 1)) = some y := by
    rw [List.get?_eq_getElem?, List.getElem?_drop, ← List.get?_eq_getElem?]
    rw [show i + 1 + (j - (i + 1)) = j by omega]
    exact hj
  have h3 := split_of_get _ _ y h2
  exact ⟨_, _, _, by rw [← h3]; exact h1⟩

/-- A prefix operator binds tighter than a binary operator: `u a op b` is parsed
as `op(u a, b)`. -/
theorem climb_prefix {low high : List (List (TokenType × BinOp))}
    {ops : List (TokenType × BinOp)} (hl : levelOps = low ++ ops :: high)
    {o : TokenType × BinOp} (ho : o ∈ ops) {u : TokenType × UnOp} (hu : u ∈ prefixOps)
    (tu ta top tb te : Token) (htu : tu.type = u.1) (ha : ta.type = .IDENTIFIER)
    (hb : tb.type = .IDENTIFIER) (htop : top.type = o.1) (hte : te.type = .END_OF_FILE)
    (junk : Bool) (fuel : Nat) :
    parseExpression (fuel + 14) (prefixedOperand tu ta top tb te junk 0) =
      .ok (binary o.2 (unary u.2 (ident ta.value)) (ident tb.value))
        (prefixedOperand tu ta top tb te junk 4) := by
  have hlen := congrArg List.length hl
  simp only [levelOps_length, List.length_append, List.length_cons] at hlen
  have hs := keys_split levelOps_nodup hl
  have hmem : ops ∈ levelOps := by rw [hl]; simp
  have hk := levelOps_keys ops hmem o ho
  have ho1 : (top.type, o.2) ∈ ops := by rw [htop]; exact ho
  have hoHigh : ∀ t ∈ high, ∀ y ∈ t, y.1 ≠ top.type := by
    rw [htop]; exact hs.2 o ho
  have htopE : top.type ≠ .END_OF_FILE := by rw [htop]; exact hk.1
  have htopP : top.type ≠ .LPAREN := by rw [htop]; exact hk.2
  have hteP : te.type ≠ .LPAREN := by rw [hte]; decide
  have hF : fuel + 3 + high.length + 1 + low.length = fuel + 13 := by omega
  have hexpr : parseExpression (fuel + 14) = climb levelOps (fuel + 13) :=
    parseExpression_climb (fuel + 13)
  rw [hexpr, hl]
  have pa : parsePrimary (fuel + 1) (prefixedOperand tu ta top tb te junk 1) =
      .ok (ident ta.value) (prefixedOperand tu ta top tb te junk 2) :=
    parsePrimary_identifier (prefixedOperand tu ta top tb te junk 1) ta top rfl rfl ha htopP fuel
  have run : PrefixRun (prefixedOperand tu ta top tb te junk 0) [u.2]
      (prefixedOperand tu ta top tb te junk 1) :=
    PrefixRun.step (prefixOp_hit (prefixedOperand tu ta top tb te junk 0) tu rfl u hu htu)
      (PrefixRun.done (prefixOp_miss (prefixedOperand tu ta top tb te junk 1) ta rfl ha))
  have ua : climb [] (fuel + 3) (prefixedOperand tu ta top tb te junk 0) =
      .ok (unary u.2 (ident ta.value)) (prefixedOperand tu ta top tb te junk 2) := by
    simp only [climb]
    exact parseUnary_run run (fuel + 1) _ _ pa
  have ca := climb_stop (prefixedOperand tu ta top tb te junk 2) top rfl high (fuel + 3)
    (by omega) ua (Or.inr hoHigh)
  rw [List.append_nil] at ca
  have cb : climb high (fuel + 1 + 2 + high.length) (prefixedOperand tu ta top tb te junk 3) =
      .ok (ident tb.value) (prefixedOperand tu ta top tb te junk 4) :=
    climb_identifier high (prefixedOperand tu ta top tb te junk 3) tb te rfl rfl hb hteP
      (Or.inl hte) (fuel + 1)
  rw [show fuel + 1 + 2 + high.length = fuel + 3 + high.length by omega] at cb
  have mo : matchOp ops (prefixedOperand tu ta top tb te junk 2) =
      .ok (some o.2) (prefixedOperand tu ta top tb te junk 3) :=
    matchOp_hit (prefixedOperand tu ta top tb te junk 2) top rfl htopE o.2 ops hs.1 ho1
  have me : matchOp ops (prefixedOperand tu ta top tb te junk 4) =
      .ok none (prefixedOperand tu ta top tb te junk 4) :=
    matchOp_miss (prefixedOperand tu ta top tb te junk 4) te rfl ops (Or.inl hte)
  have lv := climb_level ca (Chain.step mo cb (Chain.done me))
    (by simp only [List.length_cons, List.length_nil]; omega)
  have pl := climb_stop (prefixedOperand tu ta top tb te junk 4) te rfl low _ (by omega) lv
    (Or.inl hte)
  rw [hF] at pl
  exact pl

end Hash

namespace Hash

/-- C19: precedence follows the order of the levels in `levelOps` (`||`, `&&`,
`|`, `^`, `&`, equality, comparison, shift, additive, multiplicative).  For an
operator `lo` of level `i` and an operator `hi` of a later level `j`, on
identifier operands followed by the end of the input, `parseExpression` (with
fuel 14 or more) answers `lo(a, hi(b, c))` for `a lo b hi c` and
`lo(hi(a, b), c)` for `a hi b lo c`.  For a prefix operator `u` and any binary
operator `op` it answers `op(u a, b)` for `u a op b`.  In particular the source
`a || b && c` parses as `a || (b && c)`. -/
theorem C19_precedence :
    (∀ (i j : Nat) (opsLo opsHi : List (TokenType × BinOp)), i < j →
      levelOps.get? i = some opsLo → levelOps.get? j = some opsHi →
      ∀ lo ∈ opsLo, ∀ hi ∈ opsHi,
      ∀ (a b c tl th last : Token) (junkIsNewline : Bool) (fuel : Nat),
        a.type = .IDENTIFIER → b.type = .IDENTIFIER → c.type = .IDENTIFIER →
        tl.type = lo.1 → th.type = hi.1 → last.type = .END_OF_FILE → 14 ≤ fuel →
        parseExpression fuel (threeOperands a tl b th c last junkIsNewline 0) =
          .ok (binary lo.2 (ident a.value) (binary hi.2 (ident b.value) (ident c.value)))
            (threeOperands a tl b th c last junkIsNewline 5) ∧
        parseExpression fuel (threeOperands a th b tl c last junkIsNewline 0) =
          .ok (binary lo.2 (binary hi.2 (ident a.value) (ident b.value)) (ident c.value))
            (threeOperands a th b tl c last junkIsNewline 5)) ∧
    (∀ ops ∈ levelOps, ∀ op ∈ ops, ∀ u ∈ prefixOps,
      ∀ (tu a top b last : Token) (junkIsNewline : Bool) (fuel : Nat),
        tu.type = u.1 → a.type = .IDENTIFIER → b.type = .IDENTIFIER → top.type = op.1 →
        last.type = .END_OF_FILE → 14 ≤ fuel →
        parseExpression fuel (prefixedOperand tu a top b last junkIsNewline 0) =
          .ok (binary op.2 (unary u.2 (ident a.value)) (ident b.value))
            (prefixedOperand tu a top b last junkIsNewline 4)) ∧
    (∀ junkIsNewline : Bool, parseSource 100 junkIsNewline "a || b && c" =
      some (binary .OR (ident "a") (binary .AND (ident "b") (ident "c")))) := by
  refine ⟨?_, ?_, by decide!⟩
  · intro i j opsLo opsHi hij hi hj lo hlo hi1 hhi a b c tl th last junk fuel ha hb hc htl hth
      hlast hfuel
    obtain ⟨low, mid, high, hl⟩ := split_of_get_two levelOps i j opsLo opsHi hij hi hj
    obtain ⟨f, rfl⟩ : ∃ f, fuel = f + 13 := ⟨fuel - 13, by omega⟩
    exact climb_precedence hl hlo hhi a b c tl th last ha hb hc htl hth hlast junk f
  · intro ops hops op hop u hu tu a top b last junk fuel htu ha hb htop hlast hfuel
    obtain ⟨low, high, hl⟩ := List.append_of_mem hops
    obtain ⟨f, rfl⟩ : ∃ f, fuel = f + 14 := ⟨fuel - 14, by omega⟩
    exact climb_prefix hl hop hu tu a top b last htu ha hb htop hlast junk f

/-- C19 on the tokens of `a || b && c`. -/
theorem C19_precedence_witness :
    parseExpression 14
        (threeOperands ⟨.IDENTIFIER, "a", 1, 1⟩ ⟨.OR, "||", 1, 3⟩ ⟨.IDENTIFIER, "b", 1, 6⟩
          ⟨.AND, "&&", 1, 8⟩ ⟨.IDENTIFIER, "c", 1, 11⟩ ⟨.END_OF_FILE, "", 1, 12⟩ false 0) =
      .ok (binary .OR (ident "a") (binary .AND (ident "b") (ident "c")))
        (threeOperands ⟨.IDENTIFIER, "a", 1, 1⟩ ⟨.OR, "||", 1, 3⟩ ⟨.IDENTIFIER, "b", 1, 6⟩
          ⟨.AND, "&&", 1, 8⟩ ⟨.IDENTIFIER, "c", 1, 11⟩ ⟨.END_OF_FILE, "", 1, 12⟩ false 5) :=
  (C19_precedence.1 0 1 [(.OR, .OR)] [(.AND, .AND)] (by decide) rfl rfl (.OR, .OR)
    (List.mem_singleton.mpr rfl) (.AND, .AND) (List.mem_singleton.mpr rfl)
    ⟨.IDENTIFIER, "a", 1, 1⟩ ⟨.IDENTIFIER, "b", 1, 6⟩ ⟨.IDENTIFIER, "c", 1, 11⟩
    ⟨.OR, "||", 1, 3⟩ ⟨.AND, "&&", 1, 8⟩ ⟨.END_OF_FILE, "", 1, 12⟩ false 14 rfl rfl rfl rfl rfl rfl
    (le_refl _)).1

end Hash

/-! ## Theorems about `INVALID` tokens in the parser -/

namespace Hash

theorem Parser.Step.stepRefl (p : Parser) : p.Step p := ⟨rfl, id, id⟩

theorem Parser.Step.stepTrans {p q r : Parser} (h1 : p.Step q) (h2 : q.Step r) : p.Step r :=
  ⟨h2.1.trans h1.1, fun h => h2.2.1 (h1.2.1 h), fun h => h2.2.2 (h1.2.2 h)⟩

/-- A change of `outOfBounds` alone is a step. -/
theorem Parser.Step.flag (p : Parser) (b : Bool) : p.Step { p with outOfBounds := b } :=
  ⟨rfl, id, id⟩

/-- Recording an error is a step. -/
theorem Parser.Step.record (p : Parser) (msg : String) :
    p.Step { p with errors := p.errors ++ [msg] } :=
  ⟨rfl, fun _ => by simp, fun _ => Or.inl (by simp)⟩

/-- Moving by one token is a step when the token passed is not `INVALID` or an
error has been recorded. -/
theorem Parser.Step.move (p : Parser)
    (h : p.errors ≠ [] ∨ ∀ t, p.tokens.get? p.current = some t → t.type ≠ .INVALID) :
    p.Step { p with current := p.current + 1 } := by
  refine ⟨rfl, id, fun hs => ?_⟩
  rcases hs with he | hs
  · exact Or.inl he
  · rcases h with he | h
    · exact Or.inl he
    · refine Or.inr (fun i t hi ht => ?_)
      rcases Nat.lt_succ_iff_lt_or_eq.mp hi with h1 | h1
      · exact hs i t h1 ht
      · subst h1; exact h t ht

theorem keeps_pure {α : Type} (a : α) : PM.Keeps (pure a : PM α) :=
  fun p => Parser.Step.stepRefl p

theorem keeps_bind {α β : Type} {m : PM α} {f : α → PM β} (hm : PM.Keeps m)
    (hf : ∀ a, PM.Keeps (f a)) : PM.Keeps (m >>= f) := by
  intro p
  have h1 := hm p
  show match PM.bind m f p with
    | .ok _ q => p.Step q
    | .thrown _ q => p.Step q
    | .outOfFuel => True
  unfold PM.bind
  cases hmp : m p with
  | outOfFuel => trivial
  | thrown w q => rw [hmp] at h1; exact h1
  | ok a q =>
    rw [hmp] at h1
    have h2 := hf a q
    dsimp only at h1 ⊢
    cases hfq : f a q with
    | outOfFuel => trivial
    | thrown w r => rw [hfq] at h2; exact h1.stepTrans h2
    | ok b r => rw [hfq] at h2; exact h1.stepTrans h2

theorem keeps_branch {α : Type} {c : Prop} [Decidable c] {a b : PM α} (ha : PM.Keeps a)
    (hb : PM.Keeps b) : PM.Keeps (if c then a else b) := by
  split
  · exact ha
  · exact hb

theorem keeps_raise {α : Type} (what : String) : PM.Keeps (raise what : PM α) :=
  fun p => Parser.Step.stepRefl p

theorem keeps_outOfFuel {α : Type} : PM.Keeps (outOfFuel : PM α) := fun _ => trivial

theorem keeps_getCurrent : PM.Keeps getCurrent := fun p => Parser.Step.stepRefl p

theorem keeps_junkIsNewline : PM.Keeps junkIsNewline := fun p => Parser.Step.stepRefl p

theorem keeps_peek (offset : Nat) : PM.Keeps (peek offset) :=
  fun p => Parser.Step.stepRefl p

theorem keeps_isAtEnd : PM.Keeps isAtEnd := fun p => Parser.Step.stepRefl p

theorem keeps_check (type : TokenType) : PM.Keeps (check type) :=
  fun p => Parser.Step.stepRefl p

theorem keeps_error (message : String) : PM.Keeps (error message) :=
  fun p => Parser.Step.record p _

theorem keeps_stod (s : String) : PM.Keeps (stod s) := by
  intro p
  unfold stod
  by_cases h : s ∈ p.stodThrows
  · rw [if_pos h]
    exact Parser.Step.stepRefl p
  · rw [if_neg h]
    exact Parser.Step.stepRefl p

theorem tokenAt_eq (i : Int) (p : Parser) :
    ∃ (r : Option Token) (b : Bool), tokenAt i p = .ok r { p with outOfBounds := b } := by
  unfold tokenAt
  by_cases h : 0 ≤ i ∧ i < p.tokens.length
  · exact ⟨_, p.outOfBounds, by rw [if_pos h]⟩
  · exact ⟨_, true, by rw [if_neg h]⟩

theorem keeps_tokenAt (i : Int) : PM.Keeps (tokenAt i) := by
  intro p
  obtain ⟨r, b, h⟩ := tokenAt_eq i p
  rw [h]
  exact Parser.Step.flag p b

theorem keeps_previous : PM.Keeps previous := by
  unfold Hash.previous
  exact keeps_bind keeps_getCurrent
    (fun _ => keeps_bind (keeps_tokenAt _) (fun _ => keeps_pure _))

/-- The method `advance` is a step when the token at the position is not
`INVALID` or an error has been recorded. -/
theorem advance_step (p : Parser)
    (h : p.errors ≠ [] ∨ ∀ t, p.tokens.get? p.current = some t → t.type ≠ .INVALID) :
    ∃ t q, advance p = .ok t q ∧ p.Step q ∧ q.errors = p.errors ∧ q.tokens = p.tokens ∧
      ((p.isAtEnd = true ∧ q.current = p.current) ∨
        (p.isAtEnd = false ∧ q.current = p.current + 1)) := by
  unfold advance
  by_cases he : p.isAtEnd = true
  · rw [if_pos he]
    dsimp only
    obtain ⟨r, b, h1⟩ := tokenAt_eq ((p.current : Int) - 1) p
    rw [h1]
    exact ⟨_, _, rfl, Parser.Step.flag p b, rfl, rfl, Or.inl ⟨he, rfl⟩⟩
  · rw [if_neg he]
    dsimp only
    obtain ⟨r, b, h1⟩ := tokenAt_eq (((p.current + 1 : Nat) : Int) - 1)
      { p with current := p.current + 1 }
    rw [h1]
    exact ⟨_, _, rfl, (Parser.Step.move p h).stepTrans (Parser.Step.flag _ b), rfl, rfl,
      Or.inr ⟨by simp [he], rfl⟩⟩

theorem keeps_matchToken (type : TokenType) (ht : type ≠ .INVALID) :
    PM.Keeps (matchToken type) := by
  intro p
  by_cases hc : p.check type = true
  · have hpk : ∀ t, p.tokens.get? p.current = some t → t.type ≠ .INVALID := by
      intro t hget
      have h1 := Parser.peek_at hget
      unfold Parser.check at hc
      split at hc
      · cases hc
      · rw [h1] at hc
        have : t.type = type := by simpa using hc
        rw [this]; exact ht
    obtain ⟨t, q, h1, h2, _⟩ := advance_step p (Or.inr hpk)
    have hm : Hash.matchToken type p = .ok true q := by
      simp [Hash.matchToken, bind, PM.bind, Hash.check, hc, h1, pure, PM.pure]
    rw [hm]
    exact h2
  · have hm : Hash.matchToken type p = .ok false p := by
      simp [Hash.matchToken, bind, PM.bind, Hash.check, hc, pure, PM.pure]
    rw [hm]
    exact Parser.Step.stepRefl p

end Hash

namespace Hash

theorem keeps_consume (type : TokenType) (message : String) (ht : type ≠ .INVALID) :
    PM.Keeps (consume type message) := by
  intro p
  by_cases hc : p.check type = true
  · have hpk : ∀ t, p.tokens.get? p.current = some t → t.type ≠ .INVALID := by
      intro t hget
      have h1 := Parser.peek_at hget
      unfold Parser.check at hc
      split at hc
      · cases hc
      · rw [h1] at hc
        have : t.type = type := by simpa using hc
        rw [this]; exact ht
    obtain ⟨t, q, h1, h2, _⟩ := advance_step p (Or.inr hpk)
    have hm : consume type message p = .ok t q := by
      simp [consume, bind, PM.bind, Hash.check, hc, h1]
    rw [hm]
    exact h2
  · have hm : consume type message p =
        .thrown message { p with errors := p.errors ++
          ["Error at line " ++ toString (p.peek 0).line ++ ", column " ++
            toString (p.peek 0).column ++ ": " ++ message] } := by
      simp [consume, bind, PM.bind, Hash.check, hc, Hash.error, Hash.raise]
    rw [hm]
    exact Parser.Step.record p _

theorem keeps_orElse {a b : PM Bool} (ha : PM.Keeps a) (hb : PM.Keeps b) :
    PM.Keeps (orElse a b) := by
  unfold orElse
  exact keeps_bind ha (fun _ => keeps_branch (keeps_pure _) hb)

theorem keeps_parseType : PM.Keeps parseType := by
  unfold parseType
  with_reducible repeat' first
    | exact keeps_pure _
    | exact keeps_raise _
    | exact keeps_error _
    | exact keeps_matchToken _ (by decide)
    | refine keeps_bind ?_ (fun _ => ?_)
    | apply keeps_branch

theorem keeps_matchOp : ∀ ops : List (TokenType × BinOp), (∀ x ∈ ops, x.1 ≠ .INVALID) →
    PM.Keeps (matchOp ops) := by
  intro ops
  induction ops with
  | nil => intro _; exact keeps_pure _
  | cons x rest ih =>
    intro h
    rcases x with ⟨ty, op⟩
    simp only [matchOp]
    exact keeps_bind (keeps_matchToken ty (h (ty, op) (List.mem_cons_self _ _)))
      (fun _ => keeps_branch (keeps_pure _) (ih (fun y hy => h y (List.mem_cons_of_mem _ hy))))

theorem keeps_binaryLoop (ops : List (TokenType × BinOp)) (hops : ∀ x ∈ ops, x.1 ≠ .INVALID)
    (operand : PM Expression) (ho : PM.Keeps operand) :
    ∀ (fuel : Nat) (e : Expression), PM.Keeps (binaryLoop ops operand fuel e) := by
  intro fuel
  induction fuel with
  | zero => intro e; exact keeps_outOfFuel
  | succ fuel ih =>
    intro e
    simp only [binaryLoop]
    refine keeps_bind (keeps_matchOp ops hops) (fun r => ?_)
    cases r with
    | none => exact keeps_pure _
    | some op => exact keeps_bind ho (fun _ => ih _)

theorem keeps_skipNewlines : ∀ fuel : Nat, PM.Keeps (skipNewlines fuel) := by
  intro fuel
  induction fuel with
  | zero => exact keeps_outOfFuel
  | succ fuel ih =>
    simp only [skipNewlines]
    exact keeps_bind (keeps_matchToken _ (by decide)) (fun _ => keeps_branch ih (keeps_pure _))

theorem levelOps_valid : ∀ ops ∈ levelOps, ∀ x ∈ ops, x.1 ≠ .INVALID := by decide

theorem keeps_climb (n : Nat) (hu : ∀ g ≤ n, PM.Keeps (parseUnary g)) :
    ∀ (tables : List (List (TokenType × BinOp))), (∀ ops ∈ tables, ∀ x ∈ ops, x.1 ≠ .INVALID) →
      ∀ fuel ≤ n, PM.Keeps (climb tables fuel) := by
  intro tables
  induction tables with
  | nil =>
    intro _ fuel hf
    simp only [climb]
    exact hu fuel hf
  | cons ops rest ih =>
    intro hk fuel hf
    have hrest : ∀ o ∈ rest, ∀ x ∈ o, x.1 ≠ .INVALID :=
      fun o ho => hk o (List.mem_cons_of_mem _ ho)
    cases fuel with
    | zero => exact keeps_outOfFuel
    | succ fuel =>
      simp only [climb]
      have h1 := ih hrest fuel (by omega)
      exact keeps_bind h1
        (fun _ => keeps_binaryLoop ops (hk ops (List.mem_cons_self _ _)) _ h1 _ _)

theorem keeps_prefixOp : PM.Keeps prefixOp := by
  unfold prefixOp
  with_reducible repeat' first
    | exact keeps_pure _
    | exact keeps_matchToken _ (by decide)
    | refine keeps_bind ?_ (fun _ => ?_)
    | apply keeps_branch

/-- The methods of the expression grammar keep `Parser.Step`. -/
theorem keeps_expressions : ∀ (n fuel : Nat), fuel ≤ n →
    PM.Keeps (parseUnary fuel) ∧ PM.Keeps (parsePrimary fuel) ∧
    PM.Keeps (parseExpression fuel) ∧
    ∀ arguments, PM.Keeps (parseArguments fuel arguments) := by
  intro n
  induction n with
  | zero =>
    intro fuel hf
    have : fuel = 0 := by omega
    subst this
    refine ⟨?_, ?_, ?_, fun _ => ?_⟩
    · simp only [parseUnary]; exact keeps_outOfFuel
    · simp only [parsePrimary]; exact keeps_outOfFuel
    · simp only [parseExpression]; exact keeps_outOfFuel
    · simp only [parseArguments]; exact keeps_outOfFuel
  | succ n ih =>
    intro fuel hf
    rcases Nat.lt_or_ge fuel (n + 1) with hlt | hge
    · exact ih fuel (by omega)
    · have : fuel = n + 1 := by omega
      subst this
      have ihn := ih n (le_refl _)
      have hE : PM.Keeps (parseExpression (n + 1)) := by
        rw [parseExpression_climb]
        exact keeps_climb n (fun g hg => (ih g hg).1) levelOps levelOps_valid n (le_refl _)
      refine ⟨?_, ?_, hE, fun arguments => ?_⟩
      · rw [parseUnary_unfold]
        refine keeps_bind keeps_prefixOp (fun r => ?_)
        cases r with
        | none => exact ihn.2.1
        | some op => exact keeps_bind ihn.1 (fun _ => keeps_pure _)
      · simp only [parsePrimary]
        have hA := ihn.2.2.2
        have hX := ihn.2.2.1
        with_reducible repeat' first
          | exact keeps_pure _
          | exact keeps_raise _
          | exact keeps_error _
          | exact keeps_stod _
          | exact keeps_check _
          | exact keeps_previous
          | exact hX
          | exact hA _
          | exact keeps_matchToken _ (by decide)
          | exact keeps_consume _ _ (by decide)
          | refine keeps_bind ?_ (fun _ => ?_)
          | apply keeps_branch
          | split
      · simp only [parseArguments]
        exact keeps_bind ihn.2.2.1 (fun _ => keeps_bind (keeps_matchToken _ (by decide))
          (fun _ => keeps_branch (ihn.2.2.2 _) (keeps_pure _)))

theorem keeps_parseExpression (fuel : Nat) : PM.Keeps (parseExpression fuel) :=
  (keeps_expressions fuel fuel (le_refl _)).2.2.1

end Hash

namespace Hash

theorem keepsAfterError_of_keeps {α : Type} {m : PM α} (h : PM.Keeps m) :
    PM.KeepsAfterError m := fun p _ => h p

theorem keepsAfterError_bind {α β : Type} {m : PM α} {f : α → PM β}
    (hm : PM.KeepsAfterError m) (hf : ∀ a, PM.KeepsAfterError (f a)) :
    PM.KeepsAfterError (m >>= f) := by
  intro p hp
  have h1 := hm p hp
  show match PM.bind m f p with
    | .ok _ q => p.Step q
    | .thrown _ q => p.Step q
    | .outOfFuel => True
  unfold PM.bind
  cases hmp : m p with
  | outOfFuel => trivial
  | thrown w q => rw [hmp] at h1; exact h1
  | ok a q =>
    rw [hmp] at h1
    have h2 := hf a q (h1.2.1 hp)
    dsimp only at h1 ⊢
    cases hfq : f a q with
    | outOfFuel => trivial
    | thrown w r => rw [hfq] at h2; exact h1.stepTrans h2
    | ok b r => rw [hfq] at h2; exact h1.stepTrans h2

theorem keepsAfterError_ite {α : Type} {c : Prop} [Decidable c] {a b : PM α}
    (ha : PM.KeepsAfterError a) (hb : PM.KeepsAfterError b) :
    PM.KeepsAfterError (if c then a else b) := by
  split
  · exact ha
  · exact hb

theorem keepsAfterError_advance : PM.KeepsAfterError advance := by
  intro p hp
  obtain ⟨t, q, h1, h2, _⟩ := advance_step p (Or.inl hp)
  rw [h1]
  exact h2

/-- Once an error is recorded, the method that records the next one and what
follows it keep `Parser.Step`. -/
theorem keeps_after_error {α : Type} (message : String) {m : PM α}
    (hm : PM.KeepsAfterError m) : PM.Keeps (error message >>= fun _ => m) := by
  intro p
  show match PM.bind (error message) (fun _ => m) p with
    | .ok _ q => p.Step q
    | .thrown _ q => p.Step q
    | .outOfFuel => True
  unfold PM.bind Hash.error
  dsimp only
  have hne : (p.errors ++ ["Error at line " ++ toString (p.peek 0).line ++ ", column " ++
      toString (p.peek 0).column ++ ": " ++ message]) ≠ [] := by simp
  have h1 := hm { p with errors := p.errors ++
    ["Error at line " ++ toString (p.peek 0).line ++ ", column " ++
      toString (p.peek 0).column ++ ": " ++ message] } hne
  have h0 := Parser.Step.record p ("Error at line " ++ toString (p.peek 0).line ++
    ", column " ++ toString (p.peek 0).column ++ ": " ++ message)
  split
  · next a q heq => rw [heq] at h1; exact h0.stepTrans h1
  · next w q heq => rw [heq] at h1; exact h0.stepTrans h1
  · trivial

theorem keepsAfterError_synchronize : ∀ fuel : Nat, PM.KeepsAfterError (synchronize fuel) := by
  intro fuel
  induction fuel with
  | zero => exact keepsAfterError_of_keeps keeps_outOfFuel
  | succ fuel ih =>
    simp only [synchronize]
    with_reducible repeat' first
      | exact ih
      | exact keepsAfterError_advance
      | exact keepsAfterError_of_keeps (keeps_pure _)
      | exact keepsAfterError_of_keeps keeps_isAtEnd
      | exact keepsAfterError_of_keeps keeps_getCurrent
      | exact keepsAfterError_of_keeps keeps_junkIsNewline
      | exact keepsAfterError_of_keeps (keeps_tokenAt _)
      | exact keepsAfterError_of_keeps (keeps_peek _)
      | refine keepsAfterError_bind ?_ (fun _ => ?_)
      | apply keepsAfterError_ite
      | split

/-- The two unguarded calls of `advance` in `parseStatement` pass an identifier
and the `=` after it. -/
theorem keeps_assignment {α : Type} (body : Token → PM α) (other : PM α)
    (hb : ∀ name, PM.Keeps (body name)) (ho : PM.Keeps other) :
    PM.Keeps (do
      if (← check .IDENTIFIER) && (← peek 1).type = .ASSIGN then
        let name ← advance
        let _ ← advance
        body name
      else other) := by
  intro p
  simp only [bind, PM.bind, Hash.check, Hash.peek]
  by_cases hc : (p.check .IDENTIFIER && decide ((p.peek 1).type = .ASSIGN)) = true
  · rw [if_pos hc]
    simp only [Bool.and_eq_true, decide_eq_true_eq] at hc
    have hpk : ∀ t, p.tokens.get? p.current = some t → t.type ≠ .INVALID := by
      intro t hget
      have h1 := Parser.peek_at hget
      have hc1 := hc.1
      unfold Parser.check at hc1
      split at hc1
      · cases hc1
      · rw [h1] at hc1
        have : t.type = .IDENTIFIER := by simpa using hc1
        rw [this]; decide
    obtain ⟨t1, q1, h1, s1, _, ht1, hcur⟩ := advance_step p (Or.inr hpk)
    have hpk1 : ∀ t, q1.tokens.get? q1.current = some t → t.type ≠ .INVALID := by
      intro t hget
      rw [ht1] at hget
      rcases hcur with ⟨_, hcur⟩ | ⟨_, hcur⟩
      · rw [hcur] at hget; exact hpk t hget
      · rw [hcur] at hget
        have hlt : p.current + 1 < p.tokens.length := by
          rcases Nat.lt_or_ge (p.current + 1) p.tokens.length with h | h
          · exact h
          · rw [List.get?_eq_none.mpr h] at hget; cases hget
        have h2 : p.peek 1 = t := by
          unfold Parser.peek
          simp only [ge_iff_le, Nat.not_le.mpr hlt, if_false, List.getD_eq_getElem?_getD]
          rw [← List.get?_eq_getElem?, hget]
          rfl
        rw [← h2, hc.2]; decide
    obtain ⟨t2, q2, h2, s2, _⟩ := advance_step q1 (Or.inr hpk1)
    simp only [PM.bind, h1, h2]
    have h3 := hb t1 q2
    split
    · next a q heq => rw [heq] at h3; exact (s1.stepTrans s2).stepTrans h3
    · next w q heq => rw [heq] at h3; exact (s1.stepTrans s2).stepTrans h3
    · trivial
  · rw [if_neg hc]
    exact ho p

end Hash

namespace Hash

theorem keeps_parseVariableDecl (fuel : Nat) : PM.Keeps (parseVariableDecl fuel) := by
  unfold parseVariableDecl
  have hX := keeps_parseExpression fuel
  with_reducible repeat' first
    | exact keeps_pure _
    | exact hX
    | exact keeps_parseType
    | exact keeps_matchToken _ (by decide)
    | exact keeps_consume _ _ (by decide)
    | refine keeps_bind ?_ (fun _ => ?_)
    | apply keeps_branch

theorem keeps_parseGlobalVariable (fuel : Nat) : PM.Keeps (parseGlobalVariable fuel) := by
  unfold parseGlobalVariable
  have hX := keeps_parseExpression fuel
  with_reducible repeat' first
    | exact keeps_pure _
    | exact hX
    | exact keeps_parseType
    | exact keeps_matchToken _ (by decide)
    | exact keeps_consume _ _ (by decide)
    | refine keeps_bind ?_ (fun _ => ?_)
    | apply keeps_branch

theorem keeps_parseReturnStatement (fuel : Nat) (line column : Int) :
    PM.Keeps (parseReturnStatement fuel line column) := by
  unfold parseReturnStatement
  have hX := keeps_parseExpression fuel
  with_reducible repeat' first
    | exact keeps_pure _
    | exact hX
    | exact keeps_check _
    | refine keeps_bind ?_ (fun _ => ?_)
    | apply keeps_branch

/-- The methods for statements and blocks keep `Parser.Step`. -/
theorem keeps_statements : ∀ fuel : Nat,
    PM.Keeps (parseStatement fuel) ∧ PM.Keeps (parseIfStatement fuel) ∧
    PM.Keeps (parseWhileStatement fuel) ∧ PM.Keeps (parseBlock fuel) ∧
    ∀ statements, PM.Keeps (parseBlockLoop fuel statements) := by
  intro fuel
  induction fuel with
  | zero =>
    refine ⟨?_, ?_, ?_, ?_, fun _ => ?_⟩
    · simp only [parseStatement]; exact keeps_outOfFuel
    · simp only [parseIfStatement]; exact keeps_outOfFuel
    · simp only [parseWhileStatement]; exact keeps_outOfFuel
    · simp only [parseBlock]; exact keeps_outOfFuel
    · simp only [parseBlockLoop]; exact keeps_outOfFuel
  | succ fuel ih =>
    obtain ⟨hS, hI, hW, hB, hL⟩ := ih
    have hX := keeps_parseExpression fuel
    refine ⟨?_, ?_, ?_, ?_, fun _ => ?_⟩
    · simp only [parseStatement]
      refine keeps_bind (keeps_skipNewlines fuel) (fun _ => ?_)
      refine keeps_bind (keeps_matchToken _ (by decide)) (fun _ => keeps_branch ?_ ?_)
      · exact keeps_bind (keeps_parseVariableDecl fuel) (fun _ => keeps_pure _)
      refine keeps_bind (keeps_matchToken _ (by decide)) (fun _ => keeps_branch hI ?_)
      refine keeps_bind (keeps_matchToken _ (by decide)) (fun _ => keeps_branch hW ?_)
      refine keeps_bind (keeps_matchToken _ (by decide)) (fun _ => keeps_branch ?_ ?_)
      · exact keeps_bind keeps_previous (fun _ => keeps_bind keeps_previous
          (fun _ => keeps_parseReturnStatement fuel _ _))
      refine keeps_assignment _ _ (fun _ => ?_) ?_
      · exact keeps_bind hX (fun _ => keeps_pure _)
      · exact keeps_bind hX (fun _ => keeps_pure _)
    · simp only [parseIfStatement]
      with_reducible repeat' first
        | exact keeps_pure _
        | exact hX
        | exact hB
        | exact keeps_matchToken _ (by decide)
        | exact keeps_consume _ _ (by decide)
        | refine keeps_bind ?_ (fun _ => ?_)
        | apply keeps_branch
    · simp only [parseWhileStatement]
      with_reducible repeat' first
        | exact keeps_pure _
        | exact hX
        | exact hB
        | exact keeps_consume _ _ (by decide)
        | refine keeps_bind ?_ (fun _ => ?_)
    · simp only [parseBlock]
      with_reducible repeat' first
        | exact keeps_pure _
        | exact hS
        | exact hL _
        | exact keeps_skipNewlines _
        | exact keeps_orElse (keeps_matchToken _ (by decide)) (keeps_matchToken _ (by decide))
        | exact keeps_consume _ _ (by decide)
        | refine keeps_bind ?_ (fun _ => ?_)
        | apply keeps_branch
    · simp only [parseBlockLoop]
      with_reducible repeat' first
        | exact keeps_pure _
        | exact hS
        | exact hL _
        | exact keeps_check _
        | exact keeps_isAtEnd
        | exact keeps_matchToken _ (by decide)
        | refine keeps_bind ?_ (fun _ => ?_)
        | apply keeps_branch

theorem keeps_parseParameters : ∀ (fuel : Nat) (parameters : List Parameter),
    PM.Keeps (parseParameters fuel parameters) := by
  intro fuel
  induction fuel with
  | zero => intro _; exact keeps_outOfFuel
  | succ fuel ih =>
    intro parameters
    simp only [parseParameters]
    with_reducible repeat' first
      | exact keeps_pure _
      | exact ih _
      | exact keeps_parseType
      | exact keeps_matchToken _ (by decide)
      | exact keeps_consume _ _ (by decide)
      | refine keeps_bind ?_ (fun _ => ?_)
      | apply keeps_branch

theorem keeps_parseFunctionPurity : PM.Keeps parseFunctionPurity := by
  unfold parseFunctionPurity
  with_reducible repeat' first
    | exact keeps_pure _
    | exact keeps_getCurrent
    | exact keeps_previous
    | exact keeps_tokenAt _
    | exact keeps_consume _ _ (by decide)
    | refine keeps_bind ?_ (fun _ => ?_)
    | apply keeps_branch

theorem keeps_parseFunction (fuel : Nat) : PM.Keeps (parseFunction fuel) := by
  unfold parseFunction
  have hB := (keeps_statements fuel).2.2.2.1
  with_reducible repeat' first
    | exact keeps_pure _
    | exact hB
    | exact keeps_parseFunctionPurity
    | exact keeps_parseParameters _ _
    | exact keeps_parseType
    | exact keeps_check _
    | exact keeps_matchToken _ (by decide)
    | exact keeps_consume _ _ (by decide)
    | refine keeps_bind ?_ (fun _ => ?_)
    | apply keeps_branch

theorem keeps_parseTopLevel (fuel : Nat) (program : Program) :
    PM.Keeps (parseTopLevel fuel program) := by
  unfold parseTopLevel
  have hS : PM.Keeps (error "Expected function or global variable declaration" >>= fun _ =>
      (synchronize fuel >>= fun _ => (pure program : PM Program))) :=
    keeps_after_error _ (keepsAfterError_bind (keepsAfterError_synchronize fuel)
      (fun _ => keepsAfterError_of_keeps (keeps_pure _)))
  with_reducible repeat' first
    | exact keeps_pure _
    | exact hS
    | exact keeps_getCurrent
    | exact keeps_previous
    | exact keeps_tokenAt _
    | exact keeps_parseFunction _
    | exact keeps_parseGlobalVariable _
    | exact keeps_orElse (keeps_matchToken _ (by decide)) (keeps_matchToken _ (by decide))
    | exact keeps_orElse (keeps_matchToken _ (by decide))
        (keeps_orElse (keeps_matchToken _ (by decide)) (keeps_matchToken _ (by decide)))
    | exact keeps_matchToken _ (by decide)
    | refine keeps_bind ?_ (fun _ => ?_)
    | apply keeps_branch

theorem keeps_parseCatch (fuel : Nat) (what : String) : PM.Keeps (parseCatch fuel what) := by
  unfold parseCatch
  exact keeps_after_error _ (keepsAfterError_synchronize fuel)

/-- The loop of `parse` keeps `Parser.Step`, and it returns at the end of the
input only. -/
theorem parseLoop_step : ∀ (fuel : Nat) (program : Program) (p : Parser),
    match parseLoop fuel program p with
    | .ok _ q => p.Step q ∧ q.isAtEnd = true
    | .thrown _ q => p.Step q
    | .outOfFuel => True := by
  intro fuel
  induction fuel with
  | zero => intro program p; trivial
  | succ fuel ih =>
    intro program p
    simp only [parseLoop]
    by_cases he : p.isAtEnd = true
    · rw [if_pos he]
      exact ⟨Parser.Step.stepRefl p, he⟩
    · rw [if_neg he]
      have h1 := keeps_parseTopLevel fuel program p
      cases ht : parseTopLevel fuel program p with
      | outOfFuel => trivial
      | ok program1 p1 =>
        rw [ht] at h1
        dsimp only at h1 ⊢
        have h2 := ih program1 p1
        cases hl : parseLoop fuel program1 p1 with
        | outOfFuel => trivial
        | ok r q => rw [hl] at h2; exact ⟨h1.stepTrans h2.1, h2.2⟩
        | thrown w q => rw [hl] at h2; exact h1.stepTrans h2
      | thrown what p1 =>
        rw [ht] at h1
        dsimp only at h1 ⊢
        have h2 := keeps_parseCatch fuel what p1
        cases hc : parseCatch fuel what p1 with
        | outOfFuel => trivial
        | thrown w p2 => rw [hc] at h2; exact h1.stepTrans h2
        | ok u p2 =>
          rw [hc] at h2
          dsimp only at h2 ⊢
          have h3 := ih program p2
          cases hl : parseLoop fuel program p2 with
          | outOfFuel => trivial
          | ok r q => rw [hl] at h3; exact ⟨(h1.stepTrans h2).stepTrans h3.1, h3.2⟩
          | thrown w q => rw [hl] at h3; exact (h1.stepTrans h2).stepTrans h3

end Hash

namespace Hash

theorem mem_dropLast_of_get {α : Type} : ∀ (l : List α) (i : Nat) (x : α),
    l.get? i = some x → i + 1 < l.length → x ∈ l.dropLast := by
  intro l
  induction l with
  | nil => intro i x h; simp at h
  | cons a l ih =>
    intro i x h hi
    cases l with
    | nil => simp at hi
    | cons b l =>
      simp only [List.dropLast_cons₂]
      cases i with
      | zero =>
        simp only [List.get?_cons_zero, Option.some.injEq] at h
        rw [h]; exact List.mem_cons_self _ _
      | succ i =>
        simp only [List.get?_cons_succ] at h
        exact List.mem_cons_of_mem _ (ih i x h (by simpa using hi))

/-- On a token sequence in which `END_OF_FILE` occurs only as the last token
and which contains an `INVALID` token, whenever `parse` returns, its error list
is non-empty.  The parser moves past a token only by matching its type, which
is never `INVALID`, or in `synchronize`, which runs after an error has been
recorded; and it returns only at an `END_OF_FILE` token. -/
theorem invalid_token_reported (tokens : List Token) (fuel : Nat) (junkIsNewline : Bool)
    (stodThrows : List String) (program : Program) (p : Parser)
    (hend : ∀ t ∈ tokens.dropLast, t.type ≠ .END_OF_FILE)
    (hinv : ∃ t ∈ tokens, t.type = .INVALID)
    (h : parse fuel tokens junkIsNewline stodThrows = some (program, p)) :
    p.errors ≠ [] := by
  unfold parse at h
  have h1 := parseLoop_step fuel { functions := [], globals := [] }
    (Parser.new tokens junkIsNewline stodThrows)
  cases hl : parseLoop fuel { functions := [], globals := [] }
      (Parser.new tokens junkIsNewline stodThrows) with
  | outOfFuel => rw [hl] at h; cases h
  | thrown w q => rw [hl] at h; cases h
  | ok r q =>
    rw [hl] at h h1
    simp only [Option.some.injEq, Prod.mk.injEq] at h
    obtain ⟨_, rfl⟩ := h
    obtain ⟨⟨htok, _, hsound⟩, hatEnd⟩ := h1
    have hs0 : (Parser.new tokens junkIsNewline stodThrows).Sound :=
      Or.inr (fun i t hi _ => absurd hi (Nat.not_lt_zero i))
    rcases hsound hs0 with he | hs
    · exact he
    · exfalso
      obtain ⟨t, ht, htype⟩ := hinv
      obtain ⟨i, hi⟩ := List.mem_iff_get?.mp ht
      have htok1 : q.tokens = tokens := htok
      have hilt : i < tokens.length := by
        rcases Nat.lt_or_ge i tokens.length with h2 | h2
        · exact h2
        · rw [List.get?_eq_none.mpr h2] at hi; cases hi
      have hcur : i < q.current := by
        rcases Nat.lt_or_ge q.current tokens.length with hc | hc
        · obtain ⟨tc, htc⟩ : ∃ tc, q.tokens.get? q.current = some tc := by
            rw [htok1]
            exact ⟨tokens.get ⟨q.current, hc⟩, List.get?_eq_get hc⟩
          have hpk := Parser.peek_at htc
          have heof : tc.type = .END_OF_FILE := by
            unfold Parser.isAtEnd at hatEnd
            rw [hpk] at hatEnd
            simpa using hatEnd
          rw [htok1] at htc
          have hlast : ¬ (q.current + 1 < tokens.length) :=
            fun hlt => hend tc (mem_dropLast_of_get tokens q.current tc htc hlt) heof
          have hne : i ≠ q.current := by
            intro hiq
            rw [hiq, htc] at hi
            have : tc = t := Option.some.inj hi
            rw [this, htype] at heof
            cases heof
          omega
        · omega
      exact hs i t hcur (by rw [htok1]; exact hi) htype

theorem parseLoop_stuck_before_stray (junk : Bool) (rejected : List String) :
    ∀ (fuel : Nat) (program : Program) (errs : List String) (b : Bool),
      parseLoop fuel program
        { tokens := ifStrayTokens, current := 0, errors := errs, junkIsNewline := junk,
          outOfBounds := b, stodThrows := rejected } = Res.outOfFuel := by
  intro fuel
  induction fuel with
  | zero => intro program errs b; rfl
  | succ fuel ih =>
    intro program errs b
    cases fuel with
    | zero =>
      simp [parseLoop, parseTopLevel, Parser.isAtEnd, Parser.peek, ifStrayTokens, orElse,
        matchToken, check, Parser.check, bind, PM.bind, pure, PM.pure, error, synchronize,
        outOfFuel]
    | succ fuel =>
      have h := ih program
        (errs ++ ["Error at line 1, column 1: Expected function or global variable declaration"])
        true
      cases junk <;>
        simp [parseLoop, parseTopLevel, Parser.isAtEnd, Parser.peek, ifStrayTokens, orElse,
          matchToken, check, Parser.check, bind, PM.bind, pure, PM.pure, error, synchronize,
          outOfFuel, isAtEnd, getCurrent, tokenAt, junkIsNewline, peek, isSyncPoint] at h ⊢ <;>
        exact h

/-- C20 (the code at a failing input): the source `if $` lexes to `IF`,
`INVALID`, `END_OF_FILE`, a sequence that ends in its only `END_OF_FILE` and
contains an `INVALID` token, and on these tokens `parse` does not return,
whatever the fuel, whatever the out-of-bounds look-behind of `synchronize`
yields and whatever `std::stod` does: no error list is returned.  Every pass of
the loop of `parse` records the error for the `if` and `synchronize` returns at
once on `if` without advancing, so the `INVALID` token is never reached.  Where
`parse` does return on a sequence with `END_OF_FILE` as the last token only and
with an `INVALID` token, its error list is non-empty; so it is on the tokens of
`let x: i32 = 1 $`, where the stray `$` is reported. -/
theorem C20_parse_does_not_return_before_invalid_token :
    tokenize "if $".toList = some ifStrayTokens ∧
    (∀ t ∈ ifStrayTokens.dropLast, t.type ≠ .END_OF_FILE) ∧
    (∃ t ∈ ifStrayTokens, t.type = .INVALID) ∧
    (∀ (fuel : Nat) (junkIsNewline : Bool) (stodThrows : List String),
      parse fuel ifStrayTokens junkIsNewline stodThrows = none) ∧
    (∀ (tokens : List Token) (fuel : Nat) (junkIsNewline : Bool) (stodThrows : List String)
      (program : Program) (p : Parser),
      (∀ t ∈ tokens.dropLast, t.type ≠ .END_OF_FILE) → (∃ t ∈ tokens, t.type = .INVALID) →
      parse fuel tokens junkIsNewline stodThrows = some (program, p) → p.errors ≠ []) ∧
    tokenize "let x: i32 = 1 $".toList = some strayTokens ∧
    parse 20 strayTokens false [] = some (strayProgram, strayParser) ∧
    strayParser.errors =
      ["Error at line 1, column 16: Expected function or global variable declaration"] := by
  refine ⟨by decide!, by decide, by decide, fun fuel junk rejected => ?_,
    invalid_token_reported, by decide!, by decide!, rfl⟩
  unfold parse Parser.new
  rw [parseLoop_stuck_before_stray]

end Hash

/-! ## Theorems about the checks of assignments, calls and returns -/

namespace Hash

theorem mapFind_mapInsert_same {β : Type} (key : String) (value : β) :
    ∀ m : List (String × β), mapFind key (mapInsert key value m) = some value
  | [] => by simp [mapInsert, mapFind]
  | (k, v) :: rest => by
    unfold mapInsert
    by_cases h : k = key
    · rw [if_pos h]; simp [mapFind, h]
    · rw [if_neg h]; simp only [mapFind, if_neg h]
      exact mapFind_mapInsert_same key value rest

theorem mapFind_mapInsert_other {β : Type} (key other : String) (value : β) (h : key ≠ other) :
    ∀ m : List (String × β), mapFind other (mapInsert key value m) = mapFind other m
  | [] => by simp [mapInsert, mapFind, h]
  | (k, v) :: rest => by
    unfold mapInsert
    by_cases hk : k = key
    · rw [if_pos hk]
      have : k ≠ other := by rw [hk]; exact h
      simp [mapFind, this]
    · rw [if_neg hk]
      by_cases ho : k = other
      · simp [mapFind, ho]
      · simp only [mapFind, if_neg ho]
        exact mapFind_mapInsert_other key other value h rest

theorem setLast_append (s : String) (e : ErrorInfo) :
    ∀ l : List ErrorInfo,
      SemanticAnalyzer.setLast s (l ++ [e]) = l ++ [{ e with suggestion := s }]
  | [] => rfl
  | [x] => rfl
  | x :: y :: rest => by
    have ih := setLast_append s e (y :: rest)
    simp only [List.cons_append] at ih ⊢
    unfold SemanticAnalyzer.setLast
    rw [ih]

/-- An error raised through `error` followed by the assignment of its suggestion
appends one record to the structured list. -/
theorem failure_structuredErrors (a : SemanticAnalyzer) (m s : String) (l c : Int) :
    ((a.error m l c).suggest s).structuredErrors =
      a.structuredErrors ++ [{ ErrorInfo.mk3 m l c with suggestion := s }] := by
  unfold SemanticAnalyzer.suggest SemanticAnalyzer.error
  exact setLast_append s _ _

theorem prefix_ite_pushError (x : SemanticAnalyzer) (c : Prop) [Decidable c] (e : ErrorInfo) :
    x.structuredErrors <+: (if c then x.pushError e else x).structuredErrors := by
  split
  · exact List.prefix_append _ _
  · exact List.prefix_rfl

theorem prefix_ite_failure (x : SemanticAnalyzer) (c : Prop) [Decidable c] (m s : String)
    (l col : Int) :
    x.structuredErrors <+: (if c then (x.error m l col).suggest s else x).structuredErrors := by
  split
  · rw [failure_structuredErrors]; exact List.prefix_append _ _
  · exact List.prefix_rfl

theorem binaryResult_extends (op : BinOp) (i : ExprInfo) (lt rt : Option TypeKind)
    (a : SemanticAnalyzer) :
    a.structuredErrors <+: (binaryResult op i lt rt a).2.structuredErrors := by
  unfold binaryResult
  cases op <;> dsimp only <;>
    first
      | exact List.prefix_rfl
      | exact prefix_ite_pushError a _ _

theorem unaryResult_extends (op : UnOp) (i : ExprInfo) (t : Option TypeKind)
    (a : SemanticAnalyzer) :
    a.structuredErrors <+: (unaryResult op i t a).2.structuredErrors := by
  unfold unaryResult
  cases op <;> dsimp only <;>
    first
      | exact List.prefix_rfl
      | exact prefix_ite_pushError a _ _

mutual
/-- The visit of an expression only appends to the structured errors. -/
theorem visitExpression_extends :
    ∀ (e : Expression) (a : SemanticAnalyzer),
      a.structuredErrors <+: (visitExpression e a).2.structuredErrors
  | .IntegerLiteral _ _, a => by simp [visitExpression]
  | .FloatLiteral _ _, a => by simp [visitExpression]
  | .StringLiteral _ _, a => by simp [visitExpression]
  | .BoolLiteral _ _, a => by simp [visitExpression]
  | .Identifier i name, a => by
    unfold visitExpression
    split
    · exact List.prefix_append _ _
    · exact prefix_ite_pushError a _ _
  | .BinaryOp i op left right, a => by
    have h1 := visitExpression_extends left a
    have h2 := visitExpression_extends right (visitExpression left a).2
    unfold visitExpression
    rcases hl : visitExpression left a with ⟨left1, a1⟩
    rw [hl] at h1 h2
    dsimp only at h1 h2 ⊢
    rcases hr : visitExpression right a1 with ⟨right1, a2⟩
    rw [hr] at h2
    dsimp only at h2 ⊢
    split
    · exact h1.trans h2
    · exact (h1.trans h2).trans (binaryResult_extends _ _ _ _ _)
  | .UnaryOp i op operand, a => by
    have h1 := visitExpression_extends operand a
    unfold visitExpression
    rcases ho : visitExpression operand a with ⟨operand1, a1⟩
    rw [ho] at h1
    dsimp only at h1 ⊢
    split
    · exact h1
    · exact h1.trans (unaryResult_extends _ _ _ _)
  | .CallExpr i functionName arguments, a => by
    unfold visitExpression
    split
    · exact List.prefix_append _ _
    · next funcInfo hf =>
      split
      · exact List.prefix_append _ _
      · have h1 := visitArguments_extends functionName funcInfo.paramTypes 0 arguments a
        rcases hv : visitArguments functionName funcInfo.paramTypes 0 arguments a with
          ⟨arguments1, a1⟩
        rw [hv] at h1
        dsimp only at h1 ⊢
        refine h1.trans ?_
        split
        · exact prefix_ite_pushError a1 _ _
        · exact prefix_ite_pushError a1 _ _
theorem visitArguments_extends (functionName : String) (paramTypes : List TypeKind) :
    ∀ (i : Nat) (arguments : List Expression) (a : SemanticAnalyzer),
      a.structuredErrors <+:
        (visitArguments functionName paramTypes i arguments a).2.structuredErrors
  | _, [], a => by simp [visitArguments]
  | i, arg :: rest, a => by
    have h1 := visitExpression_extends arg a
    unfold visitArguments
    rcases ha : visitExpression arg a with ⟨arg1, a1⟩
    rw [ha] at h1
    dsimp only at h1 ⊢
    have h2 := visitArguments_extends functionName paramTypes (i + 1) rest
      (if arg1.type.isSome && !typesMatch (paramTypes.get? i) arg1.type then
        a1.pushError (argumentTypeError functionName i (typeToString (paramTypes.get? i))
          (typeToString arg1.type) arg1.info)
      else a1)
    rcases hr : visitArguments functionName paramTypes (i + 1) rest
      (if arg1.type.isSome && !typesMatch (paramTypes.get? i) arg1.type then
        a1.pushError (argumentTypeError functionName i (typeToString (paramTypes.get? i))
          (typeToString arg1.type) arg1.info)
      else a1) with ⟨rest1, a3⟩
    rw [hr] at h2
    dsimp only at h2 ⊢
    exact (h1.trans (prefix_ite_pushError a1 _ _)).trans h2
end

end Hash

namespace Hash

theorem lookupVariable_declareVariable (a : SemanticAnalyzer) (name : String) (symbol : Symbol) :
    (a.declareVariable name symbol).lookupVariable name = some symbol := by
  unfold SemanticAnalyzer.declareVariable SemanticAnalyzer.lookupVariable
  split
  · simp [SemanticAnalyzer.lookupIn, mapFind]
  · simp [SemanticAnalyzer.lookupIn, mapFind_mapInsert_same]

theorem visitVariableDecl_declares (node : VariableDecl) (a : SemanticAnalyzer)
    (h : a.declaredInCurrentScope node.name = false) :
    (visitVariableDecl node a).2.lookupVariable node.name =
      some { name := node.name, type := node.varType, isMutable := node.isMutable,
             isPureLocal := node.isPureLocal, isParameter := false } := by
  unfold visitVariableDecl
  rw [h]
  simp only [Bool.false_eq_true, if_false]
  split
  · exact lookupVariable_declareVariable _ _ _
  · exact lookupVariable_declareVariable _ _ _

theorem errors_prefix_ite_failure (x : SemanticAnalyzer) (c : Prop) [Decidable c] (m s : String)
    (l col : Int) : x.errors <+: (if c then (x.error m l col).suggest s else x).errors := by
  split
  · exact List.prefix_append _ _
  · exact List.prefix_rfl

/-- The two records of the error for an assignment to an immutable variable are
in the lists after the checks that precede the visit of the value. -/
theorem assignmentChecks_immutable (a : SemanticAnalyzer) (symbol : Symbol) (name : String)
    (line column : Int) (hm : symbol.isMutable = false) (hp : symbol.isParameter = false) :
    legacyText "Error" ("Cannot assign to immutable variable '" ++ name ++ "'") line column ∈
      (assignmentChecks a symbol name line column).errors ∧
    { ErrorInfo.mk3 ("Cannot assign to immutable variable '" ++ name ++ "'") line column with
      suggestion := "Declare the variable as mutable with 'let mut " ++ name ++
        ": <type>' instead of 'let " ++ name ++ ": <type>'" } ∈
      (assignmentChecks a symbol name line column).structuredErrors := by
  unfold assignmentChecks
  dsimp only
  rw [hm, hp]
  simp only [Bool.not_false, Bool.and_self, if_true]
  constructor
  · refine (errors_prefix_ite_failure _ _ _ _ _ _).subset ?_
    simp
  · refine (prefix_ite_failure _ _ _ _ _ _).subset ?_
    rw [failure_structuredErrors]
    simp

/-- What the visit of an assignment keeps of the two error lists after its first
checks. -/
theorem visitAssignment_extends (a : SemanticAnalyzer) (symbol : Symbol) (name : String)
    (line column : Int) (value : Expression) (hl : a.lookupVariable name = some symbol) :
    (assignmentChecks a symbol name line column).errors <+:
      (visitStatement (.Assignment line column name value) a).2.errors ∧
    (assignmentChecks a symbol name line column).structuredErrors <+:
      (visitStatement (.Assignment line column name value) a).2.structuredErrors := by
  have f1 := (visitExpression_frame value (assignmentChecks a symbol name line column)).2.2.2.1
  have f2 := visitExpression_extends value (assignmentChecks a symbol name line column)
  unfold visitStatement
  rw [hl]
  dsimp only
  rcases hv : visitExpression value (assignmentChecks a symbol name line column) with
    ⟨value1, a1⟩
  rw [hv] at f1 f2
  dsimp only at f1 f2 ⊢
  constructor
  · rw [← f1]
    exact errors_prefix_ite_failure a1 _ _ _ _ _
  · exact f2.trans (prefix_ite_failure a1 _ _ _ _ _)

/-- C21: on the source `fn main() -> i32:`, `    let x: i32 = 1`, `    x = 2`,
`    return x` the analysis fails with the one error
`Cannot assign to immutable variable 'x'` at line 3, column 5 (the position of
the target `x`), whose suggestion names `let mut`.  In general, a `let` that the
analyzer accepts declares a symbol that carries the `mut` flag of the declaration
and is no parameter, and the visit of every assignment whose target resolves to
a symbol that is neither mutable nor a parameter records this error in both
lists. -/
theorem C21_immutable_assignment :
    compilesTo 100 "fn main() -> i32:\n    let x: i32 = 1\n    x = 2\n    return x\n"
      { parseErrors := [], success := false,
        errors := ["Error at line 3, column 5: Cannot assign to immutable variable 'x'"],
        structuredErrors :=
          [{ message := "Cannot assign to immutable variable 'x'", line := 3, column := 5,
             length := 1,
             suggestion :=
               "Declare the variable as mutable with 'let mut x: <type>' instead of 'let x: <type>'" }],
        warnings := [], structuredWarnings := [] } ∧
    (∀ (node : VariableDecl) (a : SemanticAnalyzer),
      a.declaredInCurrentScope node.name = false →
      (visitVariableDecl node a).2.lookupVariable node.name =
        some { name := node.name, type := node.varType, isMutable := node.isMutable,
               isPureLocal := node.isPureLocal, isParameter := false }) ∧
    (∀ (a : SemanticAnalyzer) (name : String) (symbol : Symbol) (line column : Int)
      (value : Expression), a.lookupVariable name = some symbol →
      symbol.isMutable = false → symbol.isParameter = false →
      legacyText "Error" ("Cannot assign to immutable variable '" ++ name ++ "'") line column ∈
        (visitStatement (.Assignment line column name value) a).2.errors ∧
      { ErrorInfo.mk3 ("Cannot assign to immutable variable '" ++ name ++ "'") line column with
        suggestion := "Declare the variable as mutable with 'let mut " ++ name ++
          ": <type>' instead of 'let " ++ name ++ ": <type>'" } ∈
        (visitStatement (.Assignment line column name value) a).2.structuredErrors) := by
  refine ⟨by decide!, visitVariableDecl_declares, ?_⟩
  intro a name symbol line column value hl hm hp
  have h0 := assignmentChecks_immutable a symbol name line column hm hp
  have h1 := visitAssignment_extends a symbol name line column value hl
  exact ⟨h1.1.subset h0.1, h1.2.subset h0.2⟩

end Hash

namespace Hash

theorem bind_ok {α β : Type} (m : PM α) (f : α → PM β) (p q : Parser) (b : β)
    (h : (m >>= f) p = .ok b q) : ∃ a p1, m p = .ok a p1 ∧ f a p1 = .ok b q := by
  simp only [bind, PM.bind] at h
  cases hm : m p with
  | ok a p1 => rw [hm] at h; exact ⟨a, p1, rfl, h⟩
  | thrown w p1 => rw [hm] at h; cases h
  | outOfFuel => rw [hm] at h; cases h

/-- A declaration that `parseVariableDecl` returns is not both `mut` and
`pure_local`: after `mut` the parser does not look for `pure_local`. -/
theorem parseVariableDecl_flags (fuel : Nat) (p q : Parser) (d : VariableDecl)
    (h : parseVariableDecl fuel p = .ok d q) (hm : d.isMutable = true) :
    d.isPureLocal = false := by
  unfold parseVariableDecl at h
  obtain ⟨isMutable, p1, _, h⟩ := bind_ok _ _ _ _ _ h
  dsimp only at h
  cases isMutable with
  | false =>
    exfalso
    simp only [Bool.false_eq_true, if_false] at h
    obtain ⟨isPureLocal, p2, _, h⟩ := bind_ok _ _ _ _ _ h
    obtain ⟨name, p3, _, h⟩ := bind_ok _ _ _ _ _ h
    obtain ⟨_, p4, _, h⟩ := bind_ok _ _ _ _ _ h
    obtain ⟨type, p5, _, h⟩ := bind_ok _ _ _ _ _ h
    obtain ⟨c, p6, _, h⟩ := bind_ok _ _ _ _ _ h
    split at h <;>
      (obtain ⟨initializer, p7, _, h⟩ := bind_ok _ _ _ _ _ h
       simp only [pure, PM.pure, Res.ok.injEq] at h
       rw [← h.1] at hm
       cases hm)
  | true =>
    simp only [if_true] at h
    obtain ⟨isPureLocal, p2, h2, h⟩ := bind_ok _ _ _ _ _ h
    simp only [pure, PM.pure, Res.ok.injEq] at h2
    obtain ⟨name, p3, _, h⟩ := bind_ok _ _ _ _ _ h
    obtain ⟨_, p4, _, h⟩ := bind_ok _ _ _ _ _ h
    obtain ⟨type, p5, _, h⟩ := bind_ok _ _ _ _ _ h
    obtain ⟨c, p6, _, h⟩ := bind_ok _ _ _ _ _ h
    split at h <;>
      (obtain ⟨initializer, p7, _, h⟩ := bind_ok _ _ _ _ _ h
       simp only [pure, PM.pure, Res.ok.injEq] at h
       rw [← h.1, ← h2.1])

theorem lookupVariable_declareVariable_eq (a : SemanticAnalyzer) (n name : String)
    (s : Symbol) :
    (a.declareVariable n s).lookupVariable name =
      if n = name then some s else a.lookupVariable name := by
  unfold SemanticAnalyzer.declareVariable SemanticAnalyzer.lookupVariable
  split
  · next h =>
    rw [h]
    by_cases hn : n = name <;> simp [SemanticAnalyzer.lookupIn, mapFind, hn]
  · next top rest h =>
    rw [h]
    by_cases hn : n = name
    · subst hn
      simp [SemanticAnalyzer.lookupIn, mapFind_mapInsert_same]
    · simp [SemanticAnalyzer.lookupIn, mapFind_mapInsert_other n name s hn, hn]

/-- A name resolves after the declaration of the parameters either as before or
to the symbol of a parameter. -/
theorem declareParameters_lookup (name : String) (symbol : Symbol) :
    ∀ (ps : List Parameter) (a : SemanticAnalyzer),
      (declareParameters ps a).lookupVariable name = some symbol →
      a.lookupVariable name = some symbol ∨
        (symbol.isParameter = true ∧ symbol.isMutable = false ∧ symbol.isPureLocal = false)
  | [], a, h => Or.inl h
  | param :: rest, a, h => by
    unfold declareParameters at h
    rcases declareParameters_lookup name symbol rest _ h with h1 | h1
    · rw [lookupVariable_declareVariable_eq] at h1
      split at h1
      · simp only [Option.some.injEq] at h1
        subst h1
        exact Or.inr ⟨rfl, rfl, rfl⟩
      · exact Or.inl h1
    · exact Or.inr h1

/-- The checks before the visit of the value record nothing for a target that
is mutable or a parameter and is not `pure_local`. -/
theorem assignmentChecks_quiet (a : SemanticAnalyzer) (symbol : Symbol) (name : String)
    (line column : Int) (hm : symbol.isMutable = true ∨ symbol.isParameter = true)
    (hp : symbol.isPureLocal = false) : assignmentChecks a symbol name line column = a := by
  unfold assignmentChecks
  dsimp only
  rw [hp]
  rcases hm with hm | hm <;> simp [hm]

theorem visitAssignment_quiet (a : SemanticAnalyzer) (name : String) (symbol : Symbol)
    (line column : Int) (value : Expression) (hl : a.lookupVariable name = some symbol)
    (hm : symbol.isMutable = true ∨ symbol.isParameter = true)
    (hp : symbol.isPureLocal = false)
    (ht : (visitExpression value a).1.type = some symbol.type) :
    (visitStatement (.Assignment line column name value) a).2.errors = a.errors ∧
    (visitStatement (.Assignment line column name value) a).2.structuredErrors =
      (visitExpression value a).2.structuredErrors ∧
    (visitStatement (.Assignment line column name value) a).2.warnings = a.warnings ∧
    (visitStatement (.Assignment line column name value) a).2.structuredWarnings =
      a.structuredWarnings := by
  obtain ⟨_, _, _, f4, f5, f6, _⟩ := visitExpression_frame value a
  unfold visitStatement
  rw [hl]
  dsimp only
  rw [assignmentChecks_quiet a symbol name line column hm hp]
  rcases hv : visitExpression value a with ⟨value1, a1⟩
  rw [hv] at ht f4 f5 f6
  dsimp only at ht f4 f5 f6 ⊢
  rw [ht]
  simp only [typesMatch, decide_True, Bool.not_true, Bool.and_false, Bool.false_eq_true,
    if_false]
  exact ⟨f4, rfl, f5, f6⟩

theorem leaveFunction_quiet (node : FunctionDecl) (b : SemanticAnalyzer)
    (h : node.isPure = false) :
    (leaveFunction node b).errors = b.errors ∧
    (leaveFunction node b).structuredErrors = b.structuredErrors ∧
    (leaveFunction node b).warnings = b.warnings ∧
    (leaveFunction node b).structuredWarnings = b.structuredWarnings := by
  unfold leaveFunction
  simp [h, SemanticAnalyzer.popScope]

/-- C22: in a function that is not declared `pure`, an assignment of a value of
the target's type to a `let mut` variable or to a parameter records no error and
no warning.  The source `fn f(p: i32) -> i32:`, `    let mut x: i32 = 0`,
`    x = 1`, `    p = x`, `    return p` is analyzed without any diagnostic.  In
general: a declaration the parser returns with `mut` is not `pure_local`; a name
that resolves after the declaration of the parameters resolves as before or to a
parameter symbol, which is not `pure_local`; the visit of an assignment whose
target resolves to a symbol that is mutable or a parameter, and not
`pure_local`, with a value of the symbol's type leaves the legacy errors and
both warning lists as they were and the structured errors as the visit of the
value alone leaves them; and the end of a function that is not `pure` records
nothing for the side-effect mark the assignment leaves. -/
theorem C22_mutable_assignment_accepted :
    compilesTo 100
      "fn f(p: i32) -> i32:\n    let mut x: i32 = 0\n    x = 1\n    p = x\n    return p\n"
      { parseErrors := [], success := true, errors := [], structuredErrors := [],
        warnings := [], structuredWarnings := [] } ∧
    (∀ (fuel : Nat) (p q : Parser) (d : VariableDecl),
      parseVariableDecl fuel p = .ok d q → d.isMutable = true → d.isPureLocal = false) ∧
    (∀ (name : String) (symbol : Symbol) (ps : List Parameter) (a : SemanticAnalyzer),
      (declareParameters ps a).lookupVariable name = some symbol →
      a.lookupVariable name = some symbol ∨
        (symbol.isParameter = true ∧ symbol.isMutable = false ∧ symbol.isPureLocal = false)) ∧
    (∀ (a : SemanticAnalyzer) (name : String) (symbol : Symbol) (line column : Int)
      (value : Expression), a.lookupVariable name = some symbol →
      symbol.isMutable = true ∨ symbol.isParameter = true → symbol.isPureLocal = false →
      (visitExpression value a).1.type = some symbol.type →
      (visitStatement (.Assignment line column name value) a).2.errors = a.errors ∧
      (visitStatement (.Assignment line column name value) a).2.structuredErrors =
        (visitExpression value a).2.structuredErrors ∧
      (visitStatement (.Assignment line column name value) a).2.warnings = a.warnings ∧
      (visitStatement (.Assignment line column name value) a).2.structuredWarnings =
        a.structuredWarnings) ∧
    (∀ (node : FunctionDecl) (b : SemanticAnalyzer), node.isPure = false →
      (leaveFunction node b).errors = b.errors ∧
      (leaveFunction node b).structuredErrors = b.structuredErrors ∧
      (leaveFunction node b).warnings = b.warnings ∧
      (leaveFunction node b).structuredWarnings = b.structuredWarnings) :=
  ⟨by decide!, parseVariableDecl_flags, declareParameters_lookup, visitAssignment_quiet,
    leaveFunction_quiet⟩

end Hash

namespace Hash

theorem visitVariableDecl_redeclared (node : VariableDecl) (a : SemanticAnalyzer)
    (h : a.declaredInCurrentScope node.name = true) :
    (visitVariableDecl node a).2 =
      a.error ("Variable '" ++ node.name ++ "' already declared in this scope") node.line
        node.column := by
  unfold visitVariableDecl
  rw [h]
  rfl

/-- C23, at the failing input: the source `fn f(a: i32, a: i32) -> i32:`,
`    return a` declares the parameter `a` twice in the scope of `f`, and the
analysis records no error of either form and returns true.  The loop over the
parameters in `visit(FunctionDecl&)` calls `declareVariable` without the test
that `visit(VariableDecl&)` makes; that test does report a `let` that repeats a
`let` or a parameter and a global that repeats a global, as the three other
sources show, and in general every declaration of a name that is in the current
scope. -/
theorem C23_duplicate_parameter_accepted :
    compilesTo 100 "fn f(a: i32, a: i32) -> i32:\n    return a\n"
      { parseErrors := [], success := true, errors := [], structuredErrors := [],
        warnings := [], structuredWarnings := [] } ∧
    compilesTo 100 "fn f() -> i32:\n    let a: i32 = 1\n    let a: i32 = 2\n    return a\n"
      { parseErrors := [], success := false,
        errors := ["Error at line 3, column 9: Variable 'a' already declared in this scope"],
        structuredErrors :=
          [ErrorInfo.mk3 "Variable 'a' already declared in this scope" 3 9],
        warnings := [], structuredWarnings := [] } ∧
    compilesTo 100 "fn f(a: i32) -> i32:\n    let a: i32 = 1\n    return a\n"
      { parseErrors := [], success := false,
        errors := ["Error at line 2, column 9: Variable 'a' already declared in this scope"],
        structuredErrors :=
          [ErrorInfo.mk3 "Variable 'a' already declared in this scope" 2 9],
        warnings := [], structuredWarnings := [] } ∧
    compilesTo 100 "let g: i32 = 1\nlet g: i32 = 2\nfn f(a: i32) -> i32:\n    return a\n"
      { parseErrors := [], success := false,
        errors := ["Error at line 2, column 5: Variable 'g' already declared in this scope"],
        structuredErrors :=
          [ErrorInfo.mk3 "Variable 'g' already declared in this scope" 2 5],
        warnings := [], structuredWarnings := [] } ∧
    (∀ (node : VariableDecl) (a : SemanticAnalyzer),
      a.declaredInCurrentScope node.name = true →
      (visitVariableDecl node a).2 =
        a.error ("Variable '" ++ node.name ++ "' already declared in this scope") node.line
          node.column) :=
  ⟨by decide!, by decide!, by decide!, by decide!, visitVariableDecl_redeclared⟩

end Hash

namespace Hash

theorem collectSignature_present (func : FunctionDecl) (a : SemanticAnalyzer)
    (info : FunctionInfo) (h : mapFind func.name a.functions = some info) :
    collectSignature func a =
      a.error ("Function '" ++ func.name ++ "' already declared") func.line func.column := by
  unfold collectSignature
  rw [h]

theorem collectSignature_absent (func : FunctionDecl) (a : SemanticAnalyzer)
    (h : mapFind func.name a.functions = none) :
    collectSignature func a =
      { a with functions := mapInsert func.name (signatureOf func) a.functions } := by
  unfold collectSignature
  rw [h]
  rfl

theorem collectSignature_errors (func : FunctionDecl) (a : SemanticAnalyzer) :
    a.errors <+: (collectSignature func a).errors := by
  cases h : mapFind func.name a.functions with
  | none => rw [collectSignature_absent func a h]
  | some info =>
    rw [collectSignature_present func a info h]
    exact List.prefix_append _ _

theorem collectSignature_kept (func : FunctionDecl) (a : SemanticAnalyzer) (name : String)
    (info : FunctionInfo) (h : mapFind name a.functions = some info) :
    mapFind name (collectSignature func a).functions = some info := by
  cases hf : mapFind func.name a.functions with
  | none =>
    rw [collectSignature_absent func a hf]
    have hne : func.name ≠ name := by
      intro he
      rw [he, h] at hf
      cases hf
    dsimp only
    rw [mapFind_mapInsert_other func.name name _ hne]
    exact h
  | some other =>
    rw [collectSignature_present func a other hf]
    exact h

theorem collectSignature_taken (func : FunctionDecl) (a : SemanticAnalyzer) :
    (mapFind func.name (collectSignature func a).functions).isSome = true := by
  cases hf : mapFind func.name a.functions with
  | none =>
    rw [collectSignature_absent func a hf]
    dsimp only
    rw [mapFind_mapInsert_same]
    rfl
  | some other =>
    rw [collectSignature_present func a other hf]
    simp [hf]

theorem collectSignatures_errors :
    ∀ (funcs : List FunctionDecl) (a : SemanticAnalyzer),
      a.errors <+: (collectSignatures funcs a).errors
  | [], a => List.prefix_rfl
  | func :: rest, a => by
    unfold collectSignatures
    exact (collectSignature_errors func a).trans (collectSignatures_errors rest _)

/-- The first pass never replaces an entry of the table. -/
theorem collectSignatures_kept (name : String) (info : FunctionInfo) :
    ∀ (funcs : List FunctionDecl) (a : SemanticAnalyzer),
      mapFind name a.functions = some info →
      mapFind name (collectSignatures funcs a).functions = some info
  | [], a, h => h
  | func :: rest, a, h => by
    unfold collectSignatures
    exact collectSignatures_kept name info rest _ (collectSignature_kept func a name info h)

theorem collectSignatures_append :
    ∀ (pre post : List FunctionDecl) (a : SemanticAnalyzer),
      collectSignatures (pre ++ post) a = collectSignatures post (collectSignatures pre a)
  | [], post, a => rfl
  | func :: rest, post, a => by
    simp only [List.cons_append, collectSignatures]
    exact collectSignatures_append rest post _

theorem collectSignatures_taken (g : FunctionDecl) :
    ∀ (funcs : List FunctionDecl) (a : SemanticAnalyzer), g ∈ funcs →
      (mapFind g.name (collectSignatures funcs a).functions).isSome = true
  | [], a, h => by cases h
  | func :: rest, a, h => by
    unfold collectSignatures
    rcases List.mem_cons.mp h with h1 | h1
    · subst h1
      have := collectSignature_taken g a
      rcases hf : mapFind g.name (collectSignature g a).functions with _ | info
      · rw [hf] at this; cases this
      · rw [collectSignatures_kept g.name info rest _ hf]
        rfl
    · exact collectSignatures_taken g rest _ h1

theorem collectSignatures_free (name : String) :
    ∀ (funcs : List FunctionDecl) (a : SemanticAnalyzer),
      mapFind name a.functions = none → (∀ g ∈ funcs, g.name ≠ name) →
      mapFind name (collectSignatures funcs a).functions = none
  | [], a, h, _ => h
  | func :: rest, a, h, hn => by
    unfold collectSignatures
    refine collectSignatures_free name rest _ ?_ (fun g hg => hn g (List.mem_cons_of_mem _ hg))
    have hne : func.name ≠ name := hn func (List.mem_cons_self _ _)
    cases hf : mapFind func.name a.functions with
    | none =>
      rw [collectSignature_absent func a hf]
      dsimp only
      rw [mapFind_mapInsert_other func.name name _ hne]
      exact h
    | some other =>
      rw [collectSignature_present func a other hf]
      exact h

/-- The first pass reports a function whose name is in the table when its turn
comes. -/
theorem collectSignatures_reports (pre post : List FunctionDecl) (func : FunctionDecl)
    (a : SemanticAnalyzer)
    (h : (mapFind func.name a.functions).isSome = true ∨ ∃ g ∈ pre, g.name = func.name) :
    duplicateMessage func ∈ (collectSignatures (pre ++ func :: post) a).errors := by
  have hp : (mapFind func.name (collectSignatures pre a).functions).isSome = true := by
    rcases h with h | ⟨g, hg, hn⟩
    · rcases hf : mapFind func.name a.functions with _ | info
      · rw [hf] at h; cases h
      · rw [collectSignatures_kept func.name info pre a hf]
        rfl
    · rw [← hn]
      exact collectSignatures_taken g pre a hg
  rcases hf : mapFind func.name (collectSignatures pre a).functions with _ | info
  · rw [hf] at hp; cases hp
  · rw [collectSignatures_append]
    unfold collectSignatures
    refine (collectSignatures_errors post _).subset ?_
    rw [collectSignature_present func _ info hf]
    simp [duplicateMessage]

/-- The entry of a name after the first pass is the signature of the first
function of that name, when the name was free before. -/
theorem collectSignatures_first (pre post : List FunctionDecl) (func : FunctionDecl)
    (a : SemanticAnalyzer) (h : mapFind func.name a.functions = none)
    (hn : ∀ g ∈ pre, g.name ≠ func.name) :
    mapFind func.name (collectSignatures (pre ++ func :: post) a).functions =
      some (signatureOf func) := by
  rw [collectSignatures_append]
  unfold collectSignatures
  refine collectSignatures_kept func.name _ post _ ?_
  rw [collectSignature_absent func _ (collectSignatures_free func.name pre a h hn)]
  dsimp only
  exact mapFind_mapInsert_same _ _ _

/-- C24: the first pass of `visit(Program&)` records the error
`Function '...' already declared`, at the position of the function, for every
function of the program whose name is in the table when the pass starts (the
built-ins are all there, under the keys they are registered with) or is the
name of an earlier function of the program; no turn of the pass replaces an
entry of the table, so the entry of such a name stays the built-in or the
signature of the first function of that name, with its parameter types, return
type and purity bit.  The source `fn print(x: i32) -> void:`, `    return` is
rejected with this error. -/
theorem C24_duplicate_function :
    (∀ (pre post : List FunctionDecl) (func : FunctionDecl) (a : SemanticAnalyzer),
      ((mapFind func.name a.functions).isSome = true ∨ ∃ g ∈ pre, g.name = func.name) →
      duplicateMessage func ∈ (collectSignatures (pre ++ func :: post) a).errors) ∧
    (∀ (name : String) (info : FunctionInfo) (funcs : List FunctionDecl)
      (a : SemanticAnalyzer), mapFind name a.functions = some info →
      mapFind name (collectSignatures funcs a).functions = some info) ∧
    (∀ (pre post : List FunctionDecl) (func : FunctionDecl) (a : SemanticAnalyzer),
      mapFind func.name a.functions = none → (∀ g ∈ pre, g.name ≠ func.name) →
      mapFind func.name (collectSignatures (pre ++ func :: post) a).functions =
        some (signatureOf func)) ∧
    (∀ entry ∈ builtins, mapFind entry.1 withBuiltins.functions = some entry.2) ∧
    compilesTo 100 "fn print(x: i32) -> void:\n    return\n"
      { parseErrors := [], success := false,
        errors := ["Error at line 1, column 4: Function 'print' already declared"],
        structuredErrors := [ErrorInfo.mk3 "Function 'print' already declared" 1 4],
        warnings := [], structuredWarnings := [] } :=
  ⟨collectSignatures_reports, collectSignatures_kept, collectSignatures_first, by decide!,
    by decide!⟩

end Hash

namespace Hash

theorem typesMatch_ne (t : Option TypeKind) (k : TypeKind) (h : t ≠ some k) :
    typesMatch t (some k) = false := by
  cases t with
  | none => rfl
  | some k1 =>
    have : k1 ≠ k := fun he => h (by rw [he])
    simp [typesMatch, this]

theorem typesMatch_self (k : TypeKind) : typesMatch (some k) (some k) = true := by
  simp [typesMatch]

/-- The loop over the arguments records the argument-type error of every
argument whose type after its visit differs from the parameter type. -/
theorem visitArguments_records (functionName : String) (paramTypes : List TypeKind) :
    ∀ (i : Nat) (arguments : List Expression) (a : SemanticAnalyzer) (n : Nat)
      (arg1 : Expression) (k : TypeKind),
      (visitArguments functionName paramTypes i arguments a).1.get? n = some arg1 →
      arg1.type = some k → paramTypes.get? (i + n) ≠ some k →
      argumentTypeError functionName (i + n) (typeToString (paramTypes.get? (i + n)))
          (typeToString (some k)) arg1.info ∈
        (visitArguments functionName paramTypes i arguments a).2.structuredErrors
  | i, [], a, n, arg1, k, h, _, _ => by
    simp [visitArguments] at h
  | i, arg :: rest, a, n, arg1, k, h, ht, hk => by
    unfold visitArguments at h ⊢
    rcases ha : visitExpression arg a with ⟨arg0, a1⟩
    rw [ha] at h
    dsimp only at h ⊢
    have h2 := visitArguments_extends functionName paramTypes (i + 1) rest
      (if arg0.type.isSome && !typesMatch (paramTypes.get? i) arg0.type then
        a1.pushError (argumentTypeError functionName i (typeToString (paramTypes.get? i))
          (typeToString arg0.type) arg0.info)
      else a1)
    have h3 := visitArguments_records functionName paramTypes (i + 1) rest
      (if arg0.type.isSome && !typesMatch (paramTypes.get? i) arg0.type then
        a1.pushError (argumentTypeError functionName i (typeToString (paramTypes.get? i))
          (typeToString arg0.type) arg0.info)
      else a1)
    rcases hr : visitArguments functionName paramTypes (i + 1) rest
      (if arg0.type.isSome && !typesMatch (paramTypes.get? i) arg0.type then
        a1.pushError (argumentTypeError functionName i (typeToString (paramTypes.get? i))
          (typeToString arg0.type) arg0.info)
      else a1) with ⟨rest1, a3⟩
    rw [hr] at h h2 h3
    dsimp only at h h2 h3 ⊢
    cases n with
    | zero =>
      simp only [List.get?_cons_zero, Option.some.injEq] at h
      subst h
      rw [Nat.add_zero] at hk ⊢
      refine h2.subset ?_
      rw [ht, typesMatch_ne _ _ hk]
      simp
    | succ m =>
      simp only [List.get?_cons_succ] at h
      have := h3 m arg1 k h ht (by rw [Nat.add_right_comm, ← Nat.add_assoc] at *; exact hk)
      rw [Nat.add_assoc, Nat.add_comm 1 m] at this
      exact this

/-- When no argument differs in type from its parameter the loop over the
arguments is the plain visit of the arguments. -/
theorem visitArguments_quiet (functionName : String) (paramTypes : List TypeKind) :
    ∀ (i : Nat) (arguments : List Expression) (a : SemanticAnalyzer),
      (∀ (n : Nat) (arg1 : Expression) (k : TypeKind),
        (visitArguments functionName paramTypes i arguments a).1.get? n = some arg1 →
        arg1.type = some k → paramTypes.get? (i + n) = some k) →
      visitArguments functionName paramTypes i arguments a = visitEach arguments a
  | i, [], a, _ => by simp [visitArguments, visitEach]
  | i, arg :: rest, a, h => by
    unfold visitArguments at h ⊢
    unfold visitEach
    rcases ha : visitExpression arg a with ⟨arg0, a1⟩
    rw [ha] at h
    dsimp only at h ⊢
    have hc : (arg0.type.isSome && !typesMatch (paramTypes.get? i) arg0.type) = false := by
      cases ht : arg0.type with
      | none => rfl
      | some k =>
        have h0 := h 0 arg0 k (by simp) ht
        rw [Nat.add_zero] at h0
        rw [h0, typesMatch_self]
        rfl
    rw [hc] at h ⊢
    simp only [Bool.false_eq_true, if_false] at h ⊢
    have ih := visitArguments_quiet functionName paramTypes (i + 1) rest a1
    rcases hr : visitArguments functionName paramTypes (i + 1) rest a1 with ⟨rest1, a3⟩
    rw [hr] at h ih
    dsimp only at h ih ⊢
    rw [← ih]
    intro n arg1 k hn ht
    have := h (n + 1) arg1 k (by simpa using hn) ht
    rw [Nat.add_assoc, Nat.add_comm 1 n]
    exact this

end Hash

namespace Hash

theorem visitCall_type (a : SemanticAnalyzer) (i : ExprInfo) (functionName : String)
    (arguments : List Expression) (funcInfo : FunctionInfo)
    (hf : a.lookupFunction functionName = some funcInfo) :
    (visitExpression (.CallExpr i functionName arguments) a).1.type = funcInfo.returnType := by
  unfold visitExpression
  rw [hf]
  dsimp only
  split
  · rfl
  · rcases visitArguments functionName funcInfo.paramTypes 0 arguments a with ⟨arguments1, a1⟩
    rfl

theorem visitCall_count (a : SemanticAnalyzer) (i : ExprInfo) (functionName : String)
    (arguments : List Expression) (funcInfo : FunctionInfo)
    (hf : a.lookupFunction functionName = some funcInfo)
    (hc : arguments.length ≠ funcInfo.paramTypes.length) :
    (visitExpression (.CallExpr i functionName arguments) a).2 =
      a.pushError (argumentCountError functionName funcInfo.paramTypes.length
        arguments.length i) := by
  unfold visitExpression
  rw [hf]
  dsimp only
  rw [if_pos hc]

/-- The analyzer after the visit of a call with the right number of arguments. -/
theorem visitCall_state (a : SemanticAnalyzer) (i : ExprInfo) (functionName : String)
    (arguments : List Expression) (funcInfo : FunctionInfo)
    (hf : a.lookupFunction functionName = some funcInfo)
    (hc : arguments.length = funcInfo.paramTypes.length) :
    (visitExpression (.CallExpr i functionName arguments) a).2.structuredErrors =
      (visitArguments functionName funcInfo.paramTypes 0 arguments a).2.structuredErrors ++
        (if (a.inPure && funcInfo.hasSideEffects) = true then
          [pureCallError a.currentName functionName i] else []) := by
  have f1 := visitArguments_frame functionName funcInfo.paramTypes 0 arguments a
  unfold visitExpression
  rw [hf]
  dsimp only
  rw [if_neg (not_not.mpr hc)]
  rcases hv : visitArguments functionName funcInfo.paramTypes 0 arguments a with
    ⟨arguments1, a1⟩
  rw [hv] at f1
  dsimp only at f1 ⊢
  rw [f1.inPure]
  have hn : a1.currentName = a.currentName := by
    unfold SemanticAnalyzer.currentName
    rw [f1.current]
  rw [hn]
  cases a.inPure <;> cases funcInfo.hasSideEffects <;> simp

/-- C25 (amended): for a call whose callee is in the function table, the type of
the call node is the return type of the entry in every case.  When the number
of arguments differs from the number of parameter types, the visit records the
argument-count error and nothing else (the arguments are not visited).
Otherwise it records the argument-type error of every argument whose type after
its visit differs from the parameter type at its position; when no argument
differs, and the call is not one of a pure function to an entry with side
effects, the structured errors are those that the visits of the arguments alone
leave; and when the function under analysis is pure and the entry has side
effects, the error for a pure function calling it is recorded. -/
theorem C25_call_checks (a : SemanticAnalyzer) (i : ExprInfo) (functionName : String)
    (arguments : List Expression) (funcInfo : FunctionInfo)
    (hf : a.lookupFunction functionName = some funcInfo) :
    (visitExpression (.CallExpr i functionName arguments) a).1.type = funcInfo.returnType ∧
    (arguments.length ≠ funcInfo.paramTypes.length →
      (visitExpression (.CallExpr i functionName arguments) a).2 =
        a.pushError (argumentCountError functionName funcInfo.paramTypes.length
          arguments.length i)) ∧
    (arguments.length = funcInfo.paramTypes.length →
      (∀ (n : Nat) (arg1 : Expression) (k : TypeKind),
        (visitArguments functionName funcInfo.paramTypes 0 arguments a).1.get? n = some arg1 →
        arg1.type = some k → funcInfo.paramTypes.get? n ≠ some k →
        argumentTypeError functionName n (typeToString (funcInfo.paramTypes.get? n))
            (typeToString (some k)) arg1.info ∈
          (visitExpression (.CallExpr i functionName arguments) a).2.structuredErrors) ∧
      ((∀ (n : Nat) (arg1 : Expression) (k : TypeKind),
        (visitArguments functionName funcInfo.paramTypes 0 arguments a).1.get? n = some arg1 →
        arg1.type = some k → funcInfo.paramTypes.get? n = some k) →
        (a.inPure && funcInfo.hasSideEffects) = false →
        (visitExpression (.CallExpr i functionName arguments) a).2.structuredErrors =
          (visitEach arguments a).2.structuredErrors) ∧
      ((a.inPure && funcInfo.hasSideEffects) = true →
        pureCallError a.currentName functionName i ∈
          (visitExpression (.CallExpr i functionName arguments) a).2.structuredErrors)) := by
  refine ⟨visitCall_type a i functionName arguments funcInfo hf,
    visitCall_count a i functionName arguments funcInfo hf, fun hc => ⟨?_, ?_, ?_⟩⟩
  · intro n arg1 k hn ht hk
    rw [visitCall_state a i functionName arguments funcInfo hf hc]
    refine List.mem_append_left _ ?_
    have := visitArguments_records functionName funcInfo.paramTypes 0 arguments a n arg1 k hn
      ht (by rw [Nat.zero_add]; exact hk)
    rw [Nat.zero_add] at this
    exact this
  · intro hq hp
    rw [visitCall_state a i functionName arguments funcInfo hf hc, hp,
      visitArguments_quiet functionName funcInfo.paramTypes 0 arguments a
        (fun n arg1 k hn ht => by rw [Nat.zero_add]; exact hq n arg1 k hn ht)]
    simp
  · intro hp
    rw [visitCall_state a i functionName arguments funcInfo hf hc, hp]
    simp

/-- C25, witness: `sqrt` is in the table once the built-ins are registered; the
theorem at the call `sqrt(2)`. -/
theorem C25_call_checks_witness :
    withBuiltins.lookupFunction "sqrt" = some sqrtInfo ∧
    ((visitExpression (.CallExpr ExprInfo.fresh "sqrt" [.IntegerLiteral (literalInfo .I32) 2])
        withBuiltins).1.type = sqrtInfo.returnType ∧
    ([Expression.IntegerLiteral (literalInfo .I32) 2].length ≠ sqrtInfo.paramTypes.length →
      (visitExpression (.CallExpr ExprInfo.fresh "sqrt" [.IntegerLiteral (literalInfo .I32) 2])
        withBuiltins).2 =
        withBuiltins.pushError (argumentCountError "sqrt" sqrtInfo.paramTypes.length
          [Expression.IntegerLiteral (literalInfo .I32) 2].length ExprInfo.fresh)) ∧
    ([Expression.IntegerLiteral (literalInfo .I32) 2].length = sqrtInfo.paramTypes.length →
      (∀ (n : Nat) (arg1 : Expression) (k : TypeKind),
        (visitArguments "sqrt" sqrtInfo.paramTypes 0 [.IntegerLiteral (literalInfo .I32) 2]
          withBuiltins).1.get? n = some arg1 →
        arg1.type = some k → sqrtInfo.paramTypes.get? n ≠ some k →
        argumentTypeError "sqrt" n (typeToString (sqrtInfo.paramTypes.get? n))
            (typeToString (some k)) arg1.info ∈
          (visitExpression
            (.CallExpr ExprInfo.fresh "sqrt" [.IntegerLiteral (literalInfo .I32) 2])
            withBuiltins).2.structuredErrors) ∧
      ((∀ (n : Nat) (arg1 : Expression) (k : TypeKind),
        (visitArguments "sqrt" sqrtInfo.paramTypes 0 [.IntegerLiteral (literalInfo .I32) 2]
          withBuiltins).1.get? n = some arg1 →
        arg1.type = some k → sqrtInfo.paramTypes.get? n = some k) →
        (withBuiltins.inPure && sqrtInfo.hasSideEffects) = false →
        (visitExpression (.CallExpr ExprInfo.fresh "sqrt" [.IntegerLiteral (literalInfo .I32) 2])
          withBuiltins).2.structuredErrors =
          (visitEach [.IntegerLiteral (literalInfo .I32) 2] withBuiltins).2.structuredErrors) ∧
      ((withBuiltins.inPure && sqrtInfo.hasSideEffects) = true →
        pureCallError withBuiltins.currentName "sqrt" ExprInfo.fresh ∈
          (visitExpression
            (.CallExpr ExprInfo.fresh "sqrt" [.IntegerLiteral (literalInfo .I32) 2])
            withBuiltins).2.structuredErrors))) :=
  ⟨by decide!,
    C25_call_checks withBuiltins ExprInfo.fresh "sqrt" [.IntegerLiteral (literalInfo .I32) 2]
      sqrtInfo (by decide!)⟩

/-- C25, counterexample: in the source `fn g() -> i32:`, `    let mut x: i32 = 0`,
`    x = 1`, `    return x`, `pure fn f() -> i32:`, `    return g()` the call
`g()` passes no argument to a function without parameters, and its visit records
an error: `g` has side effects and `f` is pure. -/
theorem C25_error_without_argument_mismatch :
    compilesTo 100
      "fn g() -> i32:\n    let mut x: i32 = 0\n    x = 1\n    return x\npure fn f() -> i32:\n    return g()\n"
      { parseErrors := [], success := false,
        errors := ["Error at line 5, column 9: Pure function 'f' has side effects"],
        structuredErrors :=
          [pureCallError "f" "g" ExprInfo.fresh,
           ErrorInfo.mk3 "Pure function 'f' has side effects" 5 9],
        warnings := [], structuredWarnings := [] } := by
  decide!

end Hash

namespace Hash

/-- C26: on the source `fn main() -> i32:`, `    let y: f64 = sqrt(2)`,
`    return 0` the analysis records, as its only diagnostic, the argument-type
error for the call to `sqrt` with the message
`Argument 1 type mismatch in call to 'sqrt': expected f64, got i32`, and the
suggestion of the record proposes `2.0` instead of `2` or a conversion with
`float()`. -/
theorem C26_sqrt_of_integer :
    compilesTo 100 "fn main() -> i32:\n    let y: f64 = sqrt(2)\n    return 0\n"
      { parseErrors := [], success := true, errors := [],
        structuredErrors :=
          [{ message := "Argument 1 type mismatch in call to 'sqrt': expected f64, got i32",
             line := 0, column := 0, length := 1,
             suggestion :=
               "Use f64 literal (e.g., 2.0 instead of 2) or convert with float()." }],
        warnings := [], structuredWarnings := [] } := by
  decide!

/-- C27: for all kinds `k1` and `k2`, `getCommonType` on types of these kinds
returns `k1` when the kinds are equal, otherwise F64 when one of them is F64,
otherwise F32 when one of them is F32, otherwise I64; so `i8` with `i16`, `bool`
with `i32` and `str` with `u64` all give `i64`. -/
theorem C27_common_type (k1 k2 : TypeKind) :
    (k1 = k2 → getCommonType (some k1) (some k2) = some k1) ∧
    (k1 ≠ k2 → (k1 = .F64 ∨ k2 = .F64) → getCommonType (some k1) (some k2) = some .F64) ∧
    (k1 ≠ k2 → k1 ≠ .F64 → k2 ≠ .F64 → (k1 = .F32 ∨ k2 = .F32) →
      getCommonType (some k1) (some k2) = some .F32) ∧
    (k1 ≠ k2 → k1 ≠ .F64 → k2 ≠ .F64 → k1 ≠ .F32 → k2 ≠ .F32 →
      getCommonType (some k1) (some k2) = some .I64) ∧
    getCommonType (some .I8) (some .I16) = some .I64 ∧
    getCommonType (some .BOOL) (some .I32) = some .I64 ∧
    getCommonType (some .STR) (some .U64) = some .I64 := by
  refine ⟨?_, ?_, ?_, ?_, by decide, by decide, by decide⟩
  · intro h
    simp [getCommonType, typesMatch, h]
  · intro h hf
    simp [getCommonType, typesMatch, h, hf]
  · intro h h1 h2 hf
    simp [getCommonType, typesMatch, h, h1, h2, hf]
  · intro h h1 h2 h3 h4
    simp [getCommonType, typesMatch, h, h1, h2, h3, h4]

end Hash

namespace Hash

theorem visitBinary_typed (a : SemanticAnalyzer) (i : ExprInfo) (op : BinOp)
    (left right : Expression) (lt rt : TypeKind)
    (hl : (visitExpression left a).1.type = some lt)
    (hr : (visitExpression right (visitExpression left a).2).1.type = some rt) :
    visitExpression (.BinaryOp i op left right) a =
      (.BinaryOp (binaryResult op i (some lt) (some rt)
          (visitExpression right (visitExpression left a).2).2).1 op
          (visitExpression left a).1 (visitExpression right (visitExpression left a).2).1,
        (binaryResult op i (some lt) (some rt)
          (visitExpression right (visitExpression left a).2).2).2) := by
  conv_lhs => unfold visitExpression
  rcases h1 : visitExpression left a with ⟨left1, a1⟩
  rw [h1] at hl hr
  dsimp only at hl hr ⊢
  rcases h2 : visitExpression right a1 with ⟨right1, a2⟩
  rw [h2] at hr
  dsimp only at hr ⊢
  rw [hl, hr]
  rfl

theorem visitUnary_typed (a : SemanticAnalyzer) (i : ExprInfo) (op : UnOp)
    (operand : Expression) (t : TypeKind) (ho : (visitExpression operand a).1.type = some t) :
    visitExpression (.UnaryOp i op operand) a =
      (.UnaryOp (unaryResult op i (some t) (visitExpression operand a).2).1 op
          (visitExpression operand a).1,
        (unaryResult op i (some t) (visitExpression operand a).2).2) := by
  conv_lhs => unfold visitExpression
  rcases h1 : visitExpression operand a with ⟨operand1, a1⟩
  rw [h1] at ho
  dsimp only at ho ⊢
  rw [ho]
  rfl

/-- C28: when the visits of the operands of a binary node leave them with the
types `lt` and `rt`, the node gets the common type of `lt` and `rt` for an
arithmetic, bitwise or shift operator and `bool` for a comparison or equality
operator, and nothing is recorded for the node; for `&&` and `||` the node gets
`bool` and the error for non-boolean operands is recorded exactly when `lt` or
`rt` is not `bool`.  When the visit of the operand of a unary node leaves it
with the type `t`, the node gets `t` for `-` and `~` and nothing is recorded;
for `!` the node gets `bool` and the error is recorded exactly when `t` is not
`bool`.  Three instances on literals follow. -/
theorem C28_operator_typing :
    (∀ (a : SemanticAnalyzer) (i : ExprInfo) (op : BinOp) (left right : Expression)
      (lt rt : TypeKind), (visitExpression left a).1.type = some lt →
      (visitExpression right (visitExpression left a).2).1.type = some rt →
      (op ∈ [BinOp.ADD, .SUB, .MUL, .DIV, .MOD, .BIT_AND, .BIT_OR, .BIT_XOR, .SHL, .SHR] →
        (visitExpression (.BinaryOp i op left right) a).1.type =
          getCommonType (some lt) (some rt) ∧
        (visitExpression (.BinaryOp i op left right) a).2 =
          (visitExpression right (visitExpression left a).2).2) ∧
      (op ∈ [BinOp.EQ, .NE, .LT, .LE, .GT, .GE] →
        (visitExpression (.BinaryOp i op left right) a).1.type = some .BOOL ∧
        (visitExpression (.BinaryOp i op left right) a).2 =
          (visitExpression right (visitExpression left a).2).2) ∧
      (op ∈ [BinOp.AND, .OR] →
        (visitExpression (.BinaryOp i op left right) a).1.type = some .BOOL ∧
        (visitExpression (.BinaryOp i op left right) a).2 =
          if lt = .BOOL ∧ rt = .BOOL then (visitExpression right (visitExpression left a).2).2
          else (visitExpression right (visitExpression left a).2).2.pushError
            (logicalOperandError i))) ∧
    (∀ (a : SemanticAnalyzer) (i : ExprInfo) (op : UnOp) (operand : Expression) (t : TypeKind),
      (visitExpression operand a).1.type = some t →
      (op ∈ [UnOp.NEG, .BIT_NOT] →
        (visitExpression (.UnaryOp i op operand) a).1.type = some t ∧
        (visitExpression (.UnaryOp i op operand) a).2 = (visitExpression operand a).2) ∧
      (op = .NOT →
        (visitExpression (.UnaryOp i op operand) a).1.type = some .BOOL ∧
        (visitExpression (.UnaryOp i op operand) a).2 =
          if t = .BOOL then (visitExpression operand a).2
          else (visitExpression operand a).2.pushError (logicalNotError i))) ∧
    (visitExpression (.BinaryOp ExprInfo.fresh .ADD (.IntegerLiteral (literalInfo .I32) 1)
      (.FloatLiteral (literalInfo .F64) "2.0")) withBuiltins).1.type = some .F64 ∧
    (visitExpression (.BinaryOp ExprInfo.fresh .AND (.IntegerLiteral (literalInfo .I32) 1)
      (.BoolLiteral (literalInfo .BOOL) true)) withBuiltins).2.structuredErrors =
      [logicalOperandError ExprInfo.fresh] ∧
    (visitExpression (.UnaryOp ExprInfo.fresh .NOT (.IntegerLiteral (literalInfo .I32) 1))
      withBuiltins).2.structuredErrors = [logicalNotError ExprInfo.fresh] := by
  refine ⟨?_, ?_, by decide!, by decide!, by decide!⟩
  · intro a i op left right lt rt hl hr
    rw [visitBinary_typed a i op left right lt rt hl hr]
    refine ⟨?_, ?_, ?_⟩
    · intro h
      simp only [List.mem_cons, List.mem_singleton, List.not_mem_nil, or_false] at h
      rcases h with h | h | h | h | h | h | h | h | h | h <;> subst h <;> exact ⟨rfl, rfl⟩
    · intro h
      simp only [List.mem_cons, List.mem_singleton, List.not_mem_nil, or_false] at h
      rcases h with h | h | h | h | h | h <;> subst h <;> exact ⟨rfl, rfl⟩
    · intro h
      simp only [List.mem_cons, List.mem_singleton, List.not_mem_nil, or_false] at h
      rcases h with h | h <;> subst h <;> refine ⟨rfl, ?_⟩ <;>
        (simp only [binaryResult]
         by_cases h1 : lt = .BOOL <;> by_cases h2 : rt = .BOOL <;> simp [h1, h2])
  · intro a i op operand t ho
    rw [visitUnary_typed a i op operand t ho]
    refine ⟨?_, ?_⟩
    · intro h
      simp only [List.mem_cons, List.mem_singleton, List.not_mem_nil, or_false] at h
      rcases h with h | h <;> subst h <;> exact ⟨rfl, rfl⟩
    · intro h
      subst h
      refine ⟨rfl, ?_⟩
      simp only [unaryResult]
      by_cases h1 : t = .BOOL <;> simp [h1]

end Hash

namespace Hash

theorem visitIf_warns (a : SemanticAnalyzer) (line column : Int) (condition : Expression)
    (thenBody elseBody : List Statement) (k : TypeKind)
    (ht : (visitExpression condition a).1.type = some k) (hk : k ≠ .BOOL) :
    (visitStatement (.IfStmt line column condition thenBody elseBody) a).2 =
      (visitStatements elseBody (visitStatements thenBody
        ((visitExpression condition a).2.warning "If condition should be of type bool"
          (-1) (-1))).2).2 := by
  conv_lhs => unfold visitStatement
  rcases h1 : visitExpression condition a with ⟨condition1, a1⟩
  rw [h1] at ht
  dsimp only at ht ⊢
  rw [ht]
  simp only [Option.isSome_some, Bool.true_and, ne_eq, Option.some.injEq, hk, not_false_eq_true,
    decide_True, if_true]

theorem visitWhile_warns (a : SemanticAnalyzer) (line column : Int) (condition : Expression)
    (body : List Statement) (k : TypeKind)
    (ht : (visitExpression condition a).1.type = some k) (hk : k ≠ .BOOL) :
    (visitStatement (.WhileStmt line column condition body) a).2 =
      (visitStatements body
        ((visitExpression condition a).2.warning "While condition should be of type bool"
          (-1) (-1))).2 := by
  conv_lhs => unfold visitStatement
  rcases h1 : visitExpression condition a with ⟨condition1, a1⟩
  rw [h1] at ht
  dsimp only at ht ⊢
  rw [ht]
  simp only [Option.isSome_some, Bool.true_and, ne_eq, Option.some.injEq, hk, not_false_eq_true,
    decide_True, if_true]

/-- The state in which the body of an `if` or `while` with a condition that is
not `bool` is visited: one warning more in each warning list than before the
statement, and the legacy errors of before. -/
theorem conditionWarning_adds (a : SemanticAnalyzer) (condition : Expression)
    (message : String) :
    ((visitExpression condition a).2.warning message (-1) (-1)).warnings =
      a.warnings ++ ["Warning: " ++ message] ∧
    ((visitExpression condition a).2.warning message (-1) (-1)).structuredWarnings =
      a.structuredWarnings ++ [ErrorInfo.mk3 message (-1) (-1)] ∧
    ((visitExpression condition a).2.warning message (-1) (-1)).errors = a.errors ∧
    ((visitExpression condition a).2.warning message (-1) (-1)).structuredErrors =
      (visitExpression condition a).2.structuredErrors := by
  obtain ⟨_, _, _, f4, f5, f6, _⟩ := visitExpression_frame condition a
  refine ⟨?_, ?_, ?_, rfl⟩
  · show (visitExpression condition a).2.warnings ++ _ = _
    rw [f5]
    rfl
  · show (visitExpression condition a).2.structuredWarnings ++ _ = _
    rw [f6]
  · exact f4

theorem analyze_result (program : Program) :
    (analyze program).1 = (analyze program).2.2.errors.isEmpty := by
  unfold analyze SemanticAnalyzer.analyze
  rcases visitProgram program { SemanticAnalyzer.new with errors := [], warnings := [] } with
    ⟨program1, a1⟩
  rfl

/-- C30: the visit of an `if` or `while` whose condition gets a type other than
`bool` goes on into the bodies from the analyzer after the visit of the
condition with one warning added by `warning`; that analyzer has one string more
in `warnings` and one record more in `structuredWarnings` than before the
statement, the same legacy errors, and the structured errors the visit of the
condition left.  `analyze` returns whether the legacy error list is empty,
whatever the warnings: a program analyzed with no error gives true.  The source
`fn main() -> i32:`, `    if 1:`, `        return 1`, `    while 2:`,
`        return 2`, `    return 0` gives the two warnings, no error and
true. -/
theorem C30_warnings_do_not_fail :
    (∀ (a : SemanticAnalyzer) (line column : Int) (condition : Expression)
      (thenBody elseBody : List Statement) (k : TypeKind),
      (visitExpression condition a).1.type = some k → k ≠ .BOOL →
      (visitStatement (.IfStmt line column condition thenBody elseBody) a).2 =
        (visitStatements elseBody (visitStatements thenBody
          ((visitExpression condition a).2.warning "If condition should be of type bool"
            (-1) (-1))).2).2) ∧
    (∀ (a : SemanticAnalyzer) (line column : Int) (condition : Expression)
      (body : List Statement) (k : TypeKind),
      (visitExpression condition a).1.type = some k → k ≠ .BOOL →
      (visitStatement (.WhileStmt line column condition body) a).2 =
        (visitStatements body
          ((visitExpression condition a).2.warning "While condition should be of type bool"
            (-1) (-1))).2) ∧
    (∀ (a : SemanticAnalyzer) (condition : Expression) (message : String),
      ((visitExpression condition a).2.warning message (-1) (-1)).warnings =
        a.warnings ++ ["Warning: " ++ message] ∧
      ((visitExpression condition a).2.warning message (-1) (-1)).structuredWarnings =
        a.structuredWarnings ++ [ErrorInfo.mk3 message (-1) (-1)] ∧
      ((visitExpression condition a).2.warning message (-1) (-1)).errors = a.errors ∧
      ((visitExpression condition a).2.warning message (-1) (-1)).structuredErrors =
        (visitExpression condition a).2.structuredErrors) ∧
    (∀ program : Program, (analyze program).1 = (analyze program).2.2.errors.isEmpty) ∧
    (∀ program : Program, (analyze program).2.2.errors = [] → (analyze program).1 = true) ∧
    compilesTo 100
      "fn main() -> i32:\n    if 1:\n        return 1\n    while 2:\n        return 2\n    return 0\n"
      { parseErrors := [], success := true, errors := [], structuredErrors := [],
        warnings := ["Warning: If condition should be of type bool",
                     "Warning: While condition should be of type bool"],
        structuredWarnings :=
          [ErrorInfo.mk3 "If condition should be of type bool" (-1) (-1),
           ErrorInfo.mk3 "While condition should be of type bool" (-1) (-1)] } :=
  ⟨visitIf_warns, visitWhile_warns, conditionWarning_adds, analyze_result,
    fun program h => by rw [analyze_result, h]; rfl, by decide!⟩

end Hash

namespace Hash

theorem declareParameters_currentFunction :
    ∀ (ps : List Parameter) (a : SemanticAnalyzer),
      (declareParameters ps a).currentFunction = a.currentFunction
  | [], a => rfl
  | p :: ps, a => by
    unfold declareParameters
    rw [declareParameters_currentFunction ps]
    simp

/-- On entry to the body of a function, `currentFunction` points to the entry
the table has under the name of the function. -/
theorem enterFunction_current (node : FunctionDecl) (b : SemanticAnalyzer)
    (info : FunctionInfo) (h : mapFind node.name b.functions = some info) :
    (enterFunction node b).current = some info := by
  unfold SemanticAnalyzer.current
  rw [(enterFunction_spec node b).2]
  unfold enterFunction
  rw [declareParameters_currentFunction]
  simp only [SemanticAnalyzer.pushScope, touchFunction, h]

theorem visitReturn_value (a : SemanticAnalyzer) (f : FunctionInfo) (R : TypeKind)
    (hc : a.current = some f) (hr : f.returnType = some R) (line column : Int)
    (e : Expression) (k : TypeKind) (ht : (visitExpression e a).1.type = some k) :
    (visitStatement (.ReturnStmt line column (some e)) a).2.errors =
      a.errors ++
        (if k = R then []
         else [legacyText "Error" ("Return type mismatch: expected " ++
           typeToString (some R) ++ ", got " ++ typeToString (some k)) line column]) := by
  have f4 := (visitExpression_frame e a).2.2.2.1
  unfold visitStatement
  rw [hc]
  dsimp only
  rcases h1 : visitExpression e a with ⟨value1, a1⟩
  rw [h1] at ht f4
  dsimp only at ht f4 ⊢
  rw [ht, hr]
  by_cases h : k = R
  · subst h
    simp [typesMatch, f4]
  · have h2 : ¬ R = k := fun he => h he.symm
    simp [typesMatch, h, h2, f4]

theorem visitReturn_bare (a : SemanticAnalyzer) (f : FunctionInfo) (R : TypeKind)
    (hc : a.current = some f) (hr : f.returnType = some R) (line column : Int) :
    (visitStatement (.ReturnStmt line column none) a).2.errors =
      a.errors ++
        (if R = .VOID then []
         else [legacyText "Error" ("Function expects return value of type " ++
           typeToString (some R)) line column]) := by
  unfold visitStatement
  rw [hc]
  dsimp only
  rw [hr]
  by_cases h : R = .VOID
  · subst h
    simp
  · simp [h]

/-- The visit of a list of statements leaves `currentFunction` pointing to the
same entry. -/
theorem visitStatements_current (sts : List Statement) (b : SemanticAnalyzer) :
    (visitStatements sts b).2.current = b.current := by
  obtain ⟨h1, h2, _⟩ := visitStatements_keeps sts b
  unfold SemanticAnalyzer.current
  rw [h1, h2]

/-- C29 (amended): let `R` be the return type of the entry that `currentFunction`
points to.  The visit of `return e`, when the visit of `e` leaves it with a type
of kind `k`, appends the error `Return type mismatch: expected R, got k` to the
legacy errors exactly when `k` differs from `R`, and the visit of a bare
`return` appends the error `Function expects return value of type R` exactly
when `R` is not `void`; nothing else is appended.  On entry to the body of a
function that entry is the one the table has under the name of the function,
and the visit of statements leaves it in place. -/
theorem C29_return_checks (a : SemanticAnalyzer) (f : FunctionInfo) (R : TypeKind)
    (hc : a.current = some f) (hr : f.returnType = some R) :
    (∀ (line column : Int) (e : Expression) (k : TypeKind),
      (visitExpression e a).1.type = some k →
      (visitStatement (.ReturnStmt line column (some e)) a).2.errors =
        a.errors ++
          (if k = R then []
           else [legacyText "Error" ("Return type mismatch: expected " ++
             typeToString (some R) ++ ", got " ++ typeToString (some k)) line column])) ∧
    (∀ line column : Int,
      (visitStatement (.ReturnStmt line column none) a).2.errors =
        a.errors ++
          (if R = .VOID then []
           else [legacyText "Error" ("Function expects return value of type " ++
             typeToString (some R)) line column])) ∧
    (∀ (node : FunctionDecl) (b : SemanticAnalyzer) (info : FunctionInfo),
      mapFind node.name b.functions = some info → (enterFunction node b).current = some info) ∧
    (∀ (sts : List Statement) (b : SemanticAnalyzer),
      (visitStatements sts b).2.current = b.current) :=
  ⟨visitReturn_value a f R hc hr, visitReturn_bare a f R hc hr, enterFunction_current,
    visitStatements_current⟩

/-- C29, witness: on entry to the body of `pure fn f() -> i32:` after the first
pass over that function alone, `currentFunction` points to the signature of `f`,
whose return type is `i32`. -/
theorem C29_return_checks_witness :
    (enterFunction pureLeaf (collectSignatures [pureLeaf] withBuiltins)).current =
      some (signatureOf pureLeaf) ∧
    (signatureOf pureLeaf).returnType = some .I32 ∧
    ((∀ (line column : Int) (e : Expression) (k : TypeKind),
      (visitExpression e
        (enterFunction pureLeaf (collectSignatures [pureLeaf] withBuiltins))).1.type = some k →
      (visitStatement (.ReturnStmt line column (some e))
        (enterFunction pureLeaf (collectSignatures [pureLeaf] withBuiltins))).2.errors =
        (enterFunction pureLeaf (collectSignatures [pureLeaf] withBuiltins)).errors ++
          (if k = .I32 then []
           else [legacyText "Error" ("Return type mismatch: expected " ++
             typeToString (some .I32) ++ ", got " ++ typeToString (some k)) line column])) ∧
    (∀ line column : Int,
      (visitStatement (.ReturnStmt line column none)
        (enterFunction pureLeaf (collectSignatures [pureLeaf] withBuiltins))).2.errors =
        (enterFunction pureLeaf (collectSignatures [pureLeaf] withBuiltins)).errors ++
          (if TypeKind.I32 = .VOID then []
           else [legacyText "Error" ("Function expects return value of type " ++
             typeToString (some .I32)) line column])) ∧
    (∀ (node : FunctionDecl) (b : SemanticAnalyzer) (info : FunctionInfo),
      mapFind node.name b.functions = some info →
      (enterFunction node b).current = some info) ∧
    (∀ (sts : List Statement) (b : SemanticAnalyzer),
      (visitStatements sts b).2.current = b.current)) :=
  ⟨by decide!, by decide!,
    C29_return_checks (enterFunction pureLeaf (collectSignatures [pureLeaf] withBuiltins))
      (signatureOf pureLeaf) .I32 (by decide!) (by decide!)⟩

/-- C29, counterexample: in the source `fn f() -> i32:`, `    return 1`,
`fn f() -> bool:`, `    return 1` the second function is declared with the
return type `bool` and returns the `i32` literal `1`, and no return-type error
is recorded: the only error is that of the first pass for the name `f`, whose
entry stays that of the first function. -/
theorem C29_return_checked_against_table_entry :
    compilesTo 100 "fn f() -> i32:\n    return 1\nfn f() -> bool:\n    return 1\n"
      { parseErrors := [], success := false,
        errors := ["Error at line 3, column 4: Function 'f' already declared"],
        structuredErrors := [ErrorInfo.mk3 "Function 'f' already declared" 3 4],
        warnings := [], structuredWarnings := [] } := by
  decide!

end Hash

/-! ## Theorems about types, scopes and the order of functions -/

namespace Hash

theorem getCommonType_idem (k : TypeKind) : getCommonType (some k) (some k) = some k := by
  simp [getCommonType, typesMatch]

theorem getCommonType_comm (k1 k2 : TypeKind) :
    getCommonType (some k1) (some k2) = getCommonType (some k2) (some k1) := by
  by_cases h : k1 = k2
  · subst h; rfl
  · have h2 : ¬ k2 = k1 := fun he => h he.symm
    simp only [getCommonType, typesMatch, h, h2, decide_False, Bool.false_eq_true, if_false]
    by_cases a1 : k1 = .F64 <;> by_cases a2 : k2 = .F64 <;>
      by_cases b1 : k1 = .F32 <;> by_cases b2 : k2 = .F32 <;> simp [a1, a2, b1, b2]

/-- The kind of `getCommonType` on two kinds. -/
theorem getCommonType_some (k1 k2 : TypeKind) :
    ∃ k, getCommonType (some k1) (some k2) = some k ∧
      (k = k1 ∧ k1 = k2 ∨ k1 ≠ k2 ∧ k = .F64 ∧ (k1 = .F64 ∨ k2 = .F64) ∨
        k1 ≠ k2 ∧ k = .F32 ∧ k1 ≠ .F64 ∧ k2 ≠ .F64 ∧ (k1 = .F32 ∨ k2 = .F32) ∨
        k1 ≠ k2 ∧ k = .I64 ∧ k1 ≠ .F64 ∧ k2 ≠ .F64 ∧ k1 ≠ .F32 ∧ k2 ≠ .F32) := by
  by_cases h : k1 = k2
  · exact ⟨k1, by simp [getCommonType, typesMatch, h], Or.inl ⟨rfl, h⟩⟩
  · by_cases a : k1 = .F64 ∨ k2 = .F64
    · exact ⟨.F64, by simp [getCommonType, typesMatch, h, a], Or.inr (Or.inl ⟨h, rfl, a⟩)⟩
    · have a1 : k1 ≠ .F64 := fun he => a (Or.inl he)
      have a2 : k2 ≠ .F64 := fun he => a (Or.inr he)
      by_cases b : k1 = .F32 ∨ k2 = .F32
      · exact ⟨.F32, by simp [getCommonType, typesMatch, h, a, b],
          Or.inr (Or.inr (Or.inl ⟨h, rfl, a1, a2, b⟩))⟩
      · have b1 : k1 ≠ .F32 := fun he => b (Or.inl he)
        have b2 : k2 ≠ .F32 := fun he => b (Or.inr he)
        exact ⟨.I64, by simp [getCommonType, typesMatch, h, a, b],
          Or.inr (Or.inr (Or.inr ⟨h, rfl, a1, a2, b1, b2⟩))⟩

theorem getCommonType_assoc (k1 k2 k3 : TypeKind) :
    getCommonType (getCommonType (some k1) (some k2)) (some k3) =
      getCommonType (some k1) (getCommonType (some k2) (some k3)) := by
  cases k1 <;> cases k2 <;> cases k3 <;> rfl

end Hash

namespace Hash

theorem binaryResult_type (op : BinOp) (i : ExprInfo) (lt rt : Option TypeKind)
    (a b : SemanticAnalyzer) :
    (binaryResult op i lt rt a).1 = (binaryResult op i lt rt b).1 := by
  cases op <;> rfl

theorem unaryResult_type (op : UnOp) (i : ExprInfo) (t : Option TypeKind)
    (a b : SemanticAnalyzer) : (unaryResult op i t a).1 = (unaryResult op i t b).1 := by
  cases op <;> rfl

/-- The type of a binary node after its visit, from the types of its operands
after theirs. -/
theorem visitBinary_type (a : SemanticAnalyzer) (i : ExprInfo) (op : BinOp)
    (left right : Expression) :
    (visitExpression (.BinaryOp i op left right) a).1.type =
      if (visitExpression left a).1.type.isNone ||
          (visitExpression right (visitExpression left a).2).1.type.isNone then i.type
      else (binaryResult op i (visitExpression left a).1.type
        (visitExpression right (visitExpression left a).2).1.type a).1.type := by
  conv_lhs => unfold visitExpression
  rcases h1 : visitExpression left a with ⟨left1, a1⟩
  dsimp only
  rcases h2 : visitExpression right a1 with ⟨right1, a2⟩
  dsimp only
  split
  · rfl
  · rw [binaryResult_type op i left1.type right1.type a2 a]
    rfl

theorem visitUnary_type (a : SemanticAnalyzer) (i : ExprInfo) (op : UnOp)
    (operand : Expression) :
    (visitExpression (.UnaryOp i op operand) a).1.type =
      if (visitExpression operand a).1.type.isNone then i.type
      else (unaryResult op i (visitExpression operand a).1.type a).1.type := by
  conv_lhs => unfold visitExpression
  rcases h1 : visitExpression operand a with ⟨operand1, a1⟩
  dsimp only
  split
  · rfl
  · rw [unaryResult_type op i operand1.type a1 a]
    rfl

/-- The type a visit assigns to a node depends on the analyzer only through the
scopes and the function table. -/
theorem visitExpression_type_indep :
    ∀ (e : Expression) (a b : SemanticAnalyzer), a.scopes = b.scopes →
      a.functions = b.functions → (visitExpression e a).1.type = (visitExpression e b).1.type
  | .IntegerLiteral _ _, a, b, _, _ => by simp [visitExpression]
  | .FloatLiteral _ _, a, b, _, _ => by simp [visitExpression]
  | .StringLiteral _ _, a, b, _, _ => by simp [visitExpression]
  | .BoolLiteral _ _, a, b, _, _ => by simp [visitExpression]
  | .Identifier i name, a, b, hs, _ => by
    unfold visitExpression SemanticAnalyzer.lookupVariable
    rw [hs]
    split <;> rfl
  | .BinaryOp i op left right, a, b, hs, hf => by
    have fa := visitExpression_frame left a
    have fb := visitExpression_frame left b
    have h1 := visitExpression_type_indep left a b hs hf
    have h2 := visitExpression_type_indep right (visitExpression left a).2
      (visitExpression left b).2 (by rw [fa.1, fb.1, hs]) (by rw [fa.2.1, fb.2.1, hf])
    rw [visitBinary_type, visitBinary_type, h1, h2, binaryResult_type op i _ _ a b]
  | .UnaryOp i op operand, a, b, hs, hf => by
    have h1 := visitExpression_type_indep operand a b hs hf
    rw [visitUnary_type, visitUnary_type, h1, unaryResult_type op i _ a b]
  | .CallExpr i functionName arguments, a, b, _, hf => by
    unfold visitExpression SemanticAnalyzer.lookupFunction
    rw [hf]
    split
    · rfl
    · split
      · rfl
      · rcases visitArguments functionName _ 0 arguments a with ⟨x1, x2⟩
        rcases visitArguments functionName _ 0 arguments b with ⟨y1, y2⟩
        rfl

/-- The type of an operand is the same whether it is visited before or after
another expression. -/
theorem visitExpression_type_after (e other : Expression) (a : SemanticAnalyzer) :
    (visitExpression e (visitExpression other a).2).1.type = (visitExpression e a).1.type := by
  have f := visitExpression_frame other a
  exact visitExpression_type_indep e _ _ f.1 f.2.1

theorem binaryResult_swap (op : BinOp) (i : ExprInfo) (lt rt : TypeKind)
    (a : SemanticAnalyzer) :
    (binaryResult op i (some lt) (some rt) a).1.type =
      (binaryResult op i (some rt) (some lt) a).1.type := by
  cases op <;> first | rfl | exact getCommonType_comm lt rt

theorem visitBinary_swap (a : SemanticAnalyzer) (i : ExprInfo) (op : BinOp)
    (left right : Expression) :
    (visitExpression (.BinaryOp i op left right) a).1.type =
      (visitExpression (.BinaryOp i op right left) a).1.type := by
  rw [visitBinary_type, visitBinary_type, visitExpression_type_after,
    visitExpression_type_after]
  cases hl : (visitExpression left a).1.type with
  | none => cases hr : (visitExpression right a).1.type <;> rfl
  | some lt =>
    cases hr : (visitExpression right a).1.type with
    | none => rfl
    | some rt =>
      simp only [Option.isNone_some, Bool.or_self, Bool.false_eq_true, if_false]
      exact binaryResult_swap op i lt rt a

/-- The type of a node with an operator that takes the common type. -/
theorem visitBinary_common (a : SemanticAnalyzer) (i : ExprInfo) (op : BinOp)
    (left right : Expression) (lt rt : TypeKind)
    (hop : op ∈ [BinOp.ADD, .SUB, .MUL, .DIV, .MOD, .BIT_AND, .BIT_OR, .BIT_XOR, .SHL, .SHR])
    (hl : (visitExpression left a).1.type = some lt)
    (hr : (visitExpression right a).1.type = some rt) :
    (visitExpression (.BinaryOp i op left right) a).1.type =
      getCommonType (some lt) (some rt) := by
  rw [visitBinary_type, visitExpression_type_after, hl, hr]
  simp only [List.mem_cons, List.mem_singleton, List.not_mem_nil, or_false] at hop
  rcases hop with h | h | h | h | h | h | h | h | h | h <;> subst h <;> rfl

theorem visitBinary_regroup (a : SemanticAnalyzer) (i j : ExprInfo) (op1 op2 : BinOp)
    (x y z : Expression) (tx ty tz : TypeKind)
    (h1 : op1 ∈ [BinOp.ADD, .SUB, .MUL, .DIV, .MOD, .BIT_AND, .BIT_OR, .BIT_XOR, .SHL, .SHR])
    (h2 : op2 ∈ [BinOp.ADD, .SUB, .MUL, .DIV, .MOD, .BIT_AND, .BIT_OR, .BIT_XOR, .SHL, .SHR])
    (hx : (visitExpression x a).1.type = some tx)
    (hy : (visitExpression y a).1.type = some ty)
    (hz : (visitExpression z a).1.type = some tz) :
    (visitExpression (.BinaryOp i op2 (.BinaryOp j op1 x y) z) a).1.type =
      (visitExpression (.BinaryOp i op1 x (.BinaryOp j op2 y z)) a).1.type := by
  obtain ⟨kxy, hxy, _⟩ := getCommonType_some tx ty
  obtain ⟨kyz, hyz, _⟩ := getCommonType_some ty tz
  have e1 := visitBinary_common a j op1 x y tx ty h1 hx hy
  have e2 := visitBinary_common a j op2 y z ty tz h2 hy hz
  rw [hxy] at e1
  rw [hyz] at e2
  rw [visitBinary_common a i op2 _ z kxy tz h2 e1 hz,
    visitBinary_common a i op1 x _ tx kyz h1 hx e2, ← hxy, ← hyz]
  exact getCommonType_assoc tx ty tz

/-- C40: on kinds, `getCommonType` is idempotent, commutative and associative;
every kind other than the two float kinds joins with I64 to I64, I64 joins with
F32 to F32 and F32 with F64 to F64.  So the type the analyzer assigns to a
binary node is the type it assigns to the node with the operands exchanged, for
every operator, and with operators that take the common type and typed operands
`x`, `y`, `z` the node `(x op1 y) op2 z` gets the type of the node
`x op1 (y op2 z)`. -/
theorem C40_common_type_algebra :
    (∀ k : TypeKind, getCommonType (some k) (some k) = some k) ∧
    (∀ k1 k2 : TypeKind,
      getCommonType (some k1) (some k2) = getCommonType (some k2) (some k1)) ∧
    (∀ k1 k2 k3 : TypeKind,
      getCommonType (getCommonType (some k1) (some k2)) (some k3) =
        getCommonType (some k1) (getCommonType (some k2) (some k3))) ∧
    (∀ k : TypeKind, k ≠ .F32 → k ≠ .F64 →
      getCommonType (some k) (some .I64) = some .I64) ∧
    getCommonType (some .I64) (some .F32) = some .F32 ∧
    getCommonType (some .F32) (some .F64) = some .F64 ∧
    (∀ (a : SemanticAnalyzer) (i : ExprInfo) (op : BinOp) (left right : Expression),
      (visitExpression (.BinaryOp i op left right) a).1.type =
        (visitExpression (.BinaryOp i op right left) a).1.type) ∧
    (∀ (a : SemanticAnalyzer) (i j : ExprInfo) (op1 op2 : BinOp) (x y z : Expression)
      (tx ty tz : TypeKind),
      op1 ∈ [BinOp.ADD, .SUB, .MUL, .DIV, .MOD, .BIT_AND, .BIT_OR, .BIT_XOR, .SHL, .SHR] →
      op2 ∈ [BinOp.ADD, .SUB, .MUL, .DIV, .MOD, .BIT_AND, .BIT_OR, .BIT_XOR, .SHL, .SHR] →
      (visitExpression x a).1.type = some tx → (visitExpression y a).1.type = some ty →
      (visitExpression z a).1.type = some tz →
      (visitExpression (.BinaryOp i op2 (.BinaryOp j op1 x y) z) a).1.type =
        (visitExpression (.BinaryOp i op1 x (.BinaryOp j op2 y z)) a).1.type) := by
  refine ⟨getCommonType_idem, getCommonType_comm, getCommonType_assoc, ?_, by decide,
    by decide, visitBinary_swap, visitBinary_regroup⟩
  intro k h1 h2
  cases k <;> first | rfl | exact absurd rfl h1 | exact absurd rfl h2

end Hash

/-! ## Theorems about the front end on further sources -/

namespace Hash

/-- C31, at a failing input: the source `fn main() -> i32:`, `    let x: i32 = 1`,
`    foo(x)`, `    return 0` parses without error and `analyze` returns true on
it, and in the program as the analysis leaves it the argument `x` of the call to
the unknown function `foo` has a null type: the statement is the call node of
type `void` with the untouched identifier node as its argument.  The same
happens to the arguments of a call with a wrong number of arguments
(`print_i32(x, x)`), and, with `analyze` returning false, to the initializer of
a redeclared variable and to the value assigned to an unknown variable: in each
case `visit` returns before it visits the expression. -/
theorem C31_unvisited_nodes_stay_untyped (junkIsNewline : Bool) :
    (analyzeText 100 junkIsNewline
      "fn main() -> i32:\n    let x: i32 = 1\n    foo(x)\n    return 0\n").map
      (fun r => (r.1, r.2.typed, (r.2.functions.head?).bind (fun f => f.body.get? 1))) =
      some (true, false,
        some (.ExprStmt 0 0 (.CallExpr (ExprInfo.fresh.withType (some .VOID)) "foo"
          [.Identifier ExprInfo.fresh "x"]))) ∧
    (analyzeText 100 junkIsNewline
      "fn main() -> i32:\n    let x: i32 = 1\n    print_i32(x, x)\n    return 0\n").map
      (fun r => (r.1, r.2.typed)) = some (true, false) ∧
    (analyzeText 100 junkIsNewline
      "fn main() -> i32:\n    let x: i32 = 1\n    let x: i32 = x\n    return 0\n").map
      (fun r => (r.1, r.2.typed)) = some (false, false) ∧
    (analyzeText 100 junkIsNewline
      "fn main() -> i32:\n    let x: i32 = 1\n    y = x\n    return 0\n").map
      (fun r => (r.1, r.2.typed)) = some (false, false) := by
  cases junkIsNewline <;> decide!

/-- C34, at a failing input: on the tokens of the source `fn main() -> i32:`,
`    return 0`, whose first token is `fn`, `parse` returns after a read of the
token vector out of bounds, whatever that read yields: after `match(FN)` at
`current = 1` the test `tokens[current - 1].type == PURE` fails and
`tokens[current - 2]` is evaluated.  On the one-token source `x`, whose first
token starts no declaration, `synchronize` reads `tokens[current - 1]` at
`current = 0`; `parse` returns when that read does not compare equal to
`NEWLINE`.  Sources that start with `pure fn` or `let` are parsed without such a
read. -/
theorem C34_look_behind_out_of_bounds :
    (∀ junkIsNewline : Bool,
      readsOutOfBounds 100 junkIsNewline "fn main() -> i32:\n    return 0\n" = some true) ∧
    readsOutOfBounds 100 false "x" = some true ∧
    (∀ junkIsNewline : Bool,
      readsOutOfBounds 100 junkIsNewline "pure fn main() -> i32:\n    return 0\n" =
        some false) ∧
    (∀ junkIsNewline : Bool,
      readsOutOfBounds 100 junkIsNewline
        "let x: i32 = 1\nfn main() -> i32:\n    return 0\n" = some false) := by
  refine ⟨?_, by decide!, ?_, ?_⟩ <;> intro junk <;> cases junk <;> decide!

end Hash

/-! ## Theorems about line breaks -/

namespace Hash

theorem noNewline_append (xs ys : List Token) (hx : noNewline xs) (hy : noNewline ys) :
    noNewline (xs ++ ys) := by
  intro t ht
  rcases List.mem_append.mp ht with h | h
  · exact hx t h
  · exact hy t h

theorem noNewline_push (xs : List Token) (t : Token) (hx : noNewline xs)
    (ht : t.type ≠ .NEWLINE) : noNewline (xs ++ [t]) :=
  noNewline_append xs [t] hx (by intro u hu; rw [List.mem_singleton.mp hu]; exact ht)

theorem readNumber_noNewline (l : Lexer) : l.readNumber.1.type ≠ .NEWLINE := by
  unfold Lexer.readNumber
  dsimp only
  split <;> simp [Lexer.makeToken]

theorem readString_noNewline (l : Lexer) : l.readString.1.type ≠ .NEWLINE := by
  unfold Lexer.readString
  dsimp only
  rcases readStringLoop l.peek l.next.source l.next [] with ⟨str, l2⟩
  dsimp only
  split <;> simp [Lexer.makeToken]

theorem keywords_noNewline (id : String) :
    (mapFind id keywords).getD .IDENTIFIER ≠ .NEWLINE := by
  cases h : mapFind id keywords with
  | none => simp
  | some t =>
    obtain ⟨k, hk⟩ := mapFind_mem id keywords t h
    have hall : ∀ e ∈ keywords, e.2 ≠ .NEWLINE := by decide
    exact hall _ hk

theorem readIdentifier_noNewline (l : Lexer) : l.readIdentifier.1.type ≠ .NEWLINE := by
  unfold Lexer.readIdentifier
  dsimp only
  simpa [Lexer.makeToken] using keywords_noNewline _

theorem handleIndentation_noNewline (l : Lexer) (spaces : Nat) :
    noNewline (l.handleIndentation spaces).1 := by
  unfold Lexer.handleIndentation
  split
  · intro t ht; cases ht
  · dsimp only
    split
    · intro t ht
      rw [List.mem_singleton.mp ht]
      simp [Lexer.makeToken]
    · split
      · intro t ht
        rcases List.mem_append.mp ht with h1 | h1
        · rw [List.eq_of_mem_replicate h1]; simp [Lexer.makeToken]
        · split at h1
          · rw [List.mem_singleton.mp h1]; simp [Lexer.makeToken]
          · cases h1
      · intro t ht; cases ht

theorem single_noNewline (s : LexLoop) (l : Lexer) (type : TokenType) (h : noNewline s.tokens)
    (ht : type ≠ .NEWLINE) : noNewline (single s l type).state.tokens := by
  unfold single LexIter.state
  exact noNewline_push _ _ h (by simpa [Lexer.makeToken] using ht)

theorem state_ite (c : Prop) [Decidable c] (a b : LexIter)
    (ha : noNewline a.state.tokens) (hb : noNewline b.state.tokens) :
    noNewline (if c then a else b).state.tokens := by
  split
  · exact ha
  · exact hb

theorem again_keep (l : Lexer) (b : Bool) (tokens : List Token) (h : noNewline tokens) :
    noNewline (LexIter.again { lexer := l, atLineStart := b, tokens := tokens }).state.tokens :=
  h

theorem stop_keep (l : Lexer) (b : Bool) (tokens : List Token) (h : noNewline tokens) :
    noNewline (LexIter.stop { lexer := l, atLineStart := b, tokens := tokens }).state.tokens :=
  h

theorem again_push (l : Lexer) (b : Bool) (tokens : List Token) (t : Token)
    (h : noNewline tokens) (ht : t.type ≠ .NEWLINE) :
    noNewline
      (LexIter.again { lexer := l, atLineStart := b, tokens := tokens ++ [t] }).state.tokens :=
  noNewline_push _ _ h ht

theorem makeToken_noNewline (l : Lexer) (type : TokenType) (value : String)
    (h : type ≠ .NEWLINE) : (l.makeToken type value).type ≠ .NEWLINE := h

theorem lexToken_noNewline (s : LexLoop) (h : noNewline s.tokens) :
    noNewline (lexToken s).state.tokens := by
  unfold lexToken
  dsimp only
  repeat' (refine state_ite _ _ _ ?_ ?_)
  all_goals first
    | with_reducible exact again_keep _ _ _ h
    | with_reducible exact stop_keep _ _ _ h
    | with_reducible exact single_noNewline s _ _ h (by decide)
    | with_reducible exact again_push _ _ _ _ h (readNumber_noNewline _)
    | with_reducible exact again_push _ _ _ _ h (readString_noNewline _)
    | with_reducible exact again_push _ _ _ _ h (readIdentifier_noNewline _)
    | exact again_push _ _ _ _ h (makeToken_noNewline _ _ _ (by decide))

theorem lexIteration_noNewline (s : LexLoop) (h : noNewline s.tokens) :
    noNewline (lexIteration s).state.tokens := by
  unfold lexIteration
  refine state_ite _ _ _ ?_ (lexToken_noNewline s h)
  dsimp only
  refine state_ite _ _ _ (state_ite _ _ _ (again_keep _ _ _ h) (lexToken_noNewline _ h)) ?_
  exact lexToken_noNewline _ (noNewline_append _ _ h (handleIndentation_noNewline _ _))

theorem tokenizeLoop_noNewline :
    ∀ (fuel : Nat) (s s1 : LexLoop), noNewline s.tokens → tokenizeLoop fuel s = some s1 →
      noNewline s1.tokens := by
  intro fuel
  induction fuel with
  | zero => intro s s1 _ h; simp [tokenizeLoop] at h
  | succ fuel ih =>
    intro s s1 hs h
    unfold tokenizeLoop at h
    split at h
    · simp only [Option.some.injEq] at h
      rw [← h]; exact hs
    · have hi := lexIteration_noNewline s hs
      split at h
      · next s2 hr =>
        rw [hr] at hi
        exact ih s2 s1 hi h
      · next s2 hr =>
        rw [hr] at hi
        simp only [Option.some.injEq] at h
        rw [← h]; exact hi

/-- No token that `tokenize` returns is a `NEWLINE`. -/
theorem tokenize_noNewline (source : List Char) (tokens : List Token)
    (h : tokenize source = some tokens) : noNewline tokens := by
  unfold tokenize tokenizeFuel at h
  split at h
  · cases h
  · next s hs =>
    simp only [Option.some.injEq] at h
    rw [← h]
    refine noNewline_append _ _ (tokenizeLoop_noNewline _ _ s (by intro t ht; cases ht) hs) ?_
    intro t ht
    unfold closeTokens at ht
    rcases List.mem_append.mp ht with h1 | h1
    · rw [List.eq_of_mem_replicate h1]; simp [Lexer.makeToken]
    · rw [List.mem_singleton.mp h1]; simp [Lexer.makeToken]

end Hash

namespace Hash

theorem getLastD_mem (tokens : List Token) :
    tokens.getLastD noToken ∈ tokens ∨ tokens.getLastD noToken = noToken := by
  cases h : tokens.getLast? with
  | none =>
    right
    rw [List.getLast?_eq_none_iff] at h
    subst h
    rfl
  | some t =>
    left
    have hm := List.mem_of_getLast?_eq_some h
    have : tokens.getLastD noToken = t := by
      rw [List.getLastD_eq_getLast?, h]
      rfl
    rw [this]
    exact hm

theorem getD_mem (tokens : List Token) (i : Nat) :
    tokens.getD i noToken ∈ tokens ∨ tokens.getD i noToken = noToken := by
  by_cases h : i < tokens.length
  · left
    rw [List.getD_eq_getElem _ _ h]
    exact List.getElem_mem _
  · right
    exact List.getD_eq_default _ _ (by omega)

theorem Parser.peek_mem (p : Parser) (offset : Nat) :
    p.peek offset ∈ p.tokens ∨ p.peek offset = noToken := by
  unfold Parser.peek
  split
  · exact getLastD_mem _
  · exact getD_mem _ _

/-- The test `check(NEWLINE)` fails on tokens without a `NEWLINE`. -/
theorem check_newline (p : Parser) (h : noNewline p.tokens) : p.check .NEWLINE = false := by
  unfold Parser.check
  split
  · rfl
  · rcases Parser.peek_mem p 0 with hm | hm
    · simpa using h _ hm
    · rw [hm]; rfl

/-- On tokens without a `NEWLINE`, `parseReturnStatement` builds a `return`
without a value exactly when the next token is a `DEDENT`. -/
theorem parseReturn_bare (fuel : Nat) (line column : Int) (p : Parser)
    (h : noNewline p.tokens) :
    (p.check .DEDENT = true →
      parseReturnStatement fuel line column p = .ok (.ReturnStmt line column none) p) ∧
    (∀ q, parseReturnStatement fuel line column p = .ok (.ReturnStmt line column none) q →
      (p.peek 0).type = .DEDENT) := by
  have hn := check_newline p h
  constructor
  · intro hd
    simp [parseReturnStatement, bind, PM.bind, Hash.check, hn, hd, pure, PM.pure]
  · intro q hq
    by_cases hd : p.check .DEDENT = true
    · unfold Parser.check at hd
      split at hd
      · cases hd
      · simpa using hd
    · exfalso
      have hd2 : p.check .DEDENT = false := by simpa using hd
      have hr : parseReturnStatement fuel line column p =
          (parseExpression fuel >>= fun value =>
            (pure (.ReturnStmt line column (some value)) : PM Statement)) p := by
        simp [parseReturnStatement, bind, PM.bind, Hash.check, hn, hd2]
      rw [hr] at hq
      obtain ⟨value, p1, _, h2⟩ := bind_ok _ _ _ _ _ hq
      simp [pure, PM.pure] at h2

/-- C35: `tokenize` returns on every input, and no token it returns is a
`NEWLINE`.  On such tokens the test `check(NEWLINE) || check(DEDENT)` of
`parseReturnStatement` is the test for a `DEDENT`: a `return` without a value is
built when the next token is a `DEDENT` and only then.  A line break inside a
block leaves no token, so an expression goes on across it: `return 1 +` followed
by a line `2`, and `return` followed by a line `2`, both at the indentation of
the block, are parsed as `return 1 + 2` and as `return 2`. -/
theorem C35_no_newline_token :
    (∀ source : List Char, ∃ tokens, tokenize source = some tokens ∧ noNewline tokens) ∧
    (∀ (fuel : Nat) (line column : Int) (p : Parser), noNewline p.tokens →
      (p.check .DEDENT = true →
        parseReturnStatement fuel line column p = .ok (.ReturnStmt line column none) p) ∧
      (∀ q, parseReturnStatement fuel line column p = .ok (.ReturnStmt line column none) q →
        (p.peek 0).type = .DEDENT)) ∧
    (∀ junkIsNewline : Bool,
      parseText 100 junkIsNewline "fn f() -> i32:\n    return 1 +\n    2\n" =
        some ({ functions :=
                  [{ line := 1, column := 4, name := "f", parameters := [], returnType := .I32,
                     body := [.ReturnStmt 2 5 (some (binary .ADD
                       (.IntegerLiteral (literalInfo .I32) 1)
                       (.IntegerLiteral (literalInfo .I32) 2)))],
                     isPure := false }],
                globals := [] }, [])) ∧
    (∀ junkIsNewline : Bool,
      parseText 100 junkIsNewline "fn f() -> i32:\n    return\n    2\n" =
        some ({ functions :=
                  [{ line := 1, column := 4, name := "f", parameters := [], returnType := .I32,
                     body := [.ReturnStmt 2 5 (some (.IntegerLiteral (literalInfo .I32) 2))],
                     isPure := false }],
                globals := [] }, [])) := by
  refine ⟨fun source => ?_, parseReturn_bare, ?_, ?_⟩
  · obtain ⟨s, _, _, htok⟩ := tokenize_eq source
    exact ⟨_, htok, tokenize_noNewline source _ htok⟩
  · intro junk; cases junk <;> decide!
  · intro junk; cases junk <;> decide!

end Hash

/-! ## Theorems about the errors and the look-behind reads of the parser -/

namespace Hash

theorem obeys_pure (L : Law) {α : Type} (a : α) : PM.Obeys L (pure a : PM α) :=
  fun p => L.refl p

theorem spec_bind {α β : Type} {R1 R2 R : Parser → Parser → Prop}
    {T : Parser → String → Parser → Prop} {m : PM α} {f : α → PM β}
    (hR : ∀ p q r, R1 p q → R2 q r → R p r) (hT : ∀ p q what r, R1 p q → T q what r → T p what r)
    (hm : PM.Spec R1 T m) (hf : ∀ a, PM.Spec R2 T (f a)) : PM.Spec R T (m >>= f) := by
  intro p
  have h1 := hm p
  show match PM.bind m f p with
    | .ok _ q => R p q
    | .thrown what q => T p what q
    | .outOfFuel => True
  unfold PM.bind
  cases hmp : m p with
  | outOfFuel => trivial
  | thrown w q => rw [hmp] at h1; exact h1
  | ok a q =>
    rw [hmp] at h1
    have h2 := hf a q
    dsimp only at h1 ⊢
    cases hfq : f a q with
    | outOfFuel => trivial
    | thrown w r => rw [hfq] at h2; exact hT _ _ _ _ h1 h2
    | ok b r => rw [hfq] at h2; exact hR _ _ _ h1 h2

theorem obeys_bind (L : Law) {α β : Type} {m : PM α} {f : α → PM β} (hm : PM.Obeys L m)
    (hf : ∀ a, PM.Obeys L (f a)) : PM.Obeys L (m >>= f) :=
  spec_bind L.trans L.comp hm hf

theorem obeys_branch (L : Law) {α : Type} {c : Prop} [Decidable c] {a b : PM α}
    (ha : PM.Obeys L a) (hb : PM.Obeys L b) : PM.Obeys L (if c then a else b) := by
  split
  · exact ha
  · exact hb

theorem obeys_outOfFuel (L : Law) {α : Type} : PM.Obeys L (outOfFuel : PM α) := fun _ => trivial

theorem obeys_getCurrent (L : Law) : PM.Obeys L getCurrent := fun p => L.refl p

theorem obeys_junkIsNewline (L : Law) : PM.Obeys L junkIsNewline := fun p => L.refl p

theorem obeys_peek (L : Law) (offset : Nat) : PM.Obeys L (peek offset) := fun p => L.refl p

theorem obeys_isAtEnd (L : Law) : PM.Obeys L isAtEnd := fun p => L.refl p

theorem obeys_check (L : Law) (type : TokenType) : PM.Obeys L (check type) := fun p => L.refl p

/-- What `tokens[i]` does to the parser: it leaves a set flag set. -/
theorem tokenAt_flag (i : Int) (p : Parser) :
    ∃ (r : Option Token) (b : Bool), tokenAt i p = .ok r { p with outOfBounds := b } ∧
      (p.outOfBounds = true → b = true) := by
  unfold tokenAt
  by_cases h : 0 ≤ i ∧ i < p.tokens.length
  · exact ⟨_, p.outOfBounds, by rw [if_pos h], id⟩
  · exact ⟨_, true, by rw [if_neg h], fun _ => rfl⟩

theorem obeys_tokenAt (L : Law) (i : Int) : PM.Obeys L (tokenAt i) := by
  intro p
  obtain ⟨r, b, h, hb⟩ := tokenAt_flag i p
  rw [h]
  exact L.flag p b hb

theorem obeys_previous (L : Law) : PM.Obeys L previous := by
  unfold Hash.previous
  exact obeys_bind L (obeys_getCurrent L)
    (fun _ => obeys_bind L (obeys_tokenAt L _) (fun _ => obeys_pure L _))

theorem advance_eq (p : Parser) :
    ∃ (t : Token) (b : Bool),
      advance p = .ok t { (if p.isAtEnd = true then p else { p with current := p.current + 1 })
        with outOfBounds := b } ∧
      ((if p.isAtEnd = true then p else { p with current := p.current + 1 }).outOfBounds = true →
        b = true) := by
  obtain ⟨r, b, h, hb⟩ := tokenAt_flag
    (((if p.isAtEnd = true then p else { p with current := p.current + 1 }).current : Int) - 1)
    (if p.isAtEnd = true then p else { p with current := p.current + 1 })
  refine ⟨r.getD noToken, b, ?_, hb⟩
  unfold advance
  dsimp only
  rw [h]

theorem obeys_advance (L : Law) : PM.Obeys L advance := by
  intro p
  obtain ⟨t, b, h, hb⟩ := advance_eq p
  rw [h]
  refine L.trans _ _ _ ?_ (L.flag _ b hb)
  split
  · exact L.refl p
  · exact L.move p _

theorem obeys_matchToken (L : Law) (type : TokenType) : PM.Obeys L (matchToken type) := by
  unfold matchToken
  exact obeys_bind L (obeys_check L _) (fun _ => obeys_branch L
    (obeys_bind L (obeys_advance L) (fun _ => obeys_pure L _)) (obeys_pure L _))

/-- The statements `error(message); throw std::runtime_error(message);`. -/
theorem obeys_fail (L : Law) {α : Type} (message : String) :
    PM.Obeys L (error message >>= fun _ => (raise message : PM α)) := by
  intro p
  exact L.raised p message

theorem obeys_consume (L : Law) (type : TokenType) (message : String) :
    PM.Obeys L (consume type message) := by
  unfold consume
  exact obeys_bind L (obeys_check L _) (fun _ => obeys_branch L (obeys_advance L)
    (obeys_fail L message))

theorem obeys_orElse (L : Law) {a b : PM Bool} (ha : PM.Obeys L a) (hb : PM.Obeys L b) :
    PM.Obeys L (orElse a b) := by
  unfold orElse
  exact obeys_bind L ha (fun _ => obeys_branch L (obeys_pure L _) hb)

theorem obeys_parseType (L : Law) : PM.Obeys L parseType := by
  unfold parseType
  with_reducible repeat' first
    | exact obeys_pure L _
    | exact obeys_fail L _
    | exact obeys_matchToken L _
    | refine obeys_bind L ?_ (fun _ => ?_)
    | apply obeys_branch L

theorem obeys_matchOp (L : Law) : ∀ ops : List (TokenType × BinOp), PM.Obeys L (matchOp ops) := by
  intro ops
  induction ops with
  | nil => exact obeys_pure L _
  | cons x rest ih =>
    rcases x with ⟨ty, op⟩
    simp only [matchOp]
    exact obeys_bind L (obeys_matchToken L ty) (fun _ => obeys_branch L (obeys_pure L _) ih)

theorem obeys_binaryLoop (L : Law) (ops : List (TokenType × BinOp)) (operand : PM Expression)
    (ho : PM.Obeys L operand) :
    ∀ (fuel : Nat) (e : Expression), PM.Obeys L (binaryLoop ops operand fuel e) := by
  intro fuel
  induction fuel with
  | zero => intro e; exact obeys_outOfFuel L
  | succ fuel ih =>
    intro e
    simp only [binaryLoop]
    refine obeys_bind L (obeys_matchOp L ops) (fun r => ?_)
    cases r with
    | none => exact obeys_pure L _
    | some op => exact obeys_bind L ho (fun _ => ih _)

theorem obeys_skipNewlines (L : Law) : ∀ fuel : Nat, PM.Obeys L (skipNewlines fuel) := by
  intro fuel
  induction fuel with
  | zero => exact obeys_outOfFuel L
  | succ fuel ih =>
    simp only [skipNewlines]
    exact obeys_bind L (obeys_matchToken L _) (fun _ => obeys_branch L ih (obeys_pure L _))

theorem obeys_climb (L : Law) (n : Nat) (hu : ∀ g ≤ n, PM.Obeys L (parseUnary g)) :
    ∀ (tables : List (List (TokenType × BinOp))), ∀ fuel ≤ n, PM.Obeys L (climb tables fuel) := by
  intro tables
  induction tables with
  | nil =>
    intro fuel hf
    simp only [climb]
    exact hu fuel hf
  | cons ops rest ih =>
    intro fuel hf
    cases fuel with
    | zero => exact obeys_outOfFuel L
    | succ fuel =>
      simp only [climb]
      have h1 := ih fuel (by omega)
      exact obeys_bind L h1 (fun _ => obeys_binaryLoop L ops _ h1 _ _)

theorem obeys_prefixOp (L : Law) : PM.Obeys L prefixOp := by
  unfold prefixOp
  with_reducible repeat' first
    | exact obeys_pure L _
    | exact obeys_matchToken L _
    | refine obeys_bind L ?_ (fun _ => ?_)
    | apply obeys_branch L

theorem stoll_error (s what : String) (h : stoll s = .error what) : what = "stoll" := by
  unfold stoll at h
  dsimp only at h
  split_ifs at h <;> cases h <;> rfl

theorem obeys_stoll (L : Law) {α : Type} (s what : String) (h : stoll s = .error what) :
    PM.Obeys L (raise what : PM α) := by
  intro p
  rw [stoll_error s what h]
  exact L.library p _ (Or.inl rfl)

theorem obeys_stod (L : Law) (s : String) : PM.Obeys L (stod s) := by
  intro p
  unfold stod
  by_cases h : s ∈ p.stodThrows
  · rw [if_pos h]
    exact L.library p _ (Or.inr rfl)
  · rw [if_neg h]
    exact L.refl p

/-- The methods of the expression grammar respect every law. -/
theorem obeys_expressions (L : Law) : ∀ (n fuel : Nat), fuel ≤ n →
    PM.Obeys L (parseUnary fuel) ∧ PM.Obeys L (parsePrimary fuel) ∧
    PM.Obeys L (parseExpression fuel) ∧
    ∀ arguments, PM.Obeys L (parseArguments fuel arguments) := by
  intro n
  induction n with
  | zero =>
    intro fuel hf
    have : fuel = 0 := by omega
    subst this
    refine ⟨?_, ?_, ?_, fun _ => ?_⟩
    · simp only [parseUnary]; exact obeys_outOfFuel L
    · simp only [parsePrimary]; exact obeys_outOfFuel L
    · simp only [parseExpression]; exact obeys_outOfFuel L
    · simp only [parseArguments]; exact obeys_outOfFuel L
  | succ n ih =>
    intro fuel hf
    rcases Nat.lt_or_ge fuel (n + 1) with hlt | hge
    · exact ih fuel (by omega)
    · have : fuel = n + 1 := by omega
      subst this
      have ihn := ih n (le_refl _)
      have hE : PM.Obeys L (parseExpression (n + 1)) := by
        rw [parseExpression_climb]
        exact obeys_climb L n (fun g hg => (ih g hg).1) levelOps n (le_refl _)
      refine ⟨?_, ?_, hE, fun arguments => ?_⟩
      · rw [parseUnary_unfold]
        refine obeys_bind L (obeys_prefixOp L) (fun r => ?_)
        cases r with
        | none => exact ihn.2.1
        | some op => exact obeys_bind L ihn.1 (fun _ => obeys_pure L _)
      · simp only [parsePrimary]
        have hA := ihn.2.2.2
        have hX := ihn.2.2.1
        with_reducible repeat' first
          | exact obeys_pure L _
          | exact obeys_fail L _
          | exact obeys_stoll L _ _ (by assumption)
          | exact obeys_stod L _
          | exact obeys_check L _
          | exact obeys_previous L
          | exact hX
          | exact hA _
          | exact obeys_matchToken L _
          | exact obeys_consume L _ _
          | refine obeys_bind L ?_ (fun _ => ?_)
          | apply obeys_branch L
          | split
      · simp only [parseArguments]
        exact obeys_bind L ihn.2.2.1 (fun _ => obeys_bind L (obeys_matchToken L _)
          (fun _ => obeys_branch L (ihn.2.2.2 _) (obeys_pure L _)))

theorem obeys_parseExpression (L : Law) (fuel : Nat) : PM.Obeys L (parseExpression fuel) :=
  (obeys_expressions L fuel fuel (le_refl _)).2.2.1

end Hash

namespace Hash

theorem obeys_parseVariableDecl (L : Law) (fuel : Nat) :
    PM.Obeys L (parseVariableDecl fuel) := by
  unfold parseVariableDecl
  have hX := obeys_parseExpression L fuel
  with_reducible repeat' first
    | exact obeys_pure L _
    | exact hX
    | exact obeys_parseType L
    | exact obeys_matchToken L _
    | exact obeys_consume L _ _
    | refine obeys_bind L ?_ (fun _ => ?_)
    | apply obeys_branch L

theorem obeys_parseGlobalVariable (L : Law) (fuel : Nat) :
    PM.Obeys L (parseGlobalVariable fuel) := by
  unfold parseGlobalVariable
  have hX := obeys_parseExpression L fuel
  with_reducible repeat' first
    | exact obeys_pure L _
    | exact hX
    | exact obeys_parseType L
    | exact obeys_matchToken L _
    | exact obeys_consume L _ _
    | refine obeys_bind L ?_ (fun _ => ?_)
    | apply obeys_branch L

theorem obeys_parseReturnStatement (L : Law) (fuel : Nat) (line column : Int) :
    PM.Obeys L (parseReturnStatement fuel line column) := by
  unfold parseReturnStatement
  have hX := obeys_parseExpression L fuel
  with_reducible repeat' first
    | exact obeys_pure L _
    | exact hX
    | exact obeys_check L _
    | refine obeys_bind L ?_ (fun _ => ?_)
    | apply obeys_branch L

/-- The methods for statements and blocks respect every law. -/
theorem obeys_statements (L : Law) : ∀ fuel : Nat,
    PM.Obeys L (parseStatement fuel) ∧ PM.Obeys L (parseIfStatement fuel) ∧
    PM.Obeys L (parseWhileStatement fuel) ∧ PM.Obeys L (parseBlock fuel) ∧
    ∀ statements, PM.Obeys L (parseBlockLoop fuel statements) := by
  intro fuel
  induction fuel with
  | zero =>
    refine ⟨?_, ?_, ?_, ?_, fun _ => ?_⟩
    · simp only [parseStatement]; exact obeys_outOfFuel L
    · simp only [parseIfStatement]; exact obeys_outOfFuel L
    · simp only [parseWhileStatement]; exact obeys_outOfFuel L
    · simp only [parseBlock]; exact obeys_outOfFuel L
    · simp only [parseBlockLoop]; exact obeys_outOfFuel L
  | succ fuel ih =>
    obtain ⟨hS, hI, hW, hB, hL⟩ := ih
    have hX := obeys_parseExpression L fuel
    refine ⟨?_, ?_, ?_, ?_, fun _ => ?_⟩
    · simp only [parseStatement]
      with_reducible repeat' first
        | exact obeys_pure L _
        | exact hX
        | exact hI
        | exact hW
        | exact obeys_skipNewlines L _
        | exact obeys_parseVariableDecl L _
        | exact obeys_parseReturnStatement L _ _ _
        | exact obeys_previous L
        | exact obeys_advance L
        | exact obeys_check L _
        | exact obeys_peek L _
        | exact obeys_matchToken L _
        | refine obeys_bind L ?_ (fun _ => ?_)
        | apply obeys_branch L
    · simp only [parseIfStatement]
      with_reducible repeat' first
        | exact obeys_pure L _
        | exact hX
        | exact hB
        | exact obeys_matchToken L _
        | exact obeys_consume L _ _
        | refine obeys_bind L ?_ (fun _ => ?_)
        | apply obeys_branch L
    · simp only [parseWhileStatement]
      with_reducible repeat' first
        | exact obeys_pure L _
        | exact hX
        | exact hB
        | exact obeys_consume L _ _
        | refine obeys_bind L ?_ (fun _ => ?_)
    · simp only [parseBlock]
      with_reducible repeat' first
        | exact obeys_pure L _
        | exact hS
        | exact hL _
        | exact obeys_skipNewlines L _
        | exact obeys_orElse L (obeys_matchToken L _) (obeys_matchToken L _)
        | exact obeys_consume L _ _
        | refine obeys_bind L ?_ (fun _ => ?_)
        | apply obeys_branch L
    · simp only [parseBlockLoop]
      with_reducible repeat' first
        | exact obeys_pure L _
        | exact hS
        | exact hL _
        | exact obeys_check L _
        | exact obeys_isAtEnd L
        | exact obeys_matchToken L _
        | refine obeys_bind L ?_ (fun _ => ?_)
        | apply obeys_branch L

theorem obeys_parseParameters (L : Law) : ∀ (fuel : Nat) (parameters : List Parameter),
    PM.Obeys L (parseParameters fuel parameters) := by
  intro fuel
  induction fuel with
  | zero => intro _; exact obeys_outOfFuel L
  | succ fuel ih =>
    intro parameters
    simp only [parseParameters]
    with_reducible repeat' first
      | exact obeys_pure L _
      | exact ih _
      | exact obeys_parseType L
      | exact obeys_matchToken L _
      | exact obeys_consume L _ _
      | refine obeys_bind L ?_ (fun _ => ?_)
      | apply obeys_branch L

theorem obeys_parseFunctionPurity (L : Law) : PM.Obeys L parseFunctionPurity := by
  unfold parseFunctionPurity
  with_reducible repeat' first
    | exact obeys_pure L _
    | exact obeys_getCurrent L
    | exact obeys_previous L
    | exact obeys_tokenAt L _
    | exact obeys_consume L _ _
    | refine obeys_bind L ?_ (fun _ => ?_)
    | apply obeys_branch L

theorem obeys_parseFunction (L : Law) (fuel : Nat) : PM.Obeys L (parseFunction fuel) := by
  unfold parseFunction
  have hB := (obeys_statements L fuel).2.2.2.1
  with_reducible repeat' first
    | exact obeys_pure L _
    | exact hB
    | exact obeys_parseFunctionPurity L
    | exact obeys_parseParameters L _ _
    | exact obeys_parseType L
    | exact obeys_check L _
    | exact obeys_matchToken L _
    | exact obeys_consume L _ _
    | refine obeys_bind L ?_ (fun _ => ?_)
    | apply obeys_branch L

/-- The method `synchronize` respects every law, and it does not throw. -/
theorem obeys_synchronize (L : Law) : ∀ fuel : Nat, PM.Obeys L (synchronize fuel) := by
  intro fuel
  induction fuel with
  | zero => exact obeys_outOfFuel L
  | succ fuel ih =>
    simp only [synchronize]
    with_reducible repeat' first
      | exact ih
      | exact obeys_advance L
      | exact obeys_pure L _
      | exact obeys_isAtEnd L
      | exact obeys_getCurrent L
      | exact obeys_junkIsNewline L
      | exact obeys_tokenAt L _
      | exact obeys_peek L _
      | refine obeys_bind L ?_ (fun _ => ?_)
      | apply obeys_branch L
      | split

end Hash

namespace Hash

theorem spec_weaken {α : Type} {R1 R2 : Parser → Parser → Prop}
    {T1 T2 : Parser → String → Parser → Prop} {m : PM α}
    (hR : ∀ p q, R1 p q → R2 p q) (hT : ∀ p what q, T1 p what q → T2 p what q)
    (hm : PM.Spec R1 T1 m) : PM.Spec R2 T2 m := by
  intro p
  have h := hm p
  cases hmp : m p with
  | outOfFuel => trivial
  | thrown w q => rw [hmp] at h; exact hT _ _ _ h
  | ok a q => rw [hmp] at h; exact hR _ _ h

theorem spec_branch {α : Type} {R : Parser → Parser → Prop}
    {T : Parser → String → Parser → Prop} {c : Prop} [Decidable c] {a b : PM α}
    (ha : PM.Spec R T a) (hb : PM.Spec R T b) : PM.Spec R T (if c then a else b) := by
  split
  · exact ha
  · exact hb

theorem returns_pure {α : Type} (a : α) : PM.Returns (pure a : PM α) := fun _ => trivial

theorem returns_bind {α β : Type} {m : PM α} {f : α → PM β} (hm : PM.Returns m)
    (hf : ∀ a, PM.Returns (f a)) : PM.Returns (m >>= f) :=
  spec_bind (fun _ _ _ _ _ => trivial) (fun _ _ _ _ _ h => h) hm hf

theorem returns_branch {α : Type} {c : Prop} [Decidable c] {a b : PM α}
    (ha : PM.Returns a) (hb : PM.Returns b) : PM.Returns (if c then a else b) :=
  spec_branch ha hb

theorem returns_isAtEnd : PM.Returns isAtEnd := fun _ => trivial

theorem returns_getCurrent : PM.Returns getCurrent := fun _ => trivial

theorem returns_junkIsNewline : PM.Returns junkIsNewline := fun _ => trivial

theorem returns_peek (offset : Nat) : PM.Returns (peek offset) := fun _ => trivial

theorem returns_check (type : TokenType) : PM.Returns (check type) := fun _ => trivial

theorem returns_tokenAt (i : Int) : PM.Returns (tokenAt i) := by
  intro p
  obtain ⟨r, b, h, _⟩ := tokenAt_flag i p
  rw [h]
  trivial

theorem returns_advance : PM.Returns advance := by
  intro p
  obtain ⟨t, b, h, _⟩ := advance_eq p
  rw [h]
  trivial

theorem returns_matchToken (type : TokenType) : PM.Returns (matchToken type) := by
  unfold matchToken
  exact returns_bind (returns_check _) (fun _ => returns_branch
    (returns_bind returns_advance (fun _ => returns_pure _)) (returns_pure _))

theorem returns_error (message : String) : PM.Returns (error message) := fun _ => trivial

/-- The method `synchronize` does not throw. -/
theorem returns_synchronize : ∀ fuel : Nat, PM.Returns (synchronize fuel) := by
  intro fuel
  induction fuel with
  | zero => exact fun _ => trivial
  | succ fuel ih =>
    simp only [synchronize]
    with_reducible repeat' first
      | exact ih
      | exact returns_advance
      | exact returns_tokenAt _
      | exact returns_pure _
      | exact returns_isAtEnd
      | exact returns_getCurrent
      | exact returns_junkIsNewline
      | exact returns_peek _
      | refine returns_bind ?_ (fun _ => ?_)
      | apply returns_branch
      | split

theorem synchronize_returns (fuel : Nat) (p : Parser) (what : String) (q : Parser) :
    synchronize fuel p ≠ .thrown what q := by
  intro h
  have := returns_synchronize fuel p
  rw [h] at this
  exact this

/-- A method that does not throw meets every condition on its throws. -/
theorem spec_returns {α : Type} {R : Parser → Parser → Prop}
    {T1 T2 : Parser → String → Parser → Prop} {m : PM α}
    (hm : PM.Spec R T1 m) (hr : PM.Returns m) : PM.Spec R T2 m := by
  intro p
  have h := hm p
  have h2 := hr p
  cases hmp : m p with
  | outOfFuel => trivial
  | thrown w q => rw [hmp] at h2; exact h2.elim
  | ok a q => rw [hmp] at h; exact h

/-- The try body of `parse` and the error list: when it returns, the list is
as it was or has one more string, the error for a token that starts no
declaration; when it throws `what`, the list has one more string, the one
`error(what)` gives at the position of the throw, or the exception is that of
`std::stoll` or of `std::stod` and the list is as it was. -/
theorem parseTopLevel_errors (fuel : Nat) (program : Program) :
    PM.Spec (fun p q => q.errors = p.errors ∨
        ∃ x : Parser, q.errors = p.errors ++ [errorLine x topLevelMessage])
      errorsLaw.T (parseTopLevel fuel program) := by
  have hw : ∀ {α : Type} {m : PM α}, PM.Obeys errorsLaw m →
      PM.Spec (fun p q => q.errors = p.errors ∨
        ∃ x : Parser, q.errors = p.errors ++ [errorLine x topLevelMessage]) errorsLaw.T m :=
    fun hm => spec_weaken (fun _ _ h => Or.inl h) (fun _ _ _ h => h) hm
  have hb : ∀ {α β : Type} {m : PM α} {f : α → PM β}, PM.Obeys errorsLaw m →
      (∀ a, PM.Spec (fun p q => q.errors = p.errors ∨
        ∃ x : Parser, q.errors = p.errors ++ [errorLine x topLevelMessage]) errorsLaw.T (f a)) →
      PM.Spec (fun p q => q.errors = p.errors ∨
        ∃ x : Parser, q.errors = p.errors ++ [errorLine x topLevelMessage]) errorsLaw.T
        (m >>= f) := by
    intro α β m f hm hf
    refine spec_bind ?_ errorsLaw.comp hm hf
    intro p q r h1 h2
    rcases h2 with h2 | ⟨x, h2⟩
    · exact Or.inl (h2.trans h1)
    · exact Or.inr ⟨x, by rw [h2, h1]⟩
  unfold parseTopLevel
  refine hb (obeys_orElse _ (obeys_matchToken _ _) (obeys_matchToken _ _)) (fun b1 => ?_)
  refine spec_branch ?_ ?_
  · refine hw ?_
    with_reducible repeat' first
      | exact obeys_pure _ _
      | exact obeys_parseFunction _ _
      | exact obeys_getCurrent _
      | exact obeys_previous _
      | exact obeys_tokenAt _ _
      | refine obeys_bind _ ?_ (fun _ => ?_)
      | apply obeys_branch _
  · refine hb (obeys_matchToken _ _) (fun b2 => ?_)
    refine spec_branch ?_ ?_
    · exact hw (obeys_bind _ (obeys_parseGlobalVariable _ _) (fun _ => obeys_pure _ _))
    · refine hb (obeys_orElse _ (obeys_matchToken _ _)
        (obeys_orElse _ (obeys_matchToken _ _) (obeys_matchToken _ _))) (fun b3 => ?_)
      refine spec_branch (hw (obeys_pure _ _)) ?_
      have herr : PM.Spec (fun p q => ∃ x : Parser,
          q.errors = p.errors ++ [errorLine x topLevelMessage]) (fun _ _ _ => False)
          (error "Expected function or global variable declaration") := fun p => ⟨p, rfl⟩
      have hrest : PM.Spec errorsLaw.R (fun _ _ _ => False)
          (synchronize fuel >>= fun _ => (pure program : PM Program)) :=
        spec_returns (obeys_bind errorsLaw (obeys_synchronize errorsLaw fuel)
            (fun _ => obeys_pure errorsLaw program))
          (returns_bind (returns_synchronize fuel) (fun _ => returns_pure program))
      refine spec_weaken (fun _ _ h => h) (fun _ _ _ h => False.elim h)
        (spec_bind ?_ (fun _ _ _ _ _ h => h) herr (fun _ => hrest))
      intro p q r h1 h2
      obtain ⟨x, h1⟩ := h1
      exact Or.inr ⟨x, by rw [h2, h1]⟩

/-- The catch handler of `parse` appends the one string of `error(what)` at
the position where the exception was thrown. -/
theorem parseCatch_errors (fuel : Nat) (what : String) (p q : Parser) (u : Unit)
    (h : parseCatch fuel what p = .ok u q) : q.errors = p.errors ++ [errorLine p what] := by
  have hs := obeys_synchronize errorsLaw fuel
    { p with errors := p.errors ++ [errorLine p what] }
  have h2 : synchronize fuel { p with errors := p.errors ++ [errorLine p what] } = .ok u q := h
  rw [h2] at hs
  exact hs

theorem parseCatch_returns (fuel : Nat) (what : String) (p q : Parser) (w : String) :
    parseCatch fuel what p ≠ .thrown w q := by
  intro h
  have h2 : synchronize fuel { p with errors := p.errors ++ [errorLine p what] } = .thrown w q := h
  exact synchronize_returns _ _ _ _ h2

/-- The error list of `parse` has the shape `ErrorShape`, whatever the tokens. -/
theorem parseLoop_shape : ∀ (fuel : Nat) (program : Program) (p : Parser) (result : Program)
    (q : Parser), ErrorShape p.errors → parseLoop fuel program p = .ok result q →
    ErrorShape q.errors := by
  intro fuel
  induction fuel with
  | zero => intro program p result q _ h; cases h
  | succ fuel ih =>
    intro program p result q hp h
    simp only [parseLoop] at h
    split at h
    · cases h
      exact hp
    · have ht := parseTopLevel_errors fuel program p
      cases hr : parseTopLevel fuel program p with
      | outOfFuel => rw [hr] at h; cases h
      | ok program1 p1 =>
        rw [hr] at h ht
        refine ih program1 p1 result q ?_ h
        rcases ht with ht | ⟨x, ht⟩
        · rw [ht]; exact hp
        · rw [ht]; exact ErrorShape.top _ x hp
      | thrown what p1 =>
        rw [hr] at h ht
        dsimp only at h
        cases hc : parseCatch fuel what p1 with
        | outOfFuel => rw [hc] at h; cases h
        | thrown w p2 => rw [hc] at h; cases h
        | ok u p2 =>
          rw [hc] at h
          refine ih program p2 result q ?_ h
          rw [parseCatch_errors fuel what p1 p2 u hc]
          rcases ht with ht | ⟨hw, ht⟩
          · rw [ht, List.append_assoc]
            exact ErrorShape.pair _ _ hp
          · rcases hw with hw | hw
            · rw [ht, hw]
              exact ErrorShape.library _ p1 hp
            · rw [ht, hw]
              exact ErrorShape.conversion _ p1 hp

theorem parse_shape (fuel : Nat) (tokens : List Token) (junkIsNewline : Bool)
    (stodThrows : List String) (program : Program) (q : Parser)
    (h : parse fuel tokens junkIsNewline stodThrows = some (program, q)) :
    ErrorShape q.errors := by
  unfold parse at h
  split at h
  · rename_i result p hr
    cases h
    exact parseLoop_shape fuel _ _ _ _ ErrorShape.start hr
  · cases h

/-- The method `parseType` throws nothing but "Expected type". -/
theorem parseType_throws (p q : Parser) (what : String) (h : parseType p = .thrown what q) :
    what = "Expected type" := by
  have key : PM.Spec (fun _ _ => True) (fun _ what _ => what = "Expected type") parseType := by
    have hb : ∀ {α β : Type} {m : PM α} {f : α → PM β},
        PM.Spec (fun _ _ => True) (fun _ what _ => what = "Expected type") m →
        (∀ a, PM.Spec (fun _ _ => True) (fun _ what _ => what = "Expected type") (f a)) →
        PM.Spec (fun _ _ => True) (fun _ what _ => what = "Expected type") (m >>= f) :=
      fun hm hf => spec_bind (fun _ _ _ _ _ => trivial) (fun _ _ _ _ _ h => h) hm hf
    have hm : ∀ type, PM.Spec (fun _ _ => True) (fun _ what _ => what = "Expected type")
        (matchToken type) :=
      fun type => spec_returns (returns_matchToken type) (returns_matchToken type)
    have hpure : ∀ a : TypeKind,
        PM.Spec (fun _ _ => True) (fun _ what _ => what = "Expected type") (pure a : PM TypeKind) :=
      fun _ _ => trivial
    have hfail : PM.Spec (fun _ _ => True) (fun _ what _ => what = "Expected type")
        (error "Expected type" >>= fun _ => (raise "Expected type" : PM TypeKind)) :=
      fun _ => rfl
    unfold parseType
    with_reducible repeat' first
      | exact hm _
      | exact hpure _
      | exact hfail
      | refine hb ?_ (fun _ => ?_)
      | apply spec_branch
  have := key p
  rw [h] at this
  exact this

end Hash

namespace Hash

theorem consume_fails (type : TokenType) (message : String) (p : Parser)
    (h : p.check type = false) :
    consume type message p =
      .thrown message { p with errors := p.errors ++ [errorLine p message] } := by
  unfold consume
  simp only [bind, PM.bind, check, h, Bool.false_eq_true, if_false, error, raise, errorLine]

/-- C39: a failed `consume`, the fall-through of `parsePrimary` ("Expected
expression") and the fall-through of `parseType` ("Expected type") each append
one string and throw; the catch handler of `parse` appends the string of
`error(what)` at the position of the throw, which is the same string, and
`synchronize` appends nothing. So one such failure leaves two equal consecutive
strings, and the error list of `parse` consists of such pairs, next to the
single strings of the other kinds of error: a token that starts no declaration,
and the exceptions of `std::stoll` and `std::stod`, which are thrown without a
call of `error` and get their one string in the catch handler.  This holds
whatever the texts are on which `std::stod` throws.  The last source returns
a FLOAT literal beyond the largest `double`, on which `std::stod` throws: the
one string `stod`. -/
theorem C39_syntax_errors_are_doubled :
    (∀ (type : TokenType) (message : String) (p : Parser), p.check type = false →
      consume type message p =
        .thrown message { p with errors := p.errors ++ [errorLine p message] }) ∧
    (∀ (p q : Parser) (what : String), parseType p = .thrown what q →
      what = "Expected type" ∧ q.errors = p.errors ++ [errorLine q what]) ∧
    (∀ (fuel : Nat) (p q : Parser), parsePrimary fuel p = .thrown "Expected expression" q →
      q.errors = p.errors ++ [errorLine q "Expected expression"]) ∧
    (∀ (fuel : Nat) (what : String) (q r : Parser) (u : Unit),
      parseCatch fuel what q = .ok u r → r.errors = q.errors ++ [errorLine q what]) ∧
    (∀ (fuel : Nat) (program : Program) (p q r : Parser) (what : String) (u : Unit),
      parseTopLevel fuel program p = .thrown what q → parseCatch fuel what q = .ok u r →
      r.errors = p.errors ++ [errorLine q what, errorLine q what] ∨
        ((what = "stoll" ∨ what = "stod") ∧ r.errors = p.errors ++ [errorLine q what])) ∧
    (∀ (fuel : Nat) (tokens : List Token) (junkIsNewline : Bool) (stodThrows : List String)
      (program : Program) (q : Parser),
      parse fuel tokens junkIsNewline stodThrows = some (program, q) →
      ErrorShape q.errors) ∧
    (∀ junkIsNewline : Bool,
      Option.map Prod.snd (parseText 100 junkIsNewline "fn main() -> i32:\n    return )\n") =
        some ["Error at line 2, column 12: Expected expression",
              "Error at line 2, column 12: Expected expression"]) ∧
    (∀ junkIsNewline : Bool,
      Option.map Prod.snd (parseText 100 junkIsNewline "fn f() -> ]\nfn g(: \n") =
        some ["Error at line 1, column 11: Expected type",
              "Error at line 1, column 11: Expected type",
              "Error at line 2, column 6: Expected parameter name",
              "Error at line 2, column 6: Expected parameter name"]) ∧
    (∀ junkIsNewline : Bool,
      ((tokenize ("fn f() -> f64:\n    return " ++ hugeFloat ++ "\n").toList).bind
        (fun tokens => parse 100 tokens junkIsNewline [hugeFloat])).map (fun r => r.2.errors) =
        some ["Error at line 3, column 1: stod"]) := by
  refine ⟨consume_fails, ?_, ?_, parseCatch_errors, ?_, parse_shape, ?_, ?_, ?_⟩
  · intro p q what h
    have hw := parseType_throws p q what h
    refine ⟨hw, ?_⟩
    have hl := obeys_parseType errorsLaw p
    rw [h] at hl
    rcases hl with hl | ⟨hs, _⟩
    · exact hl
    · rw [hw] at hs
      exact absurd hs (by decide)
  · intro fuel p q h
    have hl := (obeys_expressions errorsLaw fuel fuel (le_refl _)).2.1 p
    rw [h] at hl
    rcases hl with hl | ⟨hs, _⟩
    · exact hl
    · exact absurd hs (by decide)
  · intro fuel program p q r what u h hc
    have ht := parseTopLevel_errors fuel program p
    rw [h] at ht
    rw [parseCatch_errors fuel what q r u hc]
    rcases ht with ht | ⟨hs, ht⟩
    · rw [ht, List.append_assoc]
      exact Or.inl rfl
    · rw [ht]
      exact Or.inr ⟨hs, rfl⟩
  · intro junkIsNewline
    cases junkIsNewline <;> decide!
  · intro junkIsNewline
    cases junkIsNewline <;> decide!
  · intro junkIsNewline
    cases junkIsNewline <;> decide!

end Hash

/-! ## Theorems about the parser and `std::stod` -/

namespace Hash

theorem blind_pure (rejected : List String) {α : Type} (a : α) :
    PM.Blind rejected (pure a : PM α) :=
  fun _ hp => ⟨rfl, hp⟩

theorem blind_bind (rejected : List String) {α β : Type} {m : PM α} {f : α → PM β}
    (hm : PM.Blind rejected m) (hf : ∀ a, PM.Blind rejected (f a)) :
    PM.Blind rejected (m >>= f) := by
  intro p hp
  obtain ⟨e1, c1⟩ := hm p hp
  show PM.bind m f (p.rejecting rejected) = (PM.bind m f p).rejecting rejected ∧
    match PM.bind m f p with
    | .ok _ q => q.Converts rejected
    | .thrown _ q => q.Converts rejected
    | .outOfFuel => True
  unfold PM.bind
  rw [e1]
  cases hmp : m p with
  | outOfFuel => exact ⟨rfl, trivial⟩
  | thrown w q =>
    rw [hmp] at c1
    exact ⟨rfl, c1⟩
  | ok a q =>
    rw [hmp] at c1
    exact hf a q c1

theorem blind_branch (rejected : List String) {α : Type} {c : Prop} [Decidable c] {a b : PM α}
    (ha : PM.Blind rejected a) (hb : PM.Blind rejected b) :
    PM.Blind rejected (if c then a else b) := by
  split
  · exact ha
  · exact hb

theorem blind_outOfFuel (rejected : List String) {α : Type} :
    PM.Blind rejected (outOfFuel : PM α) :=
  fun _ _ => ⟨rfl, trivial⟩

theorem blind_raise (rejected : List String) {α : Type} (what : String) :
    PM.Blind rejected (raise what : PM α) :=
  fun _ hp => ⟨rfl, hp⟩

theorem blind_getCurrent (rejected : List String) : PM.Blind rejected getCurrent :=
  fun _ hp => ⟨rfl, hp⟩

theorem blind_junkIsNewline (rejected : List String) : PM.Blind rejected junkIsNewline :=
  fun _ hp => ⟨rfl, hp⟩

theorem blind_peek (rejected : List String) (offset : Nat) : PM.Blind rejected (peek offset) :=
  fun _ hp => ⟨rfl, hp⟩

theorem blind_isAtEnd (rejected : List String) : PM.Blind rejected isAtEnd :=
  fun _ hp => ⟨rfl, hp⟩

theorem blind_check (rejected : List String) (type : TokenType) :
    PM.Blind rejected (check type) :=
  fun _ hp => ⟨rfl, hp⟩

theorem blind_error (rejected : List String) (message : String) :
    PM.Blind rejected (error message) :=
  fun _ hp => ⟨rfl, hp⟩

theorem blind_tokenAt (rejected : List String) (i : Int) : PM.Blind rejected (tokenAt i) := by
  intro p hp
  unfold tokenAt
  by_cases h : 0 ≤ i ∧ i < p.tokens.length
  · rw [if_pos h, if_pos (show 0 ≤ i ∧ i < (p.rejecting rejected).tokens.length from h)]
    exact ⟨rfl, hp⟩
  · rw [if_neg h, if_neg (show ¬ (0 ≤ i ∧ i < (p.rejecting rejected).tokens.length) from h)]
    exact ⟨rfl, hp⟩

theorem blind_previous (rejected : List String) : PM.Blind rejected previous := by
  unfold Hash.previous
  exact blind_bind rejected (blind_getCurrent rejected)
    (fun _ => blind_bind rejected (blind_tokenAt rejected _) (fun _ => blind_pure rejected _))

theorem blind_advance (rejected : List String) : PM.Blind rejected advance := by
  intro p hp
  have h1 : (if (p.rejecting rejected).isAtEnd = true then p.rejecting rejected
      else { p.rejecting rejected with current := (p.rejecting rejected).current + 1 }) =
      (if p.isAtEnd = true then p else { p with current := p.current + 1 }).rejecting
        rejected := by
    by_cases h : p.isAtEnd = true
    · rw [if_pos h, if_pos (show (p.rejecting rejected).isAtEnd = true from h)]
    · rw [if_neg h, if_neg (show ¬ (p.rejecting rejected).isAtEnd = true from h)]
      rfl
  have h2 : (if p.isAtEnd = true then p
      else { p with current := p.current + 1 }).Converts rejected := by
    split
    · exact hp
    · exact hp
  obtain ⟨e, c⟩ := blind_tokenAt rejected
    (((if p.isAtEnd = true then p else { p with current := p.current + 1 }).current : Int) - 1)
    _ h2
  unfold advance
  dsimp only
  rw [h1]
  change (match tokenAt
      (((if p.isAtEnd = true then p else { p with current := p.current + 1 }).current : Int) - 1)
      ((if p.isAtEnd = true then p else { p with current := p.current + 1 }).rejecting
        rejected) with
    | .ok t p2 => Res.ok (t.getD noToken) p2
    | .thrown w p2 => .thrown w p2
    | .outOfFuel => .outOfFuel) = _ ∧ _
  rw [e]
  cases hta : tokenAt
      (((if p.isAtEnd = true then p else { p with current := p.current + 1 }).current : Int) - 1)
      (if p.isAtEnd = true then p else { p with current := p.current + 1 }) with
  | ok t q =>
    rw [hta] at c
    exact ⟨rfl, c⟩
  | thrown w q =>
    rw [hta] at c
    exact ⟨rfl, c⟩
  | outOfFuel => exact ⟨rfl, trivial⟩

theorem blind_matchToken (rejected : List String) (type : TokenType) :
    PM.Blind rejected (matchToken type) := by
  unfold matchToken
  exact blind_bind rejected (blind_check rejected _) (fun _ => blind_branch rejected
    (blind_bind rejected (blind_advance rejected) (fun _ => blind_pure rejected _))
    (blind_pure rejected _))

theorem blind_fail (rejected : List String) {α : Type} (message : String) :
    PM.Blind rejected (error message >>= fun _ => (raise message : PM α)) :=
  blind_bind rejected (blind_error rejected _) (fun _ => blind_raise rejected _)

theorem blind_consume (rejected : List String) (type : TokenType) (message : String) :
    PM.Blind rejected (consume type message) := by
  unfold consume
  exact blind_bind rejected (blind_check rejected _) (fun _ => blind_branch rejected
    (blind_advance rejected) (blind_fail rejected message))

theorem blind_orElse (rejected : List String) {a b : PM Bool} (ha : PM.Blind rejected a)
    (hb : PM.Blind rejected b) : PM.Blind rejected (orElse a b) := by
  unfold orElse
  exact blind_bind rejected ha (fun _ => blind_branch rejected (blind_pure rejected _) hb)

theorem blind_parseType (rejected : List String) : PM.Blind rejected parseType := by
  unfold parseType
  with_reducible repeat' first
    | exact blind_pure rejected _
    | exact blind_fail rejected _
    | exact blind_matchToken rejected _
    | refine blind_bind rejected ?_ (fun _ => ?_)
    | apply blind_branch rejected

theorem blind_matchOp (rejected : List String) :
    ∀ ops : List (TokenType × BinOp), PM.Blind rejected (matchOp ops) := by
  intro ops
  induction ops with
  | nil => exact blind_pure rejected _
  | cons x rest ih =>
    rcases x with ⟨ty, op⟩
    simp only [matchOp]
    exact blind_bind rejected (blind_matchToken rejected ty)
      (fun _ => blind_branch rejected (blind_pure rejected _) ih)

theorem blind_binaryLoop (rejected : List String) (ops : List (TokenType × BinOp))
    (operand : PM Expression) (ho : PM.Blind rejected operand) :
    ∀ (fuel : Nat) (e : Expression), PM.Blind rejected (binaryLoop ops operand fuel e) := by
  intro fuel
  induction fuel with
  | zero => intro e; exact blind_outOfFuel rejected
  | succ fuel ih =>
    intro e
    simp only [binaryLoop]
    refine blind_bind rejected (blind_matchOp rejected ops) (fun r => ?_)
    cases r with
    | none => exact blind_pure rejected _
    | some op => exact blind_bind rejected ho (fun _ => ih _)

theorem blind_skipNewlines (rejected : List String) :
    ∀ fuel : Nat, PM.Blind rejected (skipNewlines fuel) := by
  intro fuel
  induction fuel with
  | zero => exact blind_outOfFuel rejected
  | succ fuel ih =>
    simp only [skipNewlines]
    exact blind_bind rejected (blind_matchToken rejected _)
      (fun _ => blind_branch rejected ih (blind_pure rejected _))

theorem blind_climb (rejected : List String) (n : Nat)
    (hu : ∀ g ≤ n, PM.Blind rejected (parseUnary g)) :
    ∀ (tables : List (List (TokenType × BinOp))), ∀ fuel ≤ n,
      PM.Blind rejected (climb tables fuel) := by
  intro tables
  induction tables with
  | nil =>
    intro fuel hf
    simp only [climb]
    exact hu fuel hf
  | cons ops rest ih =>
    intro fuel hf
    cases fuel with
    | zero => exact blind_outOfFuel rejected
    | succ fuel =>
      simp only [climb]
      have h1 := ih fuel (by omega)
      exact blind_bind rejected h1 (fun _ => blind_binaryLoop rejected ops _ h1 _ _)

theorem blind_prefixOp (rejected : List String) : PM.Blind rejected prefixOp := by
  unfold prefixOp
  with_reducible repeat' first
    | exact blind_pure rejected _
    | exact blind_matchToken rejected _
    | refine blind_bind rejected ?_ (fun _ => ?_)
    | apply blind_branch rejected

end Hash

namespace Hash

/-- A parser at a FLOAT token matches it, and `previous` is that token. -/
theorem float_matched (rejected : List String) (p : Parser) (hp : p.Converts rejected)
    (hc : p.check .FLOAT = true) :
    ∃ t : Token, t ∈ p.tokens ∧ t.type = .FLOAT ∧
      matchToken .FLOAT p = .ok true { p with current := p.current + 1 } ∧
      previous { p with current := p.current + 1 } =
        .ok t { p with current := p.current + 1 } := by
  unfold Parser.check at hc
  have hend : p.isAtEnd = false := by
    cases h : p.isAtEnd
    · rfl
    · rw [h] at hc
      simp at hc
  rw [hend] at hc
  simp only [Bool.false_eq_true, if_false, decide_eq_true_eq] at hc
  have hlt : p.current < p.tokens.length := by
    by_contra hge
    unfold Parser.peek at hc
    rw [if_pos (by omega)] at hc
    exact hp.2.1 hc
  have hpeek : p.peek 0 = p.tokens.get ⟨p.current, hlt⟩ := by
    unfold Parser.peek
    rw [if_neg (by omega)]
    simp [List.getD_eq_getElem?_getD, List.getElem?_eq_getElem hlt]
  have hat : tokenAt (((p.current + 1 : Nat) : Int) - 1) { p with current := p.current + 1 } =
      .ok (some (p.tokens.get ⟨p.current, hlt⟩)) { p with current := p.current + 1 } := by
    unfold tokenAt
    have hi : ((p.current + 1 : Nat) : Int) - 1 = (p.current : Int) := by omega
    rw [hi, if_pos ⟨by omega, by
      show (p.current : Int) < (p.tokens.length : Int)
      omega⟩]
    simp [List.get?_eq_get hlt]
  refine ⟨p.tokens.get ⟨p.current, hlt⟩, List.get_mem _ _ _, by rw [← hpeek]; exact hc, ?_, ?_⟩
  · unfold matchToken
    show PM.bind (check .FLOAT) _ p = _
    unfold PM.bind check
    dsimp only
    have hck : p.check .FLOAT = true := by
      unfold Parser.check
      rw [hend]
      simp [hc]
    rw [hck, if_pos rfl]
    show PM.bind advance _ p = _
    unfold PM.bind advance
    dsimp only
    rw [hend]
    simp only [Bool.false_eq_true, if_false]
    rw [hat]
    rfl
  · unfold Hash.previous
    show PM.bind getCurrent _ _ = _
    unfold PM.bind getCurrent
    dsimp only
    show PM.bind (tokenAt _) _ _ = _
    unfold PM.bind
    rw [hat]
    rfl

theorem unmatched (type : TokenType) (p : Parser) (hc : ¬ p.check type = true) :
    matchToken type p = .ok false p := by
  unfold matchToken
  show PM.bind (check type) _ p = _
  unfold PM.bind check
  dsimp only
  rw [if_neg hc]
  rfl

/-- The FLOAT branch of `parsePrimary`: the text given to `std::stod` is that
of a FLOAT token. -/
theorem blind_float (rejected : List String) {α : Type} {f : String → PM α} {g : PM α}
    (hf : ∀ v, PM.Blind rejected (f v)) (hg : PM.Blind rejected g) :
    PM.Blind rejected (matchToken .FLOAT >>= fun hit =>
      if hit = true then (previous >>= fun t => stod t.value >>= f) else g) := by
  intro p hp
  by_cases hc : p.check .FLOAT = true
  · obtain ⟨t, ht, hty, hm, hprev⟩ := float_matched rejected p hp hc
    have p1c : ({ p with current := p.current + 1 } : Parser).Converts rejected := hp
    have em := (blind_matchToken rejected .FLOAT p hp).1
    rw [hm] at em
    have ep := (blind_previous rejected _ p1c).1
    rw [hprev] at ep
    have hv : t.value ∉ rejected := hp.2.2 t ht hty
    have es : stod t.value { p with current := p.current + 1 } =
        .ok t.value { p with current := p.current + 1 } := by
      unfold stod
      rw [if_neg]
      show t.value ∉ p.stodThrows
      rw [hp.1]
      exact List.not_mem_nil _
    have es1 : stod t.value (({ p with current := p.current + 1 } : Parser).rejecting rejected) =
        .ok t.value (({ p with current := p.current + 1 } : Parser).rejecting rejected) := by
      unfold stod
      rw [if_neg]
      exact hv
    have lhs : (matchToken .FLOAT >>= fun hit =>
        if hit = true then (previous >>= fun t => stod t.value >>= f) else g) p =
        f t.value { p with current := p.current + 1 } := by
      show PM.bind _ _ p = _
      unfold PM.bind
      rw [hm]
      dsimp only
      rw [if_pos rfl]
      show PM.bind previous _ _ = _
      unfold PM.bind
      rw [hprev]
      dsimp only
      show PM.bind (stod t.value) f _ = _
      unfold PM.bind
      rw [es]
    have rhs : (matchToken .FLOAT >>= fun hit =>
        if hit = true then (previous >>= fun t => stod t.value >>= f) else g)
          (p.rejecting rejected) =
        f t.value (({ p with current := p.current + 1 } : Parser).rejecting rejected) := by
      show PM.bind _ _ _ = _
      unfold PM.bind
      rw [em]
      dsimp only [Res.rejecting]
      rw [if_pos rfl]
      show PM.bind previous _ _ = _
      unfold PM.bind
      rw [ep]
      dsimp only [Res.rejecting]
      show PM.bind (stod t.value) f _ = _
      unfold PM.bind
      rw [es1]
    rw [lhs, rhs]
    exact hf t.value _ p1c
  · have hm := unmatched .FLOAT p hc
    have hm1 := unmatched .FLOAT (p.rejecting rejected) hc
    have lhs : (matchToken .FLOAT >>= fun hit =>
        if hit = true then (previous >>= fun t => stod t.value >>= f) else g) p = g p := by
      show PM.bind _ _ p = _
      unfold PM.bind
      rw [hm]
      dsimp only
      rw [if_neg (by decide)]
    have rhs : (matchToken .FLOAT >>= fun hit =>
        if hit = true then (previous >>= fun t => stod t.value >>= f) else g)
          (p.rejecting rejected) = g (p.rejecting rejected) := by
      show PM.bind _ _ _ = _
      unfold PM.bind
      rw [hm1]
      dsimp only
      rw [if_neg (by decide)]
    rw [lhs, rhs]
    exact hg p hp

/-- The methods of the expression grammar do the same whatever `std::stod`
does on texts that are not those of FLOAT tokens. -/
theorem blind_expressions (rejected : List String) : ∀ (n fuel : Nat), fuel ≤ n →
    PM.Blind rejected (parseUnary fuel) ∧ PM.Blind rejected (parsePrimary fuel) ∧
    PM.Blind rejected (parseExpression fuel) ∧
    ∀ arguments, PM.Blind rejected (parseArguments fuel arguments) := by
  intro n
  induction n with
  | zero =>
    intro fuel hf
    have : fuel = 0 := by omega
    subst this
    refine ⟨?_, ?_, ?_, fun _ => ?_⟩
    · simp only [parseUnary]; exact blind_outOfFuel rejected
    · simp only [parsePrimary]; exact blind_outOfFuel rejected
    · simp only [parseExpression]; exact blind_outOfFuel rejected
    · simp only [parseArguments]; exact blind_outOfFuel rejected
  | succ n ih =>
    intro fuel hf
    rcases Nat.lt_or_ge fuel (n + 1) with hlt | hge
    · exact ih fuel (by omega)
    · have : fuel = n + 1 := by omega
      subst this
      have ihn := ih n (le_refl _)
      have hE : PM.Blind rejected (parseExpression (n + 1)) := by
        rw [parseExpression_climb]
        exact blind_climb rejected n (fun g hg => (ih g hg).1) levelOps n (le_refl _)
      refine ⟨?_, ?_, hE, fun arguments => ?_⟩
      · rw [parseUnary_unfold]
        refine blind_bind rejected (blind_prefixOp rejected) (fun r => ?_)
        cases r with
        | none => exact ihn.2.1
        | some op => exact blind_bind rejected ihn.1 (fun _ => blind_pure rejected _)
      · simp only [parsePrimary]
        have hA := ihn.2.2.2
        have hX := ihn.2.2.1
        with_reducible repeat' first
          | exact blind_pure rejected _
          | exact blind_fail rejected _
          | exact blind_raise rejected _
          | exact blind_check rejected _
          | exact blind_previous rejected
          | exact hX
          | exact hA _
          | exact blind_matchToken rejected _
          | exact blind_consume rejected _ _
          | refine blind_float rejected (fun _ => ?_) ?_
          | refine blind_bind rejected ?_ (fun _ => ?_)
          | apply blind_branch rejected
          | split
      · simp only [parseArguments]
        exact blind_bind rejected ihn.2.2.1 (fun _ => blind_bind rejected
          (blind_matchToken rejected _)
          (fun _ => blind_branch rejected (ihn.2.2.2 _) (blind_pure rejected _)))

theorem blind_parseExpression (rejected : List String) (fuel : Nat) :
    PM.Blind rejected (parseExpression fuel) :=
  (blind_expressions rejected fuel fuel (le_refl _)).2.2.1

end Hash

namespace Hash

theorem blind_parseVariableDecl (rejected : List String) (fuel : Nat) :
    PM.Blind rejected (parseVariableDecl fuel) := by
  unfold parseVariableDecl
  have hX := blind_parseExpression rejected fuel
  with_reducible repeat' first
    | exact blind_pure rejected _
    | exact hX
    | exact blind_parseType rejected
    | exact blind_matchToken rejected _
    | exact blind_consume rejected _ _
    | refine blind_bind rejected ?_ (fun _ => ?_)
    | apply blind_branch rejected

theorem blind_parseGlobalVariable (rejected : List String) (fuel : Nat) :
    PM.Blind rejected (parseGlobalVariable fuel) := by
  unfold parseGlobalVariable
  have hX := blind_parseExpression rejected fuel
  with_reducible repeat' first
    | exact blind_pure rejected _
    | exact hX
    | exact blind_parseType rejected
    | exact blind_matchToken rejected _
    | exact blind_consume rejected _ _
    | refine blind_bind rejected ?_ (fun _ => ?_)
    | apply blind_branch rejected

theorem blind_parseReturnStatement (rejected : List String) (fuel : Nat) (line column : Int) :
    PM.Blind rejected (parseReturnStatement fuel line column) := by
  unfold parseReturnStatement
  have hX := blind_parseExpression rejected fuel
  with_reducible repeat' first
    | exact blind_pure rejected _
    | exact hX
    | exact blind_check rejected _
    | refine blind_bind rejected ?_ (fun _ => ?_)
    | apply blind_branch rejected

/-- The methods for statements and blocks do the same whatever `std::stod`
does on texts that are not those of FLOAT tokens. -/
theorem blind_statements (rejected : List String) : ∀ fuel : Nat,
    PM.Blind rejected (parseStatement fuel) ∧ PM.Blind rejected (parseIfStatement fuel) ∧
    PM.Blind rejected (parseWhileStatement fuel) ∧ PM.Blind rejected (parseBlock fuel) ∧
    ∀ statements, PM.Blind rejected (parseBlockLoop fuel statements) := by
  intro fuel
  induction fuel with
  | zero =>
    refine ⟨?_, ?_, ?_, ?_, fun _ => ?_⟩
    · simp only [parseStatement]; exact blind_outOfFuel rejected
    · simp only [parseIfStatement]; exact blind_outOfFuel rejected
    · simp only [parseWhileStatement]; exact blind_outOfFuel rejected
    · simp only [parseBlock]; exact blind_outOfFuel rejected
    · simp only [parseBlockLoop]; exact blind_outOfFuel rejected
  | succ fuel ih =>
    obtain ⟨hS, hI, hW, hB, hL⟩ := ih
    have hX := blind_parseExpression rejected fuel
    refine ⟨?_, ?_, ?_, ?_, fun _ => ?_⟩
    · simp only [parseStatement]
      with_reducible repeat' first
        | exact blind_pure rejected _
        | exact hX
        | exact hI
        | exact hW
        | exact blind_skipNewlines rejected _
        | exact blind_parseVariableDecl rejected _
        | exact blind_parseReturnStatement rejected _ _ _
        | exact blind_previous rejected
        | exact blind_advance rejected
        | exact blind_check rejected _
        | exact blind_peek rejected _
        | exact blind_matchToken rejected _
        | refine blind_bind rejected ?_ (fun _ => ?_)
        | apply blind_branch rejected
    · simp only [parseIfStatement]
      with_reducible repeat' first
        | exact blind_pure rejected _
        | exact hX
        | exact hB
        | exact blind_matchToken rejected _
        | exact blind_consume rejected _ _
        | refine blind_bind rejected ?_ (fun _ => ?_)
        | apply blind_branch rejected
    · simp only [parseWhileStatement]
      with_reducible repeat' first
        | exact blind_pure rejected _
        | exact hX
        | exact hB
        | exact blind_consume rejected _ _
        | refine blind_bind rejected ?_ (fun _ => ?_)
    · simp only [parseBlock]
      with_reducible repeat' first
        | exact blind_pure rejected _
        | exact hS
        | exact hL _
        | exact blind_skipNewlines rejected _
        | exact blind_orElse rejected (blind_matchToken rejected _) (blind_matchToken rejected _)
        | exact blind_consume rejected _ _
        | refine blind_bind rejected ?_ (fun _ => ?_)
        | apply blind_branch rejected
    · simp only [parseBlockLoop]
      with_reducible repeat' first
        | exact blind_pure rejected _
        | exact hS
        | exact hL _
        | exact blind_check rejected _
        | exact blind_isAtEnd rejected
        | exact blind_matchToken rejected _
        | refine blind_bind rejected ?_ (fun _ => ?_)
        | apply blind_branch rejected

theorem blind_parseParameters (rejected : List String) :
    ∀ (fuel : Nat) (parameters : List Parameter),
      PM.Blind rejected (parseParameters fuel parameters) := by
  intro fuel
  induction fuel with
  | zero => intro _; exact blind_outOfFuel rejected
  | succ fuel ih =>
    intro parameters
    simp only [parseParameters]
    with_reducible repeat' first
      | exact blind_pure rejected _
      | exact ih _
      | exact blind_parseType rejected
      | exact blind_matchToken rejected _
      | exact blind_consume rejected _ _
      | refine blind_bind rejected ?_ (fun _ => ?_)
      | apply blind_branch rejected

theorem blind_parseFunctionPurity (rejected : List String) :
    PM.Blind rejected parseFunctionPurity := by
  unfold parseFunctionPurity
  with_reducible repeat' first
    | exact blind_pure rejected _
    | exact blind_getCurrent rejected
    | exact blind_previous rejected
    | exact blind_tokenAt rejected _
    | exact blind_consume rejected _ _
    | refine blind_bind rejected ?_ (fun _ => ?_)
    | apply blind_branch rejected

theorem blind_parseFunction (rejected : List String) (fuel : Nat) :
    PM.Blind rejected (parseFunction fuel) := by
  unfold parseFunction
  have hB := (blind_statements rejected fuel).2.2.2.1
  with_reducible repeat' first
    | exact blind_pure rejected _
    | exact hB
    | exact blind_parseFunctionPurity rejected
    | exact blind_parseParameters rejected _ _
    | exact blind_parseType rejected
    | exact blind_check rejected _
    | exact blind_matchToken rejected _
    | exact blind_consume rejected _ _
    | refine blind_bind rejected ?_ (fun _ => ?_)
    | apply blind_branch rejected

theorem blind_synchronize (rejected : List String) :
    ∀ fuel : Nat, PM.Blind rejected (synchronize fuel) := by
  intro fuel
  induction fuel with
  | zero => exact blind_outOfFuel rejected
  | succ fuel ih =>
    simp only [synchronize]
    with_reducible repeat' first
      | exact ih
      | exact blind_advance rejected
      | exact blind_pure rejected _
      | exact blind_isAtEnd rejected
      | exact blind_getCurrent rejected
      | exact blind_junkIsNewline rejected
      | exact blind_tokenAt rejected _
      | exact blind_peek rejected _
      | refine blind_bind rejected ?_ (fun _ => ?_)
      | apply blind_branch rejected
      | split

theorem blind_parseTopLevel (rejected : List String) (fuel : Nat) (program : Program) :
    PM.Blind rejected (parseTopLevel fuel program) := by
  unfold parseTopLevel
  with_reducible repeat' first
    | exact blind_pure rejected _
    | exact blind_parseFunction rejected _
    | exact blind_parseGlobalVariable rejected _
    | exact blind_synchronize rejected _
    | exact blind_error rejected _
    | exact blind_getCurrent rejected
    | exact blind_previous rejected
    | exact blind_tokenAt rejected _
    | exact blind_orElse rejected (blind_matchToken rejected _) (blind_matchToken rejected _)
    | exact blind_orElse rejected (blind_matchToken rejected _)
        (blind_orElse rejected (blind_matchToken rejected _) (blind_matchToken rejected _))
    | exact blind_matchToken rejected _
    | refine blind_bind rejected ?_ (fun _ => ?_)
    | apply blind_branch rejected

theorem blind_parseCatch (rejected : List String) (fuel : Nat) (what : String) :
    PM.Blind rejected (parseCatch fuel what) := by
  unfold parseCatch
  exact blind_bind rejected (blind_error rejected _) (fun _ => blind_synchronize rejected _)

theorem blind_parseLoop (rejected : List String) :
    ∀ (fuel : Nat) (program : Program), PM.Blind rejected (parseLoop fuel program) := by
  intro fuel
  induction fuel with
  | zero => intro _; exact blind_outOfFuel rejected
  | succ fuel ih =>
    intro program p hp
    simp only [parseLoop]
    by_cases hend : p.isAtEnd = true
    · rw [if_pos hend, if_pos (show (p.rejecting rejected).isAtEnd = true from hend)]
      exact ⟨rfl, hp⟩
    · rw [if_neg hend, if_neg (show ¬ (p.rejecting rejected).isAtEnd = true from hend)]
      obtain ⟨e1, c1⟩ := blind_parseTopLevel rejected fuel program p hp
      rw [e1]
      cases htop : parseTopLevel fuel program p with
      | outOfFuel => exact ⟨rfl, trivial⟩
      | ok program1 p1 =>
        rw [htop] at c1
        exact ih program1 p1 c1
      | thrown what p1 =>
        rw [htop] at c1
        obtain ⟨e2, c2⟩ := blind_parseCatch rejected fuel what p1 c1
        dsimp only [Res.rejecting]
        rw [e2]
        cases hcatch : parseCatch fuel what p1 with
        | outOfFuel => exact ⟨rfl, trivial⟩
        | ok u p2 =>
          rw [hcatch] at c2
          exact ih program p2 c2
        | thrown w p2 =>
          rw [hcatch] at c2
          exact ⟨rfl, c2⟩

/-- The result of `parse` does not depend on the texts on which `std::stod`
throws as long as none of them is the text of a FLOAT token: the program and
the parser are those of the run in which `std::stod` converts every text. -/
theorem parse_converting (fuel : Nat) (tokens : List Token) (junkIsNewline : Bool)
    (rejected : List String) (hlast : (tokens.getLastD noToken).type ≠ .FLOAT)
    (h : ∀ t ∈ tokens, t.type = .FLOAT → t.value ∉ rejected) :
    parse fuel tokens junkIsNewline rejected =
      (parse fuel tokens junkIsNewline []).map (fun r => (r.1, r.2.rejecting rejected)) := by
  have hp : (Parser.new tokens junkIsNewline []).Converts rejected := ⟨rfl, hlast, h⟩
  obtain ⟨e, _⟩ := blind_parseLoop rejected fuel { functions := [], globals := [] } _ hp
  unfold parse
  have hnew : Parser.new tokens junkIsNewline rejected =
      (Parser.new tokens junkIsNewline []).rejecting rejected := rfl
  rw [hnew, e]
  cases parseLoop fuel { functions := [], globals := [] } (Parser.new tokens junkIsNewline []) with
  | outOfFuel => rfl
  | ok program q => rfl
  | thrown what q => rfl

end Hash

/-! ## Theorems about the positions of expression nodes -/

namespace Hash

theorem yields_pure {α : Type} {P : α → Prop} (a : α) (h : P a) :
    PM.Yields P (pure a : PM α) := by
  intro p b q hb
  cases hb
  exact h

theorem yields_bind {α β : Type} {Q : α → Prop} {P : β → Prop} {m : PM α} {f : α → PM β}
    (hm : PM.Yields Q m) (hf : ∀ a, Q a → PM.Yields P (f a)) : PM.Yields P (m >>= f) := by
  intro p b q h
  obtain ⟨a, p1, h1, h2⟩ := bind_ok m f p q b h
  exact hf a (hm p a p1 h1) p1 b q h2

theorem yields_any {α : Type} (m : PM α) : PM.Yields (fun _ => True) m :=
  fun _ _ _ _ => trivial

theorem yields_branch {α : Type} {P : α → Prop} {c : Prop} [Decidable c] {a b : PM α}
    (ha : PM.Yields P a) (hb : PM.Yields P b) : PM.Yields P (if c then a else b) := by
  split
  · exact ha
  · exact hb

theorem yields_outOfFuel {α : Type} {P : α → Prop} : PM.Yields P (outOfFuel : PM α) := by
  intro p a q h
  cases h

theorem yields_raise {α : Type} {P : α → Prop} (what : String) :
    PM.Yields P (raise what : PM α) := by
  intro p a q h
  cases h

theorem yields_fail {α : Type} {P : α → Prop} (message : String) :
    PM.Yields P (error message >>= fun _ => (raise message : PM α)) := by
  intro p a q h
  cases h

theorem unplaced_binary (op : BinOp) (left right : Expression) (hl : left.unplaced = true)
    (hr : right.unplaced = true) :
    (Expression.BinaryOp ExprInfo.fresh op left right).unplaced = true := by
  simp only [Expression.unplaced, hl, hr, Bool.and_true]
  rfl

theorem unplaced_unary (op : UnOp) (operand : Expression) (h : operand.unplaced = true) :
    (Expression.UnaryOp ExprInfo.fresh op operand).unplaced = true := by
  simp only [Expression.unplaced, h, Bool.and_true]
  rfl

theorem unplaced_call (name : String) (arguments : List Expression)
    (h : unplacedList arguments = true) :
    (Expression.CallExpr ExprInfo.fresh name arguments).unplaced = true := by
  simp only [Expression.unplaced, h, Bool.and_true]
  rfl

theorem unplaced_integer (k : TypeKind) (v : Int) :
    (Expression.IntegerLiteral (literalInfo k) v).unplaced = true := rfl

theorem unplaced_float (k : TypeKind) (v : String) :
    (Expression.FloatLiteral (literalInfo k) v).unplaced = true := rfl

theorem unplaced_string (k : TypeKind) (v : String) :
    (Expression.StringLiteral (literalInfo k) v).unplaced = true := rfl

theorem unplaced_bool (k : TypeKind) (v : Bool) :
    (Expression.BoolLiteral (literalInfo k) v).unplaced = true := rfl

theorem unplaced_identifier (name : String) :
    (Expression.Identifier ExprInfo.fresh name).unplaced = true := rfl

theorem unplacedList_append (xs : List Expression) (e : Expression)
    (hx : unplacedList xs = true) (he : e.unplaced = true) :
    unplacedList (xs ++ [e]) = true := by
  induction xs with
  | nil => simp only [List.nil_append, unplacedList, he, Bool.and_true]
  | cons x rest ih =>
    simp only [unplacedList, Bool.and_eq_true] at hx
    show (x.unplaced && unplacedList (rest ++ [e])) = true
    rw [hx.1, ih hx.2]
    rfl

theorem unplacedStatements_append (xs : List Statement) (st : Statement)
    (hx : unplacedStatements xs = true) (hs : st.unplaced = true) :
    unplacedStatements (xs ++ [st]) = true := by
  induction xs with
  | nil => simp only [List.nil_append, unplacedStatements, hs, Bool.and_true]
  | cons x rest ih =>
    simp only [unplacedStatements, Bool.and_eq_true] at hx
    show (x.unplaced && unplacedStatements (rest ++ [st])) = true
    rw [hx.1, ih hx.2]
    rfl

theorem yields_binaryLoop (ops : List (TokenType × BinOp)) (operand : PM Expression)
    (ho : PM.Yields (fun e => e.unplaced = true) operand) :
    ∀ (fuel : Nat) (e : Expression), e.unplaced = true →
      PM.Yields (fun e => e.unplaced = true) (binaryLoop ops operand fuel e) := by
  intro fuel
  induction fuel with
  | zero => intro e _; exact yields_outOfFuel
  | succ fuel ih =>
    intro e he
    simp only [binaryLoop]
    refine yields_bind (yields_any _) (fun r _ => ?_)
    cases r with
    | none => exact yields_pure _ he
    | some op => exact yields_bind ho (fun right hr => ih _ (unplaced_binary op e right he hr))

theorem yields_climb (n : Nat)
    (hu : ∀ g ≤ n, PM.Yields (fun e => e.unplaced = true) (parseUnary g)) :
    ∀ (tables : List (List (TokenType × BinOp))), ∀ fuel ≤ n,
      PM.Yields (fun e => e.unplaced = true) (climb tables fuel) := by
  intro tables
  induction tables with
  | nil =>
    intro fuel hf
    simp only [climb]
    exact hu fuel hf
  | cons ops rest ih =>
    intro fuel hf
    cases fuel with
    | zero => exact yields_outOfFuel
    | succ fuel =>
      simp only [climb]
      have h1 := ih fuel (by omega)
      exact yields_bind h1 (fun e he => yields_binaryLoop ops _ h1 _ e he)

/-- The expressions the parser builds have `line = 0` and `column = 0` on every
node. -/
theorem yields_expressions : ∀ (n fuel : Nat), fuel ≤ n →
    PM.Yields (fun e => e.unplaced = true) (parseUnary fuel) ∧
    PM.Yields (fun e => e.unplaced = true) (parsePrimary fuel) ∧
    PM.Yields (fun e => e.unplaced = true) (parseExpression fuel) ∧
    ∀ arguments, unplacedList arguments = true →
      PM.Yields (fun l => unplacedList l = true) (parseArguments fuel arguments) := by
  intro n
  induction n with
  | zero =>
    intro fuel hf
    have : fuel = 0 := by omega
    subst this
    refine ⟨?_, ?_, ?_, fun _ _ => ?_⟩
    · simp only [parseUnary]; exact yields_outOfFuel
    · simp only [parsePrimary]; exact yields_outOfFuel
    · simp only [parseExpression]; exact yields_outOfFuel
    · simp only [parseArguments]; exact yields_outOfFuel
  | succ n ih =>
    intro fuel hf
    rcases Nat.lt_or_ge fuel (n + 1) with hlt | hge
    · exact ih fuel (by omega)
    · have : fuel = n + 1 := by omega
      subst this
      have ihn := ih n (le_refl _)
      have hE : PM.Yields (fun e => e.unplaced = true) (parseExpression (n + 1)) := by
        rw [parseExpression_climb]
        exact yields_climb n (fun g hg => (ih g hg).1) levelOps n (le_refl _)
      refine ⟨?_, ?_, hE, fun arguments harg => ?_⟩
      · rw [parseUnary_unfold]
        refine yields_bind (yields_any _) (fun r _ => ?_)
        cases r with
        | none => exact ihn.2.1
        | some op => exact yields_bind ihn.1 (fun e he => yields_pure _ (unplaced_unary op e he))
      · simp only [parsePrimary]
        have hA := ihn.2.2.2 [] rfl
        have hX := ihn.2.2.1
        have hnil : unplacedList [] = true := rfl
        with_reducible repeat' first
          | exact yields_fail _
          | exact yields_raise _
          | exact yields_pure _ (by assumption)
          | exact yields_pure _ (unplaced_call _ _ (by assumption))
          | exact yields_pure _ (unplaced_integer _ _)
          | exact yields_pure _ (unplaced_float _ _)
          | exact yields_pure _ (unplaced_string _ _)
          | exact yields_pure _ (unplaced_bool _ _)
          | exact yields_pure _ (unplaced_identifier _)
          | exact hA
          | refine yields_bind hX (fun _ _ => ?_)
          | refine yields_bind hA (fun _ _ => ?_)
          | refine yields_bind (Q := fun l => unplacedList l = true) (yields_pure [] hnil)
              (fun _ _ => ?_)
          | refine yields_bind (yields_any _) (fun _ _ => ?_)
          | apply yields_branch
          | split
      · simp only [parseArguments]
        exact yields_bind ihn.2.2.1 (fun e he => yields_bind (yields_any _)
          (fun _ _ => yields_branch (ihn.2.2.2 _ (unplacedList_append _ _ harg he))
            (yields_pure _ (unplacedList_append _ _ harg he))))

theorem yields_parseExpression (fuel : Nat) :
    PM.Yields (fun e => e.unplaced = true) (parseExpression fuel) :=
  (yields_expressions fuel fuel (le_refl _)).2.2.1

end Hash

namespace Hash

theorem unplaced_declaration (line column : Int) (name : String) (varType : TypeKind)
    (initializer : Option Expression) (isMutable isPureLocal : Bool)
    (h : unplacedOption initializer = true) :
    unplacedOption (VariableDecl.mk line column name varType initializer isMutable
      isPureLocal).initializer = true := h

theorem unplaced_some (e : Expression) (h : e.unplaced = true) :
    unplacedOption (some e) = true := h

theorem yields_parseVariableDecl (fuel : Nat) :
    PM.Yields (fun d => unplacedOption d.initializer = true) (parseVariableDecl fuel) := by
  unfold parseVariableDecl
  have hX := yields_parseExpression fuel
  have hnone : unplacedOption none = true := rfl
  with_reducible repeat' first
    | exact yields_pure _ (unplaced_declaration _ _ _ _ _ _ _ (by assumption))
    | refine yields_bind (Q := fun o => unplacedOption o = true) (yields_pure none hnone)
        (fun _ _ => ?_)
    | refine yields_bind (Q := fun o => unplacedOption o = true)
        (yields_bind hX (fun _ he => yields_pure (some _) (unplaced_some _ he))) (fun _ _ => ?_)
    | refine yields_bind (yields_any _) (fun _ _ => ?_)
    | apply yields_branch

theorem yields_parseGlobalVariable (fuel : Nat) :
    PM.Yields (fun d => unplacedOption d.initializer = true) (parseGlobalVariable fuel) := by
  unfold parseGlobalVariable
  have hX := yields_parseExpression fuel
  have hnone : unplacedOption none = true := rfl
  with_reducible repeat' first
    | exact yields_pure _ (unplaced_declaration _ _ _ _ _ _ _ (by assumption))
    | refine yields_bind (Q := fun o => unplacedOption o = true) (yields_pure none hnone)
        (fun _ _ => ?_)
    | refine yields_bind (Q := fun o => unplacedOption o = true)
        (yields_bind hX (fun _ he => yields_pure (some _) (unplaced_some _ he))) (fun _ _ => ?_)
    | refine yields_bind (yields_any _) (fun _ _ => ?_)
    | apply yields_branch

theorem unplaced_return (line column : Int) (value : Option Expression)
    (h : unplacedOption value = true) : (Statement.ReturnStmt line column value).unplaced = true := by
  simp only [Statement.unplaced, h]

theorem unplaced_assignment (line column : Int) (name : String) (value : Expression)
    (h : value.unplaced = true) :
    (Statement.Assignment line column name value).unplaced = true := by
  simp only [Statement.unplaced, h]

theorem unplaced_exprStmt (line column : Int) (e : Expression) (h : e.unplaced = true) :
    (Statement.ExprStmt line column e).unplaced = true := by
  simp only [Statement.unplaced, h]

theorem unplaced_varDecl (decl : VariableDecl) (h : unplacedOption decl.initializer = true) :
    (Statement.VariableDecl decl).unplaced = true := by
  simp only [Statement.unplaced, h]

theorem unplaced_if (line column : Int) (condition : Expression)
    (thenBody elseBody : List Statement) (hc : condition.unplaced = true)
    (ht : unplacedStatements thenBody = true) (he : unplacedStatements elseBody = true) :
    (Statement.IfStmt line column condition thenBody elseBody).unplaced = true := by
  simp only [Statement.unplaced, hc, ht, he, Bool.and_true]

theorem unplaced_while (line column : Int) (condition : Expression) (body : List Statement)
    (hc : condition.unplaced = true) (hb : unplacedStatements body = true) :
    (Statement.WhileStmt line column condition body).unplaced = true := by
  simp only [Statement.unplaced, hc, hb, Bool.and_true]

theorem unplaced_single (st : Statement) (h : st.unplaced = true) :
    unplacedStatements [st] = true := by
  simp only [unplacedStatements, h, Bool.and_true]

theorem yields_parseReturnStatement (fuel : Nat) (line column : Int) :
    PM.Yields (fun st => st.unplaced = true) (parseReturnStatement fuel line column) := by
  unfold parseReturnStatement
  have hX := yields_parseExpression fuel
  have hnone : unplacedOption none = true := rfl
  with_reducible repeat' first
    | exact yields_pure _ (unplaced_return _ _ _ hnone)
    | exact yields_pure _ (unplaced_return _ _ _ (unplaced_some _ (by assumption)))
    | refine yields_bind hX (fun _ _ => ?_)
    | refine yields_bind (yields_any _) (fun _ _ => ?_)
    | apply yields_branch

/-- The statements the parser builds have `line = 0` and `column = 0` on every
expression node. -/
theorem yields_statements : ∀ fuel : Nat,
    PM.Yields (fun st => st.unplaced = true) (parseStatement fuel) ∧
    PM.Yields (fun st => st.unplaced = true) (parseIfStatement fuel) ∧
    PM.Yields (fun st => st.unplaced = true) (parseWhileStatement fuel) ∧
    PM.Yields (fun l => unplacedStatements l = true) (parseBlock fuel) ∧
    ∀ statements, unplacedStatements statements = true →
      PM.Yields (fun l => unplacedStatements l = true) (parseBlockLoop fuel statements) := by
  intro fuel
  induction fuel with
  | zero =>
    refine ⟨?_, ?_, ?_, ?_, fun _ _ => ?_⟩
    · simp only [parseStatement]; exact yields_outOfFuel
    · simp only [parseIfStatement]; exact yields_outOfFuel
    · simp only [parseWhileStatement]; exact yields_outOfFuel
    · simp only [parseBlock]; exact yields_outOfFuel
    · simp only [parseBlockLoop]; exact yields_outOfFuel
  | succ fuel ih =>
    obtain ⟨hS, hI, hW, hB, hL⟩ := ih
    have hX := yields_parseExpression fuel
    have hnil : unplacedStatements [] = true := rfl
    refine ⟨?_, ?_, ?_, ?_, fun statements hst => ?_⟩
    · simp only [parseStatement]
      with_reducible repeat' first
        | exact hI
        | exact hW
        | exact yields_parseReturnStatement _ _ _
        | exact yields_pure _ (unplaced_varDecl _ (by assumption))
        | exact yields_pure _ (unplaced_assignment _ _ _ _ (by assumption))
        | exact yields_pure _ (unplaced_exprStmt _ _ _ (by assumption))
        | refine yields_bind hX (fun _ _ => ?_)
        | refine yields_bind (yields_parseVariableDecl _) (fun _ _ => ?_)
        | refine yields_bind (yields_any _) (fun _ _ => ?_)
        | apply yields_branch
    · simp only [parseIfStatement]
      with_reducible repeat' first
        | exact yields_pure _ (unplaced_if _ _ _ _ _ (by assumption) (by assumption)
            (by assumption))
        | refine yields_bind hX (fun _ _ => ?_)
        | refine yields_bind hB (fun _ _ => ?_)
        | refine yields_bind (yields_any _) (fun _ _ => ?_)
        | apply yields_branch
    · simp only [parseWhileStatement]
      with_reducible repeat' first
        | exact yields_pure _ (unplaced_while _ _ _ _ (by assumption) (by assumption))
        | refine yields_bind hX (fun _ _ => ?_)
        | refine yields_bind hB (fun _ _ => ?_)
        | refine yields_bind (yields_any _) (fun _ _ => ?_)
    · simp only [parseBlock]
      with_reducible repeat' first
        | exact yields_pure _ (unplaced_single _ (by assumption))
        | exact yields_pure _ (by assumption)
        | refine yields_bind hS (fun _ _ => ?_)
        | refine yields_bind (hL [] hnil) (fun _ _ => ?_)
        | refine yields_bind (yields_any _) (fun _ _ => ?_)
        | apply yields_branch
    · simp only [parseBlockLoop]
      with_reducible repeat' first
        | exact yields_pure _ hst
        | exact hL _ hst
        | exact hL _ (unplacedStatements_append _ _ hst (by assumption))
        | refine yields_bind hS (fun _ _ => ?_)
        | refine yields_bind (yields_any _) (fun _ _ => ?_)
        | apply yields_branch

theorem yields_parseFunction (fuel : Nat) :
    PM.Yields (fun f => unplacedStatements f.body = true) (parseFunction fuel) := by
  unfold parseFunction
  have hB := (yields_statements fuel).2.2.2.1
  have hf : ∀ (line column : Int) (name : String) (parameters : List Parameter)
      (returnType : TypeKind) (body : List Statement) (isPure : Bool),
      unplacedStatements body = true →
      unplacedStatements (FunctionDecl.mk line column name parameters returnType body
        isPure).body = true := fun _ _ _ _ _ _ _ h => h
  with_reducible repeat' first
    | exact yields_pure _ (hf _ _ _ _ _ _ _ (by assumption))
    | refine yields_bind hB (fun _ _ => ?_)
    | refine yields_bind (yields_any _) (fun _ _ => ?_)
    | apply yields_branch

theorem unplaced_function (program : Program) (f : FunctionDecl)
    (hp : program.unplaced = true) (hf : unplacedStatements f.body = true) :
    Program.unplaced { program with functions := program.functions ++ [f] } = true := by
  simp only [Program.unplaced, Bool.and_eq_true, List.all_append, List.all_cons, List.all_nil,
    Bool.and_true] at hp ⊢
  exact ⟨hp.1, hp.2, hf⟩

theorem unplaced_global (program : Program) (g : VariableDecl)
    (hp : program.unplaced = true) (hg : unplacedOption g.initializer = true) :
    Program.unplaced { program with globals := program.globals ++ [g] } = true := by
  simp only [Program.unplaced, Bool.and_eq_true, List.all_append, List.all_cons, List.all_nil,
    Bool.and_true] at hp ⊢
  exact ⟨⟨hp.1, hg⟩, hp.2⟩

theorem yields_parseTopLevel (fuel : Nat) (program : Program) (hp : program.unplaced = true) :
    PM.Yields (fun r => r.unplaced = true) (parseTopLevel fuel program) := by
  unfold parseTopLevel
  with_reducible repeat' first
    | exact yields_pure _ hp
    | exact yields_pure _ (unplaced_function _ _ hp (by assumption))
    | exact yields_pure _ (unplaced_global _ _ hp (by assumption))
    | refine yields_bind (yields_parseFunction _) (fun _ _ => ?_)
    | refine yields_bind (yields_parseGlobalVariable _) (fun _ _ => ?_)
    | refine yields_bind (yields_any _) (fun _ _ => ?_)
    | apply yields_branch

theorem parseLoop_unplaced : ∀ (fuel : Nat) (program : Program) (p : Parser)
    (result : Program) (q : Parser), program.unplaced = true →
    parseLoop fuel program p = .ok result q → result.unplaced = true := by
  intro fuel
  induction fuel with
  | zero => intro program p result q _ h; cases h
  | succ fuel ih =>
    intro program p result q hp h
    simp only [parseLoop] at h
    split at h
    · cases h
      exact hp
    · cases hr : parseTopLevel fuel program p with
      | outOfFuel => rw [hr] at h; cases h
      | ok program1 p1 =>
        rw [hr] at h
        exact ih program1 p1 result q (yields_parseTopLevel fuel program hp p program1 p1 hr) h
      | thrown what p1 =>
        rw [hr] at h
        dsimp only at h
        cases hc : parseCatch fuel what p1 with
        | outOfFuel => rw [hc] at h; cases h
        | thrown w p2 => rw [hc] at h; cases h
        | ok u p2 =>
          rw [hc] at h
          exact ih program p2 result q hp h

/-- Every expression node of a program that `parse` returns has `line = 0` and
`column = 0`. -/
theorem parse_unplaced (fuel : Nat) (tokens : List Token) (junkIsNewline : Bool)
    (stodThrows : List String) (program : Program) (q : Parser)
    (h : parse fuel tokens junkIsNewline stodThrows = some (program, q)) :
    program.unplaced = true := by
  unfold parse at h
  split at h
  · rename_i result p hr
    cases h
    exact parseLoop_unplaced fuel { functions := [], globals := [] } _ _ _ rfl hr
  · cases h

end Hash

namespace Hash

theorem addsAtOrigin_refl (a : SemanticAnalyzer) : addsAtOrigin a a :=
  ⟨[], (List.append_nil _).symm, fun _ h => by cases h⟩

theorem addsAtOrigin_trans {a b c : SemanticAnalyzer} (h1 : addsAtOrigin a b)
    (h2 : addsAtOrigin b c) : addsAtOrigin a c := by
  obtain ⟨x, hx, hxo⟩ := h1
  obtain ⟨y, hy, hyo⟩ := h2
  refine ⟨x ++ y, by rw [hy, hx, List.append_assoc], fun err he => ?_⟩
  rcases List.mem_append.mp he with he | he
  · exact hxo err he
  · exact hyo err he

theorem addsAtOrigin_push (a : SemanticAnalyzer) (err : ErrorInfo)
    (h : err.line = 0 ∧ err.column = 0) : addsAtOrigin a (a.pushError err) :=
  ⟨[err], rfl, fun e he => by
    rw [List.mem_singleton] at he
    rw [he]
    exact h⟩

theorem addsAtOrigin_ite (a : SemanticAnalyzer) (c : Prop) [Decidable c] (err : ErrorInfo)
    (h : err.line = 0 ∧ err.column = 0) :
    addsAtOrigin a (if c then a.pushError err else a) := by
  split
  · exact addsAtOrigin_push a err h
  · exact addsAtOrigin_refl a

theorem unplaced_position (i : ExprInfo) (h : i.unplaced = true) : i.line = 0 ∧ i.column = 0 := by
  simpa [ExprInfo.unplaced] using h

theorem binaryResult_origin (op : BinOp) (i : ExprInfo) (lt rt : Option TypeKind)
    (a : SemanticAnalyzer) (h : i.unplaced = true) :
    addsAtOrigin a (binaryResult op i lt rt a).2 := by
  unfold binaryResult
  cases op <;> dsimp only <;>
    first
      | exact addsAtOrigin_refl a
      | exact addsAtOrigin_ite a _ _ (unplaced_position i h)

theorem unaryResult_origin (op : UnOp) (i : ExprInfo) (t : Option TypeKind)
    (a : SemanticAnalyzer) (h : i.unplaced = true) :
    addsAtOrigin a (unaryResult op i t a).2 := by
  unfold unaryResult
  cases op <;> dsimp only <;>
    first
      | exact addsAtOrigin_refl a
      | exact addsAtOrigin_ite a _ _ (unplaced_position i h)

theorem binaryResult_position (op : BinOp) (i : ExprInfo) (lt rt : Option TypeKind)
    (a : SemanticAnalyzer) : (binaryResult op i lt rt a).1.unplaced = i.unplaced := by
  unfold binaryResult
  cases op <;> rfl

theorem unaryResult_position (op : UnOp) (i : ExprInfo) (t : Option TypeKind)
    (a : SemanticAnalyzer) : (unaryResult op i t a).1.unplaced = i.unplaced := by
  unfold unaryResult
  cases op <;> rfl

/-- The visit of an expression leaves the position of its node as it was. -/
theorem visitExpression_position (e : Expression) (a : SemanticAnalyzer) :
    (visitExpression e a).1.info.unplaced = e.info.unplaced := by
  cases e with
  | IntegerLiteral i v => simp only [visitExpression]
  | FloatLiteral i v => simp only [visitExpression]
  | StringLiteral i v => simp only [visitExpression]
  | BoolLiteral i v => simp only [visitExpression]
  | Identifier i name =>
    unfold visitExpression
    split <;> rfl
  | BinaryOp i op left right =>
    unfold visitExpression
    dsimp only
    split
    · rfl
    · exact binaryResult_position _ _ _ _ _
  | UnaryOp i op operand =>
    unfold visitExpression
    dsimp only
    split
    · rfl
    · exact unaryResult_position _ _ _ _
  | CallExpr i functionName arguments =>
    unfold visitExpression
    split
    · rfl
    · split <;> rfl

theorem unplaced_info (e : Expression) (h : e.unplaced = true) : e.info.unplaced = true := by
  cases e <;> simp only [Expression.unplaced, Bool.and_eq_true] at h <;>
    first
      | exact h
      | exact h.1
      | exact h.1.1

mutual
/-- The visit of an expression whose nodes all have line 0 and column 0 adds
structured errors with line 0 and column 0 only. -/
theorem visitExpression_origin :
    ∀ (e : Expression) (a : SemanticAnalyzer), e.unplaced = true →
      addsAtOrigin a (visitExpression e a).2
  | .IntegerLiteral _ _, a, _ => by simp only [visitExpression]; exact addsAtOrigin_refl a
  | .FloatLiteral _ _, a, _ => by simp only [visitExpression]; exact addsAtOrigin_refl a
  | .StringLiteral _ _, a, _ => by simp only [visitExpression]; exact addsAtOrigin_refl a
  | .BoolLiteral _ _, a, _ => by simp only [visitExpression]; exact addsAtOrigin_refl a
  | .Identifier i name, a, h => by
    have hi : i.line = 0 ∧ i.column = 0 := unplaced_position i h
    unfold visitExpression
    split
    · exact addsAtOrigin_push a _ hi
    · exact addsAtOrigin_ite a _ _ hi
  | .BinaryOp i op left right, a, h => by
    simp only [Expression.unplaced, Bool.and_eq_true] at h
    have h1 := visitExpression_origin left a h.1.2
    have h2 := visitExpression_origin right (visitExpression left a).2 h.2
    unfold visitExpression
    rcases hl : visitExpression left a with ⟨left1, a1⟩
    rw [hl] at h1 h2
    dsimp only at h1 h2 ⊢
    rcases hr : visitExpression right a1 with ⟨right1, a2⟩
    rw [hr] at h2
    dsimp only at h2 ⊢
    split
    · exact addsAtOrigin_trans h1 h2
    · exact addsAtOrigin_trans (addsAtOrigin_trans h1 h2) (binaryResult_origin _ _ _ _ _ h.1.1)
  | .UnaryOp i op operand, a, h => by
    simp only [Expression.unplaced, Bool.and_eq_true] at h
    have h1 := visitExpression_origin operand a h.2
    unfold visitExpression
    rcases ho : visitExpression operand a with ⟨operand1, a1⟩
    rw [ho] at h1
    dsimp only at h1 ⊢
    split
    · exact h1
    · exact addsAtOrigin_trans h1 (unaryResult_origin _ _ _ _ h.1)
  | .CallExpr i functionName arguments, a, h => by
    simp only [Expression.unplaced, Bool.and_eq_true] at h
    have hi : i.line = 0 ∧ i.column = 0 := unplaced_position i h.1
    unfold visitExpression
    split
    · exact addsAtOrigin_push a _ hi
    · next funcInfo hf =>
      split
      · exact addsAtOrigin_push a _ hi
      · have h1 := visitArguments_origin functionName funcInfo.paramTypes 0 arguments a h.2
        rcases hv : visitArguments functionName funcInfo.paramTypes 0 arguments a with
          ⟨arguments1, a1⟩
        rw [hv] at h1
        dsimp only at h1 ⊢
        refine addsAtOrigin_trans h1 ?_
        split <;> split <;>
          first
            | exact addsAtOrigin_refl _
            | exact addsAtOrigin_push _ _ hi
theorem visitArguments_origin (functionName : String) (paramTypes : List TypeKind) :
    ∀ (i : Nat) (arguments : List Expression) (a : SemanticAnalyzer),
      unplacedList arguments = true →
      addsAtOrigin a (visitArguments functionName paramTypes i arguments a).2
  | _, [], a, _ => by simp only [visitArguments]; exact addsAtOrigin_refl a
  | i, arg :: rest, a, h => by
    simp only [unplacedList, Bool.and_eq_true] at h
    have h1 := visitExpression_origin arg a h.1
    have hp := visitExpression_position arg a
    rw [unplaced_info arg h.1] at hp
    unfold visitArguments
    rcases ha : visitExpression arg a with ⟨arg1, a1⟩
    rw [ha] at h1 hp
    dsimp only at h1 hp ⊢
    have h3 := visitArguments_origin functionName paramTypes (i + 1) rest
      (if (arg1.type.isSome && !typesMatch (paramTypes.get? i) arg1.type) = true then
        a1.pushError (argumentTypeError functionName i (typeToString (paramTypes.get? i))
          (typeToString arg1.type) arg1.info)
      else a1) h.2
    exact addsAtOrigin_trans h1 (addsAtOrigin_trans
      (addsAtOrigin_ite a1 _ _ (unplaced_position _ hp)) h3)
end

end Hash

namespace Hash

/-- C38: every expression node of a program that `parse` returns has `line = 0`
and `column = 0`; the visit of such an expression adds structured errors with
line 0 and column 0 only; and on a source whose faulty expressions stand on the
lines 3 to 8, the errors for the undefined variable, the read of a `pure_local`,
the undefined function, the wrong number of arguments, the wrong argument type
and the non-boolean operand of `&&` all carry line 0 and column 0. -/
theorem C38_expression_nodes_carry_no_position :
    (∀ (fuel : Nat) (tokens : List Token) (junkIsNewline : Bool) (stodThrows : List String)
      (program : Program) (q : Parser),
      parse fuel tokens junkIsNewline stodThrows = some (program, q) →
      program.unplaced = true) ∧
    (∀ (e : Expression) (a : SemanticAnalyzer), e.unplaced = true →
      addsAtOrigin a (visitExpression e a).2) ∧
    (∀ junkIsNewline : Bool,
      structuredPositions 100 junkIsNewline
        ("let pure_local g: i32 = 1\nfn main() -> i32:\n    let a: i32 = zz\n" ++
         "    let c: i32 = g\n    foo(1)\n    print_i32(1, 2)\n    print_i32(true)\n" ++
         "    let b: bool = 1 && 2\n    return 0\n") =
      some [("Undefined variable 'zz'", 0, 0),
            ("Cannot access pure_local variable 'g' in non-pure function", 0, 0),
            ("Undefined function 'foo'", 0, 0),
            ("Function 'print_i32' expects 1 arguments, got 2", 0, 0),
            ("Argument 1 type mismatch in call to 'print_i32': expected i32, got bool", 0, 0),
            ("Logical operators require boolean operands", 0, 0)]) := by
  refine ⟨parse_unplaced, visitExpression_origin, ?_⟩
  intro junkIsNewline
  cases junkIsNewline <;> decide!

end Hash

/-! ## Theorems about the scopes of variables -/

namespace Hash

theorem walk_ite (W : Walk) (a x y : SemanticAnalyzer) (c : Prop) [Decidable c]
    (hx : W.R a x) (hy : W.R a y) : W.R a (if c then x else y) := by
  split
  · exact hx
  · exact hy

theorem walk_suggest (W : Walk) (a : SemanticAnalyzer) (s : String) : W.R a (a.suggest s) :=
  W.frame a _ ⟨rfl, rfl, rfl, rfl, rfl, rfl, rfl⟩

theorem walk_failure (W : Walk) (a : SemanticAnalyzer) (m s : String) (l c : Int) :
    W.R a ((a.error m l c).suggest s) :=
  W.trans _ _ _ (W.error a m l c) (walk_suggest W _ s)

theorem walk_step (W : Walk) (a x : SemanticAnalyzer) (h : W.R a x) (c : Prop) [Decidable c]
    (m s : String) (l col : Int) : W.R a (if c then (x.error m l col).suggest s else x) :=
  walk_ite W a _ _ c (W.trans _ _ _ h (walk_failure W x m s l col)) h

theorem walk_expression (W : Walk) (e : Expression) (a : SemanticAnalyzer) :
    W.R a (visitExpression e a).2 :=
  W.frame a _ (visitExpression_frame e a)

theorem walk_assignmentChecks (W : Walk) (a : SemanticAnalyzer) (symbol : Symbol)
    (name : String) (line column : Int) : W.R a (assignmentChecks a symbol name line column) := by
  unfold assignmentChecks
  exact walk_step W a _ (walk_step W a a (W.refl a) _ _ _ _ _) _ _ _ _ _

theorem walk_variableDecl (W : Walk) (node : VariableDecl) (a : SemanticAnalyzer) :
    W.R a (visitVariableDecl node a).2 := by
  unfold visitVariableDecl
  split
  · exact W.error a _ _ _
  · split
    · exact W.declare a _ _
    · next initializer _ =>
      have h1 := walk_expression W initializer a
      rcases hv : visitExpression initializer a with ⟨init1, a1⟩
      rw [hv] at h1
      dsimp only at h1 ⊢
      exact W.trans _ _ _ (walk_step W a a1 h1 _ _ _ _ _) (W.declare _ _ _)

mutual
/-- The visit of a statement respects every relation that its steps respect. -/
theorem walk_statement (W : Walk) :
    ∀ (st : Statement) (a : SemanticAnalyzer), W.R a (visitStatement st a).2
  | .VariableDecl decl, a => by
    have := walk_variableDecl W decl a
    unfold visitStatement
    rcases hv : visitVariableDecl decl a with ⟨decl1, a1⟩
    rw [hv] at this
    exact this
  | .Assignment line column name value, a => by
    unfold visitStatement
    split
    · exact walk_failure W a _ _ _ _
    · next symbol _ =>
      have h0 := walk_assignmentChecks W a symbol name line column
      have h1 := walk_expression W value (assignmentChecks a symbol name line column)
      rcases hv : visitExpression value (assignmentChecks a symbol name line column) with
        ⟨value1, a1⟩
      rw [hv] at h1
      dsimp only at h1 ⊢
      refine W.trans _ _ _ ?_ (W.modified _ _)
      refine W.trans _ _ _ ?_ (W.touched _ true _)
      exact walk_step W a a1 (W.trans _ _ _ h0 h1) _ _ _ _ _
  | .ReturnStmt line column value, a => by
    unfold visitStatement
    split
    · exact walk_failure W a _ _ _ _
    · next cf _ =>
      split
      · next v =>
        have h1 := walk_expression W v a
        rcases hv : visitExpression v a with ⟨value1, a1⟩
        rw [hv] at h1
        dsimp only at h1 ⊢
        exact walk_step W a a1 h1 _ _ _ _ _
      · exact walk_step W a a (W.refl a) _ _ _ _ _
  | .IfStmt line column condition thenBody elseBody, a => by
    have h1 := walk_expression W condition a
    unfold visitStatement
    rcases hv : visitExpression condition a with ⟨condition1, a1⟩
    rw [hv] at h1
    dsimp only at h1 ⊢
    have hw : W.R a1 (if condition1.type.isSome && condition1.type ≠ some .BOOL then
        a1.warning "If condition should be of type bool" (-1) (-1) else a1) :=
      walk_ite W a1 _ _ _ (W.warning a1 _ _ _) (W.refl a1)
    have h2 := walk_statements W thenBody (if condition1.type.isSome &&
      condition1.type ≠ some .BOOL then
        a1.warning "If condition should be of type bool" (-1) (-1) else a1)
    rcases ht : visitStatements thenBody (if condition1.type.isSome &&
      condition1.type ≠ some .BOOL then
        a1.warning "If condition should be of type bool" (-1) (-1) else a1) with ⟨then1, a3⟩
    rw [ht] at h2
    dsimp only at h2 ⊢
    have h3 := walk_statements W elseBody a3
    rcases he : visitStatements elseBody a3 with ⟨else1, a4⟩
    rw [he] at h3
    dsimp only at h3 ⊢
    exact W.trans _ _ _ (W.trans _ _ _ (W.trans _ _ _ h1 hw) h2) h3
  | .WhileStmt line column condition body, a => by
    have h1 := walk_expression W condition a
    unfold visitStatement
    rcases hv : visitExpression condition a with ⟨condition1, a1⟩
    rw [hv] at h1
    dsimp only at h1 ⊢
    have hw : W.R a1 (if condition1.type.isSome && condition1.type ≠ some .BOOL then
        a1.warning "While condition should be of type bool" (-1) (-1) else a1) :=
      walk_ite W a1 _ _ _ (W.warning a1 _ _ _) (W.refl a1)
    have h2 := walk_statements W body (if condition1.type.isSome &&
      condition1.type ≠ some .BOOL then
        a1.warning "While condition should be of type bool" (-1) (-1) else a1)
    rcases ht : visitStatements body (if condition1.type.isSome &&
      condition1.type ≠ some .BOOL then
        a1.warning "While condition should be of type bool" (-1) (-1) else a1) with ⟨body1, a3⟩
    rw [ht] at h2
    dsimp only at h2 ⊢
    exact W.trans _ _ _ (W.trans _ _ _ h1 hw) h2
  | .ExprStmt line column expression, a => by
    have h1 := walk_expression W expression a
    unfold visitStatement
    rcases hv : visitExpression expression a with ⟨expression1, a1⟩
    rw [hv] at h1
    exact h1
theorem walk_statements (W : Walk) :
    ∀ (sts : List Statement) (a : SemanticAnalyzer), W.R a (visitStatements sts a).2
  | [], a => by simp only [visitStatements]; exact W.refl a
  | st :: rest, a => by
    have h1 := walk_statement W st a
    unfold visitStatements
    rcases hv : visitStatement st a with ⟨st1, a1⟩
    rw [hv] at h1
    dsimp only at h1 ⊢
    have h2 := walk_statements W rest a1
    rcases hr : visitStatements rest a1 with ⟨rest1, a2⟩
    rw [hr] at h2
    exact W.trans _ _ _ h1 h2
end

end Hash

namespace Hash

theorem declared_declareVariable (a : SemanticAnalyzer) (name : String) (symbol : Symbol) :
    (a.declareVariable name symbol).declaredInCurrentScope name = true := by
  unfold SemanticAnalyzer.declareVariable
  cases hs : a.scopes with
  | nil => simp [SemanticAnalyzer.declaredInCurrentScope, mapFind]
  | cons top rest => simp [SemanticAnalyzer.declaredInCurrentScope, mapFind_mapInsert_same]

theorem declared_lookup (a : SemanticAnalyzer) (name : String)
    (h : a.declaredInCurrentScope name = true) : (a.lookupVariable name).isSome = true := by
  unfold SemanticAnalyzer.declaredInCurrentScope at h
  unfold SemanticAnalyzer.lookupVariable
  cases hs : a.scopes with
  | nil => rw [hs] at h; cases h
  | cons top rest =>
    rw [hs] at h
    dsimp only at h
    unfold SemanticAnalyzer.lookupIn
    cases hf : mapFind name top with
    | none => rw [hf] at h; cases h
    | some symbol => rfl

theorem visitVariableDecl_declared (node : VariableDecl) (a : SemanticAnalyzer) :
    (visitVariableDecl node a).2.declaredInCurrentScope node.name = true := by
  by_cases h : a.declaredInCurrentScope node.name = true
  · rw [visitVariableDecl_redeclared node a h]
    exact h
  · unfold visitVariableDecl
    rw [if_neg h]
    split
    · exact declared_declareVariable _ _ _
    · exact declared_declareVariable _ _ _

theorem visitStatement_grows (st : Statement) (a : SemanticAnalyzer) :
    Grows a (visitStatement st a).2 :=
  walk_statement growsWalk st a

theorem visitStatements_grows (sts : List Statement) (a : SemanticAnalyzer) :
    Grows a (visitStatements sts a).2 :=
  walk_statements growsWalk sts a

theorem visitExpression_grows (e : Expression) (a : SemanticAnalyzer) :
    Grows a (visitExpression e a).2 :=
  walk_expression growsWalk e a

theorem grows_warning (a : SemanticAnalyzer) (c : Prop) [Decidable c] (m : String)
    (l col : Int) : Grows a (if c then a.warning m l col else a) :=
  walk_ite growsWalk a _ _ c (growsWalk.warning a m l col) (growsWalk.refl a)

theorem prefix_warning (a : SemanticAnalyzer) (c : Prop) [Decidable c] (m : String)
    (l col : Int) : (if c then a.warning m l col else a).errors = a.errors := by
  split <;> rfl

mutual
/-- After the visit of a statement that is or contains a `let` of `name`, the
name is declared in the innermost scope. -/
theorem visitStatement_declares (name : String) :
    ∀ (st : Statement) (a : SemanticAnalyzer), st.declares name = true →
      (visitStatement st a).2.declaredInCurrentScope name = true
  | .VariableDecl decl, a, h => by
    simp only [Statement.declares, decide_eq_true_eq] at h
    have hd := visitVariableDecl_declared decl a
    rw [h] at hd
    unfold visitStatement
    rcases hv : visitVariableDecl decl a with ⟨decl1, a1⟩
    rw [hv] at hd
    exact hd
  | .Assignment _ _ _ _, _, h => by simp [Statement.declares] at h
  | .ReturnStmt _ _ _, _, h => by simp [Statement.declares] at h
  | .ExprStmt _ _ _, _, h => by simp [Statement.declares] at h
  | .IfStmt line column condition thenBody elseBody, a, h => by
    simp only [Statement.declares, Bool.or_eq_true] at h
    unfold visitStatement
    rcases hv : visitExpression condition a with ⟨condition1, a1⟩
    dsimp only
    have h2 := visitStatements_declares name thenBody (if condition1.type.isSome &&
      condition1.type ≠ some .BOOL then
        a1.warning "If condition should be of type bool" (-1) (-1) else a1)
    rcases ht : visitStatements thenBody (if condition1.type.isSome &&
      condition1.type ≠ some .BOOL then
        a1.warning "If condition should be of type bool" (-1) (-1) else a1) with ⟨then1, a3⟩
    rw [ht] at h2
    dsimp only at h2 ⊢
    have h3 := visitStatements_declares name elseBody a3
    have hg := visitStatements_grows elseBody a3
    rcases he : visitStatements elseBody a3 with ⟨else1, a4⟩
    rw [he] at h3 hg
    dsimp only at h3 hg ⊢
    rcases h with h | h
    · exact hg.2.2 name (h2 h)
    · exact h3 h
  | .WhileStmt line column condition body, a, h => by
    simp only [Statement.declares] at h
    unfold visitStatement
    rcases hv : visitExpression condition a with ⟨condition1, a1⟩
    dsimp only
    have h2 := visitStatements_declares name body (if condition1.type.isSome &&
      condition1.type ≠ some .BOOL then
        a1.warning "While condition should be of type bool" (-1) (-1) else a1)
    rcases ht : visitStatements body (if condition1.type.isSome &&
      condition1.type ≠ some .BOOL then
        a1.warning "While condition should be of type bool" (-1) (-1) else a1) with ⟨body1, a3⟩
    rw [ht] at h2
    exact h2 h
theorem visitStatements_declares (name : String) :
    ∀ (sts : List Statement) (a : SemanticAnalyzer), declaresAny name sts = true →
      (visitStatements sts a).2.declaredInCurrentScope name = true
  | [], _, h => by simp [declaresAny] at h
  | st :: rest, a, h => by
    simp only [declaresAny, Bool.or_eq_true] at h
    have h1 := visitStatement_declares name st a
    unfold visitStatements
    rcases hv : visitStatement st a with ⟨st1, a1⟩
    rw [hv] at h1
    dsimp only at h1 ⊢
    have h2 := visitStatements_declares name rest a1
    have hg := visitStatements_grows rest a1
    rcases hr : visitStatements rest a1 with ⟨rest1, a2⟩
    rw [hr] at h2 hg
    dsimp only at h2 hg ⊢
    rcases h with h | h
    · exact hg.2.2 name (h1 h)
    · exact h2 h
end

theorem visitStatement_prefix (st : Statement) (a : SemanticAnalyzer) :
    a.errors <+: (visitStatement st a).2.errors :=
  walk_statement errorsWalk st a

theorem visitStatements_prefix (sts : List Statement) (a : SemanticAnalyzer) :
    a.errors <+: (visitStatements sts a).2.errors :=
  walk_statements errorsWalk sts a

mutual
/-- The visit of a statement that is or contains a `let` of a name that the
innermost scope has already records the error of a second declaration. -/
theorem visitStatement_redeclares (name : String) :
    ∀ (st : Statement) (a : SemanticAnalyzer), a.declaredInCurrentScope name = true →
      st.declares name = true →
      ∃ line column : Int, redeclarationText name line column ∈ (visitStatement st a).2.errors
  | .VariableDecl decl, a, hd, h => by
    simp only [Statement.declares, decide_eq_true_eq] at h
    have hr := visitVariableDecl_redeclared decl a (by rw [h]; exact hd)
    unfold visitStatement
    rcases hv : visitVariableDecl decl a with ⟨decl1, a1⟩
    rw [hv] at hr
    dsimp only at hr ⊢
    refine ⟨decl.line, decl.column, ?_⟩
    rw [hr, ← h]
    exact List.mem_append_right _ (List.mem_singleton.mpr rfl)
  | .Assignment _ _ _ _, _, _, h => by simp [Statement.declares] at h
  | .ReturnStmt _ _ _, _, _, h => by simp [Statement.declares] at h
  | .ExprStmt _ _ _, _, _, h => by simp [Statement.declares] at h
  | .IfStmt line column condition thenBody elseBody, a, hd, h => by
    simp only [Statement.declares, Bool.or_eq_true] at h
    have hg1 := visitExpression_grows condition a
    unfold visitStatement
    rcases hv : visitExpression condition a with ⟨condition1, a1⟩
    rw [hv] at hg1
    dsimp only at hg1 ⊢
    have hd2 := (grows_warning a1 (condition1.type.isSome && condition1.type ≠ some .BOOL)
      "If condition should be of type bool" (-1) (-1)).2.2 name (hg1.2.2 name hd)
    have h2 := visitStatements_redeclares name thenBody (if condition1.type.isSome &&
      condition1.type ≠ some .BOOL then
        a1.warning "If condition should be of type bool" (-1) (-1) else a1) hd2
    have hg2 := visitStatements_grows thenBody (if condition1.type.isSome &&
      condition1.type ≠ some .BOOL then
        a1.warning "If condition should be of type bool" (-1) (-1) else a1)
    rcases ht : visitStatements thenBody (if condition1.type.isSome &&
      condition1.type ≠ some .BOOL then
        a1.warning "If condition should be of type bool" (-1) (-1) else a1) with ⟨then1, a3⟩
    rw [ht] at h2 hg2
    dsimp only at h2 hg2 ⊢
    have h3 := visitStatements_redeclares name elseBody a3 (hg2.2.2 name hd2)
    have hp := visitStatements_prefix elseBody a3
    rcases he : visitStatements elseBody a3 with ⟨else1, a4⟩
    rw [he] at h3 hp
    dsimp only at h3 hp ⊢
    rcases h with h | h
    · obtain ⟨l, c, hm⟩ := h2 h
      exact ⟨l, c, hp.subset hm⟩
    · exact h3 h
  | .WhileStmt line column condition body, a, hd, h => by
    simp only [Statement.declares] at h
    have hg1 := visitExpression_grows condition a
    unfold visitStatement
    rcases hv : visitExpression condition a with ⟨condition1, a1⟩
    rw [hv] at hg1
    dsimp only at hg1 ⊢
    have hd2 := (grows_warning a1 (condition1.type.isSome && condition1.type ≠ some .BOOL)
      "While condition should be of type bool" (-1) (-1)).2.2 name (hg1.2.2 name hd)
    have h2 := visitStatements_redeclares name body (if condition1.type.isSome &&
      condition1.type ≠ some .BOOL then
        a1.warning "While condition should be of type bool" (-1) (-1) else a1) hd2
    rcases ht : visitStatements body (if condition1.type.isSome &&
      condition1.type ≠ some .BOOL then
        a1.warning "While condition should be of type bool" (-1) (-1) else a1) with ⟨body1, a3⟩
    rw [ht] at h2
    exact h2 h
theorem visitStatements_redeclares (name : String) :
    ∀ (sts : List Statement) (a : SemanticAnalyzer), a.declaredInCurrentScope name = true →
      declaresAny name sts = true →
      ∃ line column : Int, redeclarationText name line column ∈ (visitStatements sts a).2.errors
  | [], _, _, h => by simp [declaresAny] at h
  | st :: rest, a, hd, h => by
    simp only [declaresAny, Bool.or_eq_true] at h
    have h1 := visitStatement_redeclares name st a hd
    have hg := visitStatement_grows st a
    unfold visitStatements
    rcases hv : visitStatement st a with ⟨st1, a1⟩
    rw [hv] at h1 hg
    dsimp only at h1 hg ⊢
    have h2 := visitStatements_redeclares name rest a1 (hg.2.2 name hd)
    have hp := visitStatements_prefix rest a1
    rcases hr : visitStatements rest a1 with ⟨rest1, a2⟩
    rw [hr] at h2 hp
    dsimp only at h2 hp ⊢
    rcases h with h | h
    · obtain ⟨l, c, hm⟩ := h1 h
      exact ⟨l, c, hp.subset hm⟩
    · exact h2 h
end

theorem declareParameters_grows : ∀ (parameters : List Parameter) (a : SemanticAnalyzer),
    Grows a (declareParameters parameters a)
  | [], a => growsWalk.refl a
  | param :: rest, a => by
    unfold declareParameters
    exact growsWalk.trans _ _ _ (growsWalk.declare a _ _) (declareParameters_grows rest _)

/-- The scope stack in the body of a function: one scope on top of the scopes
outside the function, from the first statement to the last. -/
theorem body_scopes (node : FunctionDecl) (sts : List Statement) (a : SemanticAnalyzer) :
    (visitStatements sts (enterFunction node a)).2.scopes.tail = a.scopes ∧
    (visitStatements sts (enterFunction node a)).2.scopes ≠ [] := by
  have h1 := declareParameters_grows node.parameters
    (SemanticAnalyzer.pushScope
      { a with functions := touchFunction node.name a.functions,
               currentFunction := some node.name,
               currentFunctionHasSideEffects := false,
               modifiedVariables := [] })
  have h2 := visitStatements_grows sts (enterFunction node a)
  have h3 := growsWalk.trans _ _ _ h1 h2
  exact ⟨h3.1, h3.2.1 (by simp [SemanticAnalyzer.pushScope])⟩

theorem visitFunctionDecl_scopes (node : FunctionDecl) (a : SemanticAnalyzer) :
    (visitFunctionDecl node a).2.scopes = a.scopes := by
  have h := (body_scopes node node.body a).1
  unfold visitFunctionDecl
  rcases hv : visitStatements node.body (enterFunction node a) with ⟨body1, a1⟩
  rw [hv] at h
  dsimp only at h ⊢
  unfold leaveFunction SemanticAnalyzer.popScope
  dsimp only
  rw [← h]
  split <;> rfl

theorem visitStatements_snoc (sts : List Statement) (st : Statement) (a : SemanticAnalyzer) :
    (visitStatements (sts ++ [st]) a).2 = (visitStatement st (visitStatements sts a).2).2 := by
  induction sts generalizing a with
  | nil =>
    simp only [List.nil_append, visitStatements]
  | cons x rest ih =>
    simp only [List.cons_append, visitStatements]
    exact ih _

end Hash

namespace Hash

theorem declaresAny_snoc (name : String) (sts : List Statement) (st : Statement)
    (h : st.declares name = true) : declaresAny name (sts ++ [st]) = true := by
  induction sts with
  | nil => simp only [List.nil_append, declaresAny, h, Bool.true_or]
  | cons x rest ih =>
    show (x.declares name || declaresAny name (rest ++ [st])) = true
    rw [ih, Bool.or_true]

theorem let_stays_resolvable (name : String) (st : Statement) (later : List Statement)
    (a : SemanticAnalyzer) (h : st.declares name = true) :
    ((visitStatements later (visitStatement st a).2).2.lookupVariable name).isSome = true :=
  declared_lookup _ name
    ((visitStatements_grows later _).2.2 name (visitStatement_declares name st a h))

theorem second_let_reported (name : String) (first second : Statement)
    (between : List Statement) (a : SemanticAnalyzer) (h1 : first.declares name = true)
    (h2 : second.declares name = true) :
    ∃ line column : Int, redeclarationText name line column ∈
      (visitStatements (first :: (between ++ [second])) a).2.errors := by
  have hd := visitStatement_declares name first a h1
  have hr := visitStatements_redeclares name (between ++ [second]) (visitStatement first a).2 hd
    (declaresAny_snoc name between second h2)
  unfold visitStatements
  rcases hv : visitStatement first a with ⟨first1, a1⟩
  rw [hv] at hr
  dsimp only at hr ⊢
  rcases hs : visitStatements (between ++ [second]) a1 with ⟨rest1, a2⟩
  rw [hs] at hr
  exact hr

theorem let_without_initializer (node : VariableDecl) (a : SemanticAnalyzer)
    (hd : a.declaredInCurrentScope node.name = false) (hi : node.initializer = none) :
    (visitVariableDecl node a).2.errors = a.errors ∧
    (visitVariableDecl node a).2.lookupVariable node.name =
      some { name := node.name, type := node.varType, isMutable := node.isMutable,
             isPureLocal := node.isPureLocal, isParameter := false } := by
  refine ⟨?_, visitVariableDecl_declares node a hd⟩
  unfold visitVariableDecl
  rw [hd, hi]
  simp only [Bool.false_eq_true, if_false]
  unfold SemanticAnalyzer.declareVariable
  split <;> rfl

/-- C36: no statement pushes or pops a scope, so the body of a function is
analysed with one scope on top of the scopes outside the function, and the
function leaves the scope stack as it found it.  A `let` at any depth inside an
`if` or a `while` leaves its name resolvable in all the statements that follow;
a second `let` of the name at any depth in a later statement records the error
for a name already declared; a fresh function scope declares nothing, so a
`let` of the name of a global records no such error and the name then resolves
to the local.  The six sources show the same on the whole front end. -/
theorem C36_one_scope_per_function :
    (∀ (st : Statement) (a : SemanticAnalyzer), Grows a (visitStatement st a).2) ∧
    (∀ (node : FunctionDecl) (sts : List Statement) (a : SemanticAnalyzer),
      (visitStatements sts (enterFunction node a)).2.scopes.tail = a.scopes ∧
      (visitStatements sts (enterFunction node a)).2.scopes ≠ []) ∧
    (∀ (node : FunctionDecl) (a : SemanticAnalyzer),
      (visitFunctionDecl node a).2.scopes = a.scopes) ∧
    (∀ (name : String) (st : Statement) (later : List Statement) (a : SemanticAnalyzer),
      st.declares name = true →
      ((visitStatements later (visitStatement st a).2).2.lookupVariable name).isSome = true) ∧
    (∀ (name : String) (first second : Statement) (between : List Statement)
      (a : SemanticAnalyzer), first.declares name = true → second.declares name = true →
      ∃ line column : Int, redeclarationText name line column ∈
        (visitStatements (first :: (between ++ [second])) a).2.errors) ∧
    (∀ (a : SemanticAnalyzer) (name : String),
      a.pushScope.declaredInCurrentScope name = false) ∧
    (∀ (node : VariableDecl) (a : SemanticAnalyzer),
      a.declaredInCurrentScope node.name = false → node.initializer = none →
      (visitVariableDecl node a).2.errors = a.errors ∧
      (visitVariableDecl node a).2.lookupVariable node.name =
        some { name := node.name, type := node.varType, isMutable := node.isMutable,
               isPureLocal := node.isPureLocal, isParameter := false }) ∧
    compilesTo 100 "fn main() -> i32:\n    if true:\n        let x: i32 = 1\n    return x\n"
      { parseErrors := [], success := true, errors := [], structuredErrors := [],
        warnings := [], structuredWarnings := [] } ∧
    compilesTo 100 "fn main() -> i32:\n    while false:\n        let x: i32 = 1\n    return x\n"
      { parseErrors := [], success := true, errors := [], structuredErrors := [],
        warnings := [], structuredWarnings := [] } ∧
    compilesTo 100
      "fn main() -> i32:\n    if true:\n        let x: i32 = 1\n    let x: i32 = 2\n    return x\n"
      { parseErrors := [], success := false,
        errors := ["Error at line 4, column 9: Variable 'x' already declared in this scope"],
        structuredErrors := [ErrorInfo.mk3 "Variable 'x' already declared in this scope" 4 9],
        warnings := [], structuredWarnings := [] } ∧
    compilesTo 100
      ("fn main() -> i32:\n    if true:\n        let x: i32 = 1\n    else:\n" ++
       "        let x: i32 = 2\n    return 0\n")
      { parseErrors := [], success := false,
        errors := ["Error at line 5, column 13: Variable 'x' already declared in this scope"],
        structuredErrors := [ErrorInfo.mk3 "Variable 'x' already declared in this scope" 5 13],
        warnings := [], structuredWarnings := [] } ∧
    compilesTo 100
      ("fn main() -> i32:\n    let x: i32 = 1\n    while false:\n        let x: i32 = 2\n" ++
       "    return x\n")
      { parseErrors := [], success := false,
        errors := ["Error at line 4, column 13: Variable 'x' already declared in this scope"],
        structuredErrors := [ErrorInfo.mk3 "Variable 'x' already declared in this scope" 4 13],
        warnings := [], structuredWarnings := [] } ∧
    compilesTo 100 "let x: i32 = 1\nfn main() -> i32:\n    let x: bool = true\n    return 0\n"
      { parseErrors := [], success := true, errors := [], structuredErrors := [],
        warnings := [], structuredWarnings := [] } := by
  refine ⟨visitStatement_grows, body_scopes, visitFunctionDecl_scopes, let_stays_resolvable,
    second_let_reported, fun _ _ => rfl, let_without_initializer, ?_, ?_, ?_, ?_, ?_, ?_⟩ <;>
    decide!

end Hash

/-! ## Theorems about the order of functions and purity -/

namespace Hash

mutual
/-- The visit of an expression with a reached call of a function whose
`hasSideEffects` is set sets the side-effect flag. -/
theorem visitExpression_invokes (name : String) (info : FunctionInfo)
    (hs : info.hasSideEffects = true) :
    ∀ (e : Expression) (a : SemanticAnalyzer), mapFind name a.functions = some info →
      e.invokes (arityOf a.functions) name = true →
      (visitExpression e a).2.currentFunctionHasSideEffects = true
  | .IntegerLiteral _ _, _, _, h => by simp [Expression.invokes] at h
  | .FloatLiteral _ _, _, _, h => by simp [Expression.invokes] at h
  | .StringLiteral _ _, _, _, h => by simp [Expression.invokes] at h
  | .BoolLiteral _ _, _, _, h => by simp [Expression.invokes] at h
  | .Identifier _ _, _, _, h => by simp [Expression.invokes] at h
  | .BinaryOp i op left right, a, hi, h => by
    simp only [Expression.invokes, Bool.or_eq_true] at h
    have f1 := (visitExpression_frame left a).2.1
    have m2 := visitExpression_mono right (visitExpression left a).2
    have h1 := visitExpression_invokes name info hs left a hi
    have h2 := visitExpression_invokes name info hs right (visitExpression left a).2
    unfold visitExpression
    rcases hl : visitExpression left a with ⟨left1, a1⟩
    rw [hl] at f1 m2 h1 h2
    dsimp only at f1 m2 h1 h2 ⊢
    have hflag : (visitExpression right a1).2.currentFunctionHasSideEffects = true := by
      rcases h with h | h
      · exact m2 (h1 h)
      · exact h2 (by rw [f1]; exact hi) (by rw [f1]; exact h)
    rcases hr : visitExpression right a1 with ⟨right1, a2⟩
    rw [hr] at hflag
    dsimp only at hflag ⊢
    split
    · exact hflag
    · rw [binaryResult_flag]; exact hflag
  | .UnaryOp i op operand, a, hi, h => by
    simp only [Expression.invokes] at h
    have h1 := visitExpression_invokes name info hs operand a hi h
    unfold visitExpression
    rcases ho : visitExpression operand a with ⟨operand1, a1⟩
    rw [ho] at h1
    dsimp only at h1 ⊢
    split
    · exact h1
    · rw [unaryResult_flag]; exact h1
  | .CallExpr i functionName arguments, a, hi, h => by
    simp only [Expression.invokes, arityOf] at h
    cases hf : mapFind functionName a.functions with
    | none => rw [hf] at h; simp at h
    | some funcInfo =>
      rw [hf] at h
      simp only [Option.map_some', Bool.and_eq_true, Bool.or_eq_true, decide_eq_true_eq] at h
      obtain ⟨hlen, hcase⟩ := h
      have hargs := visitArguments_invokes name info hs functionName funcInfo.paramTypes 0
        arguments a hi
      unfold visitExpression
      have hl : a.lookupFunction functionName = some funcInfo := hf
      rw [hl]
      dsimp only
      rw [if_neg (by rw [hlen]; exact fun hne => hne rfl)]
      rcases hv : visitArguments functionName funcInfo.paramTypes 0 arguments a with
        ⟨arguments1, a1⟩
      rw [hv] at hargs
      dsimp only at hargs ⊢
      split
      · rfl
      · next hc =>
        rcases hcase with hname | hinv
        · rw [hname, hi] at hf
          cases hf
          exact absurd hs hc
        · rw [flag_ite_pushError]
          exact hargs hinv
theorem visitArguments_invokes (name : String) (info : FunctionInfo)
    (hs : info.hasSideEffects = true) (functionName : String) (paramTypes : List TypeKind) :
    ∀ (i : Nat) (arguments : List Expression) (a : SemanticAnalyzer),
      mapFind name a.functions = some info →
      invokesList (arityOf a.functions) name arguments = true →
      (visitArguments functionName paramTypes i arguments a).2.currentFunctionHasSideEffects =
        true
  | _, [], _, _, h => by simp [invokesList] at h
  | i, arg :: rest, a, hi, h => by
    simp only [invokesList, Bool.or_eq_true] at h
    have f1 := (visitExpression_frame arg a).2.1
    have h1 := visitExpression_invokes name info hs arg a hi
    unfold visitArguments
    rcases ha : visitExpression arg a with ⟨arg1, a1⟩
    rw [ha] at f1 h1
    dsimp only at f1 h1 ⊢
    have m2 := visitArguments_mono functionName paramTypes (i + 1) rest
      (if arg1.type.isSome && !typesMatch (paramTypes.get? i) arg1.type then
        a1.pushError (argumentTypeError functionName i (typeToString (paramTypes.get? i))
          (typeToString arg1.type) arg1.info)
      else a1)
    have h2 := visitArguments_invokes name info hs functionName paramTypes (i + 1) rest
      (if arg1.type.isSome && !typesMatch (paramTypes.get? i) arg1.type then
        a1.pushError (argumentTypeError functionName i (typeToString (paramTypes.get? i))
          (typeToString arg1.type) arg1.info)
      else a1)
    have f2 : (if arg1.type.isSome && !typesMatch (paramTypes.get? i) arg1.type then
        a1.pushError (argumentTypeError functionName i (typeToString (paramTypes.get? i))
          (typeToString arg1.type) arg1.info)
      else a1).functions = a.functions := by
      rw [← f1]
      split <;> rfl
    rcases hr : visitArguments functionName paramTypes (i + 1) rest
      (if arg1.type.isSome && !typesMatch (paramTypes.get? i) arg1.type then
        a1.pushError (argumentTypeError functionName i (typeToString (paramTypes.get? i))
          (typeToString arg1.type) arg1.info)
      else a1) with ⟨rest1, a3⟩
    rw [hr] at m2 h2
    dsimp only at m2 h2 ⊢
    rcases h with h | h
    · exact m2 (by rw [flag_ite_pushError]; exact h1 h)
    · exact h2 (by rw [f2]; exact hi) (by rw [f2]; exact h)
end

theorem keeps_current {a b : SemanticAnalyzer} (h : a.Keeps b) : b.current = a.current := by
  unfold SemanticAnalyzer.current
  rw [h.1, h.2.1]

mutual
/-- The visit of a statement with a reached call of a function whose
`hasSideEffects` is set sets the side-effect flag. -/
theorem visitStatement_invokes (name : String) (info : FunctionInfo)
    (hs : info.hasSideEffects = true) :
    ∀ (st : Statement) (a : SemanticAnalyzer), mapFind name a.functions = some info →
      a.current ≠ none → st.invokes (arityOf a.functions) name = true →
      (visitStatement st a).2.currentFunctionHasSideEffects = true
  | .VariableDecl _, _, _, _, h => by simp [Statement.invokes] at h
  | .Assignment _ _ _ _, _, _, _, h => by simp [Statement.invokes] at h
  | .ReturnStmt _ _ none, _, _, _, h => by simp [Statement.invokes] at h
  | .ReturnStmt line column (some v), a, hi, hc, h => by
    simp only [Statement.invokes] at h
    have h1 := visitExpression_invokes name info hs v a hi h
    unfold visitStatement
    split
    · next hn => exact absurd hn hc
    · rw [flag_ite_failure]
      exact h1
  | .IfStmt line column condition thenBody elseBody, a, hi, hc, h => by
    simp only [Statement.invokes, Bool.or_eq_true] at h
    have h1 := visitExpression_invokes name info hs condition a hi
    have k1 := visitExpression_keeps condition a
    unfold visitStatement
    rcases hv : visitExpression condition a with ⟨condition1, a1⟩
    rw [hv] at h1 k1
    dsimp only at h1 k1 ⊢
    have kw : a1.Keeps (if condition1.type.isSome && condition1.type ≠ some .BOOL then
        a1.warning "If condition should be of type bool" (-1) (-1) else a1) :=
      SemanticAnalyzer.Keeps.keepsIte a1 _ _ _ (SemanticAnalyzer.Keeps.warning a1 _ _ _)
        (SemanticAnalyzer.Keeps.keepsRefl a1)
    have k2 := k1.keepsTrans kw
    have h2 := visitStatements_invokes name info hs thenBody (if condition1.type.isSome &&
      condition1.type ≠ some .BOOL then
        a1.warning "If condition should be of type bool" (-1) (-1) else a1)
      (by rw [k2.1]; exact hi) (by rw [keeps_current k2]; exact hc)
    have k3 := visitStatements_keeps thenBody (if condition1.type.isSome &&
      condition1.type ≠ some .BOOL then
        a1.warning "If condition should be of type bool" (-1) (-1) else a1)
    rcases ht : visitStatements thenBody (if condition1.type.isSome &&
      condition1.type ≠ some .BOOL then
        a1.warning "If condition should be of type bool" (-1) (-1) else a1) with ⟨then1, a3⟩
    rw [ht] at h2 k3
    dsimp only at h2 k3 ⊢
    have k4 := k2.keepsTrans k3
    have h3 := visitStatements_invokes name info hs elseBody a3
      (by rw [k4.1]; exact hi) (by rw [keeps_current k4]; exact hc)
    have k5 := visitStatements_keeps elseBody a3
    rcases he : visitStatements elseBody a3 with ⟨else1, a4⟩
    rw [he] at h3 k5
    dsimp only at h3 k5 ⊢
    rcases h with (h | h) | h
    · exact k5.2.2 (k3.2.2 (kw.2.2 (h1 h)))
    · exact k5.2.2 (h2 (by rw [k2.1]; exact h))
    · exact h3 (by rw [k4.1]; exact h)
  | .WhileStmt line column condition body, a, hi, hc, h => by
    simp only [Statement.invokes, Bool.or_eq_true] at h
    have h1 := visitExpression_invokes name info hs condition a hi
    have k1 := visitExpression_keeps condition a
    unfold visitStatement
    rcases hv : visitExpression condition a with ⟨condition1, a1⟩
    rw [hv] at h1 k1
    dsimp only at h1 k1 ⊢
    have kw : a1.Keeps (if condition1.type.isSome && condition1.type ≠ some .BOOL then
        a1.warning "While condition should be of type bool" (-1) (-1) else a1) :=
      SemanticAnalyzer.Keeps.keepsIte a1 _ _ _ (SemanticAnalyzer.Keeps.warning a1 _ _ _)
        (SemanticAnalyzer.Keeps.keepsRefl a1)
    have k2 := k1.keepsTrans kw
    have h2 := visitStatements_invokes name info hs body (if condition1.type.isSome &&
      condition1.type ≠ some .BOOL then
        a1.warning "While condition should be of type bool" (-1) (-1) else a1)
      (by rw [k2.1]; exact hi) (by rw [keeps_current k2]; exact hc)
    have k3 := visitStatements_keeps body (if condition1.type.isSome &&
      condition1.type ≠ some .BOOL then
        a1.warning "While condition should be of type bool" (-1) (-1) else a1)
    rcases ht : visitStatements body (if condition1.type.isSome &&
      condition1.type ≠ some .BOOL then
        a1.warning "While condition should be of type bool" (-1) (-1) else a1) with ⟨body1, a3⟩
    rw [ht] at h2 k3
    dsimp only at h2 k3 ⊢
    rcases h with h | h
    · exact k3.2.2 (kw.2.2 (h1 h))
    · exact h2 (by rw [k2.1]; exact h)
  | .ExprStmt line column expression, a, hi, _, h => by
    simp only [Statement.invokes] at h
    have h1 := visitExpression_invokes name info hs expression a hi h
    unfold visitStatement
    rcases hv : visitExpression expression a with ⟨expression1, a1⟩
    rw [hv] at h1
    exact h1
theorem visitStatements_invokes (name : String) (info : FunctionInfo)
    (hs : info.hasSideEffects = true) :
    ∀ (sts : List Statement) (a : SemanticAnalyzer), mapFind name a.functions = some info →
      a.current ≠ none → invokesAny (arityOf a.functions) name sts = true →
      (visitStatements sts a).2.currentFunctionHasSideEffects = true
  | [], _, _, _, h => by simp [invokesAny] at h
  | st :: rest, a, hi, hc, h => by
    simp only [invokesAny, Bool.or_eq_true] at h
    have h1 := visitStatement_invokes name info hs st a hi hc
    have k1 := visitStatement_keeps st a
    unfold visitStatements
    rcases hv : visitStatement st a with ⟨st1, a1⟩
    rw [hv] at h1 k1
    dsimp only at h1 k1 ⊢
    have h2 := visitStatements_invokes name info hs rest a1
      (by rw [k1.1]; exact hi) (by rw [keeps_current k1]; exact hc)
    have k2 := visitStatements_keeps rest a1
    rcases hr : visitStatements rest a1 with ⟨rest1, a2⟩
    rw [hr] at h2 k2
    dsimp only at h2 k2 ⊢
    rcases h with h | h
    · exact k2.2.2 (h1 h)
    · exact h2 (by rw [k1.1]; exact h)
end

end Hash

namespace Hash

mutual
theorem callsClean_of_cleanTable (fs : List (String × FunctionInfo)) (h : cleanTable fs) :
    ∀ e : Expression, e.callsClean fs = true
  | .IntegerLiteral _ _ => by simp only [Expression.callsClean]
  | .FloatLiteral _ _ => by simp only [Expression.callsClean]
  | .StringLiteral _ _ => by simp only [Expression.callsClean]
  | .BoolLiteral _ _ => by simp only [Expression.callsClean]
  | .Identifier _ _ => by simp only [Expression.callsClean]
  | .BinaryOp _ _ left right => by
    simp only [Expression.callsClean, callsClean_of_cleanTable fs h left,
      callsClean_of_cleanTable fs h right, Bool.and_self]
  | .UnaryOp _ _ operand => by
    simp only [Expression.callsClean, callsClean_of_cleanTable fs h operand]
  | .CallExpr _ functionName arguments => by
    simp only [Expression.callsClean, callsCleanList_of_cleanTable fs h arguments, Bool.and_true]
    cases hf : mapFind functionName fs with
    | none => rfl
    | some info => simp [h functionName info hf]
theorem callsCleanList_of_cleanTable (fs : List (String × FunctionInfo)) (h : cleanTable fs) :
    ∀ es : List Expression, callsCleanList fs es = true
  | [] => by simp only [callsCleanList]
  | e :: rest => by
    simp only [callsCleanList, callsClean_of_cleanTable fs h e,
      callsCleanList_of_cleanTable fs h rest, Bool.and_self]
end

mutual
theorem sideEffectFree_of_cleanTable (fs : List (String × FunctionInfo)) (h : cleanTable fs) :
    ∀ st : Statement, st.sideEffectFree [] = true → st.sideEffectFree fs = true
  | .VariableDecl decl, _ => by
    unfold Statement.sideEffectFree
    split
    · rfl
    · exact callsClean_of_cleanTable fs h _
  | .Assignment _ _ _ _, hs => by simp [Statement.sideEffectFree] at hs
  | .ReturnStmt _ _ none, _ => by simp only [Statement.sideEffectFree]
  | .ReturnStmt _ _ (some e), _ => by
    simp only [Statement.sideEffectFree, callsClean_of_cleanTable fs h e]
  | .IfStmt _ _ condition thenBody elseBody, hs => by
    simp only [Statement.sideEffectFree, Bool.and_eq_true] at hs
    simp only [Statement.sideEffectFree, callsClean_of_cleanTable fs h condition,
      sideEffectFreeList_of_cleanTable fs h thenBody hs.1.2,
      sideEffectFreeList_of_cleanTable fs h elseBody hs.2, Bool.and_self]
  | .WhileStmt _ _ condition body, hs => by
    simp only [Statement.sideEffectFree, Bool.and_eq_true] at hs
    simp only [Statement.sideEffectFree, callsClean_of_cleanTable fs h condition,
      sideEffectFreeList_of_cleanTable fs h body hs.2, Bool.and_self]
  | .ExprStmt _ _ e, _ => by
    simp only [Statement.sideEffectFree, callsClean_of_cleanTable fs h e]
theorem sideEffectFreeList_of_cleanTable (fs : List (String × FunctionInfo))
    (h : cleanTable fs) :
    ∀ sts : List Statement, sideEffectFreeList [] sts = true → sideEffectFreeList fs sts = true
  | [], _ => by simp only [sideEffectFreeList]
  | st :: rest, hs => by
    simp only [sideEffectFreeList, Bool.and_eq_true] at hs
    simp only [sideEffectFreeList, sideEffectFree_of_cleanTable fs h st hs.1,
      sideEffectFreeList_of_cleanTable fs h rest hs.2, Bool.and_self]
end

end Hash

namespace Hash

end Hash

namespace Hash

end Hash

/-! ## Theorems about the code generator -/

namespace Hash

theorem get?_updateAt_same {α : Type} (f : α → α) :
    ∀ (i : Nat) (l : List α), (updateAt f i l).get? i = (l.get? i).map f
  | _, [] => by simp [updateAt]
  | 0, x :: rest => by simp [updateAt]
  | i + 1, x :: rest => by
    simp only [updateAt, List.get?_cons_succ]
    exact get?_updateAt_same f i rest

theorem get?_updateAt_other {α : Type} (f : α → α) :
    ∀ (i j : Nat) (l : List α), i ≠ j → (updateAt f i l).get? j = l.get? j
  | _, _, [], _ => by simp [updateAt]
  | 0, 0, _ :: _, h => absurd rfl h
  | 0, j + 1, x :: rest, _ => by simp [updateAt]
  | i + 1, 0, x :: rest, _ => by simp [updateAt]
  | i + 1, j + 1, x :: rest, h => by
    simp only [updateAt, List.get?_cons_succ]
    exact get?_updateAt_other f i j rest (fun he => h (by rw [he]))

theorem length_updateAt {α : Type} (f : α → α) :
    ∀ (i : Nat) (l : List α), (updateAt f i l).length = l.length
  | _, [] => by simp [updateAt]
  | 0, x :: rest => by simp [updateAt]
  | i + 1, x :: rest => by
    simp only [updateAt, List.length_cons]
    rw [length_updateAt f i rest]

theorem findSymbol_get {α : Type} (symbol : α → Option String) (name : String) :
    ∀ (l : List α) (i k : Nat), findSymbol symbol name l i = some k →
      i ≤ k ∧ ∃ x, l.get? (k - i) = some x ∧ symbol x = some name
  | [], _, _, h => by simp [findSymbol] at h
  | x :: rest, i, k, h => by
    unfold findSymbol at h
    by_cases hx : symbol x = some name
    · rw [if_pos hx] at h
      cases h
      exact ⟨le_refl _, x, by simp, hx⟩
    · rw [if_neg hx] at h
      obtain ⟨hle, y, hy, hs⟩ := findSymbol_get symbol name rest (i + 1) k h
      refine ⟨by omega, y, ?_, hs⟩
      have : k - i = (k - (i + 1)) + 1 := by omega
      rw [this, List.get?_cons_succ]
      exact hy

/-- The global variable `getNamedGlobal` finds. -/
theorem getNamedGlobal_get (s : CodeGenerator) (name : String) (gVar : Nat)
    (h : s.getNamedGlobal name = some gVar) :
    ∃ g, s.moduleGlobals.get? gVar = some g ∧ g.symbol = some name := by
  obtain ⟨_, g, hg, hs⟩ := findSymbol_get GlobalVariable.symbol name s.moduleGlobals 0 gVar h
  exact ⟨g, hg, hs⟩

/-- What `emit` does to the insert block. -/
theorem emit_get (s : CodeGenerator) (inst : Instruction) (j : Nat) (b : Block)
    (hi : s.insertBlock = some j) (hb : s.blocks.get? j = some b) :
    (s.emit inst).blocks.get? j = some { b with instructions := b.instructions ++ [inst] } := by
  unfold CodeGenerator.emit
  rw [hi]
  dsimp only
  rw [get?_updateAt_same, hb]
  rfl

theorem emit_other (s : CodeGenerator) (inst : Instruction) (j k : Nat)
    (hi : s.insertBlock = some j) (hk : j ≠ k) :
    (s.emit inst).blocks.get? k = s.blocks.get? k := by
  unfold CodeGenerator.emit
  rw [hi]
  dsimp only
  exact get?_updateAt_other _ j k _ hk

/-- An assignment to a name that `namedValues` does not have changes nothing. -/
theorem assignment_unknown (s : CodeGenerator) (line column : Int) (name : String)
    (value : Expression) (h : mapFind name s.namedValues = none) :
    CodeGenerator.visitStatement (.Assignment line column name value) s = some s := by
  unfold CodeGenerator.visitStatement
  rw [h]

/-- An assignment to a name of `namedValues` stores the value in its slot. -/
theorem assignment_local (s s1 : CodeGenerator) (line column : Int) (name : String)
    (value : Expression) (slot : Slot) (v : Value)
    (h : mapFind name s.namedValues = some slot)
    (hv : CodeGenerator.visitExpression value s = some s1) (hc : s1.currentValue = some v) :
    CodeGenerator.visitStatement (.Assignment line column name value) s =
      some (s1.emit (.store v slot.pointer)) := by
  unfold CodeGenerator.visitStatement
  rw [h]
  dsimp only
  rw [hv]
  dsimp only
  rw [hc]
  rfl

/-- The read of a name that `namedValues` does not have and that is a global
variable of the module loads from the global. -/
theorem identifier_global (s : CodeGenerator) (i : ExprInfo) (name : String) (gVar : Nat)
    (h : mapFind name s.namedValues = none) (hg : s.getNamedGlobal name = some gVar) :
    ∃ g, s.moduleGlobals.get? gVar = some g ∧ g.symbol = some name ∧
      CodeGenerator.visitExpression (.Identifier i name) s =
        some (s.createLoad g.valueType (.global gVar) name) := by
  obtain ⟨g, hget, hs⟩ := getNamedGlobal_get s name gVar hg
  refine ⟨g, hget, hs, ?_⟩
  unfold CodeGenerator.visitExpression
  rw [h]
  dsimp only
  rw [hg]
  dsimp only
  rw [hget]

/-- What `CreateLoad` does: the load is the new last instruction of the insert
block and the value of the expression. -/
theorem createLoad_spec (s : CodeGenerator) (type : LType) (pointer : Value) (name : String)
    (j : Nat) (b : Block) (hi : s.insertBlock = some j) (hb : s.blocks.get? j = some b) :
    (s.createLoad type pointer name).blocks.get? j =
      some { b with instructions := b.instructions ++ [.load s.nextValue type pointer name] } ∧
    (s.createLoad type pointer name).currentValue = some (.register s.nextValue type) ∧
    ∀ k, j ≠ k → (s.createLoad type pointer name).blocks.get? k = s.blocks.get? k := by
  unfold CodeGenerator.createLoad
  exact ⟨emit_get s _ j b hi hb, rfl, fun k hk => emit_other s _ j k hi hk⟩

end Hash

namespace Hash

/-- C37: an assignment whose target is not in `namedValues`, the map of the
stack slots of the parameters and locals of the function, leaves the generator
as it is: no store, no instruction at all.  The read of such a name that is a
global variable of the module appends a load from the global to the insert
block.  An assignment whose target is in `namedValues`, with a value that is
not null, appends the store of the value to the slot.  In the first source the
function `bump` assigns to the global `counter` and returns it: its only block
is the load of `counter` and the return.  In the second source the assignments
to the local `x` and to the parameter `n` are stores to their slots. -/
theorem C37_assignment_to_global_emits_nothing :
    (∀ (s : CodeGenerator) (line column : Int) (name : String) (value : Expression),
      mapFind name s.namedValues = none →
      CodeGenerator.visitStatement (.Assignment line column name value) s = some s) ∧
    (∀ (s : CodeGenerator) (i : ExprInfo) (name : String) (gVar j : Nat) (b : Block),
      mapFind name s.namedValues = none → s.getNamedGlobal name = some gVar →
      s.insertBlock = some j → s.blocks.get? j = some b →
      ∃ (g : GlobalVariable) (s1 : CodeGenerator),
        s.moduleGlobals.get? gVar = some g ∧ g.symbol = some name ∧
        CodeGenerator.visitExpression (.Identifier i name) s = some s1 ∧
        s1.blocks.get? j = some { b with instructions := b.instructions ++
          [.load s.nextValue g.valueType (.global gVar) name] } ∧
        s1.currentValue = some (.register s.nextValue g.valueType)) ∧
    (∀ (s s1 : CodeGenerator) (line column : Int) (name : String) (value : Expression)
      (slot : Slot) (v : Value) (j : Nat) (b : Block),
      mapFind name s.namedValues = some slot →
      CodeGenerator.visitExpression value s = some s1 → s1.currentValue = some v →
      s1.insertBlock = some j → s1.blocks.get? j = some b →
      ∃ s2 : CodeGenerator,
        CodeGenerator.visitStatement (.Assignment line column name value) s = some s2 ∧
        s2.blocks.get? j = some { b with instructions := b.instructions ++
          [.store v slot.pointer] }) ∧
    (∀ junkIsNewline : Bool,
      Option.map (fun s => (s.moduleGlobals, s.listing 0))
        (generateText 100 junkIsNewline
          ("let mut counter: i32 = 0\nfn bump() -> i32:\n    counter = counter + 1\n" ++
           "    return counter\n")) =
      some ([{ symbol := some "counter", valueType := .i32,
               initializer := some (.constInt .i32 0) }],
            [("entry", [.load 0 .i32 (.global 0) "counter",
                        .ret (some (.register 0 .i32))])])) ∧
    (∀ junkIsNewline : Bool,
      Option.map (fun s => s.listing 0)
        (generateText 100 junkIsNewline
          ("fn bump(n: i32) -> i32:\n    let mut x: i32 = 0\n    x = n + 1\n    n = x\n" ++
           "    return n\n")) =
      some [("entry",
        [.alloca 1 .i32 "x", .alloca 0 .i32 "n",
         .store (.argument 0 0 .i32) (.register 0 .ptr),
         .store (.constInt .i32 0) (.register 1 .ptr),
         .load 2 .i32 (.register 0 .ptr) "n",
         .binary 3 .Add (.register 2 .i32) (.constInt .i32 1) "addtmp",
         .store (.register 3 .i32) (.register 1 .ptr),
         .load 4 .i32 (.register 1 .ptr) "x",
         .store (.register 4 .i32) (.register 0 .ptr),
         .load 5 .i32 (.register 0 .ptr) "n",
         .ret (some (.register 5 .i32))])]) := by
  refine ⟨assignment_unknown, ?_, ?_, ?_, ?_⟩
  · intro s i name gVar j b h hg hi hb
    obtain ⟨g, hget, hs, hv⟩ := identifier_global s i name gVar h hg
    obtain ⟨h1, h2, _⟩ := createLoad_spec s g.valueType (.global gVar) name j b hi hb
    exact ⟨g, _, hget, hs, hv, h1, h2⟩
  · intro s s1 line column name value slot v j b h hv hc hi hb
    exact ⟨_, assignment_local s s1 line column name value slot v h hv hc,
      emit_get s1 _ j b hi hb⟩
  · intro junkIsNewline
    cases junkIsNewline <;> decide!
  · intro junkIsNewline
    cases junkIsNewline <;> decide!

end Hash

namespace Hash

theorem updateAt_updateAt {α : Type} (f g : α → α) :
    ∀ (i : Nat) (l : List α), updateAt f i (updateAt g i l) = updateAt (fun x => f (g x)) i l
  | _, [] => by simp [updateAt]
  | 0, x :: rest => by simp [updateAt]
  | i + 1, x :: rest => by
    simp only [updateAt]
    rw [updateAt_updateAt f g i rest]

theorem updateAt_id {α : Type} (f : α → α) (hf : ∀ x, f x = x) :
    ∀ (i : Nat) (l : List α), updateAt f i l = l
  | _, [] => by simp [updateAt]
  | 0, x :: rest => by simp [updateAt, hf]
  | i + 1, x :: rest => by
    simp only [updateAt]
    rw [updateAt_id f hf i rest]

theorem appends_of_eq (s r : CodeGenerator) (h1 : r.insertBlock = s.insertBlock)
    (h2 : r.namedValues = s.namedValues) (h3 : r.currentFunction = s.currentFunction)
    (h4 : s.moduleFunctions <+: r.moduleFunctions) (h5 : r.blocks = s.blocks) :
    Appends s r := by
  refine ⟨h1, h2, h3, h4, [], (fun _ h => by cases h), ?_⟩
  rw [h5]
  cases s.insertBlock with
  | none => rfl
  | some j =>
    dsimp only
    rw [updateAt_id]
    intro b
    simp

theorem appends_refl (s : CodeGenerator) : Appends s s :=
  appends_of_eq s s rfl rfl rfl List.prefix_rfl rfl

theorem appends_trans {s r q : CodeGenerator} (h1 : Appends s r) (h2 : Appends r q) :
    Appends s q := by
  obtain ⟨hi1, hn1, hc1, hf1, a1, ha1, hb1⟩ := h1
  obtain ⟨hi2, hn2, hc2, hf2, a2, ha2, hb2⟩ := h2
  refine ⟨hi2.trans hi1, hn2.trans hn1, hc2.trans hc1, hf1.trans hf2, a1 ++ a2, ?_, ?_⟩
  · intro inst hm
    rcases List.mem_append.mp hm with hm | hm
    · exact ha1 inst hm
    · exact ha2 inst hm
  · rw [hb2, hi1, hb1]
    cases s.insertBlock with
    | none => rfl
    | some j =>
      dsimp only
      rw [updateAt_updateAt]
      congr 1
      funext b
      simp [List.append_assoc]

theorem appends_emitted (s r : CodeGenerator) (inst : Instruction)
    (hi : inst.isTerminator = false) (h1 : r.insertBlock = s.insertBlock)
    (h2 : r.namedValues = s.namedValues) (h3 : r.currentFunction = s.currentFunction)
    (h4 : s.moduleFunctions <+: r.moduleFunctions) (h5 : r.blocks = (s.emit inst).blocks) :
    Appends s r := by
  refine ⟨h1, h2, h3, h4, [inst], ?_, ?_⟩
  · intro x hx
    rw [List.mem_singleton] at hx
    rw [hx]
    exact hi
  · rw [h5]
    unfold CodeGenerator.emit
    split <;> rfl

theorem emit_fields (s : CodeGenerator) (inst : Instruction) :
    (s.emit inst).insertBlock = s.insertBlock ∧ (s.emit inst).namedValues = s.namedValues ∧
    (s.emit inst).currentFunction = s.currentFunction ∧
    (s.emit inst).moduleFunctions = s.moduleFunctions ∧
    (s.emit inst).currentValue = s.currentValue := by
  unfold CodeGenerator.emit
  split <;> exact ⟨rfl, rfl, rfl, rfl, rfl⟩

theorem appends_createLoad (s : CodeGenerator) (type : LType) (pointer : Value)
    (name : String) : Appends s (s.createLoad type pointer name) := by
  obtain ⟨e1, e2, e3, e4, _⟩ := emit_fields s (.load s.nextValue type pointer name)
  exact appends_emitted s _ (.load s.nextValue type pointer name) rfl e1 e2 e3
    (by
      show s.moduleFunctions <+:
        (s.emit (.load s.nextValue type pointer name)).moduleFunctions
      rw [e4]) rfl

theorem appends_createBinary (s r : CodeGenerator) (opcode : Opcode) (left right : Value)
    (name : String) (h : CodeGenerator.createBinary opcode left right name s = some r) :
    Appends s r := by
  unfold CodeGenerator.createBinary at h
  dsimp only at h
  split at h
  · split at h
    · cases h
      exact appends_of_eq _ _ rfl rfl rfl List.prefix_rfl rfl
    · cases h
  · cases h
    obtain ⟨e1, e2, e3, e4, _⟩ := emit_fields s
      (.binary s.nextValue opcode left right name)
    exact appends_emitted s _ (.binary s.nextValue opcode left right name) rfl e1 e2 e3
      (by rw [e4]) rfl

theorem appends_createFNeg (s r : CodeGenerator) (operand : Value) (name : String)
    (h : CodeGenerator.createFNeg operand name s = some r) : Appends s r := by
  unfold CodeGenerator.createFNeg at h
  split at h
  · split at h
    · cases h
      exact appends_of_eq _ _ rfl rfl rfl List.prefix_rfl rfl
    · cases h
  · cases h
    obtain ⟨e1, e2, e3, e4, _⟩ := emit_fields s (.fneg s.nextValue operand name)
    exact appends_emitted s _ (.fneg s.nextValue operand name) rfl e1 e2 e3 (by rw [e4]) rfl

theorem appends_createCall (s r : CodeGenerator) (callee : Nat) (arguments : List Value)
    (name : String) (value : Value)
    (h : CodeGenerator.createCall callee arguments name s = some (value, r)) :
    Appends s r := by
  unfold CodeGenerator.createCall at h
  split at h
  · cases h
  · cases h
    obtain ⟨e1, e2, e3, e4, _⟩ := emit_fields s (.call s.nextValue callee arguments name)
    exact appends_emitted s _ (.call s.nextValue callee arguments name) rfl e1 e2 e3
      (by rw [e4]) rfl

theorem appends_declareFunction (s r : CodeGenerator) (name : String) (returnType : LType)
    (parameters : List LType) (f : Nat)
    (h : CodeGenerator.declareFunction name returnType parameters s = some (f, r)) :
    Appends s r := by
  unfold CodeGenerator.declareFunction at h
  split at h
  · cases h
    exact appends_refl s
  · split at h
    · cases h
    · cases h
      exact appends_of_eq _ _ rfl rfl rfl (List.prefix_append _ _) rfl

theorem appends_value (s : CodeGenerator) (value : Option Value) :
    Appends s { s with currentValue := value } :=
  appends_of_eq _ _ rfl rfl rfl List.prefix_rfl rfl

theorem appends_unaryInstruction (s r : CodeGenerator) (op : UnOp) (operand : Value)
    (h : CodeGenerator.unaryInstruction op operand s = some r) : Appends s r := by
  unfold CodeGenerator.unaryInstruction at h
  cases op with
  | NEG =>
    dsimp only at h
    split at h
    · exact appends_createFNeg s r _ _ h
    · exact appends_createBinary s r _ _ _ _ h
  | NOT => exact appends_createBinary s r _ _ _ _ h
  | BIT_NOT => exact appends_createBinary s r _ _ _ _ h

theorem appends_callIntrinsic (s r : CodeGenerator) (functionName : String)
    (arguments : List Value) (h : CodeGenerator.callIntrinsic functionName arguments s = some r) :
    Appends s r := by
  unfold CodeGenerator.callIntrinsic at h
  split at h
  · split at h
    · cases h
    · next sinFunc s1 h1 =>
      split at h
      · cases h
      · next cosFunc s2 h2 =>
        split at h
        · cases h
        · next sinVal s3 h3 =>
          split at h
          · cases h
          · next cosVal s4 h4 =>
            exact appends_trans (appends_declareFunction _ _ _ _ _ _ h1)
              (appends_trans (appends_declareFunction _ _ _ _ _ _ h2)
                (appends_trans (appends_createCall _ _ _ _ _ _ h3)
                  (appends_trans (appends_createCall _ _ _ _ _ _ h4)
                    (appends_createBinary _ _ _ _ _ _ h))))
  · split at h
    · split at h
      · cases h
      · next intrinsic s1 h1 =>
        split at h
        · cases h
        · next value s2 h2 =>
          cases h
          exact appends_trans (appends_declareFunction _ _ _ _ _ _ h1)
            (appends_trans (appends_createCall _ _ _ _ _ _ h2) (appends_value _ _))
    · split at h
      · cases h
      · next mathFunc s1 h1 =>
        split at h
        · cases h
        · next value s2 h2 =>
          cases h
          exact appends_trans (appends_declareFunction _ _ _ _ _ _ h1)
            (appends_trans (appends_createCall _ _ _ _ _ _ h2) (appends_value _ _))

mutual
/-- The visit of an expression appends instructions that are not terminators
to the insert block and leaves the insert point where it is. -/
theorem visitExpression_appends :
    ∀ (e : Expression) (s r : CodeGenerator), CodeGenerator.visitExpression e s = some r →
      Appends s r
  | .IntegerLiteral _ _, s, r, h => by
    unfold CodeGenerator.visitExpression at h
    cases h
    exact appends_value _ _
  | .FloatLiteral _ _, s, r, h => by
    unfold CodeGenerator.visitExpression at h
    cases h
    exact appends_value _ _
  | .StringLiteral _ _, s, r, h => by
    unfold CodeGenerator.visitExpression at h
    split at h
    · cases h
    · cases h
      exact appends_of_eq _ _ rfl rfl rfl List.prefix_rfl rfl
  | .BoolLiteral _ _, s, r, h => by
    unfold CodeGenerator.visitExpression at h
    cases h
    exact appends_value _ _
  | .Identifier _ name, s, r, h => by
    unfold CodeGenerator.visitExpression at h
    split at h
    · split at h
      · split at h
        · cases h
        · cases h
          exact appends_createLoad _ _ _ _
      · cases h
        exact appends_value _ _
    · cases h
      exact appends_createLoad _ _ _ _
  | .BinaryOp _ op left right, s, r, h => by
    unfold CodeGenerator.visitExpression at h
    split at h
    · cases h
    · next s1 h1 =>
      split at h
      · cases h
      · next s2 h2 =>
        have a1 := visitExpression_appends left s s1 h1
        have a2 := visitExpression_appends right s1 s2 h2
        split at h
        · exact appends_trans a1 (appends_trans a2 (appends_createBinary _ _ _ _ _ _ h))
        · cases h
          exact appends_trans a1 (appends_trans a2 (appends_value _ _))
  | .UnaryOp _ op operand, s, r, h => by
    unfold CodeGenerator.visitExpression at h
    split at h
    · cases h
    · next s1 h1 =>
      have a1 := visitExpression_appends operand s s1 h1
      split at h
      · cases h
        exact appends_trans a1 (appends_value _ _)
      · exact appends_trans a1 (appends_unaryInstruction _ _ _ _ h)
  | .CallExpr _ functionName arguments, s, r, h => by
    unfold CodeGenerator.visitExpression at h
    split at h
    · split at h
      · cases h
      · next s1 h1 =>
        cases h
        exact appends_trans (visitArguments_appends arguments [] s none s1 h1)
          (appends_value _ _)
      · next args s1 h1 =>
        exact appends_trans (visitArguments_appends arguments [] s (some args) s1 h1)
          (appends_callIntrinsic _ _ _ _ h)
    · split at h
      · cases h
        exact appends_value _ _
      · next callee _ =>
        split at h
        · cases h
        · next s1 h1 =>
          cases h
          exact appends_trans (visitArguments_appends arguments [] s none s1 h1)
            (appends_value _ _)
        · next args s1 h1 =>
          have a1 := visitArguments_appends arguments [] s (some args) s1 h1
          split at h
          · cases h
          · split at h
            · split at h
              · cases h
              · next v s2 h2 =>
                cases h
                exact appends_trans a1 (appends_trans (appends_createCall _ _ _ _ _ _ h2)
                  (appends_value _ _))
            · split at h
              · cases h
              · next v s2 h2 =>
                cases h
                exact appends_trans a1 (appends_trans (appends_createCall _ _ _ _ _ _ h2)
                  (appends_value _ _))
theorem visitArguments_appends :
    ∀ (arguments : List Expression) (args : List Value) (s : CodeGenerator)
      (result : Option (List Value)) (r : CodeGenerator),
      CodeGenerator.visitArguments arguments args s = some (result, r) → Appends s r
  | [], args, s, result, r, h => by
    unfold CodeGenerator.visitArguments at h
    cases h
    exact appends_refl s
  | arg :: rest, args, s, result, r, h => by
    unfold CodeGenerator.visitArguments at h
    split at h
    · cases h
    · next s1 h1 =>
      have a1 := visitExpression_appends arg s s1 h1
      split at h
      · cases h
        exact a1
      · next v _ =>
        exact appends_trans a1 (visitArguments_appends rest (args ++ [v]) s1 result r h)
end

end Hash

namespace Hash

theorem targets_of_nonterminator (inst : Instruction) (h : inst.isTerminator = false) :
    inst.targets = [] := by
  cases inst <;> first | rfl | cases h

theorem prefix_get? {α : Type} {l r : List α} (h : l <+: r) (i : Nat) (x : α)
    (hx : l.get? i = some x) : r.get? i = some x := by
  obtain ⟨t, rfl⟩ := h
  have hi : i < l.length := by
    by_contra hc
    rw [List.get?_eq_none.mpr (by omega)] at hx
    cases hx
  rw [List.get?_append hi]
  exact hx

theorem get?_lt {α : Type} {l : List α} {i : Nat} {x : α} (h : l.get? i = some x) :
    i < l.length := by
  by_contra hc
  rw [List.get?_eq_none.mpr (by omega)] at h
  cases h

theorem get?_updateAt_lt {α : Type} (f : α → α) (j : Nat) (l : List α) (i : Nat) (x : α)
    (h : (updateAt f j l).get? i = some x) : i < l.length := by
  have := get?_lt h
  rw [length_updateAt] at this
  exact this

theorem entry_of_functions (s r : CodeGenerator) (hc : r.currentFunction = s.currentFunction)
    (hf : ∀ (i : Nat) (f : Function), s.moduleFunctions.get? i = some f →
      ∃ g : Function, r.moduleFunctions.get? i = some g ∧
        ∀ e, f.blocks.head? = some e → g.blocks.head? = some e) :
    ∀ e : Nat, s.entry = some e → r.entry = some e := by
  intro e he
  unfold CodeGenerator.entry at he ⊢
  rw [hc]
  cases hcf : s.currentFunction with
  | none => rw [hcf] at he; cases he
  | some cf =>
    rw [hcf] at he
    change s.entryBlock cf = some e at he
    show r.entryBlock cf = some e
    unfold CodeGenerator.entryBlock at he ⊢
    cases hg : s.moduleFunctions.get? cf with
    | none => rw [hg] at he; cases he
    | some f =>
      rw [hg] at he
      obtain ⟨g, hg2, hh⟩ := hf cf f hg
      rw [hg2]
      exact hh e he

theorem ext_refl (n : Nat) (s : CodeGenerator) : Ext n s s where
  length := le_refl _
  old := fun i b _ hb => ⟨[], [], (by simpa using hb), (fun _ h => by cases h),
    (fun _ h => by cases h), Or.inl rfl, Or.inl rfl⟩
  own := fun h => h
  insert := Or.inl rfl
  entry := fun _ h => h

theorem ext_trans {n : Nat} {s r q : CodeGenerator} (h1 : Ext n s r) (h2 : Ext n r q) :
    Ext n s q where
  length := le_trans h1.length h2.length
  old := by
    intro i b hi hb
    obtain ⟨f1, b1, hr, hf1, hb1, hp1, he1⟩ := h1.old i b hi hb
    obtain ⟨f2, b2, hq, hf2, hb2, hp2, he2⟩ := h2.old i _ hi hr
    refine ⟨f2 ++ f1, b1 ++ b2, ?_, ?_, ?_, ?_, ?_⟩
    · rw [hq]
      simp [List.append_assoc]
    · intro inst hm
      rcases List.mem_append.mp hm with hm | hm
      · exact hf2 inst hm
      · exact hf1 inst hm
    · intro inst hm
      rcases List.mem_append.mp hm with hm | hm
      · exact hb1 inst hm
      · exact hb2 inst hm
    · rcases hp1 with hp1 | hp1
      · rcases hp2 with hp2 | hp2
        · exact Or.inl (by rw [hp1, hp2]; rfl)
        · rcases h1.insert with hins | ⟨j, hj, hins⟩
          · exact Or.inr (by rw [← hins]; exact hp2)
          · rw [hins] at hp2
            cases hp2
            omega
      · exact Or.inr hp1
    · rcases he1 with he1 | he1 | he1
      · rcases he2 with he2 | he2 | he2
        · exact Or.inl (by rw [he1, he2]; rfl)
        · cases hse : s.entry with
          | none => exact Or.inr (Or.inr rfl)
          | some e =>
            have := h1.entry e hse
            rw [this] at he2
            exact Or.inr (Or.inl he2)
        · cases hse : s.entry with
          | none => exact Or.inr (Or.inr rfl)
          | some e =>
            have := h1.entry e hse
            rw [this] at he2
            cases he2
      · exact Or.inr (Or.inl he1)
      · exact Or.inr (Or.inr he1)
  own := fun h => h2.own (h1.own h)
  insert := by
    rcases h2.insert with h | ⟨j, hj, h⟩
    · rcases h1.insert with h' | ⟨j, hj, h'⟩
      · exact Or.inl (h.trans h')
      · exact Or.inr ⟨j, hj, h.trans h'⟩
    · exact Or.inr ⟨j, hj, h⟩
  entry := fun e he => h2.entry e (h1.entry e he)

/-- The description of a step by what it does to each block. -/
theorem ext_of_blocks (n : Nat) (s r : CodeGenerator)
    (hlen : s.blocks.length ≤ r.blocks.length)
    (hold : ∀ (i : Nat) (b : Block), s.blocks.get? i = some b →
      ∃ front back : List Instruction, ∃ parent : Option Nat, ∃ renamed : Bool,
        r.blocks.get? i = some { b with renamed := renamed, parent := parent,
                                        instructions := front ++ b.instructions ++ back } ∧
        (i < n → parent = b.parent ∧ renamed = b.renamed) ∧
        (∀ inst ∈ front, inst.targets = []) ∧ targetsFrom n back ∧
        (back = [] ∨ s.insertBlock = some i) ∧
        (front = [] ∨ s.entry = some i ∨ s.entry = none))
    (hnew : ∀ (i : Nat) (b : Block), s.blocks.length ≤ i → r.blocks.get? i = some b →
      targetsFrom n b.instructions)
    (hins : r.insertBlock = s.insertBlock ∨ ∃ j : Nat, n ≤ j ∧ r.insertBlock = some j)
    (hentry : ∀ e : Nat, s.entry = some e → r.entry = some e) : Ext n s r where
  length := hlen
  old := by
    intro i b hi hb
    obtain ⟨front, back, parent, renamed, hr, hp, h1, h2, h3, h4⟩ := hold i b hb
    refine ⟨front, back, ?_, h1, h2, h3, h4⟩
    rw [hr, (hp hi).1, (hp hi).2]
  own := by
    intro hown i b hi hb
    by_cases hl : i < s.blocks.length
    · cases hs : s.blocks.get? i with
      | none =>
        rw [List.get?_eq_none] at hs
        omega
      | some b0 =>
        obtain ⟨front, back, parent, renamed, hr, _, h1, h2, _, _⟩ := hold i b0 hs
        rw [hr] at hb
        cases hb
        intro inst hm t ht
        dsimp only at hm
        rcases List.mem_append.mp hm with hm | hm
        · rcases List.mem_append.mp hm with hm | hm
          · rw [h1 inst hm] at ht
            cases ht
          · exact hown i b0 hi hs inst hm t ht
        · exact h2 inst hm t ht
    · exact hnew i b (by omega) hb
  insert := hins
  entry := hentry

theorem ext_of_appends (n : Nat) (s r : CodeGenerator) (h : Appends s r) : Ext n s r := by
  obtain ⟨hi, _, hc, hf, added, hadd, hb⟩ := h
  have hta : targetsFrom n added := by
    intro inst hm t ht
    rw [targets_of_nonterminator inst (hadd inst hm)] at ht
    cases ht
  refine ext_of_blocks n s r ?_ ?_ ?_ (Or.inl hi) ?_
  · rw [hb]
    split
    · exact le_refl _
    · rw [length_updateAt]
  · intro i b hget
    rw [hb]
    cases hs : s.insertBlock with
    | none =>
      exact ⟨[], [], b.parent, b.renamed, (by simpa using hget),
      (fun _ => ⟨rfl, rfl⟩), (fun _ h => by cases h),
        (fun _ h => by cases h), Or.inl rfl, Or.inl rfl⟩
    | some j =>
      dsimp only
      by_cases hj : j = i
      · subst hj
        refine ⟨[], added, b.parent, b.renamed, ?_, (fun _ => ⟨rfl, rfl⟩), (fun _ h => by cases h), hta,
          Or.inr rfl, Or.inl rfl⟩
        rw [get?_updateAt_same, hget]
        simp
      · refine ⟨[], [], b.parent, b.renamed, ?_, (fun _ => ⟨rfl, rfl⟩), (fun _ h => by cases h),
          (fun _ h => by cases h), Or.inl rfl, Or.inl rfl⟩
        rw [get?_updateAt_other _ j i _ hj, hget]
        simp
  · intro i b hle hget
    rw [hb] at hget
    have hlen : r.blocks.length = s.blocks.length := by
      rw [hb]
      split
      · rfl
      · rw [length_updateAt]
    have := get?_lt (by rw [← hb] at hget; exact hget)
    omega
  · exact entry_of_functions s r hc (fun i f hget => ⟨f, prefix_get? hf i f hget, fun _ h => h⟩)

theorem ext_emit (n : Nat) (s : CodeGenerator) (inst : Instruction)
    (h : ∀ t ∈ inst.targets, n ≤ t) : Ext n s (s.emit inst) := by
  obtain ⟨e1, _, e3, e4, _⟩ := emit_fields s inst
  have hblocks : (s.emit inst).blocks =
      match s.insertBlock with
      | none => s.blocks
      | some j => updateAt (fun b => { b with instructions := b.instructions ++ [inst] }) j
          s.blocks := by
    unfold CodeGenerator.emit
    split <;> rfl
  have hlen : (s.emit inst).blocks.length = s.blocks.length := by
    rw [hblocks]
    split
    · rfl
    · rw [length_updateAt]
  refine ext_of_blocks n s _ (by rw [hlen]) ?_ ?_ (Or.inl e1) ?_
  · intro i b hget
    rw [hblocks]
    cases hs : s.insertBlock with
    | none =>
      exact ⟨[], [], b.parent, b.renamed, (by simpa using hget),
      (fun _ => ⟨rfl, rfl⟩), (fun _ h => by cases h),
        (fun _ h => by cases h), Or.inl rfl, Or.inl rfl⟩
    | some j =>
      dsimp only
      by_cases hj : j = i
      · subst hj
        refine ⟨[], [inst], b.parent, b.renamed, ?_, (fun _ => ⟨rfl, rfl⟩), (fun _ h => by cases h), ?_,
          Or.inr rfl, Or.inl rfl⟩
        · rw [get?_updateAt_same, hget]
          simp
        · intro x hx t ht
          rw [List.mem_singleton] at hx
          rw [hx] at ht
          exact h t ht
      · refine ⟨[], [], b.parent, b.renamed, ?_, (fun _ => ⟨rfl, rfl⟩), (fun _ h => by cases h),
          (fun _ h => by cases h), Or.inl rfl, Or.inl rfl⟩
        rw [get?_updateAt_other _ j i _ hj, hget]
        simp
  · intro i b hle hget
    have := get?_lt hget
    omega
  · exact entry_of_functions s _ e3 (fun i f hget => ⟨f, by rw [e4]; exact hget, fun _ h => h⟩)

theorem head?_append_some {α : Type} (l : List α) (x e : α) (h : l.head? = some e) :
    (l ++ [x]).head? = some e := by
  cases l with
  | nil => cases h
  | cons y rest => exact h

theorem functions_insertInto (functions : List Function) (block function : Nat) :
    ∀ (i : Nat) (f : Function), functions.get? i = some f →
      ∃ g : Function,
        (updateAt (fun f => { f with blocks := f.blocks ++ [block] }) function functions).get? i =
          some g ∧
        ∀ e, f.blocks.head? = some e → g.blocks.head? = some e := by
  intro i f hget
  by_cases hi : function = i
  · subst hi
    refine ⟨{ f with blocks := f.blocks ++ [block] }, ?_, fun e he => head?_append_some _ _ _ he⟩
    rw [get?_updateAt_same, hget]
    rfl
  · exact ⟨f, by rw [get?_updateAt_other _ function i _ hi, hget], fun _ h => h⟩

theorem ext_insertInto (n : Nat) (s : CodeGenerator) (block function : Nat) (h : n ≤ block) :
    Ext n s (s.insertInto block function) := by
  refine ext_of_blocks n s _ ?_ ?_ ?_ (Or.inl rfl) ?_
  · show s.blocks.length ≤ (updateAt _ block s.blocks).length
    rw [length_updateAt]
  · intro i b hget
    show ∃ front back parent renamed, (updateAt _ block s.blocks).get? i = _ ∧ _
    by_cases hi : block = i
    · subst hi
      refine ⟨[], [], some function, (s.place function b).renamed,
        ?_, (fun hlt => by omega), (fun _ h => by cases h),
        (fun _ h => by cases h), Or.inl rfl, Or.inl rfl⟩
      rw [get?_updateAt_same, hget]
      simp [CodeGenerator.place]
    · refine ⟨[], [], b.parent, b.renamed, ?_, (fun _ => ⟨rfl, rfl⟩), (fun _ h => by cases h),
        (fun _ h => by cases h), Or.inl rfl, Or.inl rfl⟩
      rw [get?_updateAt_other _ block i _ hi, hget]
      simp
  · intro i b hle hget
    have hlt := get?_updateAt_lt _ _ _ _ _ hget
    omega
  · exact entry_of_functions s _ rfl (functions_insertInto s.moduleFunctions block function)

theorem ext_setInsert (n : Nat) (s : CodeGenerator) (j : Nat) (h : n ≤ j) :
    Ext n s { s with insertBlock := some j } := by
  refine ext_of_blocks n s _ (le_refl _) ?_ ?_ (Or.inr ⟨j, h, rfl⟩) (fun _ he => he)
  · intro i b hget
    exact ⟨[], [], b.parent, b.renamed, (by simpa using hget),
      (fun _ => ⟨rfl, rfl⟩), (fun _ h => by cases h),
      (fun _ h => by cases h), Or.inl rfl, Or.inl rfl⟩
  · intro i b hle hget
    have hlt : i < s.blocks.length := get?_lt hget
    omega

theorem ext_append (n : Nat) (s : CodeGenerator) (label : String) :
    Ext n s { s with blocks := s.blocks ++ [Block.mk label false none []] } := by
  refine ext_of_blocks n s _ (by simp) ?_ ?_ (Or.inl rfl) (fun _ he => he)
  · intro i b hget
    refine ⟨[], [], b.parent, b.renamed, ?_, (fun _ => ⟨rfl, rfl⟩), (fun _ h => by cases h),
      (fun _ h => by cases h), Or.inl rfl, Or.inl rfl⟩
    show (s.blocks ++ _).get? i = _
    rw [List.get?_append (get?_lt hget), hget]
    simp
  · intro i b hle hget
    have hlt : i < (s.blocks ++ [Block.mk label false none []]).length := get?_lt hget
    simp only [List.length_append, List.length_singleton] at hlt
    have hi : i = s.blocks.length := by omega
    subst hi
    have hb : (s.blocks ++ [Block.mk label false none []]).get? s.blocks.length = some b := hget
    rw [List.get?_append_right (le_refl _)] at hb
    simp at hb
    rw [← hb]
    intro inst hm
    cases hm

theorem ext_createBlock (n : Nat) (s : CodeGenerator) (label : String) (parent : Option Nat)
    (h : n ≤ s.blocks.length) : Ext n s (s.createBlock label parent).2 := by
  unfold CodeGenerator.createBlock
  dsimp only
  cases parent with
  | none => exact ext_append n s label
  | some function =>
    exact ext_trans (ext_append n s label) (ext_insertInto n _ _ function h)

theorem length_createBlock (s : CodeGenerator) (label : String) (parent : Option Nat) :
    (s.createBlock label parent).1 = s.blocks.length ∧
    (s.createBlock label parent).2.blocks.length = s.blocks.length + 1 := by
  unfold CodeGenerator.createBlock
  dsimp only
  cases parent with
  | none => simp
  | some function =>
    refine ⟨rfl, ?_⟩
    show (updateAt _ _ _).length = _
    rw [length_updateAt]
    simp

theorem ext_alloca (n : Nat) (s r : CodeGenerator) (function : Nat) (varName : String)
    (type : LType) (slot : Slot) (hc : s.currentFunction = some function)
    (h : s.createEntryBlockAlloca function varName type = some (slot, r)) : Ext n s r := by
  unfold CodeGenerator.createEntryBlockAlloca at h
  split at h
  · cases h
  · next entry he =>
    cases h
    have hentry : s.entry = some entry := by
      unfold CodeGenerator.entry
      rw [hc]
      exact he
    refine ext_of_blocks n s _ ?_ ?_ ?_ (Or.inl rfl) (fun _ h => h)
    · show s.blocks.length ≤ (updateAt _ entry s.blocks).length
      rw [length_updateAt]
    · intro i b hget
      show ∃ front back parent renamed, (updateAt _ entry s.blocks).get? i = _ ∧ _
      by_cases hi : entry = i
      · subst hi
        refine ⟨[.alloca s.nextValue type varName], [], b.parent, b.renamed, ?_, (fun _ => ⟨rfl, rfl⟩), ?_,
          (fun _ h => by cases h), Or.inl rfl, Or.inr (Or.inl hentry)⟩
        · rw [get?_updateAt_same, hget]
          simp
        · intro inst hm
          rw [List.mem_singleton] at hm
          rw [hm]
          rfl
      · refine ⟨[], [], b.parent, b.renamed, ?_, (fun _ => ⟨rfl, rfl⟩), (fun _ h => by cases h),
          (fun _ h => by cases h), Or.inl rfl, Or.inl rfl⟩
        rw [get?_updateAt_other _ entry i _ hi, hget]
        simp
    · intro i b hle hget
      have hlt := get?_updateAt_lt _ _ _ _ _ hget
      omega

theorem ext_createStore (n : Nat) (s r : CodeGenerator) (value : Option Value)
    (pointer : Value) (h : CodeGenerator.createStore value pointer s = some r) : Ext n s r := by
  unfold CodeGenerator.createStore at h
  split at h
  · cases h
  · cases h
    exact ext_emit n s _ (fun _ ht => by cases ht)

theorem ext_defineGlobal (n : Nat) (s r : CodeGenerator) (name : String) (type : LType)
    (initializer : Value) (h : CodeGenerator.defineGlobal name type initializer s = some r) :
    Ext n s r := by
  unfold CodeGenerator.defineGlobal at h
  dsimp only at h
  split at h
  · cases h
  · cases h
    refine ext_of_appends n s _ (appends_of_eq _ _ ?_ ?_ ?_ ?_ ?_) <;> (split <;> rfl)

theorem ext_visitVariableDecl (n : Nat) (s r : CodeGenerator) (node : VariableDecl)
    (h : CodeGenerator.visitVariableDecl node s = some r) : Ext n s r := by
  unfold CodeGenerator.visitVariableDecl at h
  split at h
  · next function hc =>
    split at h
    · cases h
    · next alloca s1 ha =>
      have e1 := ext_alloca n s s1 function _ _ alloca hc ha
      have e2 : Ext n s1 { s1 with namedValues := mapInsert node.name alloca s1.namedValues } :=
        ext_of_blocks n s1 _ (le_refl _)
          (fun i b hget => ⟨[], [], b.parent, b.renamed, (by simpa using hget),
      (fun _ => ⟨rfl, rfl⟩),
            (fun _ h => by cases h), (fun _ h => by cases h), Or.inl rfl, Or.inl rfl⟩)
          (fun i b hle hget => by
            have hlt : i < s1.blocks.length := get?_lt hget
            omega) (Or.inl rfl) (fun _ he => he)
      dsimp only at h
      split at h
      · cases h
        exact ext_trans e1 e2
      · next e _ =>
        split at h
        · cases h
        · next s3 h3 =>
          exact ext_trans e1 (ext_trans e2 (ext_trans
            (ext_of_appends n _ _ (visitExpression_appends e _ _ h3))
            (ext_createStore n _ _ _ _ h)))
  · split at h
    · next e _ =>
      split at h
      · cases h
      · next s1 h1 =>
        have e1 := ext_of_appends n _ _ (visitExpression_appends e _ _ h1)
        split at h
        · cases h
        · split at h
          · exact ext_trans e1 (ext_defineGlobal n _ _ _ _ _ h)
          · split at h
            · cases h
            · exact ext_trans e1 (ext_defineGlobal n _ _ _ _ _ h)
    · split at h
      · cases h
      · exact ext_defineGlobal n _ _ _ _ _ h

theorem ext_closeBlock (n : Nat) (s r : CodeGenerator) (target : Nat) (flag : Bool)
    (ht : n ≤ target) (h : CodeGenerator.closeBlock target s = some (flag, r)) : Ext n s r := by
  unfold CodeGenerator.closeBlock at h
  split at h
  · cases h
  · cases h
    exact ext_refl n s
  · cases h
    exact ext_emit n s _ (fun t hm => by
      rw [List.mem_singleton.mp hm]
      exact ht)

end Hash

namespace Hash

theorem createBlock_eq (n : Nat) (s r : CodeGenerator) (label : String) (parent : Option Nat)
    (block : Nat) (hn : n ≤ s.blocks.length) (h : s.createBlock label parent = (block, r)) :
    block = s.blocks.length ∧ r = (s.createBlock label parent).2 ∧ Ext n s r ∧
      r.blocks.length = s.blocks.length + 1 := by
  have h1 : block = (s.createBlock label parent).1 := by rw [h]
  have h2 : r = (s.createBlock label parent).2 := by rw [h]
  refine ⟨by rw [h1]; exact (length_createBlock s label parent).1, h2, ?_, ?_⟩
  · rw [h2]
    exact ext_createBlock n s label parent hn
  · rw [h2]
    exact (length_createBlock s label parent).2

mutual
/-- The visit of a statement extends the blocks: see `Ext`. -/
theorem visitStatement_ext :
    ∀ (st : Statement) (s r : CodeGenerator) (n : Nat), n ≤ s.blocks.length →
      CodeGenerator.visitStatement st s = some r → Ext n s r
  | .VariableDecl decl, s, r, n, _, h => by
    unfold CodeGenerator.visitStatement at h
    exact ext_visitVariableDecl n s r decl h
  | .Assignment _ _ name value, s, r, n, _, h => by
    unfold CodeGenerator.visitStatement at h
    split at h
    · cases h
      exact ext_refl n s
    · split at h
      · cases h
      · next s1 h1 =>
        exact ext_trans (ext_of_appends n _ _ (visitExpression_appends value _ _ h1))
          (ext_createStore n _ _ _ _ h)
  | .ReturnStmt _ _ (some value), s, r, n, _, h => by
    unfold CodeGenerator.visitStatement at h
    split at h
    · cases h
    · next s1 h1 =>
      cases h
      exact ext_trans (ext_of_appends n _ _ (visitExpression_appends value _ _ h1))
        (ext_emit n _ _ (fun _ ht => by cases ht))
  | .ReturnStmt _ _ none, s, r, n, _, h => by
    unfold CodeGenerator.visitStatement at h
    cases h
    exact ext_emit n _ _ (fun _ ht => by cases ht)
  | .IfStmt _ _ condition thenBody elseBody, s, r, n, hn, h => by
    unfold CodeGenerator.visitStatement at h
    split at h
    · cases h
    · next s1 h1 =>
      have e1 := ext_of_appends n _ _ (visitExpression_appends condition _ _ h1)
      have n1 : n ≤ s1.blocks.length := le_trans hn e1.length
      split at h
      · next condValue current _ _ =>
        split at h
        · cases h
        · next function _ =>
          split at h
          next thenBlock s2 hc2 =>
          split at h
          next elseBlock s3 hc3 =>
          split at h
          next mergeBlock s4 hc4 =>
          obtain ⟨ht, _, e2, l2⟩ := createBlock_eq n _ _ _ _ _ n1 hc2
          have n2 : n ≤ s2.blocks.length := by omega
          obtain ⟨he, _, e3, l3⟩ := createBlock_eq n _ _ _ _ _ n2 hc3
          have n3 : n ≤ s3.blocks.length := by omega
          obtain ⟨hm, _, e4, l4⟩ := createBlock_eq n _ _ _ _ _ n3 hc4
          have n4 : n ≤ s4.blocks.length := by omega
          dsimp only at h
          have e5 : Ext n s4 (if elseBody.isEmpty then
              s4.emit (.condBr condValue thenBlock mergeBlock)
              else s4.emit (.condBr condValue thenBlock elseBlock)) := by
            split
            · refine ext_emit n _ _ (fun t hm => ?_)
              simp only [Instruction.targets, List.mem_cons, List.mem_singleton,
                List.not_mem_nil, or_false] at hm
              omega
            · refine ext_emit n _ _ (fun t hm => ?_)
              simp only [Instruction.targets, List.mem_cons, List.mem_singleton,
                List.not_mem_nil, or_false] at hm
              omega
          have e5b := ext_setInsert n (if elseBody.isEmpty then
              s4.emit (.condBr condValue thenBlock mergeBlock)
              else s4.emit (.condBr condValue thenBlock elseBlock)) thenBlock (by omega)
          have e05 := ext_trans e1 (ext_trans e2 (ext_trans e3 (ext_trans e4
            (ext_trans e5 e5b))))
          split at h
          · cases h
          · next s6 h6 =>
            have e6 := visitStatements_ext thenBody _ s6 n
              (le_trans n4 (ext_trans e5 e5b).length) h6
            have e06 := ext_trans e05 e6
            split at h
            · cases h
            · next thenTerminated s7 h7 =>
              have e7 := ext_closeBlock n _ _ _ _ (by omega) h7
              have e07 := ext_trans e06 e7
              split at h
              · cases h
                exact ext_trans e07 (ext_trans (ext_insertInto n _ _ _ (by omega))
                  (ext_setInsert n _ _ (by omega)))
              · split at h
                · cases h
                · next s8 h8 =>
                  have e7b := ext_trans e07
                    (ext_trans (ext_insertInto n s7 elseBlock function (by omega))
                      (ext_setInsert n _ elseBlock (by omega)))
                  have e8 := visitStatements_ext elseBody _ s8 n
                    (le_trans hn e7b.length) h8
                  split at h
                  · cases h
                  · next elseTerminated s9 h9 =>
                    have e9 := ext_closeBlock n _ _ _ _ (by omega) h9
                    have e10 := ext_trans e7b (ext_trans e8 (ext_trans e9
                      (ext_trans (ext_insertInto n s9 mergeBlock function (by omega))
                        (ext_setInsert n _ mergeBlock (by omega)))))
                    cases h
                    split
                    · exact ext_trans e10 (ext_emit n _ _ (fun _ ht => by cases ht))
                    · exact e10
      · cases h
  | .WhileStmt _ _ condition body, s, r, n, hn, h => by
    unfold CodeGenerator.visitStatement at h
    split at h
    · cases h
    · split at h
      · cases h
      · next function _ =>
        split at h
        next condBlock s1 hc1 =>
        split at h
        next bodyBlock s2 hc2 =>
        split at h
        next afterBlock s3 hc3 =>
        obtain ⟨ht, _, e1, l1⟩ := createBlock_eq n _ _ _ _ _ hn hc1
        have n1 : n ≤ s1.blocks.length := by omega
        obtain ⟨he, _, e2, l2⟩ := createBlock_eq n _ _ _ _ _ n1 hc2
        have n2 : n ≤ s2.blocks.length := by omega
        obtain ⟨hm, _, e3, l3⟩ := createBlock_eq n _ _ _ _ _ n2 hc3
        have n3 : n ≤ s3.blocks.length := by omega
        have e3b := ext_trans e1 (ext_trans e2 (ext_trans e3
          (ext_trans (ext_emit n s3 (.br condBlock) (fun t hm => by
              rw [List.mem_singleton.mp hm]
              omega))
            (ext_setInsert n _ condBlock (by omega)))))
        split at h
        · cases h
        · next s4 h4 =>
          have e4 := ext_trans e3b (ext_of_appends n _ _ (visitExpression_appends condition _ _ h4))
          split at h
          · cases h
          · next condValue _ =>
            have e4b := ext_trans e4 (ext_trans
              (ext_emit n s4 (.condBr condValue bodyBlock afterBlock) (fun t hm => by
                simp only [Instruction.targets, List.mem_cons, List.mem_singleton,
                  List.not_mem_nil, or_false] at hm
                omega))
              (ext_trans (ext_insertInto n _ bodyBlock function (by omega))
                (ext_setInsert n _ bodyBlock (by omega))))
            split at h
            · cases h
            · next s5 h5 =>
              have e5 := visitStatements_ext body _ s5 n (le_trans hn e4b.length) h5
              split at h
              · cases h
              · next flag s6 h6 =>
                cases h
                exact ext_trans e4b (ext_trans e5 (ext_trans
                  (ext_closeBlock n _ _ _ _ (by omega) h6)
                  (ext_trans (ext_insertInto n s6 afterBlock function (by omega))
                    (ext_setInsert n _ afterBlock (by omega)))))
  | .ExprStmt _ _ expression, s, r, n, _, h => by
    unfold CodeGenerator.visitStatement at h
    exact ext_of_appends n _ _ (visitExpression_appends expression _ _ h)
/-- The visit of a list of statements extends the blocks. -/
theorem visitStatements_ext :
    ∀ (l : List Statement) (s r : CodeGenerator) (n : Nat), n ≤ s.blocks.length →
      CodeGenerator.visitStatements l s = some r → Ext n s r
  | [], s, r, n, _, h => by
    unfold CodeGenerator.visitStatements at h
    cases h
    exact ext_refl n s
  | stmt :: rest, s, r, n, hn, h => by
    unfold CodeGenerator.visitStatements at h
    split at h
    · cases h
    · next s1 h1 =>
      have e1 := visitStatement_ext stmt s s1 n hn h1
      exact ext_trans e1 (visitStatements_ext rest s1 r n (le_trans hn e1.length) h)
end

end Hash

namespace Hash

/-- A block without a parent adds no name to those of a function. -/
theorem namesAsked_detached (s : CodeGenerator) (function : Nat) (label : String)
    (code : List Instruction) :
    CodeGenerator.namesAsked
        { s with blocks := s.blocks ++ [Block.mk label false none code] } function =
      s.namesAsked function := by
  unfold CodeGenerator.namesAsked
  simp [List.filter_append]

theorem place_detached (s : CodeGenerator) (function : Nat) (label : String)
    (code : List Instruction) :
    CodeGenerator.place
        { s with blocks := s.blocks ++ [Block.mk label false none code] } function =
      s.place function := by
  funext b
  unfold CodeGenerator.place
  rw [namesAsked_detached]

theorem enterThen_blocks (s : CodeGenerator) (condValue : Value) (function current : Nat)
    (h : s.insertBlock = some current) :
    (s.enterThen condValue function).blocks =
      updateAt (fun b => { b with instructions := b.instructions ++
          [.condBr condValue s.blocks.length (s.blocks.length + 1)] }) current
        (updateAt (s.place function) s.blocks.length
            (s.blocks ++ [Block.mk "then" false none []]) ++
          [Block.mk "else" false none []] ++ [Block.mk "merge" false none []]) := by
  unfold CodeGenerator.enterThen CodeGenerator.createBlock CodeGenerator.insertInto
  dsimp only
  rw [show ({ s with blocks := s.blocks ++ [Block.mk "then" false none []] } :
    CodeGenerator).place function = s.place function from place_detached s function "then" []]
  simp only [CodeGenerator.emit, h]

theorem enterThen_insertBlock (s : CodeGenerator) (condValue : Value) (function : Nat) :
    (s.enterThen condValue function).insertBlock = some s.blocks.length := rfl

theorem enterThen_length (s : CodeGenerator) (condValue : Value) (function current : Nat)
    (h : s.insertBlock = some current) :
    (s.enterThen condValue function).blocks.length = s.blocks.length + 3 := by
  rw [enterThen_blocks s condValue function current h]
  simp [length_updateAt]

theorem enterThen_new (s : CodeGenerator) (condValue : Value) (function current : Nat)
    (h : s.insertBlock = some current) (hc : current < s.blocks.length) :
    (s.enterThen condValue function).blocks.get? s.blocks.length =
        some (Block.mk "then" (decide ("then" ∈ s.namesAsked function)) (some function) []) ∧
      (s.enterThen condValue function).blocks.get? (s.blocks.length + 1) =
        some (Block.mk "else" false none []) ∧
      (s.enterThen condValue function).blocks.get? (s.blocks.length + 2) =
        some (Block.mk "merge" false none []) := by
  rw [enterThen_blocks s condValue function current h]
  refine ⟨?_, ?_, ?_⟩
  · rw [get?_updateAt_other _ _ _ _ (by omega)]
    rw [List.append_assoc, List.get?_append (by simp [length_updateAt]),
      get?_updateAt_same, List.get?_append_right (le_refl _)]
    simp [CodeGenerator.place]
  · rw [get?_updateAt_other _ _ _ _ (by omega)]
    rw [List.get?_append (by simp [length_updateAt]),
      List.get?_append_right (by simp [length_updateAt])]
    simp [length_updateAt]
  · rw [get?_updateAt_other _ _ _ _ (by omega)]
    rw [List.get?_append_right (by simp [length_updateAt])]
    simp [length_updateAt]

theorem enterThen_old (s : CodeGenerator) (condValue : Value) (function current : Nat)
    (h : s.insertBlock = some current) (i : Nat) (hi : i < s.blocks.length) :
    (s.enterThen condValue function).blocks.get? i =
      if i = current then
        (s.blocks.get? i).map (fun b => { b with instructions := b.instructions ++
          [.condBr condValue s.blocks.length (s.blocks.length + 1)] })
      else s.blocks.get? i := by
  rw [enterThen_blocks s condValue function current h]
  have hbase : (updateAt (s.place function) s.blocks.length
            (s.blocks ++ [Block.mk "then" false none []]) ++
          [Block.mk "else" false none []] ++ [Block.mk "merge" false none []]).get? i =
      s.blocks.get? i := by
    rw [List.append_assoc, List.get?_append (by simp [length_updateAt]; omega),
      get?_updateAt_other _ _ _ _ (by omega), List.get?_append hi]
  split
  · next hc =>
    subst hc
    rw [get?_updateAt_same, hbase]
  · next hc =>
    rw [get?_updateAt_other _ _ _ _ (fun he => hc he.symm), hbase]

theorem enterThen_entry (s : CodeGenerator) (condValue : Value) (function : Nat) (e : Nat)
    (h : s.entry = some e) : (s.enterThen condValue function).entry = some e := by
  have e1 := ext_createBlock 0 s "then" (some function) (Nat.zero_le _)
  have e2 := ext_createBlock 0 (s.createBlock "then" (some function)).2 "else" none
    (Nat.zero_le _)
  have e3 := ext_createBlock 0
    ((s.createBlock "then" (some function)).2.createBlock "else" none).2 "merge" none
    (Nat.zero_le _)
  have e4 := ext_emit 0
    (((s.createBlock "then" (some function)).2.createBlock "else" none).2.createBlock
      "merge" none).2 (.condBr condValue s.blocks.length (s.blocks.length + 1))
    (fun _ _ => Nat.zero_le _)
  have e5 := ext_setInsert 0
    ((((s.createBlock "then" (some function)).2.createBlock "else" none).2.createBlock
      "merge" none).2.emit (.condBr condValue s.blocks.length (s.blocks.length + 1)))
    s.blocks.length (Nat.zero_le _)
  exact e5.entry e (e4.entry e (e3.entry e (e2.entry e (e1.entry e h))))

end Hash

namespace Hash

theorem lowerStatements_nil (s : CodeGenerator) :
    CodeGenerator.visitStatements [] s = some s := by
  unfold CodeGenerator.visitStatements
  rfl

theorem lowerStatements_cons (x : Statement) (rest : List Statement) (s : CodeGenerator) :
    CodeGenerator.visitStatements (x :: rest) s =
      (CodeGenerator.visitStatement x s).bind (CodeGenerator.visitStatements rest) := by
  conv => lhs; unfold CodeGenerator.visitStatements
  cases CodeGenerator.visitStatement x s <;> rfl

theorem lowerStatements_append :
    ∀ (xs ys : List Statement) (s : CodeGenerator),
      CodeGenerator.visitStatements (xs ++ ys) s =
        (CodeGenerator.visitStatements xs s).bind (CodeGenerator.visitStatements ys)
  | [], ys, s => by
    rw [List.nil_append, lowerStatements_nil]
    rfl
  | x :: rest, ys, s => by
    rw [List.cons_append, lowerStatements_cons, lowerStatements_cons]
    cases CodeGenerator.visitStatement x s with
    | none => rfl
    | some s1 => exact lowerStatements_append rest ys s1

/-- A list of statements that ends in a return: the generator after the
statements before the return, the visit of the returned expression, and the
`ret` at the end. -/
theorem visitStatements_return (before : List Statement) (line column : Int)
    (value : Option Expression) (s r : CodeGenerator)
    (h : CodeGenerator.visitStatements (before ++ [.ReturnStmt line column value]) s = some r) :
    ∃ (s1 s2 : CodeGenerator) (result : Option Value),
      CodeGenerator.visitStatements before s = some s1 ∧ Appends s1 s2 ∧
      r = s2.emit (.ret result) := by
  rw [lowerStatements_append] at h
  cases h1 : CodeGenerator.visitStatements before s with
  | none =>
    rw [h1] at h
    cases h
  | some s1 =>
    rw [h1] at h
    change CodeGenerator.visitStatements [.ReturnStmt line column value] s1 = some r at h
    unfold CodeGenerator.visitStatements at h
    split at h
    · cases h
    · next s3 h3 =>
      unfold CodeGenerator.visitStatements at h
      cases h
      cases value with
      | none =>
        unfold CodeGenerator.visitStatement at h3
        cases h3
        exact ⟨s1, s1, none, rfl, appends_refl s1, rfl⟩
      | some e =>
        unfold CodeGenerator.visitStatement at h3
        split at h3
        · cases h3
        · next s2 h2 =>
          cases h3
          exact ⟨s1, s2, s2.currentValue, rfl, visitExpression_appends e _ _ h2, rfl⟩

theorem emit_blocks (s : CodeGenerator) (inst : Instruction) :
    (s.emit inst).blocks =
      match s.insertBlock with
      | none => s.blocks
      | some j => updateAt (fun b => { b with instructions := b.instructions ++ [inst] }) j
          s.blocks := by
  unfold CodeGenerator.emit
  split <;> rfl

/-- After an instruction is emitted, the test for a terminator answers what the
instruction is, and the instruction is the last one of the insert block. -/
theorem terminated_emit (s : CodeGenerator) (inst : Instruction) (flag : Bool)
    (h : (s.emit inst).terminated = some flag) :
    flag = inst.isTerminator ∧
      ∃ j : Nat, (s.emit inst).insertBlock = some j ∧ j < (s.emit inst).blocks.length ∧
        (s.emit inst).lastInstruction j = some inst := by
  obtain ⟨e1, _⟩ := emit_fields s inst
  unfold CodeGenerator.terminated at h
  rw [e1] at h ⊢
  cases hj : s.insertBlock with
  | none =>
    rw [hj] at h
    cases h
  | some j =>
    rw [hj] at h
    dsimp only at h
    have hb := emit_blocks s inst
    rw [hj] at hb
    dsimp only at hb
    rw [hb, get?_updateAt_same] at h
    cases hg : s.blocks.get? j with
    | none =>
      rw [hg] at h
      cases h
    | some b =>
      rw [hg] at h
      simp at h
      refine ⟨by cases h; rfl, j, rfl, ?_, ?_⟩
      · rw [hb, length_updateAt]
        exact get?_lt hg
      · unfold CodeGenerator.lastInstruction
        rw [hb, get?_updateAt_same, hg]
        simp

theorem closeBlock_return (s q : CodeGenerator) (result : Option Value) (target : Nat)
    (flag : Bool) (h : CodeGenerator.closeBlock target (s.emit (.ret result)) = some (flag, q)) :
    flag = true ∧ q = s.emit (.ret result) ∧
      ∃ j : Nat, q.insertBlock = some j ∧ j < q.blocks.length ∧
        q.lastInstruction j = some (.ret result) := by
  unfold CodeGenerator.closeBlock at h
  split at h
  · cases h
  · next ht =>
    cases h
    exact ⟨rfl, rfl, (terminated_emit s _ _ ht).2⟩
  · next ht =>
    have := (terminated_emit s _ _ ht).1
    cases this

end Hash

namespace Hash

/-- The steps of `visit(IfStmt&)` on an `if` with an else-body, one by one. -/
theorem visitIf_steps (line column : Int) (condition : Expression)
    (thenBody elseBody : List Statement) (s r : CodeGenerator)
    (hne : elseBody.isEmpty = false)
    (h : CodeGenerator.visitStatement (.IfStmt line column condition thenBody elseBody) s =
      some r) :
    ∃ (s1 : CodeGenerator) (condValue : Value) (current function : Nat) (block : Block)
      (s6 s7 s8 s9 : CodeGenerator) (thenTerminated elseTerminated : Bool),
      CodeGenerator.visitExpression condition s = some s1 ∧
      s1.currentValue = some condValue ∧
      s1.insertBlock = some current ∧ s1.blocks.get? current = some block ∧
      block.parent = some function ∧
      CodeGenerator.visitStatements thenBody (s1.enterThen condValue function) = some s6 ∧
      CodeGenerator.closeBlock (s1.blocks.length + 2) s6 = some (thenTerminated, s7) ∧
      CodeGenerator.visitStatements elseBody
        { s7.insertInto (s1.blocks.length + 1) function with
          insertBlock := some (s1.blocks.length + 1) } = some s8 ∧
      CodeGenerator.closeBlock (s1.blocks.length + 2) s8 = some (elseTerminated, s9) ∧
      r = (if thenTerminated && elseTerminated then
        CodeGenerator.emit .unreachable
          { s9.insertInto (s1.blocks.length + 2) function with
            insertBlock := some (s1.blocks.length + 2) }
        else { s9.insertInto (s1.blocks.length + 2) function with
               insertBlock := some (s1.blocks.length + 2) }) := by
  unfold CodeGenerator.visitStatement at h
  split at h
  · cases h
  · next s1 h1 =>
    split at h
    · next condValue block hcv hcur =>
      split at h
      · cases h
      · next function hpar =>
        split at h
        next thenBlock s2 hc2 =>
        split at h
        next elseBlock s3 hc3 =>
        split at h
        next mergeBlock s4 hc4 =>
        obtain ⟨ht, hs2, _, l2⟩ := createBlock_eq 0 _ _ _ _ _ (Nat.zero_le _) hc2
        obtain ⟨he, hs3, _, l3⟩ := createBlock_eq 0 _ _ _ _ _ (Nat.zero_le _) hc3
        obtain ⟨hm, hs4, _, l4⟩ := createBlock_eq 0 _ _ _ _ _ (Nat.zero_le _) hc4
        have he2 : elseBlock = s1.blocks.length + 1 := by omega
        have hm2 : mergeBlock = s1.blocks.length + 2 := by omega
        rw [hne] at h
        simp only [Bool.false_eq_true, if_false] at h
        subst ht he2 hm2
        split at h
        · cases h
        · next s6 h6 =>
          split at h
          · cases h
          · next thenTerminated s7 h7 =>
            split at h
            · cases h
            · next s8 h8 =>
              split at h
              · cases h
              · next elseTerminated s9 h9 =>
                cases h
                cases hi : s1.insertBlock with
                | none =>
                  rw [hi] at hcur
                  cases hcur
                | some current =>
                  rw [hi] at hcur
                  refine ⟨s1, condValue, current, function, block, s6, s7, s8, s9,
                    thenTerminated, elseTerminated, h1, hcv, hi, hcur, hpar, ?_, h7, h8, h9,
                    rfl⟩
                  rw [← h6, hs4, hs3, hs2]
                  rfl
    · cases h

end Hash

namespace Hash

theorem insertBlock_createStore (s r : CodeGenerator) (value : Option Value) (pointer : Value)
    (h : CodeGenerator.createStore value pointer s = some r) :
    r.insertBlock = s.insertBlock := by
  unfold CodeGenerator.createStore at h
  split at h
  · cases h
  · cases h
    exact (emit_fields s _).1

theorem insertBlock_defineGlobal (s r : CodeGenerator) (name : String) (type : LType)
    (initializer : Value) (h : CodeGenerator.defineGlobal name type initializer s = some r) :
    r.insertBlock = s.insertBlock := by
  unfold CodeGenerator.defineGlobal at h
  dsimp only at h
  split at h
  · cases h
  · cases h
    split <;> rfl

theorem insertBlock_alloca (s r : CodeGenerator) (function : Nat) (varName : String)
    (type : LType) (slot : Slot)
    (h : s.createEntryBlockAlloca function varName type = some (slot, r)) :
    r.insertBlock = s.insertBlock := by
  unfold CodeGenerator.createEntryBlockAlloca at h
  split at h
  · cases h
  · cases h
    rfl

theorem insertBlock_visitVariableDecl (s r : CodeGenerator) (node : VariableDecl)
    (h : CodeGenerator.visitVariableDecl node s = some r) : r.insertBlock = s.insertBlock := by
  unfold CodeGenerator.visitVariableDecl at h
  split at h
  · split at h
    · cases h
    · next alloca s1 ha =>
      have i1 := insertBlock_alloca _ _ _ _ _ _ ha
      dsimp only at h
      split at h
      · cases h
        exact i1
      · next e _ =>
        split at h
        · cases h
        · next s3 h3 =>
          rw [insertBlock_createStore _ _ _ _ h, (visitExpression_appends e _ _ h3).1]
          exact i1
  · split at h
    · next e _ =>
      split at h
      · cases h
      · next s1 h1 =>
        have i1 := (visitExpression_appends e _ _ h1).1
        split at h
        · cases h
        · split at h
          · rw [insertBlock_defineGlobal _ _ _ _ _ h, i1]
          · split at h
            · cases h
            · rw [insertBlock_defineGlobal _ _ _ _ _ h, i1]
    · split at h
      · cases h
      · exact insertBlock_defineGlobal _ _ _ _ _ h

/-- Statements other than `if` and `while` leave the insert point where it
is. -/
theorem insertBlock_straightLine :
    ∀ (l : List Statement) (s r : CodeGenerator), straightLine l = true →
      CodeGenerator.visitStatements l s = some r → r.insertBlock = s.insertBlock
  | [], s, r, _, h => by
    rw [lowerStatements_nil] at h
    cases h
    rfl
  | st :: rest, s, r, hl, h => by
    rw [lowerStatements_cons] at h
    cases h1 : CodeGenerator.visitStatement st s with
    | none =>
      rw [h1] at h
      cases h
    | some s1 =>
      rw [h1] at h
      change CodeGenerator.visitStatements rest s1 = some r at h
      cases st with
      | VariableDecl decl =>
        unfold CodeGenerator.visitStatement at h1
        rw [insertBlock_straightLine rest s1 r hl h]
        exact insertBlock_visitVariableDecl _ _ _ h1
      | Assignment _ _ name value =>
        rw [insertBlock_straightLine rest s1 r hl h]
        unfold CodeGenerator.visitStatement at h1
        split at h1
        · cases h1
          rfl
        · split at h1
          · cases h1
          · next s2 h2 =>
            rw [insertBlock_createStore _ _ _ _ h1]
            exact (visitExpression_appends value _ _ h2).1
      | ReturnStmt _ _ value =>
        rw [insertBlock_straightLine rest s1 r hl h]
        cases value with
        | none =>
          unfold CodeGenerator.visitStatement at h1
          cases h1
          exact (emit_fields s _).1
        | some e =>
          unfold CodeGenerator.visitStatement at h1
          split at h1
          · cases h1
          · next s2 h2 =>
            cases h1
            rw [(emit_fields s2 _).1]
            exact (visitExpression_appends e _ _ h2).1
      | IfStmt _ _ _ _ _ => cases hl
      | WhileStmt _ _ _ _ => cases hl
      | ExprStmt _ _ expression =>
        rw [insertBlock_straightLine rest s1 r hl h]
        unfold CodeGenerator.visitStatement at h1
        exact (visitExpression_appends expression _ _ h1).1

theorem appends_length (s r : CodeGenerator) (h : Appends s r) :
    r.blocks.length = s.blocks.length := by
  obtain ⟨_, _, _, _, added, _, hb⟩ := h
  rw [hb]
  split
  · rfl
  · rw [length_updateAt]

/-- The blocks after the visit of an expression: each block keeps its name and
its parent, and its instructions are extended by instructions without
targets. -/
theorem appends_get? (s r : CodeGenerator) (h : Appends s r) (i : Nat) (b : Block)
    (hb : r.blocks.get? i = some b) :
    ∃ (b0 : Block) (added : List Instruction),
      s.blocks.get? i = some b0 ∧ b0.label = b.label ∧ b0.parent = b.parent ∧
      b.instructions = b0.instructions ++ added ∧ ∀ inst ∈ added, inst.targets = [] := by
  obtain ⟨_, _, _, _, added, hadd, hblocks⟩ := h
  rw [hblocks] at hb
  cases hj : s.insertBlock with
  | none =>
    rw [hj] at hb
    exact ⟨b, [], hb, rfl, rfl, by simp, (fun _ h => by cases h)⟩
  | some j =>
    rw [hj] at hb
    dsimp only at hb
    by_cases hji : j = i
    · subst hji
      rw [get?_updateAt_same] at hb
      cases hg : s.blocks.get? j with
      | none =>
        rw [hg] at hb
        cases hb
      | some b0 =>
        rw [hg] at hb
        cases hb
        exact ⟨b0, added, rfl, rfl, rfl, rfl,
          fun inst hm => targets_of_nonterminator inst (hadd inst hm)⟩
    · rw [get?_updateAt_other _ _ _ _ hji] at hb
      exact ⟨b, [], hb, rfl, rfl, by simp, (fun _ h => by cases h)⟩

theorem insertInto_get? (s : CodeGenerator) (block function i : Nat) (b : Block)
    (hb : (s.insertInto block function).blocks.get? i = some b) :
    ∃ b0 : Block, s.blocks.get? i = some b0 ∧ b0.label = b.label ∧
      b0.instructions = b.instructions ∧ (i ≠ block → b0 = b) ∧
      (i = block → b.parent = some function) := by
  change (updateAt _ block s.blocks).get? i = some b at hb
  by_cases hi : block = i
  · subst hi
    rw [get?_updateAt_same] at hb
    cases hg : s.blocks.get? block with
    | none =>
      rw [hg] at hb
      cases hb
    | some b0 =>
      rw [hg] at hb
      cases hb
      exact ⟨b0, rfl, rfl, rfl, fun h => absurd rfl h, fun _ => rfl⟩
  · rw [get?_updateAt_other _ _ _ _ hi] at hb
    exact ⟨b, hb, rfl, rfl, fun _ => rfl, fun h => absurd h.symm hi⟩

theorem insertInto_other (s : CodeGenerator) (block function i : Nat) (hi : i ≠ block) :
    (s.insertInto block function).blocks.get? i = s.blocks.get? i := by
  change (updateAt _ block s.blocks).get? i = _
  exact get?_updateAt_other _ _ _ _ (fun h => hi h.symm)

theorem insertInto_same (s : CodeGenerator) (block function : Nat) :
    (s.insertInto block function).blocks.get? block =
      (s.blocks.get? block).map (s.place function) := by
  change (updateAt _ block s.blocks).get? block = _
  exact get?_updateAt_same _ _ _

/-- An old block that is neither the insert block nor the entry block stays
as it is. -/
theorem Ext.keeps {n : Nat} {s r : CodeGenerator} (h : Ext n s r) (i e : Nat) (b : Block)
    (hi : i < n) (hb : s.blocks.get? i = some b) (hins : s.insertBlock ≠ some i)
    (hentry : s.entry = some e) (he : e ≠ i) : r.blocks.get? i = some b := by
  obtain ⟨front, back, hr, _, _, hback, hfront⟩ := h.old i b hi hb
  have h1 : back = [] := by
    rcases hback with h | h
    · exact h
    · exact absurd h hins
  have h2 : front = [] := by
    rcases hfront with h | h | h
    · exact h
    · rw [hentry] at h
      cases h
      exact absurd rfl he
    · rw [hentry] at h
      cases h
  rw [hr, h1, h2]
  simp

/-- An old block that is not the insert block gets instructions without
targets in front only. -/
theorem Ext.keepsEnd {n : Nat} {s r : CodeGenerator} (h : Ext n s r) (i : Nat) (b : Block)
    (hi : i < n) (hb : s.blocks.get? i = some b) (hins : s.insertBlock ≠ some i) :
    ∃ front : List Instruction,
      r.blocks.get? i = some { b with instructions := front ++ b.instructions } ∧
      ∀ inst ∈ front, inst.targets = [] := by
  obtain ⟨front, back, hr, hf, _, hback, _⟩ := h.old i b hi hb
  have h1 : back = [] := by
    rcases hback with h | h
    · exact h
    · exact absurd h hins
  refine ⟨front, ?_, hf⟩
  rw [hr, h1]
  simp

/-- An old block that is not the entry block gets instructions behind only. -/
theorem Ext.keepsFront {n : Nat} {s r : CodeGenerator} (h : Ext n s r) (i e : Nat) (b : Block)
    (hi : i < n) (hb : s.blocks.get? i = some b) (hentry : s.entry = some e) (he : e ≠ i) :
    ∃ back : List Instruction,
      r.blocks.get? i = some { b with instructions := b.instructions ++ back } ∧
      targetsFrom n back := by
  obtain ⟨front, back, hr, _, hb2, _, hfront⟩ := h.old i b hi hb
  have h2 : front = [] := by
    rcases hfront with h | h | h
    · exact h
    · rw [hentry] at h
      cases h
      exact absurd rfl he
    · rw [hentry] at h
      cases h
  refine ⟨back, ?_, hb2⟩
  rw [hr, h2]
  simp

/-- No branch to a block `m` below `n` comes in when the blocks are extended
from `n` on. -/
theorem noTarget_ext {n m : Nat} {s r : CodeGenerator} (h : Ext n s r) (hm : m < n)
    (hlen : n ≤ s.blocks.length) (hs : NoTarget m s)
    (hown : ∀ (i : Nat) (b : Block), n ≤ i → s.blocks.get? i = some b →
      targetsFrom n b.instructions) : NoTarget m r := by
  intro i b hb inst hinst ht
  by_cases hi : i < n
  · cases hg : s.blocks.get? i with
    | none =>
      rw [List.get?_eq_none] at hg
      omega
    | some b0 =>
      obtain ⟨front, back, hr, hf, hback, _, _⟩ := h.old i b0 hi hg
      rw [hr] at hb
      cases hb
      dsimp only at hinst
      rcases List.mem_append.mp hinst with hx | hx
      · rcases List.mem_append.mp hx with hx | hx
        · rw [hf inst hx] at ht
          cases ht
        · exact hs i b0 hg inst hx ht
      · have := hback inst hx m ht
        omega
  · have := h.own hown i b (by omega) hb inst hinst m ht
    omega

theorem noTarget_appends {m : Nat} {s r : CodeGenerator} (h : Appends s r)
    (hs : NoTarget m s) : NoTarget m r := by
  intro i b hb inst hinst ht
  obtain ⟨b0, added, hg, _, _, hinstr, hadd⟩ := appends_get? s r h i b hb
  rw [hinstr] at hinst
  rcases List.mem_append.mp hinst with hx | hx
  · exact hs i b0 hg inst hx ht
  · rw [hadd inst hx] at ht
    cases ht

theorem getLast?_append_some {α : Type} (front l : List α) (x : α)
    (h : l.getLast? = some x) : (front ++ l).getLast? = some x := by
  rw [List.getLast?_append, h]
  rfl

end Hash

namespace Hash

theorem lastInstruction_get? (s : CodeGenerator) (j : Nat) (inst : Instruction)
    (h : s.lastInstruction j = some inst) :
    ∃ b : Block, s.blocks.get? j = some b ∧ b.instructions.getLast? = some inst := by
  unfold CodeGenerator.lastInstruction at h
  cases hg : s.blocks.get? j with
  | none =>
    rw [hg] at h
    cases h
  | some b =>
    rw [hg] at h
    exact ⟨b, rfl, h⟩

theorem lastInstruction_of_get? (s : CodeGenerator) (j : Nat) (b : Block) (inst : Instruction)
    (hb : s.blocks.get? j = some b) (h : b.instructions.getLast? = some inst) :
    s.lastInstruction j = some inst := by
  unfold CodeGenerator.lastInstruction
  rw [hb]
  exact h

/-- The generator at the end of `visit(IfStmt&)` when both arms are
terminated: every block but `merge` is as the else-body left it, and `merge` is
in the function with `unreachable` at its end. -/
theorem closeIf_blocks (s : CodeGenerator) (mergeBlock function : Nat) :
    (∀ i : Nat, i ≠ mergeBlock →
      (CodeGenerator.emit .unreachable
        { s.insertInto mergeBlock function with
          insertBlock := some mergeBlock }).blocks.get? i = s.blocks.get? i) ∧
    (CodeGenerator.emit .unreachable
        { s.insertInto mergeBlock function with
          insertBlock := some mergeBlock }).blocks.get? mergeBlock =
      (s.blocks.get? mergeBlock).map (fun b =>
        Block.mk b.label (s.place function b).renamed (some function)
          (b.instructions ++ [.unreachable])) ∧
    (CodeGenerator.emit .unreachable
        { s.insertInto mergeBlock function with
          insertBlock := some mergeBlock }).insertBlock = some mergeBlock := by
  have hb := emit_blocks { s.insertInto mergeBlock function with
    insertBlock := some mergeBlock } .unreachable
  dsimp only at hb
  refine ⟨?_, ?_, ?_⟩
  · intro i hi
    rw [hb, get?_updateAt_other _ _ _ _ (fun h => hi h.symm)]
    exact insertInto_other s mergeBlock function i hi
  · rw [hb, get?_updateAt_same]
    have := insertInto_same s mergeBlock function
    change (s.insertInto mergeBlock function).blocks.get? mergeBlock = _ at this
    rw [show ({ s.insertInto mergeBlock function with
      insertBlock := some mergeBlock } : CodeGenerator).blocks =
        (s.insertInto mergeBlock function).blocks from rfl, this]
    cases s.blocks.get? mergeBlock <;> rfl
  · exact (emit_fields _ _).1

end Hash

namespace Hash

/-- C32: the visit of an `if` statement whose then-body and else-body both
end in a return, from a generator in the body of a function with `t` blocks.
The blocks `t`, `t + 1` and `t + 2` are new: they are created with the names
`then`, `else` and `merge` and belong to the function of the insert block.
LLVM keeps the name of a block that enters a function unless a value of the
function has the name already, in which case it appends a number; the block
`then` keeps its name exactly when no parameter, block or instruction of the
function was created with the name `then` before, and for `else` and `merge`
the same test is made when they enter the function: for `else` in the generator
after the then-body, for `merge` in the generator after the else-body.  The
insert block of before ends with the conditional
branch on the value of the condition to the blocks `t` and `t + 1`.  The block
in which the then-body ends, which is the block `t` itself when the body before
the return holds no `if` and no `while`, ends with the `ret` of the return, and
so does the block in which the else-body ends.  No instruction of any block
branches to the block `t + 2`, whose only instruction is `unreachable` and
which is the insert block afterwards. -/
theorem C32_if_with_returning_arms (s r : CodeGenerator) (line column line1 column1 line2
      column2 : Int) (condition : Expression) (thenBefore elseBefore : List Statement)
    (thenValue elseValue : Option Expression) (hbody : s.inBody)
    (h : CodeGenerator.visitStatement (.IfStmt line column condition
      (thenBefore ++ [.ReturnStmt line1 column1 thenValue])
      (elseBefore ++ [.ReturnStmt line2 column2 elseValue])) s = some r) :
    ∃ (s1 : CodeGenerator) (condValue : Value) (current function thenEnd elseEnd : Nat)
      (block : Block) (thenCode elseCode : List Instruction) (afterThen afterElse : CodeGenerator)
      (thenResult elseResult : Option Value),
      CodeGenerator.visitExpression condition s = some s1 ∧
      s1.currentValue = some condValue ∧
      s.insertBlock = some current ∧ s.blocks.get? current = some block ∧
      block.parent = some function ∧
      CodeGenerator.visitStatements (thenBefore ++ [.ReturnStmt line1 column1 thenValue])
        (s1.enterThen condValue function) = some afterThen ∧
      CodeGenerator.visitStatements (elseBefore ++ [.ReturnStmt line2 column2 elseValue])
        { afterThen.insertInto (s.blocks.length + 1) function with
          insertBlock := some (s.blocks.length + 1) } = some afterElse ∧
      r.blocks.get? s.blocks.length =
        some (Block.mk "then" (decide ("then" ∈ s1.namesAsked function)) (some function)
          thenCode) ∧
      r.blocks.get? (s.blocks.length + 1) =
        some (Block.mk "else" (decide ("else" ∈ afterThen.namesAsked function)) (some function)
          elseCode) ∧
      r.blocks.get? (s.blocks.length + 2) =
        some (Block.mk "merge" (decide ("merge" ∈ afterElse.namesAsked function)) (some function)
          [.unreachable]) ∧
      r.lastInstruction current =
        some (.condBr condValue s.blocks.length (s.blocks.length + 1)) ∧
      r.lastInstruction thenEnd = some (.ret thenResult) ∧
      (thenEnd = s.blocks.length ∨ s.blocks.length + 3 ≤ thenEnd) ∧
      (straightLine thenBefore = true → thenEnd = s.blocks.length) ∧
      r.lastInstruction elseEnd = some (.ret elseResult) ∧
      (elseEnd = s.blocks.length + 1 ∨ s.blocks.length + 3 ≤ elseEnd) ∧
      (straightLine elseBefore = true → elseEnd = s.blocks.length + 1) ∧
      NoTarget (s.blocks.length + 2) r ∧
      r.insertBlock = some (s.blocks.length + 2) := by
  have hne : (elseBefore ++ [Statement.ReturnStmt line2 column2 elseValue]).isEmpty = false := by
    cases elseBefore <;> rfl
  obtain ⟨s1, condValue, current, function, block1, s6, s7, s8, s9, thenTerminated,
    elseTerminated, h1, hcv, hib, hblock1, hpar, h6, h7, h8, h9, hr⟩ :=
    visitIf_steps line column condition _ _ s r hne h
  -- the visit of the condition
  have a1 := visitExpression_appends condition s s1 h1
  have t1 := appends_length s s1 a1
  have hcur : current < s1.blocks.length := get?_lt hblock1
  obtain ⟨block, added, hblock, _, hpar0, hinstr1, hadded⟩ :=
    appends_get? s s1 a1 current block1 hblock1
  obtain ⟨⟨e, hentry, he⟩, htargets⟩ := hbody
  have hentry1 : s1.entry = some e := (ext_of_appends 0 s s1 a1).entry e hentry
  have n1 : NoTarget (s1.blocks.length + 2) s1 := by
    refine noTarget_appends a1 (fun i b hb inst hinst ht => ?_)
    have := htargets i b hb inst hinst _ ht
    omega
  -- the generator at the start of the then-body
  have g0 := enterThen_length s1 condValue function current hib
  obtain ⟨g1, g2, g3⟩ := enterThen_new s1 condValue function current hib hcur
  have g4 := enterThen_old s1 condValue function current hib
  have g6 := enterThen_insertBlock s1 condValue function
  have hentry5 := enterThen_entry s1 condValue function e hentry1
  have n5 : NoTarget (s1.blocks.length + 2) (s1.enterThen condValue function) := by
    intro i b hb inst hinst ht
    by_cases hi : i < s1.blocks.length
    · rw [g4 i hi] at hb
      split at hb
      · next hc =>
        subst hc
        rw [hblock1] at hb
        cases hb
        rcases List.mem_append.mp hinst with hx | hx
        · exact n1 i block1 hblock1 inst hx ht
        · rw [List.mem_singleton.mp hx] at ht
          simp only [Instruction.targets, List.mem_cons, List.mem_singleton,
            List.not_mem_nil, or_false] at ht
          omega
      · exact n1 i b hb inst hinst ht
    · have hlt := get?_lt hb
      have hcases : i = s1.blocks.length ∨ i = s1.blocks.length + 1 ∨
        i = s1.blocks.length + 2 := by omega
      rcases hcases with hc | hc | hc
      · rw [hc, g1] at hb
        cases hb
        cases hinst
      · rw [hc, g2] at hb
        cases hb
        cases hinst
      · rw [hc, g3] at hb
        cases hb
        cases hinst
  have o5 : ∀ (i : Nat) (b : Block), s1.blocks.length + 3 ≤ i →
      (s1.enterThen condValue function).blocks.get? i = some b →
      targetsFrom (s1.blocks.length + 3) b.instructions := by
    intro i b hi hb
    have := get?_lt hb
    omega
  -- the then-body
  have e1 : Ext (s1.blocks.length + 3) (s1.enterThen condValue function) s6 :=
    visitStatements_ext _ _ _ _ (by rw [g0]) h6
  obtain ⟨q1, q2, thenResult, hq1, hq12, hs6⟩ := visitStatements_return _ _ _ _ _ _ h6
  rw [hs6] at h7
  obtain ⟨hthen, hs7, thenEnd, hk1, hk1lt, hlast1⟩ := closeBlock_return _ _ _ _ _ h7
  rw [← hs6] at hs7
  subst hs7
  have len6 : s1.blocks.length + 3 ≤ s7.blocks.length := by
    have := e1.length
    omega
  have hends1 : thenEnd = s1.blocks.length ∨ s1.blocks.length + 3 ≤ thenEnd := by
    rcases e1.insert with hi | ⟨j, hj, hi⟩
    · rw [hk1, g6] at hi
      cases hi
      exact Or.inl rfl
    · rw [hk1] at hi
      cases hi
      exact Or.inr hj
  have n6 := noTarget_ext e1 (by omega) (by rw [g0]) n5 o5
  have o6 := e1.own o5
  have hentry6 := e1.entry e hentry5
  -- the generator at the start of the else-body
  have e67 : Ext 0 s7 { s7.insertInto (s1.blocks.length + 1) function with
      insertBlock := some (s1.blocks.length + 1) } :=
    ext_trans (ext_insertInto 0 s7 _ function (Nat.zero_le _))
      (ext_setInsert 0 _ _ (Nat.zero_le _))
  have hentry7 := e67.entry e hentry6
  have len7 : ({ s7.insertInto (s1.blocks.length + 1) function with
      insertBlock := some (s1.blocks.length + 1) } : CodeGenerator).blocks.length =
      s7.blocks.length := by
    show (updateAt _ _ s7.blocks).length = _
    rw [length_updateAt]
  have n7 : NoTarget (s1.blocks.length + 2) { s7.insertInto (s1.blocks.length + 1) function with
      insertBlock := some (s1.blocks.length + 1) } := by
    intro i b hb inst hinst ht
    obtain ⟨b0, hb0, _, hi0, _, _⟩ := insertInto_get? s7 _ function i b hb
    rw [← hi0] at hinst
    exact n6 i b0 hb0 inst hinst ht
  have o7 : ∀ (i : Nat) (b : Block), s1.blocks.length + 3 ≤ i →
      ({ s7.insertInto (s1.blocks.length + 1) function with
        insertBlock := some (s1.blocks.length + 1) } : CodeGenerator).blocks.get? i = some b →
      targetsFrom (s1.blocks.length + 3) b.instructions := by
    intro i b hi hb
    obtain ⟨b0, hb0, _, hi0, _, _⟩ := insertInto_get? s7 _ function i b hb
    rw [← hi0]
    exact o6 i b0 hi hb0
  -- the else-body
  have e2 := visitStatements_ext _ _ _ (s1.blocks.length + 3) (by rw [len7]; exact len6) h8
  have e2m := visitStatements_ext _ _ _ s7.blocks.length (by rw [len7]) h8
  obtain ⟨p1, p2, elseResult, hp1, hp12, hs8⟩ := visitStatements_return _ _ _ _ _ _ h8
  rw [hs8] at h9
  obtain ⟨helse, hs9, elseEnd, hk2, hk2lt, hlast2⟩ := closeBlock_return _ _ _ _ _ h9
  rw [← hs8] at hs9
  subst hs9
  have hends2 : elseEnd = s1.blocks.length + 1 ∨ s1.blocks.length + 3 ≤ elseEnd := by
    rcases e2.insert with hi | ⟨j, hj, hi⟩
    · rw [hk2] at hi
      cases hi
      exact Or.inl rfl
    · rw [hk2] at hi
      cases hi
      exact Or.inr hj
  have n8 := noTarget_ext e2 (by omega) (by rw [len7]; exact len6) n7 o7
  -- the end of the visit
  rw [hthen, helse] at hr
  simp only [Bool.and_self, if_true] at hr
  obtain ⟨r1, r2, r3⟩ := closeIf_blocks s9 (s1.blocks.length + 2) function
  rw [← hr] at r1 r2 r3
  -- the block `then`
  obtain ⟨thenCode, hthen6, _⟩ := e1.keepsFront s1.blocks.length e _ (by omega) g1 hentry5
    (by omega)
  have hthen7 : ({ s7.insertInto (s1.blocks.length + 1) function with
      insertBlock := some (s1.blocks.length + 1) } : CodeGenerator).blocks.get?
      s1.blocks.length = _ :=
    (insertInto_other s7 (s1.blocks.length + 1) function s1.blocks.length (by omega)).trans
      hthen6
  have hthen8 := e2.keeps s1.blocks.length e _ (by omega) hthen7
    (fun hc => by
      have : s1.blocks.length + 1 = s1.blocks.length := Option.some.inj hc
      omega) hentry7 (by omega)
  -- the block `else`
  have helse6 := e1.keeps (s1.blocks.length + 1) e _ (by omega) g2
    (fun hc => by
      rw [g6] at hc
      have : s1.blocks.length = s1.blocks.length + 1 := Option.some.inj hc
      omega) hentry5 (by omega)
  have helse7 : ({ s7.insertInto (s1.blocks.length + 1) function with
      insertBlock := some (s1.blocks.length + 1) } : CodeGenerator).blocks.get?
      (s1.blocks.length + 1) =
      some (Block.mk "else" (s7.place function (Block.mk "else" false none [])).renamed
        (some function) []) := by
    have := insertInto_same s7 (s1.blocks.length + 1) function
    rw [helse6] at this
    exact this
  obtain ⟨elseCode, helse8, _⟩ := e2.keepsFront (s1.blocks.length + 1) e _ (by omega) helse7
    hentry7 (by omega)
  -- the block `merge`
  have hmerge6 := e1.keeps (s1.blocks.length + 2) e _ (by omega) g3
    (fun hc => by
      rw [g6] at hc
      have : s1.blocks.length = s1.blocks.length + 2 := Option.some.inj hc
      omega) hentry5 (by omega)
  have hmerge7 : ({ s7.insertInto (s1.blocks.length + 1) function with
      insertBlock := some (s1.blocks.length + 1) } : CodeGenerator).blocks.get?
      (s1.blocks.length + 2) = _ :=
    (insertInto_other s7 (s1.blocks.length + 1) function (s1.blocks.length + 2)
      (by omega)).trans hmerge6
  have hmerge8 := e2.keeps (s1.blocks.length + 2) e _ (by omega) hmerge7
    (fun hc => by
      have : s1.blocks.length + 1 = s1.blocks.length + 2 := Option.some.inj hc
      omega) hentry7 (by omega)
  -- the insert block of before
  have hcur5 := g4 current hcur
  rw [if_pos rfl, hblock1] at hcur5
  obtain ⟨front1, hcur6, _⟩ := e1.keepsEnd current _ (by omega) hcur5
    (fun hc => by
      rw [g6] at hc
      have : s1.blocks.length = current := Option.some.inj hc
      omega)
  have hcur7 : ({ s7.insertInto (s1.blocks.length + 1) function with
      insertBlock := some (s1.blocks.length + 1) } : CodeGenerator).blocks.get? current = _ :=
    (insertInto_other s7 (s1.blocks.length + 1) function current (by omega)).trans hcur6
  obtain ⟨front2, hcur8, _⟩ := e2.keepsEnd current _ (by omega) hcur7
    (fun hc => by
      have : s1.blocks.length + 1 = current := Option.some.inj hc
      omega)
  -- the block in which the then-body ends
  obtain ⟨b6, hb6, hb6last⟩ := lastInstruction_get? s7 thenEnd _ hlast1
  have hb7 : ∃ b7 : Block, ({ s7.insertInto (s1.blocks.length + 1) function with
      insertBlock := some (s1.blocks.length + 1) } : CodeGenerator).blocks.get? thenEnd =
      some b7 ∧ b7.instructions = b6.instructions := by
    refine ⟨b6, ?_, rfl⟩
    exact (insertInto_other s7 (s1.blocks.length + 1) function thenEnd (by omega)).trans hb6
  obtain ⟨b7, hb7, hb7i⟩ := hb7
  obtain ⟨front3, hb8, _⟩ := e2m.keepsEnd thenEnd b7 hk1lt hb7
    (fun hc => by
      have : s1.blocks.length + 1 = thenEnd := Option.some.inj hc
      omega)
  refine ⟨s1, condValue, current, function, thenEnd, elseEnd, block, thenCode, elseCode,
    s7, s9, thenResult, elseResult, h1, hcv, a1.1 ▸ hib, hblock, hpar0.trans hpar, h6, ?_,
    ?_, ?_, ?_, ?_, ?_, ?_, ?_, ?_, ?_, ?_, ?_, ?_⟩
  · rw [← t1]
    exact h8
  · rw [← t1, r1 _ (by omega), hthen8]
    rfl
  · rw [← t1, r1 _ (by omega), helse8]
    simp [CodeGenerator.place]
  · rw [← t1, r2, hmerge8]
    simp [CodeGenerator.place]
  · rw [← t1]
    refine lastInstruction_of_get? r current _ _ ((r1 current (by omega)).trans hcur8) ?_
    simp
  · refine lastInstruction_of_get? r thenEnd _ _ ((r1 thenEnd (by omega)).trans hb8) ?_
    dsimp only
    rw [hb7i]
    exact getLast?_append_some _ _ _ hb6last
  · rw [← t1]
    exact hends1
  · intro hstraight
    rw [← t1]
    have i1 := insertBlock_straightLine thenBefore _ q1 hstraight hq1
    have i2 : s7.insertBlock = q2.insertBlock := by
      rw [hs6]
      exact (emit_fields q2 _).1
    rw [i2, hq12.1, i1, g6] at hk1
    exact (Option.some.inj hk1).symm
  · obtain ⟨b8, hb8, hb8last⟩ := lastInstruction_get? s9 elseEnd _ hlast2
    exact lastInstruction_of_get? r elseEnd _ _ ((r1 elseEnd (by omega)).trans hb8) hb8last
  · rw [← t1]
    exact hends2
  · intro hstraight
    rw [← t1]
    have i1 := insertBlock_straightLine elseBefore _ p1 hstraight hp1
    have i2 : s9.insertBlock = p2.insertBlock := by
      rw [hs8]
      exact (emit_fields p2 _).1
    rw [i2, hp12.1, i1] at hk2
    exact (Option.some.inj hk2).symm
  · rw [← t1]
    intro i b hb inst hinst ht
    by_cases hi : i = s1.blocks.length + 2
    · rw [hi, r2, hmerge8] at hb
      cases hb
      simp only [List.nil_append, List.mem_singleton] at hinst
      rw [hinst] at ht
      cases ht
    · rw [r1 i hi] at hb
      exact n8 i b hb inst hinst ht
  · rw [← t1]
    exact r3

end Hash

namespace Hash

theorem inBody_of_blocks (s : CodeGenerator) (e : Nat) (hentry : s.entry = some e)
    (he : e < s.blocks.length)
    (h : ∀ b ∈ s.blocks, ∀ inst ∈ b.instructions, ∀ t ∈ inst.targets, t < s.blocks.length) :
    s.inBody :=
  ⟨⟨e, hentry, he⟩, fun _ b hb => h b (List.get?_mem hb)⟩

/-- C32, witness: the `if` statement of `fn max(a: i32, b: i32) -> i32` with
the body `if a > b:`, `return a`, `else:`, `return b`, in the generator in
front of the body of that function.  The visit creates the blocks 1, 2 and 3,
named `then`, `else` and `merge`, and none of them is renamed: no value of the
function has these names.  The block `entry` ends with the conditional branch
on the comparison to `then` and `else`, the two arms end with the `ret` of
their returns, and `merge` holds `unreachable` only.  The visit of the parsed
program ends in the same generator.  The analyzer reports the function name
`max`, which is the name of a built-in function, as already declared, so the
front end gives no program to the generator for this source; for the same
function under the name `larger` the front end and the generator give the same
four blocks.  The last source has an `if` of this kind inside the then-body of
another: the blocks of the inner `if` enter the function first and take the
names `else` and `merge`, so the blocks `else` and `merge` of the outer `if`
are renamed, and so is the block `then` of the inner `if`. -/
theorem C32_if_with_returning_arms_witness :
    inMax.inBody ∧
    CodeGenerator.visitStatement maxIf inMax = some maxLowered ∧
    (∃ (s1 : CodeGenerator) (condValue : Value) (current function thenEnd elseEnd : Nat)
      (block : Block) (thenCode elseCode : List Instruction) (afterThen afterElse : CodeGenerator)
      (thenResult elseResult : Option Value),
      CodeGenerator.visitExpression
        (.BinaryOp ExprInfo.fresh .GT (.Identifier ExprInfo.fresh "a")
          (.Identifier ExprInfo.fresh "b")) inMax = some s1 ∧
      s1.currentValue = some condValue ∧
      inMax.insertBlock = some current ∧ inMax.blocks.get? current = some block ∧
      block.parent = some function ∧
      CodeGenerator.visitStatements
        ([] ++ [.ReturnStmt 3 9 (some (.Identifier ExprInfo.fresh "a"))])
        (s1.enterThen condValue function) = some afterThen ∧
      CodeGenerator.visitStatements
        ([] ++ [.ReturnStmt 5 9 (some (.Identifier ExprInfo.fresh "b"))])
        { afterThen.insertInto (inMax.blocks.length + 1) function with
          insertBlock := some (inMax.blocks.length + 1) } = some afterElse ∧
      maxLowered.blocks.get? 1 =
        some (Block.mk "then" (decide ("then" ∈ s1.namesAsked function)) (some function)
          thenCode) ∧
      maxLowered.blocks.get? 2 =
        some (Block.mk "else" (decide ("else" ∈ afterThen.namesAsked function)) (some function)
          elseCode) ∧
      maxLowered.blocks.get? 3 =
        some (Block.mk "merge" (decide ("merge" ∈ afterElse.namesAsked function)) (some function)
          [.unreachable]) ∧
      maxLowered.lastInstruction current = some (.condBr condValue 1 2) ∧
      maxLowered.lastInstruction thenEnd = some (.ret thenResult) ∧
      (thenEnd = 1 ∨ 4 ≤ thenEnd) ∧
      (straightLine [] = true → thenEnd = 1) ∧
      maxLowered.lastInstruction elseEnd = some (.ret elseResult) ∧
      (elseEnd = 2 ∨ 4 ≤ elseEnd) ∧
      (straightLine [] = true → elseEnd = 2) ∧
      NoTarget 3 maxLowered ∧
      maxLowered.insertBlock = some 3) ∧
    maxLowered.listing 0 =
      [("entry",
        [.alloca 1 .i32 "b", .alloca 0 .i32 "a",
         .store (.argument 0 0 .i32) (.register 0 .ptr),
         .store (.argument 0 1 .i32) (.register 1 .ptr),
         .load 2 .i32 (.register 0 .ptr) "a",
         .load 3 .i32 (.register 1 .ptr) "b",
         .binary 4 .ICmpSGT (.register 2 .i32) (.register 3 .i32) "gttmp",
         .condBr (.register 4 .i1) 1 2]),
       ("then", [.load 5 .i32 (.register 0 .ptr) "a", .ret (some (.register 5 .i32))]),
       ("else", [.load 6 .i32 (.register 1 .ptr) "b", .ret (some (.register 6 .i32))]),
       ("merge", [.unreachable])] ∧
    maxLowered.blocks.map (fun b => (b.label, b.renamed)) =
      [("entry", false), ("then", false), ("else", false), ("merge", false)] ∧
    (∀ junkIsNewline : Bool,
      (parseText 100 junkIsNewline
          ("fn max(a: i32, b: i32) -> i32:\n    if a > b:\n        return a\n" ++
           "    else:\n        return b\n")).bind
        (fun parsed => CodeGenerator.visitUserProgram parsed.1 CodeGenerator.new) =
      some { maxLowered with currentFunction := none }) ∧
    (∀ junkIsNewline : Bool,
      compile 100 junkIsNewline
          ("fn max(a: i32, b: i32) -> i32:\n    if a > b:\n        return a\n" ++
           "    else:\n        return b\n") =
        some { parseErrors := [], success := false,
               errors := ["Error at line 1, column 4: Function 'max' already declared"],
               structuredErrors := [ErrorInfo.mk3 "Function 'max' already declared" 1 4],
               warnings := [], structuredWarnings := [] }) ∧
    (∀ junkIsNewline : Bool,
      Option.map (fun s => s.listing 0)
        (generateText 100 junkIsNewline
          ("fn larger(a: i32, b: i32) -> i32:\n    if a > b:\n        return a\n" ++
           "    else:\n        return b\n")) = some (maxLowered.listing 0)) ∧
    (∀ junkIsNewline : Bool,
      Option.map (fun s => s.blocks.map (fun b => (b.label, b.renamed)))
        (generateText 100 junkIsNewline
          ("fn pick(a: i32, b: i32) -> i32:\n    if a > b:\n        if a > 0:\n" ++
           "            return a\n        else:\n            return 0\n    else:\n" ++
           "        return b\n")) =
      some [("entry", false), ("then", false), ("else", true), ("merge", true),
            ("then", true), ("else", false), ("merge", false)]) :=
  ⟨inBody_of_blocks inMax 0 (by decide!) (by decide!) (by decide!),
    by decide!,
    C32_if_with_returning_arms inMax maxLowered 0 0 3 9 5 9
      (.BinaryOp ExprInfo.fresh .GT (.Identifier ExprInfo.fresh "a")
        (.Identifier ExprInfo.fresh "b")) [] []
      (some (.Identifier ExprInfo.fresh "a")) (some (.Identifier ExprInfo.fresh "b"))
      (inBody_of_blocks inMax 0 (by decide!) (by decide!) (by decide!)) (by decide!),
    by decide!,
    by decide!,
    fun junkIsNewline => by cases junkIsNewline <;> decide!,
    fun junkIsNewline => by cases junkIsNewline <;> decide!,
    fun junkIsNewline => by cases junkIsNewline <;> decide!,
    fun junkIsNewline => by cases junkIsNewline <;> decide!⟩

end Hash
